import Mathlib

/-!
Hashcash: token codec, verifier and collision search (`libhc.c`), backend
selection and fast minting (`libfastmint.c`).

A shallow embedding of `src/c/libhc.c` and of the parts of
`src/c/libfastmint.c` that select a backend, benchmark the backends and lay
out, run and reverify a fast mint.

Conventions of the embedding
* A C string is the list of its characters up to, and without, the terminating
  NUL; a `char*` into a string is the suffix that starts there.  A `NULL`
  pointer result is `none`.
* `int`, `long` and `time_t` values are integers (`Int`), `word32` and
  `unsigned int` values are naturals; where the C code masks, wraps or converts
  a value to a narrower type (the `int` that `hashcash_check` returns, the
  `unsigned int` lengths of `hashcash_fastmint`, the `word32` count of
  `find_collision`) the reduction `% 2^32` is written out.
* Constants, macros and functions that live in headers or libraries outside
  `libhc.c` (`hashcash.h`, `sha1.h`, `utct.h`, `random.h`) are parameters.
-/

namespace Hashcash

/-! ## libc string primitives -/

/-- Index of the first occurrence of `c` in `s` (`strchr`), `none` for `NULL`. -/
def strchr : List Char → Char → Option Nat
  | [], _ => none
  | a :: s, c => if a = c then some 0 else (strchr s c).map (· + 1)

/-- Index of the last occurrence of `c` in `s` (`strrchr`), `none` for `NULL`. -/
def strrchr : List Char → Char → Option Nat
  | [], _ => none
  | a :: s, c =>
    match strrchr s c with
    | some i => some (i + 1)
    | none => if a = c then some 0 else none

/-- Result of `strncmp (s1, s2, n)`: `0` when the first `n` characters agree,
otherwise `-1` or `1` as the first differing character of `s1` is smaller or
larger (the C standard fixes only the sign; the end of a string reads as NUL). -/
def strncmp : List Char → List Char → Nat → Int
  | _, _, 0 => 0
  | [], [], _ + 1 => 0
  | [], _ :: _, _ + 1 => -1
  | _ :: _, [], _ + 1 => 1
  | a :: s1, b :: s2, n + 1 =>
    if a = b then strncmp s1 s2 n else if a.toNat < b.toNat then -1 else 1

/-- Result of `strcmp (s1, s2)`, with the same convention as `strncmp`. -/
def strcmp : List Char → List Char → Int
  | [], [] => 0
  | [], _ :: _ => -1
  | _ :: _, [] => 1
  | a :: s1, b :: s2 =>
    if a = b then strcmp s1 s2 else if a.toNat < b.toNat then -1 else 1

/-- Index of the first occurrence of `s2` in `s1` (`strstr`); an empty `s2`
is found at index 0. -/
def strstr : List Char → List Char → Option Nat
  | [], s2 => if s2 = [] then some 0 else none
  | a :: s1, s2 =>
    if s2.isPrefixOf (a :: s1) then some 0 else (strstr s1 s2).map (· + 1)

/-- Length of the longest prefix of `s` made of characters of `accept`
(`strspn`). -/
def strspn (s accept : List Char) : Nat :=
  (s.takeWhile (fun c => accept.contains c)).length

/-- The macro `sstrncpy (d, s, l)`: `d` receives the first `l` characters of
`s` and is NUL-terminated. -/
def sstrncpy (s : List Char) (l : Nat) : List Char := s.take l

/-- One call of `strtok` with the single delimiter `delim`: leading delimiters
are skipped; `none` when nothing is left, otherwise the token and the text
after the delimiter that ended it (where the next call resumes). -/
def strtok (s : List Char) (delim : Char) : Option (List Char × List Char) :=
  let s1 := s.dropWhile (· = delim)
  if s1 = [] then none
  else some (s1.takeWhile (· ≠ delim), (s1.dropWhile (· ≠ delim)).drop 1)

/-! ## strrstr, wild_match, email_match -/

/-- The inner `for` of `strrstr`: walks `psc1` and `sc2` together, `false` at
the first difference (the end of `psc1` reads as NUL), `true` when `sc2` is
used up.  `sc2` is not empty when the loop is entered. -/
def strrstr_cmp : List Char → List Char → Bool
  | _, [] => true
  | [], _ :: _ => false
  | a :: psc1, b :: sc2 => if a ≠ b then false else strrstr_cmp psc1 sc2

/-- The `while ( ps1 != s1 )` loop of `strrstr`; `ps1` is the offset of the
pointer `ps1` from `s1`. -/
def strrstr_loop (s1 s2 : List Char) : Nat → Option Nat
  | 0 => none
  | ps1 + 1 => if strrstr_cmp (s1.drop ps1) s2 then some ps1 else strrstr_loop s1 s2 ps1

/-- Index of the last occurrence of `s2` in `s1` (`strrstr`). -/
def strrstr (s1 s2 : List Char) : Option Nat :=
  if s2 = [] then some 0 else strrstr_loop s1 s2 s1.length

/-- The `do ... while ( term && !last )` loop of `wild_match`.  `ptr` and `pos`
are the remaining pattern and the remaining string, `first` the flag of the
same name; `fuel` bounds the number of iterations (one per `*`, plus one). -/
def wild_match_loop : Nat → List Char → List Char → Bool → Int
  | 0, _, _, _ => 0
  | fuel + 1, ptr, pos, first =>
    let star := strchr ptr '*'
    let term := match star with
      | some i => ptr.take i
      | none => ptr
    let last := star.isNone
    let next := fun (pos : List Char) =>
      match star with
      | some i => wild_match_loop fuel (ptr.drop (i + 1)) pos false
      | none => 1
    if term ≠ [] then
      if first then
        if strncmp pos term term.length ≠ 0 then 0
        else
          let pos := pos.drop term.length
          if last && pos ≠ [] then 0 else next pos
      else
        match (if last then strrstr pos term else strstr pos term) with
        | none => 0
        | some k =>
          let pos := pos.drop (k + term.length)
          if last && pos ≠ [] then 0 else next pos
    else next pos

/-- Model of `wild_match (pat, str)`. -/
def wild_match (pat str : List Char) : Int :=
  wild_match_loop (pat.length + 1) pat str true

/-- The `do ... while ( pat_next && em_next )` loop of `email_match` with the
test that follows it.  `fuel` bounds the number of iterations. -/
def email_match_loop : Nat → List Char → List Char → Int
  | 0, _, _ => 0
  | fuel + 1, pat_next, em_next =>
    let pdot := strchr pat_next '.'
    let edot := strchr em_next '.'
    let pat_sub := match pdot with
      | some i => pat_next.take i
      | none => pat_next
    let em_sub := match edot with
      | some i => em_next.take i
      | none => em_next
    if wild_match pat_sub em_sub = 0 then 0
    else
      match pdot, edot with
      | some i, some j => email_match_loop fuel (pat_next.drop (i + 1)) (em_next.drop (j + 1))
      | none, some _ => 0
      | some _, none => 0
      | none, none => 1

/-- Model of `email_match (email, pattern)`; `MAX_RES` is the constant of
`hashcash.h`. -/
def email_match (MAX_RES : Nat) (email pattern : List Char) : Int :=
  let pat := sstrncpy pattern MAX_RES
  match strtok pat '@' with
  | none => 0
  | some (pat_user, pat_rest) =>
    match strtok pat_rest '@' with
    | none => 0
    | some (pat_dom, _) =>
      let em := sstrncpy email MAX_RES
      match strtok em '@' with
      | none => 0
      | some (em_user, em_rest) =>
        match strtok em_rest '@' with
        | none => 0
        | some (em_dom, _) =>
          if wild_match pat_user em_user = 0 then 0
          else email_match_loop (pat_dom.length + 1) pat_dom em_dom

/-! ## Reference glob semantics -/

/-- Reference glob semantics: `GlobMatch pat str` holds when the whole of `str`
is obtained from `pat` by replacing each `*` with some (possibly empty)
sequence of characters, every other character standing for itself. -/
inductive GlobMatch : List Char → List Char → Prop
  | nil : GlobMatch [] []
  | star (p s g : List Char) : GlobMatch p s → GlobMatch ('*' :: p) (g ++ s)
  | char (c : Char) (p s : List Char) : c ≠ '*' → GlobMatch p s → GlobMatch (c :: p) (c :: s)

/-- The dot-separated labels of a domain, in order (`a..b` has an empty middle
label, the empty domain has one empty label). -/
def dotLabels : List Char → List (List Char)
  | [] => [[]]
  | c :: s =>
    if c = '.' then [] :: dotLabels s
    else
      match dotLabels s with
      | [] => [[c]]
      | l :: ls => (c :: l) :: ls

/-! ## The environment of libhc.c -/

/-- The `struct tm` fields that `round_off` writes. -/
structure Tm where
  tm_sec : Int
  tm_min : Int
  tm_hour : Int
  tm_mday : Int
  tm_mon : Int
  tm_year : Int

/-- What `libhc.c` takes from outside: the constants and result codes of
`hashcash.h`, the reference hash of `sha1.h` (a context type with
`SHA1_Init`, `SHA1_Update`, `SHA1_Final`; a digest is a list of byte values),
the time conversions of `utct.h` and libc, the platform's regular-expression
matcher, libc's `sscanf` with the format `%08x`, and the two bytes that follow
the arrays `token_digest` and `target_digest` of `hashcash_count` in memory. -/
structure Env where
  MAX_VER : Nat
  MAX_UTC : Nat
  MAX_RES : Nat
  MAX_TOK : Nat
  HASHCASH_VALID_FOREVER : Int
  HASHCASH_VALID_IN_FUTURE : Int
  HASHCASH_EXPIRED : Int
  HASHCASH_INVALID : Int
  HASHCASH_UNSUPPORTED_VERSION : Int
  HASHCASH_WRONG_RESOURCE : Int
  HASHCASH_REGEXP_ERROR : Int
  HASHCASH_INSUFFICIENT_BITS : Int
  SHA1_ctx : Type
  SHA1_Init : SHA1_ctx
  SHA1_Update : SHA1_ctx → List Char → SHA1_ctx
  SHA1_Final : SHA1_ctx → List Nat
  from_utctimestr : List Char → Int
  to_utctimestr : Int → Int → List Char
  gmtime : Int → Tm
  mk_utctime : Tm → Int
  regexp_match : List Char → List Char → Option String → Int × Option String
  sscanf_08x : List Char → Option Nat
  past_token_digest : Nat
  past_target_digest : Nat

/-- The contract of the reference hash: updating with `a` then `b` is updating
with `a` followed by `b`, and a digest is `SHA1_DIGEST_BYTES` bytes. -/
structure Env.HashContract (E : Env) : Prop where
  update_update : ∀ (c : E.SHA1_ctx) (a b : List Char),
    E.SHA1_Update (E.SHA1_Update c a) b = E.SHA1_Update c (a ++ b)
  final_length : ∀ c : E.SHA1_ctx, (E.SHA1_Final c).length = 20
  final_byte : ∀ (c : E.SHA1_ctx) (b : Nat), b ∈ E.SHA1_Final c → b < 256

/-- The constant `SHA1_DIGEST_BYTES`. -/
def SHA1_DIGEST_BYTES : Nat := 20

/-- The constant `GROUP_SIZE` (`0xFFFFFFFFU`); `x & GROUP_SIZE` is
`x % (GROUP_SIZE + 1)`. -/
def GROUP_SIZE : Nat := 0xFFFFFFFF

/-- The constant `GROUP_DIGITS`. -/
def GROUP_DIGITS : Nat := 8

/-- The result codes that `hashcash_mint` returns. -/
inductive MintCode where
  | HASHCASH_OK
  | HASHCASH_INTERNAL_ERROR
  | HASHCASH_INVALID_TOK_LEN
  | HASHCASH_RNG_FAILED
  | HASHCASH_INVALID_TIME
  | HASHCASH_INVALID_TIME_WIDTH
  | HASHCASH_TOO_MANY_TRIES
  deriving DecidableEq, Repr

/-- The matcher kinds of `resource_match`; `other` is any `type` value that is
none of the three constants. -/
inductive ResType where
  | TYPE_STR
  | TYPE_WILD
  | TYPE_REGEXP
  | other
  deriving DecidableEq, Repr

/-- What the random source hands to one `hashcash_mint` call: the three
`random_getbytes` words (`none` when the call fails) and the outcome of
`random_rectangular` for a given period. -/
structure Rng where
  ran0 : Option Nat
  ran1 : Option Nat
  ran2 : Option Nat
  rectangular : Int → Option Int

/-! ## Character classes and number text -/

/-- The C `isspace` of the "C" locale. -/
def isspace (c : Char) : Bool :=
  c = ' ' || c = '\t' || c = '\n' || c = '\x0b' || c = '\x0c' || c = '\r'

/-- The C `isdigit`. -/
def isdigit (c : Char) : Bool := 48 ≤ c.toNat && c.toNat ≤ 57

/-- The digit loop of `atoi`: accumulates decimal digits until the first
character that is not one. -/
def atoi_digits : List Char → Int → Int
  | [], acc => acc
  | c :: s, acc =>
    if isdigit c then atoi_digits s (acc * 10 + ((c.toNat : Int) - 48)) else acc

/-- The C `atoi`: leading white space, an optional sign, decimal digits; the
value is exact (no `int` overflow is modelled). -/
def atoi (s : List Char) : Int :=
  match s.dropWhile isspace with
  | '-' :: t => - atoi_digits t 0
  | '+' :: t => atoi_digits t 0
  | t => atoi_digits t 0

/-- The string `hex` of `find_collision`; `hexdigit j` is `hex[ j ]`. -/
def hex : List Char := "0123456789abcdef".toList

/-- The character `hex[ j ]`. -/
def hexdigit (j : Nat) : Char := hex.getD j '0'

/-- Output of `sprintf` with `GFORMAT` (`%08x`) for a 32-bit value: eight
lower-case hexadecimal digits, most significant first. -/
def sprintf_08x (n : Nat) : List Char :=
  [hexdigit (n / 16 ^ 7 % 16), hexdigit (n / 16 ^ 6 % 16), hexdigit (n / 16 ^ 5 % 16),
   hexdigit (n / 16 ^ 4 % 16), hexdigit (n / 16 ^ 3 % 16), hexdigit (n / 16 ^ 2 % 16),
   hexdigit (n / 16 % 16), hexdigit (n % 16)]

/-- The decimal text of a natural number (as `%d` prints it), built from the
least significant digit; `fuel` bounds the number of digits. -/
def toDecimalAux : Nat → Nat → List Char → List Char
  | 0, _, acc => acc
  | fuel + 1, n, acc =>
    let acc := Char.ofNat (48 + n % 10) :: acc
    if n / 10 = 0 then acc else toDecimalAux fuel (n / 10) acc

/-- The decimal text of `n`, without leading zeros (`0` is `"0"`). -/
def toDecimal (n : Nat) : List Char := toDecimalAux (n + 1) n []

/-- The macro `VALID_STR_CHARS`. -/
def VALID_STR_CHARS : List Char :=
  ("!\"#$%&\x27()*+,-./0123456789:;<=>?@" ++
    "ABCDEFGHIJKLMNOPQRSTUVWXYZ[\\]^_\x60abcdefghijklmnopqrstuvwxyz\x7b|\x7d~").toList

/-! ## hashcash_parse, hashcash_count, hashcash_valid_for -/

/-- Model of `hashcash_parse`: `none` when the function returns 0, otherwise
`some (vers, utct, token_resource)`, the three outputs, when it returns 1. -/
def hashcash_parse (E : Env) (token : List Char) (utct_max res_max : Int) :
    Option (Int × List Char × List Char) :=
  match strchr token ':' with
  | none => none
  | some first_colon =>
    let ver_len := first_colon
    if ver_len > E.MAX_VER then none
    else
      let ver := sstrncpy token ver_len
      let vers := atoi ver
      if vers < 0 then none
      else
        let after_first := token.drop (first_colon + 1)
        match strchr after_first ':' with
        | none => none
        | some utct_len =>
          if (utct_len : Int) > utct_max then none
          else
            let after_second := after_first.drop (utct_len + 1)
            match strrchr after_second ':' with
            | none => none
            | some res_len =>
              if (res_len : Int) > res_max then none
              else
                let utct := after_first.take utct_len
                let token_resource := sstrncpy after_second res_len
                let str := after_second.drop (res_len + 1)
                if str.length ≠ strspn str VALID_STR_CHARS then none
                else some (vers, utct, token_resource)

/-- The macro `bit( n, c )`. -/
def bit (n c : Nat) : Nat := (c >>> (7 - n)) &&& 1

/-- Byte `i` of a 20-byte digest array; an index past the array reads the
byte `past` that follows it in memory. -/
def digest_at (d : List Nat) (past : Nat) (i : Nat) : Nat := d.getD i past

/-- The first loop of `hashcash_count`:
`for ( i = 0; i < SHA1_DIGEST_BYTES && token_digest[ i ] == target_digest[ i ]; i++ )`;
the result is the final `i`.  The first argument counts the iterations left. -/
def count_bytes_loop (token_digest target_digest : List Nat) : Nat → Nat → Nat
  | 0, i => i
  | n + 1, i =>
    if i < SHA1_DIGEST_BYTES ∧ token_digest.getD i 0 = target_digest.getD i 0 then
      count_bytes_loop token_digest target_digest n (i + 1)
    else i

/-- The second loop of `hashcash_count`, `for ( i = 0; i < 8; i++ )`, on the
bytes `t = token_digest[ last ]` and `g = target_digest[ last ]`; the result
is the final `collision_bits`.  The first argument counts the iterations left. -/
def count_bits_loop (t g : Nat) : Nat → Nat → Nat → Nat
  | 0, _, collision_bits => collision_bits
  | n + 1, i, collision_bits =>
    if bit i t = bit i g then count_bits_loop t g n (i + 1) (collision_bits + 1)
    else collision_bits

/-- The index `last` at which the bit loop of `hashcash_count` reads
`token_digest` and `target_digest`, for a given digest. -/
def hashcash_count_last (token_digest : List Nat) : Nat :=
  count_bytes_loop token_digest (List.replicate SHA1_DIGEST_BYTES 0) (SHA1_DIGEST_BYTES + 1) 0

/-- The part of `hashcash_count` after `SHA1_Final`: the two loops on a given
digest. -/
def count_digest_bits (E : Env) (token_digest : List Nat) : Nat :=
  let target_digest := List.replicate SHA1_DIGEST_BYTES 0
  let last := hashcash_count_last token_digest
  let collision_bits := 8 * last
  count_bits_loop (digest_at token_digest E.past_token_digest last)
    (digest_at target_digest E.past_target_digest last) 8 0 collision_bits

/-- Model of `hashcash_count`. -/
def hashcash_count (E : Env) (token : List Char) : Nat :=
  match strchr token ':' with
  | none => 0
  | some first_colon =>
    let ver_len := first_colon
    if ver_len > E.MAX_VER then 0
    else
      let ver := sstrncpy token ver_len
      let vers := atoi ver
      if vers < 0 then 0
      else if vers ≠ 0 then 0
      else
        match strchr (token.drop (first_colon + 1)) ':' with
        | none => 0
        | some _ =>
          let ctx := E.SHA1_Init
          let ctx := E.SHA1_Update ctx token
          let token_digest := E.SHA1_Final ctx
          count_digest_bits E token_digest

/-- Model of `hashcash_valid_for`. -/
def hashcash_valid_for (E : Env) (token_time validity_period grace_period now_time : Int) : Int :=
  if validity_period = 0 then E.HASHCASH_VALID_FOREVER
  else if token_time > now_time + grace_period then E.HASHCASH_VALID_IN_FUTURE
  else
    let expiry_time := token_time + validity_period
    if expiry_time + grace_period > now_time then expiry_time + grace_period - now_time
    else E.HASHCASH_EXPIRED

/-! ## resource_match, hashcash_check -/

/-- Model of `resource_match`: the return value and the content of `*err`
afterwards (`err` is its content before the call). -/
def resource_match (E : Env) (type : ResType) (token_res res : List Char)
    (err : Option String) : Int × Option String :=
  match type with
  | ResType.TYPE_STR => if strcmp token_res res ≠ 0 then (0, err) else (1, err)
  | ResType.TYPE_WILD => if email_match E.MAX_RES token_res res = 0 then (0, err) else (1, err)
  | ResType.TYPE_REGEXP =>
    let r := E.regexp_match token_res res err
    if r.1 = 0 then (0, r.2) else (1, r.2)
  | ResType.other => (0, err)

/-- The conversion of a `long` to the `int` that a function declared `int`
returns: the low 32 bits, read as a signed number.  Where `long` has 32 bits
the value is in the range of `int` and stays as it is. -/
def long_to_int (x : Int) : Int := (x + 2 ^ 31) % 2 ^ 32 - 2 ^ 31

/-- Model of `hashcash_check`; `resource` is `none` for a `NULL` resource and
`re_err` is the content of `*re_err` when the function is called.  The function
is declared `int`, so that the `long` of `hashcash_valid_for` is converted at
the `return`. -/
def hashcash_check (E : Env) (token : List Char) (resource : Option (List Char))
    (re_err : Option String) (type : ResType)
    (now_time validity_period grace_period required_bits : Int) : Int :=
  match hashcash_parse E token E.MAX_UTC E.MAX_RES with
  | none => E.HASHCASH_INVALID
  | some (vers, token_utime, token_res) =>
    if vers ≠ 0 then E.HASHCASH_UNSUPPORTED_VERSION
    else
      let token_time := E.from_utctimestr token_utime
      if token_time = -1 then E.HASHCASH_INVALID
      else
        let failed : Option (Option String) :=
          match resource with
          | none => none
          | some res =>
            let m := resource_match E type token_res res re_err
            if m.1 = 0 then some m.2 else none
        match failed with
        | some err =>
          if err ≠ none then E.HASHCASH_REGEXP_ERROR else E.HASHCASH_WRONG_RESOURCE
        | none =>
          let bits : Int := hashcash_count E token
          if bits < required_bits then E.HASHCASH_INSUFFICIENT_BITS
          else long_to_int (hashcash_valid_for E token_time validity_period grace_period now_time)

/-! ## find_collision, round_off, hashcash_mint -/

/-- The acceptance test of the inner loop of `find_collision` on one
`try_digest`, with the set-up of `target_digest`, `check_bytes` and the mask
that precedes the loops: `true` when the `memcmp` branch is taken, `false` when
the candidate is passed over.  `partial_byte_mask` is the low byte of
`~ (( 1 << (8 - (bits & 7))) -1 )`, which is what `&=` leaves in a byte. -/
def collision_test (bits : Nat) (try_digest : List Nat) : Bool :=
  let partial_byte := bits % 8
  let partial_byte_index := bits / 8
  let partial_byte_mask := 256 - 2 ^ (8 - bits % 8)
  let target_digest := List.replicate SHA1_DIGEST_BYTES 0
  let check_bytes := if partial_byte ≠ 0 then partial_byte_index + 1 else bits / 8
  let target_digest :=
    if partial_byte ≠ 0 then
      target_digest.set partial_byte_index
        (target_digest.getD partial_byte_index 0 &&& partial_byte_mask)
    else target_digest
  if bits > 7 ∧ try_digest.getD 0 0 ≠ target_digest.getD 0 0 then false
  else
    let try_digest :=
      if partial_byte ≠ 0 then
        try_digest.set partial_byte_index
          (try_digest.getD partial_byte_index 0 &&& partial_byte_mask)
      else try_digest
    target_digest.take check_bytes == try_digest.take check_bytes

/-- The loop `for ( j = 0; j < 16; j++ )` of `find_collision`: `ctry` is the
try string of this group, `precomputed_ctx` the context over all but its last
character.  `some (j, token)` when candidate `j` is accepted, with the string
copied to `token` (the capacity of the array `ctry` is not modelled); `none`
when no candidate of the group is.  The first argument counts the iterations
left. -/
def find_collision_group (E : Env) (bits : Nat) (ctry : List Char) (try_len : Nat)
    (precomputed_ctx : E.SHA1_ctx) : Nat → Nat → Option (Nat × List Char)
  | 0, _ => none
  | n + 1, j =>
    let ctx := precomputed_ctx
    let last_char := hexdigit j
    let ctx := E.SHA1_Update ctx [last_char]
    let try_digest := E.SHA1_Final ctx
    if collision_test bits try_digest then
      let ctry := ctry.set (try_len + (GROUP_DIGITS - 1)) (hexdigit j)
      some (j, sstrncpy ctry E.MAX_TOK)
    else find_collision_group E bits ctry try_len precomputed_ctx n (j + 1)

/-- The loop `for ( i = 0; i < tries2; i++, trial = (trial + 16) & GROUP_SIZE )`
of `find_collision`; `fixed` is `ctry` up to `changing_part_of_try`.  The
result is the return value (a `word32`) and the content of `token`.  The first
argument counts the iterations left (`tries2 - i`). -/
def find_collision_loop (E : Env) (bits : Nat) (fixed : List Char) :
    Nat → Nat → Nat → List Char → Nat × List Char
  | 0, _, _, token => (0, token)
  | n + 1, i, trial, token =>
    let try_len := fixed.length
    let try_strlen := try_len + GROUP_DIGITS
    let precomputed_ctx := E.SHA1_Init
    let ctry := fixed ++ sprintf_08x trial
    let precomputed_ctx := E.SHA1_Update precomputed_ctx (ctry.take (try_strlen - 1))
    match find_collision_group E bits ctry try_len precomputed_ctx 16 0 with
    | some (j, token) => ((i * 16 + j + 1) % (GROUP_SIZE + 1), token)
    | none => find_collision_loop E bits fixed n (i + 1) ((trial + 16) % (GROUP_SIZE + 1)) token

/-- Model of `find_collision`: the return value and the content of `token`
afterwards (`token` is its content before).  `bits` is not negative, as in
every call of this file.  The result is `none` where the C code has no defined
result: `bits` beyond the 160 bits of the digest arrays, a `counter` shorter
than `GROUP_DIGITS`, or no number for `sscanf` to store in `trial`.
`tries2` is `(int) ( (double) tries / 16.0 + 0.5 )`, that is `(tries + 8) / 16`
for a 32-bit `tries`. -/
def find_collision (E : Env) (utct resource : List Char) (bits : Nat) (token : List Char)
    (tries : Nat) (counter : List Char) : Option (Nat × List Char) :=
  let ctry := ['0']
  let ctry := ctry ++ [':']
  let ctry := ctry ++ utct.take E.MAX_TOK
  let ctry := ctry ++ [':']
  let ctry := ctry ++ resource.take E.MAX_RES
  if bits > 8 * SHA1_DIGEST_BYTES then none
  else if counter.length < GROUP_DIGITS then none
  else
    let counter_len := counter.length - GROUP_DIGITS
    match E.sscanf_08x (counter.drop counter_len) with
    | none => none
    | some trial =>
      let trial := trial - trial % 16
      let ctry := ctry ++ [':']
      let ctry := ctry ++ counter.take counter_len
      let tries2 := (tries + 8) / 16
      some (find_collision_loop E bits ctry tries2 0 trial token)

/-- Model of `round_off`, with the fall-through of its `switch`. -/
def round_off (E : Env) (now_time : Int) (digits : Int) : Int :=
  if digits ≠ 2 ∧ digits ≠ 4 ∧ digits ≠ 6 ∧ digits ≠ 8 ∧ digits ≠ 10 then now_time
  else
    let now := E.gmtime now_time
    let now := if digits = 10 then { now with tm_mon := 0 } else now
    let now := if digits = 10 ∨ digits = 8 then { now with tm_mday := 1 } else now
    let now := if digits = 10 ∨ digits = 8 ∨ digits = 6 then { now with tm_hour := 0 } else now
    let now :=
      if digits = 10 ∨ digits = 8 ∨ digits = 6 ∨ digits = 4 then { now with tm_min := 0 }
      else now
    let now := { now with tm_sec := 0 }
    E.mk_utctime now

/-- A loop of the shape `for ( i=0, f=1; f || i!=0; f=0, i=(i+1) & GROUP_SIZE )`
around a search step: the body runs once for each `i` from 0 to `GROUP_SIZE`
and the loop is left at the first step that finds (`found` not 0).  The result
is `none` when a step has no defined result, otherwise the last `found` and
the content of `token`.  The first argument counts the iterations left. -/
def group_loop (body : Nat → List Char → Option (Nat × List Char)) :
    Nat → Nat → List Char → Option (Nat × List Char)
  | 0, _, token => some (0, token)
  | n + 1, i, token =>
    match body i token with
    | none => none
    | some (found, token) =>
      if found ≠ 0 then some (found, token)
      else group_loop body n ((i + 1) % (GROUP_SIZE + 1)) token

/-- The two nested loops of `hashcash_mint` over `i0` and `i1` with the
`goto done`: `some (found, token)`, `found` being 0 when both loops ran to
their end. -/
def mint_search (E : Env) (now_utime resource : List Char) (bits : Nat)
    (ran0 ran1 ran2 : Nat) (token : List Char) : Option (Nat × List Char) :=
  let inner := fun (i0 : Nat) (token : List Char) =>
    group_loop
      (fun i1 token =>
        let counter :=
          sprintf_08x ((i0 + ran0) % (GROUP_SIZE + 1)) ++
          sprintf_08x ((i1 + ran1) % (GROUP_SIZE + 1)) ++
          sprintf_08x (ran2 % (GROUP_SIZE + 1))
        find_collision E now_utime resource bits token GROUP_SIZE counter)
      (GROUP_SIZE + 1) 0 token
  group_loop inner (GROUP_SIZE + 1) 0 token

/-- Model of `hashcash_mint`: the return code and the content of `token`
afterwards (the outputs `*anon_random` and `*tries_taken` are left out).
`resource` and `token` are `none` for `NULL`; `tok_len` is not used by the C
code.  The result is `none` when a `find_collision` call has no defined
result. -/
def hashcash_mint (E : Env) (rng : Rng) (now_time : Int) (time_width : Int)
    (resource : Option (List Char)) (bits : Nat) (anon_period : Int)
    (token : Option (List Char)) : Option (MintCode × Option (List Char)) :=
  match resource, token with
  | none, _ => some (MintCode.HASHCASH_INTERNAL_ERROR, token)
  | _, none => some (MintCode.HASHCASH_INTERNAL_ERROR, token)
  | some resource, some token =>
    let anon_random : Int := 0
    if bits > SHA1_DIGEST_BYTES * 8 then some (MintCode.HASHCASH_INVALID_TOK_LEN, some token)
    else
      let time_width := if time_width = 0 then 6 else time_width
      match rng.ran0, rng.ran1, rng.ran2 with
      | some ran0, some ran1, some ran2 =>
        if now_time < 0 then some (MintCode.HASHCASH_INVALID_TIME, some token)
        else
          let drawn : Option Int :=
            if anon_period ≠ 0 then rng.rectangular anon_period else some anon_random
          match drawn with
          | none => some (MintCode.HASHCASH_RNG_FAILED, some token)
          | some anon_random =>
            let now_time := now_time + anon_random
            if time_width ≠ 12 ∧ time_width ≠ 10 ∧ time_width ≠ 8 ∧
                time_width ≠ 6 ∧ time_width ≠ 4 ∧ time_width ≠ 2 then
              some (MintCode.HASHCASH_INVALID_TIME_WIDTH, some token)
            else
              let now_time := round_off E now_time (12 - time_width)
              let now_utime := E.to_utctimestr time_width now_time
              match mint_search E now_utime resource bits ran0 ran1 ran2 token with
              | none => none
              | some (found, token) =>
                if found ≠ 0 then some (MintCode.HASHCASH_OK, some token)
                else some (MintCode.HASHCASH_TOO_MANY_TRIES, some token)
      | _, _, _ => some (MintCode.HASHCASH_RNG_FAILED, some token)

/-! ## A small concrete environment

Used to evaluate the definitions on concrete inputs. -/

/-- The value of a hexadecimal digit. -/
def hexval (c : Char) : Option Nat :=
  if 48 ≤ c.toNat ∧ c.toNat ≤ 57 then some (c.toNat - 48)
  else if 97 ≤ c.toNat ∧ c.toNat ≤ 102 then some (c.toNat - 87)
  else if 65 ≤ c.toNat ∧ c.toNat ≤ 70 then some (c.toNat - 55)
  else none

/-- Value of a string of hexadecimal digits, `none` if some character is not
one. -/
def hexvalue : List Char → Nat → Option Nat
  | [], acc => some acc
  | c :: s, acc =>
    match hexval c with
    | some v => hexvalue s (acc * 16 + v)
    | none => none

/-- An environment whose hash keeps the whole message as its context and
takes the digest of a message from `digest`; limits `MAX_VER = 2`,
`MAX_UTC = 13`, `MAX_RES = 256`, `MAX_TOK = 512`; result codes `0, -1, ...`;
every time stamp reads as time 1000 and every time prints as `040404`; no
regular expressions. -/
def toyEnv (digest : List Char → List Nat) : Env where
  MAX_VER := 2
  MAX_UTC := 13
  MAX_RES := 256
  MAX_TOK := 512
  HASHCASH_VALID_FOREVER := 0
  HASHCASH_INSUFFICIENT_BITS := -1
  HASHCASH_VALID_IN_FUTURE := -2
  HASHCASH_EXPIRED := -3
  HASHCASH_INVALID := -4
  HASHCASH_UNSUPPORTED_VERSION := -5
  HASHCASH_WRONG_RESOURCE := -6
  HASHCASH_REGEXP_ERROR := -7
  SHA1_ctx := List Char
  SHA1_Init := []
  SHA1_Update := fun c s => c ++ s
  SHA1_Final := digest
  from_utctimestr := fun _ => 1000
  to_utctimestr := fun _ _ => "040404".toList
  gmtime := fun _ => ⟨0, 0, 0, 1, 0, 70⟩
  mk_utctime := fun _ => 0
  regexp_match := fun _ _ _ => (0, some "regexps not supported")
  sscanf_08x := fun s => if s = [] then none else hexvalue s 0
  past_token_digest := 0
  past_target_digest := 0

/-- A digest of twenty zero bytes, whatever the message. -/
def zeroDigest : List Char → List Nat := fun _ => List.replicate 20 0

/-- A digest whose first byte is `0x01`, whatever the message. -/
def oneDigest : List Char → List Nat := fun _ => 1 :: List.replicate 19 0

/-- A digest of nineteen zero bytes and a last byte that is 0 when the message
ends in `3` and 1 otherwise. -/
def lastDigest : List Char → List Nat := fun m =>
  List.replicate 19 0 ++ [if m.getLast? = some '3' then 0 else 1]

/-! ## Reference definitions, from the words of the specification -/

/-- Number of leading zero bits of a byte, scanned from the most significant
bit and stopping at the first set bit. -/
def leadingZeroBitsOfByte (b : Nat) : Nat :=
  ((List.range 8).takeWhile (fun i => !(b.testBit (7 - i)))).length

/-- Number of leading zero bits of a digest: 8 for each leading zero byte,
plus the leading zero bits of the first byte that is not zero. -/
def leadingZeroBits : List Nat → Nat
  | [] => 0
  | b :: rest => if b = 0 then 8 + leadingZeroBits rest else leadingZeroBitsOfByte b

/-- Number of leading zero bytes of a digest. -/
def leadingZeroBytes : List Nat → Nat
  | [] => 0
  | b :: rest => if b = 0 then 1 + leadingZeroBytes rest else 0

/-- The validity rule in the words of the specification, on exact integers:
a period of 0 never expires; a token time beyond `now + grace` is in the
future; otherwise the remaining seconds are
`token_time + validity_period + grace_period - now`, and a non-positive
remainder means expired. -/
def valid_for_reference (E : Env) (token_time validity_period grace_period now : Int) : Int :=
  if validity_period = 0 then E.HASHCASH_VALID_FOREVER
  else if token_time > now + grace_period then E.HASHCASH_VALID_IN_FUTURE
  else if 0 < token_time + validity_period + grace_period - now then
    token_time + validity_period + grace_period - now
  else E.HASHCASH_EXPIRED

/-! ## The reverification code of libfastmint.c -/

/-- The loop `for(a=0; a < SHA1_DIGEST_BYTES-1 && hash[a] == 0; a++)` of
`hashcash_fastmint` and `hashcash_benchtest`; the result is the final `a`.
The first argument counts the iterations left. -/
def verify_bytes_loop (hash : List Nat) : Nat → Nat → Nat
  | 0, a => a
  | n + 1, a =>
    if a < SHA1_DIGEST_BYTES - 1 ∧ hash.getD a 0 = 0 then verify_bytes_loop hash n (a + 1)
    else a

/-- The loop `for(b=0; b < 8 && (hash[a] & 0x80) == 0; b++) hash[a] <<= 1;` on
the byte `h = hash[a]` (an `unsigned char`, so the shift drops the top bit);
the result is the final `b`.  The first argument counts the iterations left. -/
def verify_bits_loop : Nat → Nat → Nat → Nat
  | 0, _, b => b
  | n + 1, h, b =>
    if b < 8 ∧ h &&& 0x80 = 0 then verify_bits_loop n ((h <<< 1) % 256) (b + 1)
    else b

/-- The bit count `(a*8)+b` that `hashcash_fastmint` and `hashcash_benchtest`
derive from the digest `hash`. -/
def verify_bits (hash : List Nat) : Nat :=
  let a := verify_bytes_loop hash SHA1_DIGEST_BYTES 0
  let b := verify_bits_loop 9 (hash.getD a 0) 0
  a * 8 + b

/-! ## libfastmint.c: the backend table and hashcash_select_minter -/

/-- The array `encodeAlphabets`. -/
def encodeAlphabets : List (List Char) :=
  ["0123456789ABCDEF".toList,
   "0123456789abcdef".toList,
   "ABCDEFGHIJKLMNOP".toList,
   "abcdefghijklmnop".toList,
   "0123456789ABCDEFGHIJKLMNOPQRSTUVWXYZabcdefghijklmnopqrstuvwxyz+/".toList]

/-- Modelled from the spec: the enumerator `EncodeBase64` of `libfastmint.h`
(not in src), which selects the base-64 alphabet, the fifth row of
`encodeAlphabets`. -/
def EncodeBase64 : Nat := 4

/-- The constant `SHA1_INPUT_BYTES`, the block size of the hash. -/
def SHA1_INPUT_BYTES : Nat := 64

/-- The array `SHA1_IV`. -/
def SHA1_IV : List Nat := [0x67452301, 0xEFCDAB89, 0x98BADCFE, 0x10325476, 0xC3D2E1F0]

/-- The NUL character. -/
def NUL : Char := Char.ofNat 0

/-- A row of the backend table (`HC_Minter`): `func` maps the arguments
`bits`, the 64 bytes of `block`, `IV`, `tail` and the iteration limit to the
returned bit count and the bytes of `block` afterwards; `test` is the outcome
of the probe routine on this machine. -/
structure HC_Minter where
  name : String
  func : Int → List Char → List Nat → Nat → Nat → Nat × List Char
  test : Bool
  encoding : Nat

/-- The file-scope variables `fastest_minter`, `num_minters` and `minters`
(`none` for `NULL`). -/
structure MintState where
  fastest_minter : Int
  num_minters : Nat
  minters : Option (List HC_Minter)

/-- The values the file-scope variables are initialised with. -/
def MintState.initial : MintState := ⟨-1, 0, none⟩

/-- The target architecture, as the preprocessor tests of
`hashcash_select_minter` see it. -/
inductive Arch where
  | i386
  | M68000
  | other
  deriving DecidableEq, Repr

/-- The array `names` of `hashcash_select_minter`. -/
def minter_names : List String :=
  ["ANSI Compact 1-pipe",
   "ANSI Standard 1-pipe",
   "ANSI Ultra-Compact 1-pipe",
   "ANSI Compact 2-pipe",
   "ANSI Standard 2-pipe",
   "PowerPC Altivec Standard 1x4-pipe",
   "PowerPC Altivec Compact 2x4-pipe",
   "PowerPC Altivec Standard 2x4-pipe",
   "AMD64/x86 MMX Compact 1x2-pipe",
   "AMD64/x86 MMX Standard 1x2-pipe"]

/-- The rows that `hashcash_select_minter` fills in from its arrays `names`,
`funcs`, `tests` and `encodings`; the ten routines of `funcs` and the outcomes
of the ten probes of `tests` are defined outside `libfastmint.c`. -/
def registered_minters (funcs : Nat → Int → List Char → List Nat → Nat → Nat → Nat × List Char)
    (tests : Nat → Bool) : List HC_Minter :=
  (List.range 10).map
    (fun i => ⟨minter_names.getD i "", funcs i, tests i, EncodeBase64⟩)

/-- The outcome of `minters[i].test()`; a row outside the table reads as a
failed probe. -/
def minter_test (minters : List HC_Minter) (i : Nat) : Bool :=
  match minters.get? i with
  | some m => m.test
  | none => false

/-- The loop `for(i=5; i < num_minters; i++) if(minters[i].test()) fastest_minter = i;`;
the result is the final `fastest_minter`.  The first argument counts the
iterations left. -/
def select_loop (minters : List HC_Minter) (num_minters : Nat) : Nat → Nat → Int → Int
  | 0, _, fastest_minter => fastest_minter
  | n + 1, i, fastest_minter =>
    if i < num_minters then
      select_loop minters num_minters n (i + 1)
        (if minter_test minters i then (i : Int) else fastest_minter)
    else fastest_minter

/-- The default that `hashcash_select_minter` sets before it probes. -/
def default_minter : Arch → Int
  | Arch.i386 => 0
  | Arch.M68000 => 2
  | Arch.other => 1

/-- Model of `hashcash_select_minter`. -/
def hashcash_select_minter (arch : Arch)
    (funcs : Nat → Int → List Char → List Nat → Nat → Nat → Nat × List Char)
    (tests : Nat → Bool) (s : MintState) : MintState :=
  let s : MintState :=
    if s.num_minters = 0 ∨ s.minters.isNone then
      { s with num_minters := 10, minters := some (registered_minters funcs tests) }
    else s
  let minters := s.minters.getD []
  let fastest_minter := default_minter arch
  { s with fastest_minter := select_loop minters s.num_minters s.num_minters 5 fastest_minter }

/-- A backend routine that leaves the block as it is and reports 0 bits; used
to fill a table on concrete inputs. -/
def idle_minter : Int → List Char → List Nat → Nat → Nat → Nat × List Char :=
  fun _ block _ _ _ => (0, block)

/-! ## libfastmint.c: blocks in memory and hashcash_benchtest -/

/-- A store `buffer[ i ] = c` into a byte array, given as the map from index
to byte. -/
def poke (buffer : Nat → Char) (i : Nat) (c : Char) : Nat → Char :=
  fun k => if k = i then c else buffer k

/-- The `len` bytes of a byte array from index `start` on. -/
def peek (buffer : Nat → Char) (start len : Nat) : List Char :=
  (List.range len).map (fun k => buffer (start + k))

/-- Modelled from the spec: the macro `PUT_WORD` (not in src) stores the
32-bit word `w` in the four bytes at `p`, most significant byte first, which
is how the length trailer of a hash block is laid out. -/
def PUT_WORD (buffer : Nat → Char) (p w : Nat) : Nat → Char :=
  poke (poke (poke (poke buffer p (Char.ofNat (w / 2 ^ 24 % 256)))
    (p + 1) (Char.ofNat (w / 2 ^ 16 % 256)))
    (p + 2) (Char.ofNat (w / 2 ^ 8 % 256)))
    (p + 3) (Char.ofNat (w % 256))

/-- The string `test_string` of `hashcash_benchtest`. -/
def bench_test_string : List Char := "1:22:040404:foo::0123456789abcdef:00000000000".toList

/-- The constant `test_tail` of `hashcash_benchtest`. -/
def bench_test_tail : Nat := 45

/-- The constant `test_bits` of `hashcash_benchtest`. -/
def bench_test_bits : Nat := 22

/-- The block that `hashcash_benchtest` sets up for a backend: `strncpy` of
the test string into the zeroed block, the `0x80` marker, the `memset` and the
length word. -/
def bench_block : List Char :=
  let block : Nat → Char := fun _ => NUL
  let block : Nat → Char :=
    fun k => if k < SHA1_INPUT_BYTES then bench_test_string.getD k NUL else block k
  let block := poke block bench_test_tail (Char.ofNat 0x80)
  let block : Nat → Char :=
    fun k =>
      if bench_test_tail + 1 ≤ k ∧ k < bench_test_tail + 1 + (59 - bench_test_tail) then NUL
      else block k
  let block := PUT_WORD block 60 (bench_test_tail <<< 3)
  peek block 0 SHA1_INPUT_BYTES

/-- The loop `while(a < test_tail && block[a] == '0') a++;`; the result is the
final `a`.  The first argument counts the iterations left. -/
def bench_skip_zeros (block : List Char) : Nat → Nat → Nat
  | 0, a => a
  | n + 1, a =>
    if a < bench_test_tail ∧ block.getD a NUL = '0' then bench_skip_zeros block n (a + 1)
    else a

/-- The loop `for( ; a < test_tail; a++)` that decodes the counter in the
alphabet `p`; `strchr` finds the terminator of `p` when asked for NUL; `b` is
an `unsigned long`, whose largest value is `ulong_max`.  The result is the
final `a` and `b`.  The first argument counts the iterations left. -/
def bench_decode (ulong_max : Nat) (p block : List Char) : Nat → Nat → Nat → Nat × Nat
  | 0, a, b => (a, b)
  | n + 1, a, b =>
    if a < bench_test_tail then
      match (if block.getD a NUL = NUL then some p.length else strchr p (block.getD a NUL)) with
      | none => (a, b)
      | some q => bench_decode ulong_max p block n (a + 1) ((b * p.length + q) % (ulong_max + 1))
    else (a, b)

/-- The conversion of an `unsigned long` to `int` in
`fastest_minter = best_minter`: the low 32 bits, read as a signed number. -/
def ulong_to_int (x : Nat) : Int :=
  if x % 2 ^ 32 < 2 ^ 31 then ((x % 2 ^ 32 : Nat) : Int) else ((x % 2 ^ 32 : Nat) : Int) - 2 ^ 32

/-- What one run of `hashcash_benchtest` carries through its loop: the indices
at which the table `minters` has been read so far, `best_minter` and
`peak_rate`. -/
structure BenchAcc where
  reads : List Nat
  best_minter : Nat
  peak_rate : ℚ

/-- The body of the loop `for(i=0; i < num_minters; i++)` of
`hashcash_benchtest` for one `i`.  `rate i b` is the `double` that
`b / elapsed` yields for backend `i` (the clock is outside the model). -/
def bench_step (E : Env) (ulong_max : Nat) (rate : Nat → Nat → ℚ) (verbose : Int)
    (minters : List HC_Minter) (acc : BenchAcc) (i : Nat) : BenchAcc :=
  match minters.get? i with
  | none => acc
  | some m =>
    let acc := { acc with reads := acc.reads ++ [i] }
    if !m.test then
      if verbose ≥ 2 then { acc with reads := acc.reads ++ [i] } else acc
    else
      let acc := if verbose ≠ 0 then { acc with reads := acc.reads ++ [i] } else acc
      let acc := { acc with reads := acc.reads ++ [i] }
      let r := m.func bench_test_bits bench_block SHA1_IV bench_test_tail (1 <<< 30)
      let got_bits := r.1
      let block := r.2
      let crypter := E.SHA1_Init
      let crypter := E.SHA1_Update crypter (block.take bench_test_tail)
      let hash := E.SHA1_Final crypter
      if got_bits ≠ verify_bits hash ∨ got_bits < bench_test_bits ∨
          block.getD bench_test_tail NUL ≠ Char.ofNat 0x80 then acc
      else
        let a := bench_test_tail - 8
        let acc := { acc with reads := acc.reads ++ [i] }
        let p := encodeAlphabets.getD m.encoding []
        let a := bench_skip_zeros block 8 a
        let ab := bench_decode ulong_max p block 8 a 0
        if ab.1 ≠ bench_test_tail then acc
        else
          let r := rate i ab.2
          let acc := if verbose ≠ 0 then { acc with reads := acc.reads ++ [i] } else acc
          if r > acc.peak_rate then { acc with peak_rate := r, best_minter := i } else acc

/-- What `hashcash_benchtest` leaves behind: the indices at which it read the
table `minters`, in order, the file-scope variables, and `peak_rate`. -/
structure BenchOut where
  reads : List Nat
  state : MintState
  peak_rate : ℚ

/-- Model of `hashcash_benchtest`.  `best_minter` is an `unsigned long`
initialised with `-1`, that is `ulong_max`; the test `best_minter >= 0` of the
final report is on that unsigned value. -/
def hashcash_benchtest (E : Env) (arch : Arch)
    (funcs : Nat → Int → List Char → List Nat → Nat → Nat → Nat × List Char)
    (tests : Nat → Bool) (ulong_max : Nat) (rate : Nat → Nat → ℚ) (s : MintState)
    (verbose : Int) : BenchOut :=
  let s := hashcash_select_minter arch funcs tests s
  let acc : BenchAcc := ⟨[], ulong_max, 0⟩
  let acc := (List.range s.num_minters).foldl
    (bench_step E ulong_max rate verbose (s.minters.getD [])) acc
  let s := { s with fastest_minter := ulong_to_int acc.best_minter }
  let reads :=
    if verbose ≠ 0 ∧ 0 ≤ acc.best_minter then acc.reads ++ [acc.best_minter] else acc.reads
  ⟨reads, s, acc.peak_rate⟩

/-! ## libfastmint.c: hashcash_fastmint -/

/-- The base-64 alphabet `encodeAlphabets[EncodeBase64]`. -/
def base64_alphabet : List Char := encodeAlphabets.getD EncodeBase64 []

/-- The index `t` up to which `hashcash_fastmint` appends random characters,
from `tail`, the length of the token as an `unsigned int`; the sums are sums of
`unsigned int`, taken modulo `2^32`. -/
def fastmint_pad_end (tail : Nat) : Nat :=
  let t := ((tail + 16) % 2 ^ 32) % SHA1_INPUT_BYTES
  if SHA1_INPUT_BYTES - t < 18 then
    ((tail - (tail % SHA1_INPUT_BYTES)) + SHA1_INPUT_BYTES - 1) % 2 ^ 32
  else (tail + 16) % 2 ^ 32

/-- A loop `for( ; tail < t; tail++) buffer[tail] = f tail;`: the loop that
appends the random characters (`f tail` is the alphabet character picked by
the byte drawn for that position) and the loop that writes the zeroed count
field (`f tail` is `'0'`).  The result is the buffer and the final `tail`, an
`unsigned int` that `tail++` increments modulo `2^32`.  The first argument
counts the iterations left. -/
def fastmint_fill (f : Nat → Char) (t : Nat) : Nat → (Nat → Char) → Nat → (Nat → Char) × Nat
  | 0, buffer, tail => (buffer, tail)
  | n + 1, buffer, tail =>
    if tail < t then fastmint_fill f t n (poke buffer tail (f tail)) ((tail + 1) % 2 ^ 32)
    else (buffer, tail)

/-- The part of `hashcash_fastmint` from `again:` to the zeroed count field:
random characters from `tail = strlen(token)` on, the separator and eight
`'0'`.  `token_len` is `strlen(token)`; `tail` is an `unsigned int`, so that
the assignment and the sums `tail++` and `tail+8` are taken modulo `2^32`.
`rand pos` is the byte that `random_getbytes` delivers for position `pos`.
The result is the buffer and `tail`, the index after the count field. -/
def fastmint_layout (rand : Nat → Nat) (token_len : Nat) (buffer : Nat → Char) :
    (Nat → Char) × Nat :=
  let tail := token_len % 2 ^ 32
  let t := fastmint_pad_end tail
  let r := fastmint_fill (fun pos => base64_alphabet.getD (rand pos % 64) NUL) t
    SHA1_INPUT_BYTES buffer tail
  let buffer := r.1
  let tail := r.2
  let buffer := poke buffer tail ':'
  let tail := (tail + 1) % 2 ^ 32
  let t := (tail + 8) % 2 ^ 32
  fastmint_fill (fun _ => '0') t 8 buffer tail

/-- How a call of `hashcash_fastmint` ends: it returns `b` with `*result`
pointing to the buffer (given by its `buflen` bytes), or the process exits
with code 3. -/
inductive FastmintResult where
  | returned (b : Nat) (result : List Char)
  | exit3
  deriving DecidableEq

/-- The string that a byte array holds: its bytes up to the first NUL. -/
def cstr (bytes : List Char) : List Char := bytes.takeWhile (· ≠ NUL)

/-- The padding and trailer of the final block: `buffer[tail] = 0x80;` and
`PUT_WORD(block+60, tail << 3);`, where `block` starts at
`t = tail - (tail % SHA1_INPUT_BYTES)`.  The shift is a shift of `unsigned int`;
`PUT_WORD` stores the low 32 bits of its argument. -/
def fastmint_trailer (buffer : Nat → Char) (tail : Nat) : Nat → Char :=
  let t := tail - (tail % SHA1_INPUT_BYTES)
  let buffer := poke buffer tail (Char.ofNat 0x80)
  PUT_WORD buffer (t + 60) (tail <<< 3)

/-- The call of the backend on the last block and the statement
`block[tail] = 0;` after it: `func` receives the 64 bytes at
`t = tail - (tail % SHA1_INPUT_BYTES)` and the length `tail - t`, and the
bytes it returns replace them.  The result is `gotbits` (an `unsigned int`)
and the buffer. -/
def fastmint_run (minter : HC_Minter) (bits : Int) (IV : List Nat) (buffer : Nat → Char)
    (tail : Nat) : Nat × (Nat → Char) :=
  let t := tail - (tail % SHA1_INPUT_BYTES)
  let tail := tail - t
  let r := minter.func bits (peek buffer t SHA1_INPUT_BYTES) IV tail 0xFFFFFFFF
  let gotbits := r.1 % 2 ^ 32
  let buffer : Nat → Char :=
    fun k => if t ≤ k ∧ k < t + SHA1_INPUT_BYTES then r.2.getD (k - t) (buffer k) else buffer k
  let buffer := poke buffer (t + tail) NUL
  (gotbits, buffer)

/-- One pass of `hashcash_fastmint` from the label `again:` to the bit count
`b` of the reference hash: the result is `gotbits`, `b` and the buffer.
`ctxH` reads the five words `H` of a hash context, `rand pos` is the random
byte drawn for position `pos`, `token_len` is `strlen(token)`. -/
def fastmint_attempt (E : Env) (ctxH : E.SHA1_ctx → List Nat) (minter : HC_Minter)
    (rand : Nat → Nat) (bits : Int) (token_len : Nat) (buffer : Nat → Char) :
    Nat × Nat × (Nat → Char) :=
  let laid := fastmint_layout rand token_len buffer
  let buffer := laid.1
  let tail := laid.2
  let t := tail - (tail % SHA1_INPUT_BYTES)
  let crypter := E.SHA1_Init
  let crypter := E.SHA1_Update crypter (peek buffer 0 t)
  let IV := (ctxH crypter).take 5
  let buffer := fastmint_trailer buffer tail
  let ran := fastmint_run minter bits IV buffer tail
  let gotbits := ran.1
  let buffer := ran.2
  let crypter := E.SHA1_Update crypter (peek buffer t (tail - t))
  let hash := E.SHA1_Final crypter
  let b := verify_bits hash
  (gotbits, b, buffer)

/-- The part of `hashcash_fastmint` from the label `again:` on, for the
selected backend `minter`; a `goto again` is a recursive call, with the random
bytes `rand attempt` of the next attempt.  `bits` is an `int` that the
comparison `b < bits` converts to `unsigned`.  The first argument bounds the
number of attempts: `none` when it is used up. -/
def hashcash_fastmint_again (E : Env) (ctxH : E.SHA1_ctx → List Nat) (minter : HC_Minter)
    (rand : Nat → Nat → Nat) (bits : Int) (token : List Char) (buflen : Nat) :
    Nat → Nat → (Nat → Char) → Option FastmintResult
  | 0, _, _ => none
  | fuel + 1, attempt, buffer =>
    let a := fastmint_attempt E ctxH minter (rand attempt) bits token.length buffer
    let gotbits := a.1
    let b := a.2.1
    let buffer := a.2.2
    if b < gotbits then some FastmintResult.exit3
    else if (b : Int) < bits % 2 ^ 32 then
      hashcash_fastmint_again E ctxH minter rand bits token buflen fuel (attempt + 1) buffer
    else some (FastmintResult.returned b (peek buffer 0 buflen))

/-- The file-scope variables after the first statement of `hashcash_fastmint`,
which selects a backend when none is selected. -/
def fastmint_state (arch : Arch)
    (funcs : Nat → Int → List Char → List Nat → Nat → Nat → Nat × List Char)
    (tests : Nat → Bool) (s : MintState) : MintState :=
  if s.minters.isNone ∨ s.fastest_minter < 0 then hashcash_select_minter arch funcs tests s
  else s

/-- Model of `hashcash_fastmint`: `none` when `fastest_minter` is no row of the
table or when the attempts allowed by `fuel` are used up.  `tail` and `buflen`
are `unsigned int`: the length of the token and the size of the buffer are
taken modulo `2^32`; `strncpy` copies at most `buflen` characters. -/
def hashcash_fastmint (E : Env) (ctxH : E.SHA1_ctx → List Nat) (arch : Arch)
    (funcs : Nat → Int → List Char → List Nat → Nat → Nat → Nat × List Char)
    (tests : Nat → Bool) (s : MintState) (rand : Nat → Nat → Nat) (bits : Int)
    (token : List Char) (fuel : Nat) : Option FastmintResult :=
  let s := fastmint_state arch funcs tests s
  let tail := token.length % 2 ^ 32
  let buflen := ((tail - (tail % SHA1_INPUT_BYTES)) + 2 * SHA1_INPUT_BYTES) % 2 ^ 32
  let buffer : Nat → Char := fun k => if k < buflen then token.getD k NUL else NUL
  match (s.minters.getD []).get? s.fastest_minter.toNat with
  | none => none
  | some minter => hashcash_fastmint_again E ctxH minter rand bits token buflen fuel 0 buffer

/-- A backend routine confined to the count field: it returns the 64 bytes of
the block, equal to the ones it was given outside the eight bytes before
`tail`, and writes no NUL inside them. -/
def backend_confined (func : Int → List Char → List Nat → Nat → Nat → Nat × List Char) : Prop :=
  ∀ (bits : Int) (block : List Char) (IV : List Nat) (tail iters : Nat),
    block.length = SHA1_INPUT_BYTES → 8 ≤ tail → tail ≤ SHA1_INPUT_BYTES →
    (func bits block IV tail iters).2.length = SHA1_INPUT_BYTES ∧
    (∀ k, k < SHA1_INPUT_BYTES → (k < tail - 8 ∨ tail ≤ k) →
      (func bits block IV tail iters).2.getD k NUL = block.getD k NUL) ∧
    (∀ k, tail - 8 ≤ k → k < tail →
      (func bits block IV tail iters).2.getD k NUL = NUL → block.getD k NUL = NUL)

/-! ## The loops of hashcash_mint with their flags -/

/-- A loop `for ( i=0, f=1; f || i!=0; f=0, i=(i+1) & GROUP_SIZE )` of
`hashcash_mint` with its flag `f`, left by `goto done` when the body finds.
The body returns a log of the calls it made and its result (`none` for no
defined result); the loop returns the logs, joined in order, and the last
result, `some (0, token)` when the loop condition ends it.  The first argument
bounds the number of iterations: the outer `none` is returned when it is used
up. -/
def mint_for {α : Type}
    (body : Nat → List Char → Option (List α × Option (Nat × List Char))) :
    Nat → Nat → Bool → List Char → Option (List α × Option (Nat × List Char))
  | 0, _, _, _ => none
  | fuel + 1, i, f, token =>
    if f || i != 0 then
      match body i token with
      | none => none
      | some (log, none) => some (log, none)
      | some (log, some (found, token)) =>
        if found ≠ 0 then some (log, some (found, token))
        else
          match mint_for body fuel ((i + 1) % (GROUP_SIZE + 1)) false token with
          | none => none
          | some (logs, r) => some (log ++ logs, r)
    else some ([], some (0, token))

/-- The string that `hashcash_mint` prints into `counter` for the loop
variables `i0` and `i1`. -/
def mint_counter (ran0 ran1 ran2 i0 i1 : Nat) : List Char :=
  sprintf_08x ((i0 + ran0) % (GROUP_SIZE + 1)) ++
  sprintf_08x ((i1 + ran1) % (GROUP_SIZE + 1)) ++
  sprintf_08x (ran2 % (GROUP_SIZE + 1))

/-- The two nested loops of `hashcash_mint` with their flags `i0f` and `i1f`;
the log is the list of the pairs `(i0, i1)` for which `find_collision` is
called, in order. -/
def mint_loops (E : Env) (now_utime resource : List Char) (bits : Nat)
    (ran0 ran1 ran2 : Nat) (fuel : Nat) (token : List Char) :
    Option (List (Nat × Nat) × Option (Nat × List Char)) :=
  mint_for
    (fun i0 token =>
      mint_for
        (fun i1 token =>
          some ([(i0, i1)],
            find_collision E now_utime resource bits token GROUP_SIZE
              (mint_counter ran0 ran1 ran2 i0 i1)))
        fuel 0 true token)
    fuel 0 true token

/-- A digest of twenty bytes `0xFF`, whatever the message. -/
def ffDigest : List Char → List Nat := fun _ => List.replicate 20 255

/-- The test that `find_collision` applies to candidate `j` of the group with
counter value `trial`: the acceptance test on the digest of the try string
with its last digit replaced by `hex[ j ]`, computed from the context over all
but the last character. -/
def candidate_accepted (E : Env) (bits : Nat) (fixed : List Char) (trial j : Nat) : Bool :=
  collision_test bits
    (E.SHA1_Final (E.SHA1_Update
      (E.SHA1_Update E.SHA1_Init
        ((fixed ++ sprintf_08x trial).take (fixed.length + GROUP_DIGITS - 1)))
      [hexdigit j]))

/-- The token that `find_collision` writes for candidate `j` of the group with
counter value `trial`. -/
def candidate_token (E : Env) (fixed : List Char) (trial j : Nat) : List Char :=
  sstrncpy ((fixed ++ sprintf_08x trial).set (fixed.length + (GROUP_DIGITS - 1)) (hexdigit j))
    E.MAX_TOK

/-- A digest of nineteen zero bytes and a one when the message ends in
`ffffffff`, and of twenty bytes `0xFF` otherwise. -/
def lastCandidateDigest : List Char → List Nat := fun m =>
  if m.drop (m.length - 8) = "ffffffff".toList then List.replicate 19 0 ++ [1]
  else List.replicate 20 255

/-! ## regexp_match and the macros of libhc.c -/

/-- Which of the macros `REGEXP_BSD` and `REGEXP_POSIX` is defined when
`regexp_match` is compiled. -/
inductive RegexpBuild where
  | REGEXP_BSD
  | REGEXP_POSIX
  | neither
  deriving DecidableEq

/-- The macros that `libhc.c` itself defines: `#define BSD_REGEXP` at its head,
which is neither `REGEXP_BSD` nor `REGEXP_POSIX`, the two names that
`regexp_match` tests. -/
def libhc_regexp_macros : RegexpBuild := RegexpBuild.neither

/-- Model of `regexp_match`: the return value and the content of `*err`
afterwards.  Under `REGEXP_BSD` and under `REGEXP_POSIX` the result comes from
the matcher of the platform (`re_comp` and `re_exec`, or `regcomp` and
`regexec`), which is the parameter `platform`; the `#else` branch stores its
message and returns 0. -/
def regexp_match (build : RegexpBuild)
    (platform : List Char → List Char → Option String → Int × Option String)
    (str regexp : List Char) (err : Option String) : Int × Option String :=
  match build with
  | RegexpBuild.REGEXP_BSD => platform str regexp err
  | RegexpBuild.REGEXP_POSIX => platform str regexp err
  | RegexpBuild.neither =>
    (0, some "regexps not supported on your platform, used -W wildcards")

/-! ## The candidates that the search hashes -/

/-- The candidate strings that the loop `for ( j = 0; j < 16; j++ )` of
`find_collision` hashes, in order, up to and including the one that is
accepted: candidate `j` is the try string with its last digit replaced by
`hex[ j ]` (the context over all but the last character, updated with that
character).  The first argument counts the iterations left. -/
def find_collision_group_tried (E : Env) (bits : Nat) (ctry : List Char) (try_len : Nat)
    (precomputed_ctx : E.SHA1_ctx) : Nat → Nat → List (List Char)
  | 0, _ => []
  | n + 1, j =>
    let ctx := precomputed_ctx
    let last_char := hexdigit j
    let ctx := E.SHA1_Update ctx [last_char]
    let try_digest := E.SHA1_Final ctx
    let candidate := ctry.set (try_len + (GROUP_DIGITS - 1)) last_char
    if collision_test bits try_digest then [candidate]
    else candidate :: find_collision_group_tried E bits ctry try_len precomputed_ctx n (j + 1)

/-- The candidate strings that the loop over the groups of `find_collision`
hashes, in order, up to and including the one that is accepted.  The first
argument counts the iterations left (`tries2 - i`). -/
def find_collision_loop_tried (E : Env) (bits : Nat) (fixed : List Char) :
    Nat → Nat → List (List Char)
  | 0, _ => []
  | n + 1, trial =>
    let try_len := fixed.length
    let try_strlen := try_len + GROUP_DIGITS
    let precomputed_ctx := E.SHA1_Init
    let ctry := fixed ++ sprintf_08x trial
    let precomputed_ctx := E.SHA1_Update precomputed_ctx (ctry.take (try_strlen - 1))
    let tried := find_collision_group_tried E bits ctry try_len precomputed_ctx 16 0
    match find_collision_group E bits ctry try_len precomputed_ctx 16 0 with
    | some _ => tried
    | none =>
      tried ++ find_collision_loop_tried E bits fixed n ((trial + 16) % (GROUP_SIZE + 1))

/-- The candidate strings that one call of `find_collision` hashes, in order;
the empty list where `find_collision` has no defined result. -/
def find_collision_tried (E : Env) (utct resource : List Char) (bits : Nat)
    (tries : Nat) (counter : List Char) : List (List Char) :=
  let ctry := ['0']
  let ctry := ctry ++ [':']
  let ctry := ctry ++ utct.take E.MAX_TOK
  let ctry := ctry ++ [':']
  let ctry := ctry ++ resource.take E.MAX_RES
  if bits > 8 * SHA1_DIGEST_BYTES then []
  else if counter.length < GROUP_DIGITS then []
  else
    let counter_len := counter.length - GROUP_DIGITS
    match E.sscanf_08x (counter.drop counter_len) with
    | none => []
    | some trial =>
      let trial := trial - trial % 16
      let ctry := ctry ++ [':']
      let ctry := ctry ++ counter.take counter_len
      let tries2 := (tries + 8) / 16
      find_collision_loop_tried E bits ctry tries2 trial

/-- The two nested loops of `hashcash_mint` with their flags; the log is the
list of the candidate strings hashed by the calls of `find_collision`, in
order. -/
def mint_tried (E : Env) (now_utime resource : List Char) (bits : Nat)
    (ran0 ran1 ran2 : Nat) (fuel : Nat) (token : List Char) :
    Option (List (List Char) × Option (Nat × List Char)) :=
  mint_for
    (fun i0 token =>
      mint_for
        (fun i1 token =>
          some (find_collision_tried E now_utime resource bits GROUP_SIZE
              (mint_counter ran0 ran1 ran2 i0 i1),
            find_collision E now_utime resource bits token GROUP_SIZE
              (mint_counter ran0 ran1 ran2 i0 i1)))
        fuel 0 true token)
    fuel 0 true token

/-- The part of the try string that one call of `find_collision` keeps fixed,
for the call that `hashcash_mint` makes with the loop variables `i0` and `i1`:
version, time stamp, resource and the first sixteen digits of the counter. -/
def mint_fixed (E : Env) (utct resource : List Char) (ran0 ran1 ran2 i0 i1 : Nat) :
    List Char :=
  ['0'] ++ [':'] ++ utct.take E.MAX_TOK ++ [':'] ++ resource.take E.MAX_RES ++ [':'] ++
    (mint_counter ran0 ran1 ran2 i0 i1).take 16

/-- The strings `fixed` followed by the eight digits of a counter value, for
the `16 * n` values from `trial` on, in increasing order with wrap-around at
`2^32`. -/
def search_candidates (fixed : List Char) (trial n : Nat) : List (List Char) :=
  (List.range (16 * n)).map (fun k => fixed ++ sprintf_08x ((trial + k) % (GROUP_SIZE + 1)))

/-- The 64 bytes at `block` when `hashcash_fastmint` calls the backend: the
block that starts at `t = tail - tail % SHA1_INPUT_BYTES`, after the padding
byte and the trailer are filled in (`tail` is the index after the count
field). -/
def fastmint_block (rand : Nat → Nat) (token_len : Nat) (buffer : Nat → Char) : List Char :=
  let laid := fastmint_layout rand token_len buffer
  let buffer := laid.1
  let tail := laid.2
  let t := tail - (tail % SHA1_INPUT_BYTES)
  let buffer := fastmint_trailer buffer tail
  peek buffer t SHA1_INPUT_BYTES

/-! ## sdb.c: the file behind a handle

The constants `MAX_KEY` and `MAX_VAL` of `sdb.h` are parameters.  A stream is
given by the bytes of its file, its position and its end-of-file indicator; the
calls of libc on it (`fseek`, `ftell`, `fprintf`, `ftruncate`) do not fail, so
that the `goto fail` paths that follow a failed call are not taken and `*err`
is 0 wherever `sdb.c` stores it. -/

/-- The macro `MAX_LINE` of `sdb.c`. -/
def MAX_LINE (MAX_KEY MAX_VAL : Nat) : Nat := MAX_KEY + MAX_VAL

/-- A stdio stream as `sdb.c` uses it: the bytes of the file, the position and
the end-of-file indicator. -/
structure SdbFile where
  content : List Char
  pos : Nat
  eof : Bool
  deriving DecidableEq

/-- The structure `DB`: `file` (`none` for `NULL`), `write_pos` and
`read_pos`; `filename` is not used by the functions modelled. -/
structure DB where
  file : Option SdbFile
  write_pos : Nat
  read_pos : Nat
  deriving DecidableEq

/-- The libc `rewind`. -/
def rewind (f : SdbFile) : SdbFile := { f with pos := 0, eof := false }

/-- The libc `fseek (f, off, SEEK_SET)`. -/
def fseek_set (f : SdbFile) (off : Nat) : SdbFile := { f with pos := off, eof := false }

/-- The libc `fseek (f, 0, SEEK_END)`. -/
def fseek_end (f : SdbFile) : SdbFile := { f with pos := f.content.length, eof := false }

/-- The characters that `fgets` stores when it may read up to `m` characters
of `rest`: it stops after a newline. -/
def fgets_line : Nat → List Char → List Char
  | 0, _ => []
  | _ + 1, [] => []
  | m + 1, c :: s => if c = '\n' then [c] else c :: fgets_line m s

/-- The libc `fgets (line, n, f)`: the string stored (`none` for `NULL`, at the
end of the file) and the stream afterwards.  At most `n - 1` characters are
read; the end-of-file indicator is set when the end of the file is met. -/
def fgets (n : Nat) (f : SdbFile) : Option (List Char) × SdbFile :=
  let rest := f.content.drop f.pos
  let line := fgets_line (n - 1) rest
  if line = [] ∧ 0 < n - 1 then (none, { f with eof := true })
  else
    (some line,
      { f with
        pos := f.pos + line.length
        eof := f.eof || (decide (line.length < n - 1) && decide (line.getLast? ≠ some '\n')) })

/-- The text that `fprintf (f, "%s %s\n", key, val)` writes. -/
def record_text (key val : List Char) : List Char := key ++ ' ' :: val ++ ['\n']

/-- A write of `data` at the position of the stream: the bytes there are
replaced, the file grows where the write passes its end (a gap before the
position reads as zero bytes), and the position moves past the data. -/
def fwrite_at (f : SdbFile) (data : List Char) : SdbFile :=
  { f with
    content :=
      f.content.take f.pos ++ List.replicate (f.pos - f.content.length) NUL ++ data ++
        f.content.drop (f.pos + data.length)
    pos := f.pos + data.length }

/-- The call `ftruncate (fileno (f), len)`: the file is cut, or extended with
zero bytes, to `len` bytes; the position of the stream stays. -/
def ftruncate (f : SdbFile) (len : Nat) : SdbFile :=
  { f with content := f.content.take len ++ List.replicate (len - f.content.length) NUL }

/-! ## sdb.c: the functions -/

/-- Model of `sdb_add` for a handle `h` that is not `NULL`: the return value
and the handle afterwards. -/
def sdb_add (MAX_KEY MAX_VAL : Nat) (h : DB) (key val : List Char) : Int × DB :=
  match h.file with
  | none => (0, h)
  | some f =>
    if key.length > MAX_KEY then (0, h)
    else if val.length > MAX_VAL then (0, h)
    else
      let f := fseek_end f
      let f := fwrite_at f (record_text key val)
      (1, { h with file := some f })

/-- One of the statements
`if ( line[line_len-1] == c ) { line[--line_len] = '\0'; }` of
`sdb_findnext`: `none` when `line_len` is 0, where the byte before the array
`line` is read. -/
def sdb_strip (line : List Char) (c : Char) : Option (List Char) :=
  if line = [] then none
  else if line.getLast? = some c then some line.dropLast
  else some line

/-- Model of `sdb_findnext`: the return value, the content of `key` and of
`val` and the handle afterwards (`key` and `val` are their contents before).
The result is `none` where a byte before the array `line` is read. -/
def sdb_findnext (MAX_KEY MAX_VAL : Nat) (h : DB) (key : List Char) (klen : Nat)
    (val : List Char) (vlen : Nat) : Option (Int × List Char × List Char × DB) :=
  match h.file with
  | none => some (0, key, val, h)
  | some f =>
    if f.eof then some (0, key, val, h)
    else
      let r := fgets (MAX_LINE MAX_KEY MAX_VAL) f
      let h := { h with file := some r.2 }
      match r.1 with
      | none => some (0, key, val, h)
      | some line =>
        let line := cstr line
        let line_len := line.length
        if line_len = 0 then some (0, key, val, h)
        else
          match (sdb_strip line '\n').bind
              (fun line => (sdb_strip line '\r').bind (fun line => sdb_strip line '\n')) with
          | none => none
          | some line =>
            let fields : List Char × List Char :=
              match strchr line ' ' with
              | some i => (line.take i, line.drop (i + 1))
              | none => (line, [])
            some (1, fields.1.take klen, fields.2.take vlen, h)

/-- Model of `sdb_findfirst` (`sdb_rewind`, then `sdb_findnext`); `none` also
for a handle whose `file` is `NULL`, which `rewind` dereferences. -/
def sdb_findfirst (MAX_KEY MAX_VAL : Nat) (h : DB) (key : List Char) (klen : Nat)
    (val : List Char) (vlen : Nat) : Option (Int × List Char × List Char × DB) :=
  match h.file with
  | none => none
  | some f =>
    sdb_findnext MAX_KEY MAX_VAL { h with file := some (rewind f), write_pos := 0 } key klen
      val vlen

/-- The callback `sdb_cb_keymatch` with the argument `arg`. -/
def sdb_cb_keymatch (MAX_KEY : Nat) (arg : List Char) (key _val : List Char) : Int :=
  if strncmp key arg MAX_KEY = 0 then 1 else 0

/-- The callback `sdb_cb_notkeymatch` with the argument `arg`, as
`sdb_updateiterate` calls it: the return value, `*err` and the content of
`val` afterwards. -/
def sdb_cb_notkeymatch (MAX_KEY : Nat) (arg : List Char) (key val : List Char) :
    Int × Int × List Char :=
  (if strncmp key arg MAX_KEY ≠ 0 then 1 else 0, 0, val)

/-- The loop of `sdb_callbacklookupnext`: the return value, the content of
`key` and of `val` and the handle afterwards.  `fkey` is the local array, which
is written before it is read.  The first argument bounds the number of
iterations: `none` when it is used up, and where `sdb_findnext` has no defined
result. -/
def sdb_callbacklookupnext_loop (MAX_KEY MAX_VAL : Nat) (cb : List Char → List Char → Int)
    (klen vlen : Nat) :
    Nat → DB → List Char → List Char → List Char → Option (Int × List Char × List Char × DB)
  | 0, _, _, _, _ => none
  | fuel + 1, h, key, fkey, val =>
    match sdb_findnext MAX_KEY MAX_VAL h fkey MAX_KEY val vlen with
    | none => none
    | some (found, fkey, val, h) =>
      if found = 0 then some (0, key, val, h)
      else if cb fkey val ≠ 0 then some (1, fkey.take klen, val, h)
      else sdb_callbacklookupnext_loop MAX_KEY MAX_VAL cb klen vlen fuel h key fkey val

/-- The number of bytes of the file behind a handle. -/
def sdb_file_length (h : DB) : Nat :=
  match h.file with
  | none => 0
  | some f => f.content.length

/-- Model of `sdb_callbacklookupnext`; each record read moves the position
forward, so that the loop ends within `sdb_file_length h + 1` iterations. -/
def sdb_callbacklookupnext (MAX_KEY MAX_VAL : Nat) (h : DB) (cb : List Char → List Char → Int)
    (key : List Char) (klen : Nat) (val : List Char) (vlen : Nat) :
    Option (Int × List Char × List Char × DB) :=
  sdb_callbacklookupnext_loop MAX_KEY MAX_VAL cb klen vlen (sdb_file_length h + 1) h key [] val

/-- Model of `sdb_callbacklookup`; `none` also for a handle whose `file` is
`NULL`, which `rewind` dereferences. -/
def sdb_callbacklookup (MAX_KEY MAX_VAL : Nat) (h : DB) (cb : List Char → List Char → Int)
    (key : List Char) (klen : Nat) (val : List Char) (vlen : Nat) :
    Option (Int × List Char × List Char × DB) :=
  match h.file with
  | none => none
  | some f =>
    sdb_callbacklookupnext MAX_KEY MAX_VAL { h with file := some (rewind f) } cb key klen val
      vlen

/-- Model of `sdb_lookup`: the return value, the content of `val` and the
handle afterwards. -/
def sdb_lookup (MAX_KEY MAX_VAL : Nat) (h : DB) (key : List Char) (val : List Char)
    (vlen : Nat) : Option (Int × List Char × DB) :=
  match sdb_callbacklookup MAX_KEY MAX_VAL h (sdb_cb_keymatch MAX_KEY key) [] MAX_KEY val
      vlen with
  | none => none
  | some (found, _, val, h) => some (found, val, h)

/-- Model of `sdb_insert` for a handle with a file: the handle afterwards (the
return value is 1). -/
def sdb_insert (h : DB) (f : SdbFile) (key val : List Char) : DB :=
  let res := f.pos
  let h := { h with read_pos := res }
  let f := fseek_set f h.write_pos
  let f := fwrite_at f (record_text key val)
  let res := f.pos
  let h := { h with write_pos := res }
  let f := fseek_set f h.read_pos
  { h with file := some f }

/-- The loop of `sdb_updateiterate` from the test of `found` on: `found`,
`fkey`, `fval` come from the last call of `sdb_findfirst` or `sdb_findnext`.
The result is 0 (`fail`) or 1 (the end of the loop), the handle, and the pairs
`(write_pos, read_pos)` left by the calls of `sdb_insert`, in order.  `cb`
gives the return value of the callback, `*err` and the content of `val`
afterwards.  The first argument bounds the number of iterations. -/
def sdb_updateiterate_loop (MAX_KEY MAX_VAL : Nat)
    (cb : List Char → List Char → Int × Int × List Char) :
    Nat → Int → List Char → List Char → DB → Option (Int × DB × List (Nat × Nat))
  | 0, _, _, _, _ => none
  | fuel + 1, found, fkey, fval, h =>
    if found = 0 then some (1, h, [])
    else
      let c := cb fkey fval
      let fval := c.2.2
      if c.1 ≠ 0 then
        if c.2.1 ≠ 0 then some (0, h, [])
        else
          match h.file with
          | none => none
          | some f =>
            let h := sdb_insert h f fkey fval
            match sdb_findnext MAX_KEY MAX_VAL h fkey MAX_KEY fval MAX_VAL with
            | none => none
            | some (found, fkey, fval, h1) =>
              match sdb_updateiterate_loop MAX_KEY MAX_VAL cb fuel found fkey fval h1 with
              | none => none
              | some (r, h2, log) => some (r, h2, (h.write_pos, h.read_pos) :: log)
      else if c.2.1 ≠ 0 then some (0, h, [])
      else
        match sdb_findnext MAX_KEY MAX_VAL h fkey MAX_KEY fval MAX_VAL with
        | none => none
        | some (found, fkey, fval, h1) =>
          sdb_updateiterate_loop MAX_KEY MAX_VAL cb fuel found fkey fval h1

/-- Model of `sdb_updateiterate`: the return value, the handle afterwards and
the pairs `(write_pos, read_pos)` left by the calls of `sdb_insert`.  The
arrays `fkey` and `fval` are written before they are read. -/
def sdb_updateiterate (MAX_KEY MAX_VAL : Nat) (h : DB)
    (cb : List Char → List Char → Int × Int × List Char) :
    Option (Int × DB × List (Nat × Nat)) :=
  match sdb_findfirst MAX_KEY MAX_VAL h [] MAX_KEY [] MAX_VAL with
  | none => none
  | some (found, fkey, fval, h1) =>
    match sdb_updateiterate_loop MAX_KEY MAX_VAL cb (sdb_file_length h + 2) found fkey fval
        h1 with
    | none => none
    | some (r, h2, log) =>
      if r = 0 then some (0, h2, log)
      else
        match h2.file with
        | none => none
        | some f => some (1, { h2 with file := some (ftruncate f h2.write_pos) }, log)

/-- Model of `sdb_del`. -/
def sdb_del (MAX_KEY MAX_VAL : Nat) (h : DB) (key : List Char) :
    Option (Int × DB × List (Nat × Nat)) :=
  sdb_updateiterate MAX_KEY MAX_VAL h (sdb_cb_notkeymatch MAX_KEY key)

/-- The file that a sequence of successful `sdb_add` calls writes: the texts of
the records, in order. -/
def sdb_store (recs : List (List Char × List Char)) : List Char :=
  recs.flatMap (fun r => record_text r.1 r.2)

/-- A record that `sdb_findnext` reads back as it was written, for the limits
`MAX_KEY` and `MAX_VAL`: key and value within their limits and without
newline or NUL, no space in the key, no carriage return at the end of the
value, and the line, with its newline, within the `MAX_LINE - 1` characters
that `fgets` reads. -/
@[reducible] def sdb_wellformed (MAX_KEY MAX_VAL : Nat) (r : List Char × List Char) : Prop :=
  r.1.length ≤ MAX_KEY ∧ r.2.length ≤ MAX_VAL ∧
    r.1.length + r.2.length + 2 < MAX_LINE MAX_KEY MAX_VAL ∧
    (∀ c ∈ r.1, c ≠ ' ' ∧ c ≠ '\n' ∧ c ≠ NUL) ∧ (∀ c ∈ r.2, c ≠ '\n' ∧ c ≠ NUL) ∧
    r.2.getLast? ≠ some '\r'

/-! ## Facts about the string primitives -/

theorem strchr_none {s : List Char} {c : Char} : strchr s c = none ↔ c ∉ s := by
  induction s with
  | nil => simp [strchr]
  | cons a s ih =>
    by_cases h : a = c
    · simp [strchr, h]
    · simp [strchr, h, ih, Ne.symm h]

theorem strchr_some {s : List Char} {c : Char} {i : Nat} (h : strchr s c = some i) :
    s = s.take i ++ c :: s.drop (i + 1) ∧ c ∉ s.take i := by
  induction s generalizing i with
  | nil => simp [strchr] at h
  | cons a s ih =>
    by_cases hac : a = c
    · simp [strchr, hac] at h
      subst h
      simp [hac]
    · simp only [strchr, hac, if_false, Option.map_eq_some'] at h
      obtain ⟨j, hj, rfl⟩ := h
      obtain ⟨h1, h2⟩ := ih hj
      refine ⟨?_, ?_⟩
      · simp only [List.take_succ_cons, List.drop_succ_cons, List.cons_append]
        rw [← h1]
      · simp only [List.take_succ_cons, List.mem_cons, not_or]
        exact ⟨Ne.symm hac, h2⟩

theorem strchr_lt {s : List Char} {c : Char} {i : Nat} (h : strchr s c = some i) :
    i < s.length := by
  induction s generalizing i with
  | nil => simp [strchr] at h
  | cons a s ih =>
    by_cases hac : a = c
    · simp [strchr, hac] at h
      subst h
      simp
    · simp only [strchr, hac, if_false, Option.map_eq_some'] at h
      obtain ⟨j, hj, rfl⟩ := h
      have := ih hj
      simp
      omega

theorem strncmp_eq_zero (pos term : List Char) :
    strncmp pos term term.length = 0 ↔ term <+: pos := by
  induction term generalizing pos with
  | nil => simp [strncmp]
  | cons b t ih =>
    cases pos with
    | nil => simp [strncmp]
    | cons a p =>
      by_cases hab : a = b
      · subst hab
        simp [strncmp, ih, List.cons_prefix_cons]
      · have hba : ¬ b = a := fun h => hab h.symm
        simp only [List.length_cons, strncmp, hab, if_false, List.cons_prefix_cons, hba,
          false_and, iff_false]
        split <;> decide

theorem strcmp_eq_zero (s1 s2 : List Char) : strcmp s1 s2 = 0 ↔ s1 = s2 := by
  induction s1 generalizing s2 with
  | nil => cases s2 <;> simp [strcmp]
  | cons a s1 ih =>
    cases s2 with
    | nil => simp [strcmp]
    | cons b s2 =>
      by_cases hab : a = b
      · subst hab
        simp [strcmp, ih]
      · simp only [strcmp, hab, if_false, List.cons.injEq, false_and, iff_false]
        split <;> decide

theorem strrstr_cmp_iff (a b : List Char) : strrstr_cmp a b = true ↔ b <+: a := by
  induction b generalizing a with
  | nil => simp [strrstr_cmp]
  | cons y b ih =>
    cases a with
    | nil => simp [strrstr_cmp]
    | cons x a =>
      by_cases hxy : x = y
      · subst hxy
        simp [strrstr_cmp, ih, List.cons_prefix_cons]
      · have hyx : ¬ y = x := fun h => hxy h.symm
        simp [strrstr_cmp, hxy, hyx, List.cons_prefix_cons]

theorem strrstr_loop_some {s1 s2 : List Char} {n k : Nat} (h : strrstr_loop s1 s2 n = some k) :
    k < n ∧ s2 <+: s1.drop k := by
  induction n with
  | zero => simp [strrstr_loop] at h
  | succ n ih =>
    unfold strrstr_loop at h
    split at h
    · rename_i hc
      simp only [Option.some.injEq] at h
      subst h
      exact ⟨Nat.lt_succ_self _, (strrstr_cmp_iff _ _).1 hc⟩
    · obtain ⟨h1, h2⟩ := ih h
      exact ⟨Nat.lt_succ_of_lt h1, h2⟩

theorem strrstr_loop_none {s1 s2 : List Char} {n : Nat} (h : strrstr_loop s1 s2 n = none) :
    ∀ j, j < n → ¬ s2 <+: s1.drop j := by
  induction n with
  | zero => intro j hj; omega
  | succ n ih =>
    unfold strrstr_loop at h
    split at h
    · simp at h
    · rename_i hc
      intro j hj
      rcases Nat.lt_succ_iff_lt_or_eq.1 hj with hlt | heq
      · exact ih h j hlt
      · subst heq
        intro hp
        exact hc ((strrstr_cmp_iff _ _).2 hp)

/-- The loop of `strrstr` returns the largest offset below `n` at which `s2`
occurs. -/
theorem strrstr_loop_last {s1 s2 : List Char} {n k : Nat} (h : strrstr_loop s1 s2 n = some k) :
    ∀ j, k < j → j < n → ¬ s2 <+: s1.drop j := by
  induction n with
  | zero => simp [strrstr_loop] at h
  | succ n ih =>
    unfold strrstr_loop at h
    split at h
    · simp only [Option.some.injEq] at h
      subst h
      intro j h1 h2
      omega
    · rename_i hc
      intro j h1 h2
      rcases Nat.lt_succ_iff_lt_or_eq.1 h2 with hlt | heq
      · exact ih h j h1 hlt
      · subst heq
        intro hp
        exact hc ((strrstr_cmp_iff _ _).2 hp)

/-- For a non-empty `term`: `strrstr` finds an occurrence that ends the string
exactly when the string ends with `term`. -/
theorem strrstr_suffix (pos term : List Char) (hne : term ≠ []) :
    (∃ k, strrstr pos term = some k ∧ pos.drop (k + term.length) = []) ↔ term <:+ pos := by
  simp only [strrstr, hne, if_false]
  constructor
  · rintro ⟨k, hk, hd⟩
    obtain ⟨_, t, ht⟩ := strrstr_loop_some hk
    have h1 : pos.drop (k + term.length) = t := by
      rw [← List.drop_drop, ← ht]
      simp
    rw [hd] at h1
    subst h1
    rw [List.append_nil] at ht
    exact ⟨pos.take k, by rw [ht, List.take_append_drop]⟩
  · rintro ⟨g, rfl⟩
    have hlen : 0 < term.length := List.length_pos.2 hne
    have hpre : term <+: (g ++ term).drop g.length := by simp
    cases hk : strrstr_loop (g ++ term) term (g ++ term).length with
    | none =>
      exact absurd hpre (strrstr_loop_none hk g.length (by simp; omega))
    | some k =>
      refine ⟨k, rfl, ?_⟩
      obtain ⟨hkn, t, ht⟩ := strrstr_loop_some hk
      have hle : g.length ≤ k := by
        by_contra hlt
        exact strrstr_loop_last hk g.length (by omega) (by simp; omega) hpre
      apply List.drop_eq_nil_of_le
      simp
      omega

theorem strstr_some {s1 s2 : List Char} {k : Nat} (h : strstr s1 s2 = some k) :
    s2 <+: s1.drop k ∧ ∀ g t, s1 = g ++ s2 ++ t → k ≤ g.length := by
  induction s1 generalizing k with
  | nil =>
    simp only [strstr] at h
    split at h
    · rename_i h2
      simp only [Option.some.injEq] at h
      subst h; subst h2
      simp
    · simp at h
  | cons a s1 ih =>
    unfold strstr at h
    split at h
    · rename_i hp
      simp only [Option.some.injEq] at h
      subst h
      exact ⟨by simpa using List.isPrefixOf_iff_prefix.1 hp, fun _ _ _ => Nat.zero_le _⟩
    · rename_i hp
      simp only [Option.map_eq_some'] at h
      obtain ⟨j, hj, rfl⟩ := h
      obtain ⟨h1, h2⟩ := ih hj
      refine ⟨by simpa using h1, ?_⟩
      intro g t hg
      cases g with
      | nil =>
        exfalso
        apply hp
        rw [List.isPrefixOf_iff_prefix]
        exact ⟨t, by simpa using hg.symm⟩
      | cons x g =>
        simp only [List.cons_append, List.cons.injEq] at hg
        have := h2 g t (by simpa using hg.2)
        simp
        omega

theorem strstr_none {s1 s2 : List Char} (h : strstr s1 s2 = none) :
    ∀ g t, s1 ≠ g ++ s2 ++ t := by
  induction s1 with
  | nil =>
    simp only [strstr] at h
    split at h
    · simp at h
    · rename_i h2
      intro g t hg
      apply h2
      have := congrArg List.length hg
      simp at this
      exact List.eq_nil_of_length_eq_zero (by omega)
  | cons a s1 ih =>
    unfold strstr at h
    split at h
    · simp at h
    · rename_i hp
      simp only [Option.map_eq_none'] at h
      intro g t hg
      cases g with
      | nil =>
        apply hp
        rw [List.isPrefixOf_iff_prefix]
        exact ⟨t, by simpa using hg.symm⟩
      | cons x g =>
        simp only [List.cons_append, List.cons.injEq] at hg
        exact ih h g t (by simpa using hg.2)

/-! ## One iteration of the loop of `wild_match` -/

theorem wild_match_loop_last (fuel : Nat) (ptr pos : List Char) (first : Bool)
    (hs : strchr ptr '*' = none) :
    wild_match_loop (fuel + 1) ptr pos first =
      if ptr ≠ [] then
        if first then
          if strncmp pos ptr ptr.length ≠ 0 then 0
          else if pos.drop ptr.length ≠ [] then 0 else 1
        else
          match strrstr pos ptr with
          | none => 0
          | some k => if pos.drop (k + ptr.length) ≠ [] then 0 else 1
      else 1 := by
  simp [wild_match_loop, hs]

theorem wild_match_loop_star (fuel : Nat) (ptr pos : List Char) (first : Bool) (i : Nat)
    (hs : strchr ptr '*' = some i) :
    wild_match_loop (fuel + 1) ptr pos first =
      if ptr.take i ≠ [] then
        if first then
          if strncmp pos (ptr.take i) (ptr.take i).length ≠ 0 then 0
          else wild_match_loop fuel (ptr.drop (i + 1)) (pos.drop (ptr.take i).length) false
        else
          match strstr pos (ptr.take i) with
          | none => 0
          | some k =>
            wild_match_loop fuel (ptr.drop (i + 1)) (pos.drop (k + (ptr.take i).length)) false
      else wild_match_loop fuel (ptr.drop (i + 1)) pos false := by
  simp [wild_match_loop, hs]

/-! ## Facts about the reference glob semantics -/

theorem glob_nil_iff (s : List Char) : GlobMatch [] s ↔ s = [] := by
  constructor
  · intro h
    cases h
    rfl
  · rintro rfl
    exact GlobMatch.nil

theorem glob_star_iff (p s : List Char) :
    GlobMatch ('*' :: p) s ↔ ∃ g t, s = g ++ t ∧ GlobMatch p t := by
  constructor
  · intro h
    cases h with
    | star _ t g ht => exact ⟨g, t, rfl, ht⟩
    | char _ _ _ hc _ => exact absurd rfl hc
  · rintro ⟨g, t, rfl, ht⟩
    exact GlobMatch.star p t g ht

theorem glob_char_iff (c : Char) (p s : List Char) (hc : c ≠ '*') :
    GlobMatch (c :: p) s ↔ ∃ t, s = c :: t ∧ GlobMatch p t := by
  constructor
  · intro h
    cases h with
    | star _ t g ht => exact absurd rfl hc
    | char _ _ t _ ht => exact ⟨t, rfl, ht⟩
  · rintro ⟨t, rfl, ht⟩
    exact GlobMatch.char c p t hc ht

theorem glob_term_append (term p s : List Char) (hterm : '*' ∉ term) :
    GlobMatch (term ++ p) s ↔ ∃ t, s = term ++ t ∧ GlobMatch p t := by
  induction term generalizing s with
  | nil => simp
  | cons c term ih =>
    have hc : c ≠ '*' := fun h => hterm (by simp [h])
    have hrest : '*' ∉ term := fun h => hterm (List.mem_cons_of_mem _ h)
    rw [List.cons_append, glob_char_iff c _ s hc]
    constructor
    · rintro ⟨t, rfl, ht⟩
      obtain ⟨u, rfl, hu⟩ := (ih t hrest).1 ht
      exact ⟨u, rfl, hu⟩
    · rintro ⟨u, rfl, hu⟩
      exact ⟨term ++ u, rfl, (ih _ hrest).2 ⟨u, rfl, hu⟩⟩

theorem glob_term_iff (term s : List Char) (hterm : '*' ∉ term) :
    GlobMatch term s ↔ s = term := by
  have h := glob_term_append term [] s hterm
  rw [List.append_nil] at h
  rw [h]
  constructor
  · rintro ⟨t, rfl, ht⟩
    rw [(glob_nil_iff t).1 ht, List.append_nil]
  · rintro rfl
    exact ⟨[], by simp, GlobMatch.nil⟩

theorem glob_star_absorb (p s g : List Char) (h : GlobMatch ('*' :: p) s) :
    GlobMatch ('*' :: p) (g ++ s) := by
  obtain ⟨g1, t, rfl, ht⟩ := (glob_star_iff p s).1 h
  rw [← List.append_assoc]
  exact GlobMatch.star p t (g ++ g1) ht

theorem glob_star_star (p s : List Char) :
    GlobMatch ('*' :: '*' :: p) s ↔ GlobMatch ('*' :: p) s := by
  constructor
  · intro h
    obtain ⟨g, t, rfl, ht⟩ := (glob_star_iff _ s).1 h
    exact glob_star_absorb p t g ht
  · intro h
    have := GlobMatch.star ('*' :: p) s [] h
    simpa using this

theorem glob_star_only (s : List Char) : GlobMatch ['*'] s := by
  have := GlobMatch.star [] [] s GlobMatch.nil
  simpa using this

/-! ## The loop of `wild_match` against the reference -/

/-- After the first segment the loop decides the rest of the pattern as if it
were preceded by a `*`. -/
theorem wild_match_loop_middle (fuel : Nat) :
    ∀ ptr pos : List Char, ptr.length < fuel →
      (wild_match_loop fuel ptr pos false = 1 ↔ GlobMatch ('*' :: ptr) pos) := by
  induction fuel with
  | zero => intro ptr pos h; omega
  | succ fuel ih =>
    intro ptr pos hlen
    cases hs : strchr ptr '*' with
    | none =>
      have hns : '*' ∉ ptr := strchr_none.1 hs
      rw [wild_match_loop_last fuel ptr pos false hs]
      by_cases hp : ptr = []
      · subst hp
        simp [glob_star_only]
      · have hsuf := strrstr_suffix pos ptr hp
        have hglob : GlobMatch ('*' :: ptr) pos ↔ ptr <:+ pos := by
          rw [glob_star_iff]
          constructor
          · rintro ⟨g, t, rfl, ht⟩
            rw [(glob_term_iff ptr t hns).1 ht]
            exact ⟨g, rfl⟩
          · rintro ⟨g, rfl⟩
            exact ⟨g, ptr, rfl, (glob_term_iff ptr ptr hns).2 rfl⟩
        rw [hglob, ← hsuf]
        simp only [hp, ne_eq, not_false_eq_true, if_true, Bool.false_eq_true, if_false]
        cases hk : strrstr pos ptr with
        | none => simp
        | some k =>
          by_cases hd : pos.drop (k + ptr.length) = []
          · simp only [hd, ne_eq, not_true_eq_false, if_false, true_iff]
            exact ⟨k, rfl, hd⟩
          · simp only [hd, ne_eq, not_false_eq_true, if_true, zero_ne_one, false_iff]
            rintro ⟨j, hj, hd2⟩
            cases hj
            exact hd hd2
    | some i =>
      obtain ⟨hsplit, hterm⟩ := strchr_some hs
      rw [wild_match_loop_star fuel ptr pos false i hs]
      have hrest : (ptr.drop (i + 1)).length < fuel := by
        have := strchr_lt hs
        simp only [List.length_drop]
        omega
      by_cases ht : ptr.take i = []
      · simp only [ht, ne_eq, not_true_eq_false, if_false]
        rw [ih _ _ hrest]
        have : ptr = '*' :: ptr.drop (i + 1) := by
          conv_lhs => rw [hsplit, ht]
          simp
        conv_rhs => rw [this]
        exact (glob_star_star _ _).symm
      · simp only [ht, ne_eq, not_false_eq_true, if_true, Bool.false_eq_true, if_false]
        have hglob : GlobMatch ('*' :: ptr) pos ↔
            ∃ g t, pos = g ++ ptr.take i ++ t ∧ GlobMatch ('*' :: ptr.drop (i + 1)) t := by
          conv_lhs => rw [hsplit]
          rw [glob_star_iff]
          constructor
          · rintro ⟨g, t, rfl, hm⟩
            obtain ⟨u, rfl, hu⟩ := (glob_term_append _ _ t hterm).1 hm
            exact ⟨g, u, by simp, hu⟩
          · rintro ⟨g, t, rfl, hm⟩
            exact ⟨g, ptr.take i ++ t, by simp, (glob_term_append _ _ _ hterm).2 ⟨t, rfl, hm⟩⟩
        rw [hglob]
        cases hk : strstr pos (ptr.take i) with
        | none =>
          simp only [zero_ne_one, false_iff, not_exists, not_and]
          intro g t hg
          exact absurd hg (strstr_none hk g t)
        | some k =>
          simp only
          rw [ih _ _ hrest]
          obtain ⟨⟨u, hu⟩, hmin⟩ := strstr_some hk
          have hdrop : pos.drop (k + (ptr.take i).length) = u := by
            rw [← List.drop_drop, ← hu]
            simp
          have hpos : pos = pos.take k ++ ptr.take i ++ u := by
            rw [List.append_assoc, hu, List.take_append_drop]
          rw [hdrop]
          constructor
          · intro hm
            exact ⟨pos.take k, u, hpos, hm⟩
          · rintro ⟨g, t, hg, hm⟩
            have hle := hmin g t hg
            have hu2 : u = (pos.drop (k + (ptr.take i).length)) := hdrop.symm
            have : u = (g ++ ptr.take i).drop (k + (ptr.take i).length) ++ t := by
              rw [hu2, hg, List.drop_append_of_le_length]
              simp
              omega
            rw [this]
            exact glob_star_absorb _ _ _ hm

/-- On a non-empty pattern the loop, entered with `first` set, decides the
reference glob semantics. -/
theorem wild_match_loop_first (fuel : Nat) (ptr pos : List Char) (hne : ptr ≠ [])
    (hlen : ptr.length < fuel) :
    wild_match_loop fuel ptr pos true = 1 ↔ GlobMatch ptr pos := by
  cases fuel with
  | zero => omega
  | succ fuel =>
    cases hs : strchr ptr '*' with
    | none =>
      have hns : '*' ∉ ptr := strchr_none.1 hs
      rw [wild_match_loop_last fuel ptr pos true hs, glob_term_iff ptr pos hns]
      simp only [hne, ne_eq, not_false_eq_true, if_true]
      by_cases hc : strncmp pos ptr ptr.length = 0
      · obtain ⟨t, rfl⟩ := (strncmp_eq_zero pos ptr).1 hc
        simp only [hc, not_true_eq_false, if_false, List.drop_left]
        by_cases ht : t = []
        · simp [ht]
        · simp [ht]
      · simp only [hc, not_false_eq_true, if_true, zero_ne_one, false_iff]
        intro heq
        rw [heq] at hc
        exact hc ((strncmp_eq_zero ptr ptr).2 (List.prefix_refl _))
    | some i =>
      obtain ⟨hsplit, hterm⟩ := strchr_some hs
      rw [wild_match_loop_star fuel ptr pos true i hs]
      have hrest : (ptr.drop (i + 1)).length < fuel := by
        have := strchr_lt hs
        simp only [List.length_drop]
        omega
      by_cases ht : ptr.take i = []
      · simp only [ht, ne_eq, not_true_eq_false, if_false]
        rw [wild_match_loop_middle fuel _ _ hrest]
        have : ptr = '*' :: ptr.drop (i + 1) := by
          conv_lhs => rw [hsplit, ht]
          simp
        conv_rhs => rw [this]
      · simp only [ht, ne_eq, not_false_eq_true, if_true]
        conv_rhs => rw [hsplit]
        rw [glob_term_append _ _ _ hterm]
        by_cases hc : strncmp pos (ptr.take i) (ptr.take i).length = 0
        · obtain ⟨t, ht2⟩ := (strncmp_eq_zero pos _).1 hc
          simp only [hc, not_true_eq_false, if_false]
          rw [wild_match_loop_middle fuel _ _ hrest]
          have hd : pos.drop (ptr.take i).length = t := by
            rw [← ht2]
            simp
          rw [hd]
          constructor
          · intro hm
            exact ⟨t, ht2.symm, hm⟩
          · rintro ⟨u, hu, hm⟩
            rw [← ht2] at hu
            rw [List.append_cancel_left hu]
            exact hm
        · simp only [hc, not_false_eq_true, if_true, zero_ne_one, false_iff, not_exists, not_and]
          intro t ht2
          exact absurd ((strncmp_eq_zero pos _).2 ⟨t, ht2.symm⟩) hc

/-- The model of `wild_match` returns `0` or `1`. -/
theorem wild_match_loop_bool (fuel : Nat) :
    ∀ (ptr pos : List Char) (first : Bool),
      wild_match_loop fuel ptr pos first = 0 ∨ wild_match_loop fuel ptr pos first = 1 := by
  induction fuel with
  | zero => intro _ _ _; left; rfl
  | succ fuel ih =>
    intro ptr pos first
    cases hs : strchr ptr '*' with
    | none =>
      rw [wild_match_loop_last fuel ptr pos first hs]
      repeat' split
      all_goals simp
    | some i =>
      rw [wild_match_loop_star fuel ptr pos first i hs]
      repeat' split
      all_goals first | exact ih _ _ _ | simp

theorem wild_match_bool (pat str : List Char) : wild_match pat str = 0 ∨ wild_match pat str = 1 :=
  wild_match_loop_bool _ _ _ _

theorem wild_match_glob (pat str : List Char) (hne : pat ≠ []) :
    wild_match pat str = 1 ↔ GlobMatch pat str :=
  wild_match_loop_first _ pat str hne (Nat.lt_succ_self _)

/-! ## email_match -/

theorem dotLabels_ne_nil (s : List Char) : dotLabels s ≠ [] := by
  induction s with
  | nil => simp [dotLabels]
  | cons c s ih =>
    unfold dotLabels
    split
    · simp
    · split <;> simp

theorem dotLabels_last {s : List Char} (h : strchr s '.' = none) : dotLabels s = [s] := by
  induction s with
  | nil => rfl
  | cons c s ih =>
    by_cases hc : c = '.'
    · simp [strchr, hc] at h
    · simp only [strchr, hc, if_false, Option.map_eq_none'] at h
      simp [dotLabels, hc, ih h]

theorem dotLabels_dot {s : List Char} {i : Nat} (h : strchr s '.' = some i) :
    dotLabels s = s.take i :: dotLabels (s.drop (i + 1)) := by
  induction s generalizing i with
  | nil => simp [strchr] at h
  | cons c s ih =>
    by_cases hc : c = '.'
    · simp [strchr, hc] at h
      subst h
      simp [dotLabels, hc]
    · simp only [strchr, hc, if_false, Option.map_eq_some'] at h
      obtain ⟨j, hj, rfl⟩ := h
      simp [dotLabels, hc, ih hj]

/-- The label loop of `email_match` succeeds exactly when the two domains have
the same number of labels and `wild_match` accepts them pairwise. -/
theorem email_match_loop_iff (fuel : Nat) :
    ∀ pd ed : List Char, pd.length < fuel →
      (email_match_loop fuel pd ed = 1 ↔
        List.Forall₂ (fun p e => wild_match p e = 1) (dotLabels pd) (dotLabels ed)) := by
  induction fuel with
  | zero => intro pd ed h; omega
  | succ fuel ih =>
    intro pd ed hlen
    unfold email_match_loop
    cases hp : strchr pd '.' with
    | none =>
      rw [dotLabels_last hp]
      cases he : strchr ed '.' with
      | none =>
        rw [dotLabels_last he]
        rcases wild_match_bool pd ed with h0 | h1
        · simp [h0]
        · simp [h1]
      | some j =>
        rw [dotLabels_dot he]
        have := dotLabels_ne_nil (ed.drop (j + 1))
        by_cases h0 : wild_match pd (ed.take j) = 0
        · simp [h0, this]
        · simp [h0, this]
    | some i =>
      rw [dotLabels_dot hp]
      have hrest : (pd.drop (i + 1)).length < fuel := by
        have := strchr_lt hp
        simp only [List.length_drop]
        omega
      cases he : strchr ed '.' with
      | none =>
        rw [dotLabels_last he]
        have := dotLabels_ne_nil (pd.drop (i + 1))
        by_cases h0 : wild_match (pd.take i) ed = 0
        · simp [h0, this]
        · simp [h0, this]
      | some j =>
        rw [dotLabels_dot he]
        rcases wild_match_bool (pd.take i) (ed.take j) with h0 | h1
        · simp [h0]
        · simp [h1, ih _ _ hrest]

theorem forall₂_iff_zip {α β : Type} (R : α → β → Prop) (l1 : List α) (l2 : List β) :
    List.Forall₂ R l1 l2 ↔ l1.length = l2.length ∧ ∀ pe ∈ List.zip l1 l2, R pe.1 pe.2 := by
  rw [List.forall₂_iff_zip]
  constructor
  · rintro ⟨h1, h2⟩
    exact ⟨h1, fun pe hpe => h2 hpe⟩
  · rintro ⟨h1, h2⟩
    exact ⟨h1, fun {a b} hab => h2 (a, b) hab⟩

theorem strtok_user (u d : List Char) (hu : u ≠ []) (hat : '@' ∉ u) :
    strtok (u ++ '@' :: d) '@' = some (u, d) := by
  cases u with
  | nil => exact absurd rfl hu
  | cons a u =>
    have ha : a ≠ '@' := fun h => hat (by simp [h])
    have hu2 : ∀ x ∈ a :: u, (decide (x ≠ '@')) = true := by
      intro x hx
      simp only [ne_eq, decide_not, Bool.not_eq_true', decide_eq_false_iff_not]
      rintro rfl
      exact hat hx
    have htw : List.takeWhile (fun x => decide (x ≠ '@')) ((a :: u) ++ '@' :: d) = a :: u := by
      rw [List.takeWhile_append_of_pos hu2]
      simp
    have hdw : List.dropWhile (fun x => decide (x ≠ '@')) ((a :: u) ++ '@' :: d) = '@' :: d := by
      rw [List.dropWhile_append_of_pos hu2]
      simp
    have h0 : List.dropWhile (fun x => decide (x = '@')) ((a :: u) ++ '@' :: d)
        = (a :: u) ++ '@' :: d := by
      simp [List.dropWhile, ha]
    unfold strtok
    simp only [h0, htw, hdw]
    simp

theorem strtok_no_delim (s : List Char) (hs : s ≠ []) (hat : '@' ∉ s) :
    strtok s '@' = some (s, []) := by
  cases s with
  | nil => exact absurd rfl hs
  | cons a u =>
    have ha : a ≠ '@' := fun h => hat (by simp [h])
    have hu2 : ∀ x ∈ a :: u, (decide (x ≠ '@')) = true := by
      intro x hx
      simp only [ne_eq, decide_not, Bool.not_eq_true', decide_eq_false_iff_not]
      rintro rfl
      exact hat hx
    have htw : List.takeWhile (fun x => decide (x ≠ '@')) (a :: u) = a :: u :=
      List.takeWhile_eq_self_iff.2 hu2
    have hdw : List.dropWhile (fun x => decide (x ≠ '@')) (a :: u) = [] :=
      List.dropWhile_eq_nil_iff.2 hu2
    have h0 : List.dropWhile (fun x => decide (x = '@')) (a :: u) = a :: u := by
      simp [List.dropWhile, ha]
    unfold strtok
    simp only [h0, htw, hdw]
    simp

theorem strtok_nil : strtok [] '@' = none := rfl

theorem email_match_no_at (MAX_RES : Nat) (email pattern : List Char)
    (h : '@' ∉ email ∨ '@' ∉ pattern) : email_match MAX_RES email pattern = 0 := by
  have key : ∀ s : List Char, '@' ∉ s →
      strtok s '@' = none ∨ strtok s '@' = some (s, []) := by
    intro s hs
    by_cases h0 : s = []
    · left; rw [h0]; rfl
    · right; exact strtok_no_delim s h0 hs
  unfold email_match sstrncpy
  rcases h with h | h
  · have hnot : '@' ∉ email.take MAX_RES := fun hm => h (List.mem_of_mem_take hm)
    cases hp1 : strtok (pattern.take MAX_RES) '@' with
    | none => simp [hp1]
    | some r1 =>
      obtain ⟨pu, prest⟩ := r1
      cases hp2 : strtok prest '@' with
      | none => simp [hp1, hp2]
      | some r2 =>
        obtain ⟨pd, x⟩ := r2
        rcases key _ hnot with he | he
        · simp [hp1, hp2, he]
        · simp [hp1, hp2, he, strtok_nil]
  · have hnot : '@' ∉ pattern.take MAX_RES := fun hm => h (List.mem_of_mem_take hm)
    rcases key _ hnot with he | he
    · simp [he]
    · simp [he, strtok_nil]

theorem email_match_split (MAX_RES : Nat) (eu ed pu pd : List Char)
    (heu : eu ≠ []) (hed : ed ≠ []) (hpu : pu ≠ []) (hpd : pd ≠ [])
    (hateu : '@' ∉ eu) (hated : '@' ∉ ed) (hatpu : '@' ∉ pu) (hatpd : '@' ∉ pd)
    (hle : (eu ++ '@' :: ed).length ≤ MAX_RES) (hlp : (pu ++ '@' :: pd).length ≤ MAX_RES) :
    email_match MAX_RES (eu ++ '@' :: ed) (pu ++ '@' :: pd) = 1 ↔
      wild_match pu eu = 1 ∧ (dotLabels pd).length = (dotLabels ed).length ∧
        ∀ pe ∈ List.zip (dotLabels pd) (dotLabels ed), wild_match pe.1 pe.2 = 1 := by
  unfold email_match sstrncpy
  rw [List.take_of_length_le hle, List.take_of_length_le hlp]
  simp only [strtok_user pu pd hpu hatpu, strtok_user eu ed heu hateu,
    strtok_no_delim pd hpd hatpd, strtok_no_delim ed hed hated]
  have hz := forall₂_iff_zip (fun p e => wild_match p e = 1) (dotLabels pd) (dotLabels ed)
  rw [← hz]
  rcases wild_match_bool pu eu with h0 | h1
  · simp [h0]
  · simp [h1, email_match_loop_iff _ pd ed (Nat.lt_succ_self _)]

/-! ## Claims on the matchers -/

/-- C8: for an email `eu@ed` and a pattern `pu@pd` (one `@` each, both parts
non-empty, at most `MAX_RES` characters), `email_match` returns 1 exactly when
`wild_match` accepts the user part, the two domains have the same number of
dot-separated labels and `wild_match` accepts the labels pairwise; without an
`@` on either side it returns 0; `*@*.example.com` matches
`alice@mail.example.com` and rejects `alice@example.org`. -/
theorem email_match_contract (MAX_RES : Nat) :
    (∀ eu ed pu pd : List Char,
      eu ≠ [] → ed ≠ [] → pu ≠ [] → pd ≠ [] →
      '@' ∉ eu → '@' ∉ ed → '@' ∉ pu → '@' ∉ pd →
      (eu ++ '@' :: ed).length ≤ MAX_RES → (pu ++ '@' :: pd).length ≤ MAX_RES →
      (email_match MAX_RES (eu ++ '@' :: ed) (pu ++ '@' :: pd) = 1 ↔
        wild_match pu eu = 1 ∧ (dotLabels pd).length = (dotLabels ed).length ∧
          ∀ pe ∈ List.zip (dotLabels pd) (dotLabels ed), wild_match pe.1 pe.2 = 1)) ∧
    (∀ email pattern : List Char, '@' ∉ email ∨ '@' ∉ pattern →
      email_match MAX_RES email pattern = 0) ∧
    (22 ≤ MAX_RES →
      email_match MAX_RES "alice@mail.example.com".toList "*@*.example.com".toList = 1 ∧
      email_match MAX_RES "alice@example.org".toList "*@*.example.com".toList = 0) := by
  refine ⟨email_match_split MAX_RES, email_match_no_at MAX_RES, ?_⟩
  intro h22
  have hlen1 : "alice@mail.example.com".toList.length ≤ MAX_RES := le_trans (by decide) h22
  have hlen2 : "*@*.example.com".toList.length ≤ MAX_RES := le_trans (by decide) h22
  have hlen3 : "alice@example.org".toList.length ≤ MAX_RES := le_trans (by decide) h22
  unfold email_match sstrncpy
  rw [List.take_of_length_le hlen1, List.take_of_length_le hlen2, List.take_of_length_le hlen3]
  exact ⟨by decide, by decide⟩

/-- Witness for C8 at `MAX_RES = 64`, email `a@b.c`, pattern `*@b.*`. -/
theorem email_match_contract_witness :
    (email_match 64 "a@b.c".toList "*@b.*".toList = 1 ↔
      wild_match "*".toList "a".toList = 1 ∧
        (dotLabels "b.*".toList).length = (dotLabels "b.c".toList).length ∧
        ∀ pe ∈ List.zip (dotLabels "b.*".toList) (dotLabels "b.c".toList),
          wild_match pe.1 pe.2 = 1) ∧
    email_match 64 "ab".toList "*@b.*".toList = 0 ∧
    (email_match 64 "alice@mail.example.com".toList "*@*.example.com".toList = 1 ∧
      email_match 64 "alice@example.org".toList "*@*.example.com".toList = 0) :=
  ⟨(email_match_contract 64).1 "a".toList "b.c".toList "*".toList "b.*".toList
      (by decide) (by decide) (by decide) (by decide) (by decide) (by decide) (by decide)
      (by decide) (by decide) (by decide),
    (email_match_contract 64).2.1 "ab".toList "*@b.*".toList (Or.inl (by decide)),
    (email_match_contract 64).2.2 (by decide)⟩

/-- C9, as stated, fails at the empty pattern: it contains no `*`, and
`wild_match` accepts the string `abc`, which is not equal to it. -/
theorem wild_match_empty_pattern_counterexample :
    '*' ∉ "".toList ∧
      ¬ (wild_match "".toList "abc".toList = 1 ↔ "abc".toList = "".toList) := by
  decide

/-- C9 (amended): for a pattern without `*`, `wild_match` returns 1 exactly
when the pattern is empty or the string is equal to the pattern; hence for a
non-empty pattern without `*` exactly when the string equals the pattern. -/
theorem wild_match_no_star (pat str : List Char) (h : '*' ∉ pat) :
    (wild_match pat str = 1 ↔ (pat = [] ∨ str = pat)) ∧
      (pat ≠ [] → (wild_match pat str = 1 ↔ str = pat)) := by
  have hne : pat ≠ [] → (wild_match pat str = 1 ↔ str = pat) := by
    intro hp
    rw [wild_match_glob pat str hp, glob_term_iff pat str h]
  refine ⟨?_, hne⟩
  by_cases hp : pat = []
  · subst hp
    simp [wild_match, wild_match_loop, strchr]
  · simp [hp, hne hp]

/-- Witness for C9 (amended) at pattern `abc`, string `abc`. -/
theorem wild_match_no_star_witness :
    '*' ∉ "abc".toList ∧
      ((wild_match "abc".toList "abc".toList = 1 ↔
          ("abc".toList = [] ∨ "abc".toList = "abc".toList)) ∧
        ("abc".toList ≠ [] →
          (wild_match "abc".toList "abc".toList = 1 ↔ "abc".toList = "abc".toList))) :=
  ⟨by decide, wild_match_no_star "abc".toList "abc".toList (by decide)⟩

/-- C10: for every non-empty pattern and every string, `wild_match` returns 1
exactly when the string matches the pattern under the reference glob semantics
(each `*` any sequence, every other character itself, whole string covered),
and returns 0 exactly when it does not. -/
theorem wild_match_reference (pat str : List Char) (hne : pat ≠ []) :
    (wild_match pat str = 1 ↔ GlobMatch pat str) ∧
      (wild_match pat str = 0 ↔ ¬ GlobMatch pat str) := by
  have h1 := wild_match_glob pat str hne
  refine ⟨h1, ?_⟩
  rw [← h1]
  rcases wild_match_bool pat str with h | h
  · simp [h]
  · simp [h]

/-- Witness for C10 at pattern `a*c`, string `abc`. -/
theorem wild_match_reference_witness :
    "a*c".toList ≠ [] ∧
      ((wild_match "a*c".toList "abc".toList = 1 ↔ GlobMatch "a*c".toList "abc".toList) ∧
        (wild_match "a*c".toList "abc".toList = 0 ↔ ¬ GlobMatch "a*c".toList "abc".toList)) :=
  ⟨by decide, wild_match_reference "a*c".toList "abc".toList (by decide)⟩

/-! ## The two loops of `hashcash_count` -/

theorem zero_target_getD (i : Nat) : (List.replicate SHA1_DIGEST_BYTES 0).getD i 0 = 0 := by
  rw [List.getD_eq_getElem?_getD, List.getElem?_replicate]
  split <;> rfl

/-- What the byte loop computes, for any start `i` and any number `n` of
iterations left. -/
theorem count_bytes_loop_spec (d : List Nat) (n : Nat) :
    ∀ i, i ≤ count_bytes_loop d (List.replicate SHA1_DIGEST_BYTES 0) n i ∧
      (∀ k, i ≤ k → k < count_bytes_loop d (List.replicate SHA1_DIGEST_BYTES 0) n i →
        d.getD k 0 = 0) ∧
      (i ≤ SHA1_DIGEST_BYTES →
        count_bytes_loop d (List.replicate SHA1_DIGEST_BYTES 0) n i ≤ SHA1_DIGEST_BYTES) ∧
      (SHA1_DIGEST_BYTES < n + i →
        count_bytes_loop d (List.replicate SHA1_DIGEST_BYTES 0) n i < SHA1_DIGEST_BYTES →
        d.getD (count_bytes_loop d (List.replicate SHA1_DIGEST_BYTES 0) n i) 0 ≠ 0) := by
  induction n with
  | zero =>
    intro i
    simp only [count_bytes_loop]
    refine ⟨le_refl _, ?_, fun h => h, ?_⟩
    · intro k h1 h2; omega
    · intro h1 h2; omega
  | succ n ih =>
    intro i
    unfold count_bytes_loop
    rw [zero_target_getD]
    by_cases hc : i < SHA1_DIGEST_BYTES ∧ d.getD i 0 = 0
    · simp only [hc, and_self, if_true]
      obtain ⟨h1, h2, h3, h4⟩ := ih (i + 1)
      refine ⟨by omega, ?_, fun _ => h3 (by omega), fun hn => h4 (by omega)⟩
      intro k hk1 hk2
      rcases Nat.eq_or_lt_of_le hk1 with heq | hlt
      · rw [← heq]; exact hc.2
      · exact h2 k hlt hk2
    · simp only [hc, if_false]
      refine ⟨le_refl _, ?_, fun h => h, ?_⟩
      · intro k h1 h2; omega
      · intro _ hlt hz
        exact hc ⟨hlt, hz⟩

theorem hashcash_count_last_le (d : List Nat) : hashcash_count_last d ≤ SHA1_DIGEST_BYTES :=
  (count_bytes_loop_spec d _ 0).2.2.1 (Nat.zero_le _)

theorem hashcash_count_last_zero (d : List Nat) (k : Nat) (hk : k < hashcash_count_last d) :
    d.getD k 0 = 0 :=
  (count_bytes_loop_spec d _ 0).2.1 k (Nat.zero_le _) hk

theorem hashcash_count_last_nonzero (d : List Nat) (h : hashcash_count_last d < SHA1_DIGEST_BYTES) :
    d.getD (hashcash_count_last d) 0 ≠ 0 :=
  (count_bytes_loop_spec d _ 0).2.2.2 (by simp [SHA1_DIGEST_BYTES]) h

/-- The byte loop stops at the first byte that is not zero. -/
theorem hashcash_count_last_eq (d : List Nat) (z : Nat) (hz : z ≤ SHA1_DIGEST_BYTES)
    (hzero : ∀ k, k < z → d.getD k 0 = 0) (hnz : z < SHA1_DIGEST_BYTES → d.getD z 0 ≠ 0) :
    hashcash_count_last d = z := by
  rcases Nat.lt_trichotomy (hashcash_count_last d) z with h | h | h
  · exact absurd (hzero _ h) (hashcash_count_last_nonzero d (by omega))
  · exact h
  · exact absurd (hashcash_count_last_zero d z h) (hnz (by have := hashcash_count_last_le d; omega))

theorem count_bits_loop_add (t g n : Nat) :
    ∀ i cb, count_bits_loop t g n i cb = cb + count_bits_loop t g n i 0 := by
  induction n with
  | zero => intro i cb; simp [count_bits_loop]
  | succ n ih =>
    intro i cb
    unfold count_bits_loop
    split
    · rw [ih (i + 1) (cb + 1), ih (i + 1) (0 + 1)]
      omega
    · simp

set_option maxRecDepth 100000 in
/-- A byte whose top `p` bits are cleared by the mask of `find_collision`
scores at least `p` in the bit loop of `hashcash_count`. -/
theorem masked_byte_bits :
    ∀ p, p < 8 → ∀ t, t < 256 → t &&& (256 - 2 ^ (8 - p)) = 0 →
      p ≤ count_bits_loop t 0 8 0 0 := by
  decide

/-! ## The acceptance test of `find_collision` -/

theorem getD_of_lt (d : List Nat) (i a b : Nat) (h : i < d.length) : d.getD i a = d.getD i b := by
  simp [List.getD_eq_getElem?_getD, List.getElem?_eq_getElem h]

theorem getD_lt_256 (d : List Nat) (hbyte : ∀ b ∈ d, b < 256) (i : Nat) : d.getD i 0 < 256 := by
  rw [List.getD_eq_getElem?_getD]
  cases h : d[i]? with
  | none => simp
  | some x => exact hbyte x (List.getElem?_mem h)

theorem getD_eq_of_take_eq (a b : List Nat) (n k : Nat) (hk : k < n)
    (h : a.take n = b.take n) : a.getD k 0 = b.getD k 0 := by
  have h1 : (a.take n)[k]? = (b.take n)[k]? := by rw [h]
  rw [List.getElem?_take_of_lt hk, List.getElem?_take_of_lt hk] at h1
  simp [List.getD_eq_getElem?_getD, h1]

/-- An accepted digest has its first `bits / 8` bytes zero and, when
`bits % 8` is not 0, the masked next byte zero. -/
theorem collision_test_true (bits : Nat) (d : List Nat) (hlen : d.length = 20)
    (hbits : bits ≤ 160) (h : collision_test bits d = true) :
    (∀ k, k < bits / 8 → d.getD k 0 = 0) ∧
      (bits % 8 ≠ 0 → d.getD (bits / 8) 0 &&& (256 - 2 ^ (8 - bits % 8)) = 0) := by
  unfold collision_test at h
  simp only at h
  by_cases hp : bits % 8 = 0
  · simp only [hp, ne_eq, not_true_eq_false, if_false] at h
    refine ⟨?_, fun hne => absurd hp hne⟩
    split at h
    · exact absurd h (by simp)
    · intro k hk
      have heq := getD_eq_of_take_eq _ _ _ k hk (eq_of_beq h)
      rw [zero_target_getD] at heq
      exact heq.symm
  · simp only [hp, ne_eq, not_false_eq_true, if_true] at h
    have hidx : bits / 8 < 20 := by omega
    split at h
    · exact absurd h (by simp)
    · have hte := eq_of_beq h
      refine ⟨?_, fun _ => ?_⟩
      · intro k hk
        have heq := getD_eq_of_take_eq _ _ _ k (Nat.lt_succ_of_lt hk) hte
        simp only [List.getD_eq_getElem?_getD] at heq
        rw [List.getElem?_set_ne (Nat.ne_of_gt hk), List.getElem?_set_ne (Nat.ne_of_gt hk)] at heq
        have hz := zero_target_getD k
        simp only [List.getD_eq_getElem?_getD] at hz
        rw [hz] at heq
        simp only [List.getD_eq_getElem?_getD]
        exact heq.symm
      · have heq := getD_eq_of_take_eq _ _ _ (bits / 8) (Nat.lt_succ_self _) hte
        simp only [List.getD_eq_getElem?_getD] at heq
        rw [List.getElem?_set_self (by simp [SHA1_DIGEST_BYTES]; exact hidx),
          List.getElem?_set_self (by rw [hlen]; exact hidx)] at heq
        have hz := zero_target_getD (bits / 8)
        simp only [List.getD_eq_getElem?_getD] at hz
        rw [hz] at heq
        simp only [Option.getD_some, Nat.zero_and] at heq
        simp only [List.getD_eq_getElem?_getD]
        exact heq.symm

/-- A digest that `find_collision` accepts for `bits` scores at least `bits`
in the two loops of `hashcash_count`. -/
theorem collision_test_count (E : Env) (bits : Nat) (d : List Nat) (hlen : d.length = 20)
    (hbyte : ∀ b ∈ d, b < 256) (hbits : bits ≤ 160) (h : collision_test bits d = true) :
    bits ≤ count_digest_bits E d := by
  obtain ⟨hzero, hmask⟩ := collision_test_true bits d hlen hbits h
  unfold count_digest_bits
  simp only
  rw [count_bits_loop_add]
  have hzle := hashcash_count_last_le d
  simp only [SHA1_DIGEST_BYTES] at hzle
  have hge : bits / 8 ≤ hashcash_count_last d := by
    by_contra hlt
    have hlt2 : hashcash_count_last d < bits / 8 := Nat.lt_of_not_le hlt
    exact hashcash_count_last_nonzero d (by simp only [SHA1_DIGEST_BYTES]; omega)
      (hzero _ hlt2)
  rcases Nat.eq_or_lt_of_le hge with heq | hgt
  · by_cases hp : bits % 8 = 0
    · omega
    · have hidx : bits / 8 < 20 := by omega
      have hm := hmask hp
      rw [← heq]
      have ht : digest_at d E.past_token_digest (bits / 8) = d.getD (bits / 8) 0 :=
        getD_of_lt d _ _ _ (by rw [hlen]; exact hidx)
      have hg : digest_at (List.replicate SHA1_DIGEST_BYTES 0) E.past_target_digest (bits / 8)
          = 0 := by
        unfold digest_at
        rw [getD_of_lt _ _ _ 0 (by simp [SHA1_DIGEST_BYTES]; exact hidx)]
        exact zero_target_getD _
      rw [ht, hg]
      have := masked_byte_bits (bits % 8) (Nat.mod_lt _ (by decide)) _
        (getD_lt_256 d hbyte (bits / 8)) hm
      omega
  · omega

/-! ## hashcash_count on a token split at its first colon -/

theorem strchr_append (v r : List Char) (c : Char) (h : c ∉ v) :
    strchr (v ++ c :: r) c = some v.length := by
  induction v with
  | nil => simp [strchr]
  | cons a v ih =>
    have hac : a ≠ c := fun e => h (by simp [e])
    have hv : c ∉ v := fun e => h (List.mem_cons_of_mem _ e)
    simp [strchr, hac, ih hv]

theorem strchr_isSome_of_mem (s : List Char) (c : Char) (h : c ∈ s) :
    ∃ i, strchr s c = some i := by
  cases hs : strchr s c with
  | none => exact absurd h (strchr_none.1 hs)
  | some i => exact ⟨i, rfl⟩

/-- The value of `hashcash_count` on a token whose first colon follows `v`. -/
theorem hashcash_count_split (E : Env) (v rest : List Char) (hv : ':' ∉ v) :
    hashcash_count E (v ++ ':' :: rest) =
      if v.length > E.MAX_VER then 0
      else if atoi v < 0 then 0
      else if atoi v ≠ 0 then 0
      else
        match strchr rest ':' with
        | none => 0
        | some _ =>
          count_digest_bits E (E.SHA1_Final (E.SHA1_Update E.SHA1_Init (v ++ ':' :: rest))) := by
  unfold hashcash_count
  rw [strchr_append v rest ':' hv]
  have h1 : List.take v.length (v ++ ':' :: rest) = v := by simp
  have h2 : List.drop (v.length + 1) (v ++ ':' :: rest) = rest := by
    rw [← List.drop_drop]
    simp
  simp only [sstrncpy, h1, h2]

/-! ## The loops of `find_collision` -/

theorem find_collision_group_some (E : Env) (bits : Nat) (ctry : List Char) (try_len : Nat)
    (pre : E.SHA1_ctx) (n : Nat) :
    ∀ (j0 j : Nat) (tok : List Char),
      find_collision_group E bits ctry try_len pre n j0 = some (j, tok) →
      collision_test bits (E.SHA1_Final (E.SHA1_Update pre [hexdigit j])) = true ∧
        tok = sstrncpy (ctry.set (try_len + (GROUP_DIGITS - 1)) (hexdigit j)) E.MAX_TOK := by
  induction n with
  | zero => intro j0 j tok h; simp [find_collision_group] at h
  | succ n ih =>
    intro j0 j tok h
    unfold find_collision_group at h
    simp only at h
    split at h
    · rename_i hc
      simp only [Option.some.injEq, Prod.mk.injEq] at h
      obtain ⟨rfl, rfl⟩ := h
      exact ⟨hc, rfl⟩
    · exact ih _ _ _ h

theorem hexdigit_mem (j : Nat) : hexdigit j ∈ hex := by
  by_cases h : j < 16
  · revert j
    decide
  · have : hexdigit j = '0' := by
      unfold hexdigit
      rw [List.getD_eq_getElem?_getD, List.getElem?_eq_none (by simp [hex]; omega)]
      rfl
    rw [this]
    decide

theorem sprintf_08x_hex (n : Nat) : ∀ c ∈ sprintf_08x n, c ∈ hex := by
  intro c hcm
  simp only [sprintf_08x, List.mem_cons, List.mem_singleton, List.not_mem_nil, or_false] at hcm
  rcases hcm with h | h | h | h | h | h | h | h <;> rw [h] <;> exact hexdigit_mem _

/-- A try string with its last digit replaced is the hashed prefix followed by
the new digit. -/
theorem try_set_last (fixed : List Char) (trial : Nat) (x : Char) :
    (fixed ++ sprintf_08x trial).set (fixed.length + (GROUP_DIGITS - 1)) x =
      (fixed ++ sprintf_08x trial).take (fixed.length + GROUP_DIGITS - 1) ++ [x] := by
  have h1 : fixed.length + GROUP_DIGITS - 1 = fixed.length + 7 := by simp [GROUP_DIGITS]
  have h2 : fixed.length + (GROUP_DIGITS - 1) = fixed.length + 7 := by simp [GROUP_DIGITS]
  rw [h1, h2, List.set_append_right _ _ (Nat.le_add_right _ _), List.take_append]
  simp [sprintf_08x]

/-- A non-zero result of the loop of `find_collision` comes with a token that
is the fixed part followed by eight characters, whose digest, as
`hashcash_count` computes it, passes the acceptance test. -/
theorem find_collision_loop_found (E : Env) (hE : E.HashContract) (bits : Nat)
    (fixed : List Char) (hfit : fixed.length + GROUP_DIGITS ≤ E.MAX_TOK) (n : Nat) :
    ∀ (i trial : Nat) (token0 token : List Char) (found : Nat),
      find_collision_loop E bits fixed n i trial token0 = (found, token) → found ≠ 0 →
      (∃ tail : List Char, token = fixed ++ tail ∧ ∀ c ∈ tail, c ∈ hex) ∧
        collision_test bits (E.SHA1_Final (E.SHA1_Update E.SHA1_Init token)) = true := by
  induction n with
  | zero =>
    intro i trial token0 token found h hf
    simp only [find_collision_loop, Prod.mk.injEq] at h
    exact absurd h.1.symm hf
  | succ n ih =>
    intro i trial token0 token found h hf
    unfold find_collision_loop at h
    simp only at h
    split at h
    · rename_i j tok hg
      obtain ⟨hc, htok⟩ := find_collision_group_some E bits _ _ _ _ _ _ _ hg
      simp only [Prod.mk.injEq] at h
      obtain ⟨_, rfl⟩ := h
      rw [hE.update_update] at hc
      rw [try_set_last] at htok
      have hlen : ((fixed ++ sprintf_08x trial).take (fixed.length + GROUP_DIGITS - 1) ++
          [hexdigit j]).length ≤ E.MAX_TOK := by
        simp [sprintf_08x, GROUP_DIGITS] at hfit ⊢
        omega
      rw [sstrncpy, List.take_of_length_le hlen] at htok
      rw [htok]
      refine ⟨⟨(sprintf_08x trial).take 7 ++ [hexdigit j], ?_, ?_⟩, hc⟩
      · have h1 : fixed.length + GROUP_DIGITS - 1 = fixed.length + 7 := by simp [GROUP_DIGITS]
        rw [h1, List.take_append, List.append_assoc]
      · intro c hcm
        simp only [sprintf_08x, List.take_succ_cons, List.take_zero, List.cons_append,
          List.nil_append, List.mem_cons, List.mem_singleton, List.not_mem_nil, or_false] at hcm
        rcases hcm with h | h | h | h | h | h | h | h <;> rw [h] <;> exact hexdigit_mem _
    · exact ih _ _ _ _ _ h hf

theorem group_loop_found (body : Nat → List Char → Option (Nat × List Char)) (n : Nat) :
    ∀ (i : Nat) (token0 token : List Char) (found : Nat),
      group_loop body n i token0 = some (found, token) → found ≠ 0 →
      ∃ i1 token1, body i1 token1 = some (found, token) := by
  induction n with
  | zero =>
    intro i token0 token found h hf
    simp only [group_loop, Option.some.injEq, Prod.mk.injEq] at h
    exact absurd h.1.symm hf
  | succ n ih =>
    intro i token0 token found h hf
    unfold group_loop at h
    split at h
    · exact absurd h (by simp)
    · rename_i f t hb
      split at h
      · simp only [Option.some.injEq, Prod.mk.injEq] at h
        obtain ⟨rfl, rfl⟩ := h
        exact ⟨i, token0, hb⟩
      · exact ih _ _ _ _ h hf

/-- A token that `find_collision` writes with a non-zero result scores at
least `bits` in `hashcash_count`. -/
theorem find_collision_sound (E : Env) (hE : E.HashContract) (hver : 1 ≤ E.MAX_VER)
    (utct resource : List Char) (bits : Nat) (token0 : List Char) (tries : Nat)
    (counter : List Char) (found : Nat) (token : List Char)
    (hutct : utct.length ≤ E.MAX_TOK) (hres : resource.length ≤ E.MAX_RES)
    (hfit : 4 + utct.length + resource.length + counter.length ≤ E.MAX_TOK)
    (h : find_collision E utct resource bits token0 tries counter = some (found, token))
    (hfound : found ≠ 0) :
    (∃ tail : List Char, token =
        '0' :: ':' :: (utct ++ ':' :: (resource ++ ':' :: counter.take (counter.length - 8))) ++
          tail ∧ ∀ c ∈ tail, c ∈ hex) ∧
      bits ≤ hashcash_count E token := by
  unfold find_collision at h
  simp only at h
  split at h
  · exact absurd h (by simp)
  · rename_i hbits
    split at h
    · exact absurd h (by simp)
    · rename_i hctr
      split at h
      · exact absurd h (by simp)
      · rename_i trial htrial
        simp only [Option.some.injEq] at h
        simp only [GROUP_DIGITS, SHA1_DIGEST_BYTES] at hbits hctr h
        rw [List.take_of_length_le hutct, List.take_of_length_le hres] at h
        have hlen : (['0'] ++ [':'] ++ utct ++ [':'] ++ resource ++ [':'] ++
            counter.take (counter.length - 8)).length + GROUP_DIGITS ≤ E.MAX_TOK := by
          simp [GROUP_DIGITS]
          omega
        obtain ⟨⟨tail, htok, htail⟩, hc⟩ :=
          find_collision_loop_found E hE bits _ hlen _ _ _ _ _ _ h hfound
        have hshape : token = ['0'] ++ ':' ::
            (utct ++ ':' :: (resource ++ ':' :: counter.take (counter.length - 8)) ++ tail) := by
          rw [htok]
          simp
        refine ⟨⟨tail, by rw [htok]; simp, htail⟩, ?_⟩
        have hcount := hashcash_count_split E ['0']
          (utct ++ ':' :: (resource ++ ':' :: counter.take (counter.length - 8)) ++ tail)
          (by decide)
        rw [← hshape] at hcount
        have hat : atoi ['0'] = 0 := by decide
        obtain ⟨i2, hi2⟩ := strchr_isSome_of_mem
          (utct ++ ':' :: (resource ++ ':' :: counter.take (counter.length - 8)) ++ tail) ':'
          (by simp)
        rw [hat, hi2] at hcount
        have hv : ¬ ([('0' : Char)].length > E.MAX_VER) := by
          simp only [List.length_singleton, gt_iff_lt, not_lt]
          exact hver
        simp only [hv, if_false, lt_irrefl, ne_eq, not_true_eq_false] at hcount
        rw [hcount]
        exact collision_test_count E bits _ (hE.final_length _) (hE.final_byte _)
          (by omega) hc

/-! ## hashcash_mint -/

/-- When `hashcash_mint` returns `HASHCASH_OK`, the token was written by a
`find_collision` call with a non-zero result, on the time stamp printed by
`to_utctimestr` and a counter of 24 hexadecimal digits. -/
theorem hashcash_mint_ok (E : Env) (rng : Rng) (now_time time_width : Int)
    (resource : Option (List Char)) (bits : Nat) (anon_period : Int)
    (token0 token : Option (List Char))
    (h : hashcash_mint E rng now_time time_width resource bits anon_period token0 =
      some (MintCode.HASHCASH_OK, token)) :
    ∃ (res tok : List Char) (w t : Int) (counter tokin : List Char) (found : Nat),
      resource = some res ∧ token = some tok ∧ counter.length = 24 ∧
        (∀ c ∈ counter, c ∈ hex) ∧ found ≠ 0 ∧
        find_collision E (E.to_utctimestr w t) res bits tokin GROUP_SIZE counter =
          some (found, tok) := by
  unfold hashcash_mint at h
  split at h
  · simp at h
  · simp at h
  · rename_i res tok0
    dsimp only at h
    generalize (if time_width = 0 then (6 : Int) else time_width) = w at h
    split at h
    · simp at h
    · split at h
      · rename_i ran0 ran1 ran2 _ _ _
        split at h
        · simp at h
        · split at h
          · simp at h
          · split at h
            · simp at h
            · split at h
              · simp at h
              · rename_i found tok hsearch
                split at h
                · rename_i hfound
                  simp only [Option.some.injEq, Prod.mk.injEq, true_and] at h
                  unfold mint_search at hsearch
                  simp only at hsearch
                  obtain ⟨i0, t0, h0⟩ := group_loop_found _ _ _ _ _ _ hsearch hfound
                  obtain ⟨i1, t1, h1⟩ := group_loop_found _ _ _ _ _ _ h0 hfound
                  refine ⟨res, tok, _, _, _, t1, found, rfl, h.symm, ?_, ?_, hfound, h1⟩
                  · simp [sprintf_08x]
                  · intro c hcm
                    simp only [List.mem_append] at hcm
                    rcases hcm with (hcm | hcm) | hcm <;> exact sprintf_08x_hex _ c hcm
                · simp at h
      · simp at h

theorem toyEnv_contract (digest : List Char → List Nat)
    (hlen : ∀ m, (digest m).length = 20) (hbyte : ∀ m b, b ∈ digest m → b < 256) :
    (toyEnv digest).HashContract where
  update_update := fun c a b => List.append_assoc c a b
  final_length := hlen
  final_byte := hbyte

theorem lastDigest_contract : (toyEnv lastDigest).HashContract := by
  apply toyEnv_contract
  · intro m
    simp [lastDigest]
  · intro m b hb
    simp only [lastDigest, List.mem_append, List.mem_replicate, List.mem_singleton] at hb
    rcases hb with hb | hb
    · omega
    · rw [hb]
      split <;> omega

/-! ## Claims on minting and counting -/

/-- C1: for every resource, time stamp string, starting counter and bit target
(in particular every target from 0 to 64), with sizes within `MAX_RES` and
`MAX_TOK` so that nothing is truncated: whenever `find_collision` returns a
non-zero value, and whenever `hashcash_mint` returns `HASHCASH_OK`, the token
written satisfies `hashcash_count (token) >= bits`. -/
theorem find_collision_token_bits (E : Env) (hE : E.HashContract) (hver : 1 ≤ E.MAX_VER) :
    (∀ (utct resource : List Char) (bits : Nat) (token0 : List Char) (tries : Nat)
        (counter : List Char) (found : Nat) (token : List Char),
      utct.length ≤ E.MAX_TOK → resource.length ≤ E.MAX_RES →
      4 + utct.length + resource.length + counter.length ≤ E.MAX_TOK →
      find_collision E utct resource bits token0 tries counter = some (found, token) →
      found ≠ 0 → bits ≤ hashcash_count E token) ∧
    (∀ (rng : Rng) (now_time time_width : Int) (resource : List Char) (bits : Nat)
        (anon_period : Int) (token0 : Option (List Char)) (token : List Char),
      resource.length ≤ E.MAX_RES →
      (∀ w t, 28 + (E.to_utctimestr w t).length + resource.length ≤ E.MAX_TOK) →
      hashcash_mint E rng now_time time_width (some resource) bits anon_period token0 =
        some (MintCode.HASHCASH_OK, some token) →
      bits ≤ hashcash_count E token) := by
  constructor
  · intro utct resource bits token0 tries counter found token hutct hres hfit h hfound
    exact (find_collision_sound E hE hver utct resource bits token0 tries counter found token
      hutct hres hfit h hfound).2
  · intro rng now_time time_width resource bits anon_period token0 token hres hfit h
    obtain ⟨res, tok, w, t, counter, tokin, found, hr, ht, hlen, _, hfound, hfc⟩ :=
      hashcash_mint_ok E rng now_time time_width _ bits anon_period token0 _ h
    simp only [Option.some.injEq] at hr ht
    subst hr
    subst ht
    have := hfit w t
    exact (find_collision_sound E hE hver _ resource bits tokin _ counter found token
      (by omega) hres (by omega) hfc hfound).2

/-- Witness for C1: in the small environment with `lastDigest`, a
`find_collision` call and a `hashcash_mint` call for 16 bits. -/
theorem find_collision_token_bits_witness :
    16 ≤ hashcash_count (toyEnv lastDigest) "0:040404:foo:0000000000000000000000a0".toList ∧
    16 ≤ hashcash_count (toyEnv lastDigest) "0:040404:foo:000000010000000200000000".toList :=
  ⟨(find_collision_token_bits (toyEnv lastDigest) lastDigest_contract (by decide)).1
      "040404".toList "foo".toList 16 [] 0xFFFFFFFF "0000000000000000000000ab".toList 1
      "0:040404:foo:0000000000000000000000a0".toList (by decide) (by decide) (by decide)
      (by decide) (by decide),
    (find_collision_token_bits (toyEnv lastDigest) lastDigest_contract (by decide)).2
      ⟨some 1, some 2, some 3, fun _ => some 0⟩ 1000 6 "foo".toList 16 0 (some [])
      "0:040404:foo:000000010000000200000000".toList (by decide)
      (fun _ _ => (by decide : 28 + "040404".toList.length + "foo".toList.length ≤ 512))
      (by decide)⟩

/-! ## atoi on decimal text -/

theorem decimal_digit_facts :
    ∀ k, k < 10 → isdigit (Char.ofNat (48 + k)) = true ∧
      ((Char.ofNat (48 + k)).toNat : Int) - 48 = (k : Int) ∧ Char.ofNat (48 + k) ≠ ':' := by
  decide

/-- The digits that `toDecimalAux` puts in front of `acc`, read by the digit
loop of `atoi`, continue the number being read with `n`. -/
theorem toDecimalAux_spec (fuel : Nat) :
    ∀ (n : Nat) (acc : List Char), n < 10 ^ (fuel + 1) →
      ∃ ds : List Char, toDecimalAux (fuel + 1) n acc = ds ++ acc ∧ ds ≠ [] ∧
        (∀ c ∈ ds, isdigit c = true ∧ c ≠ ':') ∧
        ∀ (rest : List Char) (a : Int),
          atoi_digits (ds ++ rest) a = atoi_digits rest (a * 10 ^ ds.length + n) := by
  induction fuel with
  | zero =>
    intro n acc hn
    have hn10 : n < 10 := by simpa using hn
    obtain ⟨hd, hv, hc⟩ := decimal_digit_facts n hn10
    refine ⟨[Char.ofNat (48 + n)], ?_, by simp, ?_, ?_⟩
    · simp [toDecimalAux, Nat.mod_eq_of_lt hn10]
    · intro c hcm
      simp only [List.mem_singleton] at hcm
      rw [hcm]
      exact ⟨hd, hc⟩
    · intro rest a
      simp only [List.singleton_append, atoi_digits, hd, if_true, List.length_singleton, pow_one]
      rw [hv]
      rfl
  | succ fuel ih =>
    intro n acc hn
    have hlt : n % 10 < 10 := Nat.mod_lt _ (by decide)
    obtain ⟨hd, hv, hc⟩ := decimal_digit_facts (n % 10) hlt
    by_cases h0 : n / 10 = 0
    · refine ⟨[Char.ofNat (48 + n % 10)], ?_, by simp, ?_, ?_⟩
      · rw [toDecimalAux]
        simp [h0]
      · intro c hcm
        simp only [List.mem_singleton] at hcm
        rw [hcm]
        exact ⟨hd, hc⟩
      · intro rest a
        simp only [List.singleton_append, atoi_digits, hd, if_true, List.length_singleton,
          pow_one]
        rw [hv]
        have : n % 10 = n := by omega
        rw [this]
        rfl
    · have hn' : n / 10 < 10 ^ (fuel + 1) := by
        rw [Nat.div_lt_iff_lt_mul (by decide)]
        rw [pow_succ] at hn
        exact hn
      obtain ⟨ds, hds, hne, hdig, hval⟩ := ih (n / 10) (Char.ofNat (48 + n % 10) :: acc) hn'
      refine ⟨ds ++ [Char.ofNat (48 + n % 10)], ?_, by simp, ?_, ?_⟩
      · rw [toDecimalAux]
        simp only [h0, if_false]
        rw [hds]
        simp
      · intro c hcm
        simp only [List.mem_append, List.mem_singleton] at hcm
        rcases hcm with hcm | hcm
        · exact hdig c hcm
        · rw [hcm]
          exact ⟨hd, hc⟩
      · intro rest a
        rw [List.append_assoc, hval]
        simp only [List.singleton_append, atoi_digits, hd, if_true, List.length_append,
          List.length_singleton]
        rw [hv]
        congr 1
        have hdm : (n : Int) = 10 * ((n / 10 : Nat) : Int) + ((n % 10 : Nat) : Int) := by
          exact_mod_cast (Nat.div_add_mod n 10).symm
        rw [pow_succ]
        rw [hdm]
        push_cast
        ring

theorem atoi_of_digit (c : Char) (t : List Char) (hc : isdigit c = true) :
    atoi (c :: t) = atoi_digits (c :: t) 0 := by
  have hsp : isspace c = false := by
    simp only [isdigit, Bool.and_eq_true, decide_eq_true_eq] at hc
    simp only [isspace, Bool.or_eq_false_iff, decide_eq_false_iff_not]
    refine ⟨⟨⟨⟨⟨?_, ?_⟩, ?_⟩, ?_⟩, ?_⟩, ?_⟩ <;>
    · intro he
      rw [he] at hc
      revert hc
      decide
  have hminus : c ≠ '-' := by
    intro he
    rw [he] at hc
    revert hc
    decide
  have hplus : c ≠ '+' := by
    intro he
    rw [he] at hc
    revert hc
    decide
  unfold atoi
  simp only [List.dropWhile, hsp]
  split
  · rename_i heq
    simp only [List.cons.injEq] at heq
    exact absurd heq.1 hminus
  · rename_i heq
    simp only [List.cons.injEq] at heq
    exact absurd heq.1 hplus
  · rfl

/-- The decimal text of `v` has no colon and `atoi` reads it back as `v`. -/
theorem atoi_toDecimal (v : Nat) : atoi (toDecimal v) = (v : Int) ∧ ':' ∉ toDecimal v := by
  have hlt : v < 10 ^ (v + 1) :=
    lt_trans (Nat.lt_pow_self (by decide : 1 < 10) v) (Nat.pow_lt_pow_right (by decide) (Nat.lt_succ_self v))
  obtain ⟨ds, hds, hne, hdig, hval⟩ := toDecimalAux_spec v v [] hlt
  unfold toDecimal
  rw [hds, List.append_nil]
  constructor
  · cases ds with
    | nil => exact absurd rfl hne
    | cons c t =>
      rw [atoi_of_digit c t (hdig c (by simp)).1]
      have := hval [] 0
      rw [List.append_nil] at this
      rw [this]
      simp [atoi_digits]
  · intro hmem
    exact (hdig ':' hmem).2 rfl

/-! ## hashcash_parse on a token of four fields -/

theorem strrchr_none {s : List Char} {c : Char} (h : c ∉ s) : strrchr s c = none := by
  induction s with
  | nil => rfl
  | cons a s ih =>
    have hac : a ≠ c := fun e => h (by simp [e])
    have hs : c ∉ s := fun e => h (List.mem_cons_of_mem _ e)
    simp [strrchr, ih hs, hac]

theorem strrchr_append (r tail : List Char) (c : Char) (h : c ∉ tail) :
    strrchr (r ++ c :: tail) c = some r.length := by
  induction r with
  | nil => simp [strrchr, strrchr_none h]
  | cons a r ih => simp [strrchr, ih]

theorem strspn_all (s accept : List Char) (h : ∀ x ∈ s, x ∈ accept) :
    strspn s accept = s.length := by
  unfold strspn
  have : s.takeWhile (fun c => accept.contains c) = s := by
    rw [List.takeWhile_eq_self_iff]
    intro x hx
    simpa using h x hx
  rw [this]

/-- `hashcash_parse` on `ver:ts:r:c`, where `ver` and `ts` have no colon and `c`
has only accepted characters other than the colon. -/
theorem hashcash_parse_fields (E : Env) (ver ts r c : List Char) (utct_max res_max : Int)
    (hver : ':' ∉ ver) (hvl : ver.length ≤ E.MAX_VER) (hvn : 0 ≤ atoi ver)
    (hts : ':' ∉ ts) (htl : (ts.length : Int) ≤ utct_max) (hrl : (r.length : Int) ≤ res_max)
    (hc : ∀ x ∈ c, x ∈ VALID_STR_CHARS) (hcc : ':' ∉ c) :
    hashcash_parse E (ver ++ ':' :: (ts ++ ':' :: (r ++ ':' :: c))) utct_max res_max =
      some (atoi ver, ts, r) := by
  unfold hashcash_parse
  rw [strchr_append ver _ ':' hver]
  have h1 : List.take ver.length (ver ++ ':' :: (ts ++ ':' :: (r ++ ':' :: c))) = ver := by simp
  have h2 : List.drop (ver.length + 1) (ver ++ ':' :: (ts ++ ':' :: (r ++ ':' :: c)))
      = ts ++ ':' :: (r ++ ':' :: c) := by
    rw [← List.drop_drop]
    simp
  have h3 : List.take ts.length (ts ++ ':' :: (r ++ ':' :: c)) = ts := by simp
  have h4 : List.drop (ts.length + 1) (ts ++ ':' :: (r ++ ':' :: c)) = r ++ ':' :: c := by
    rw [← List.drop_drop]
    simp
  have h5 : List.take r.length (r ++ ':' :: c) = r := by simp
  have h6 : List.drop (r.length + 1) (r ++ ':' :: c) = c := by
    rw [← List.drop_drop]
    simp
  simp only [sstrncpy, h1, h2, strchr_append ts _ ':' hts, h3, h4, strrchr_append r c ':' hcc,
    h5, h6, strspn_all c _ hc]
  simp [Nat.not_lt.2 hvl, not_lt.2 hvn, not_lt.2 htl, not_lt.2 hrl]

/-! ## Leading zero bits -/

set_option maxRecDepth 100000 in
theorem count_bits_loop_byte :
    ∀ t, t < 256 → count_bits_loop t 0 8 0 0 = leadingZeroBitsOfByte t := by
  decide

theorem leadingZeroBytes_zero (d : List Nat) :
    ∀ k, k < leadingZeroBytes d → d.getD k 0 = 0 := by
  induction d with
  | nil => intro k hk; simp [leadingZeroBytes] at hk
  | cons b rest ih =>
    intro k hk
    unfold leadingZeroBytes at hk
    split at hk
    · rename_i hb
      cases k with
      | zero => simpa using hb
      | succ k =>
        have := ih k (by omega)
        simpa using this
    · omega

theorem leadingZeroBytes_nonzero (d : List Nat) (h : ∃ b ∈ d, b ≠ 0) :
    leadingZeroBytes d < d.length ∧ d.getD (leadingZeroBytes d) 0 ≠ 0 ∧
      leadingZeroBits d =
        8 * leadingZeroBytes d + leadingZeroBitsOfByte (d.getD (leadingZeroBytes d) 0) := by
  induction d with
  | nil =>
    obtain ⟨b, hb, _⟩ := h
    simp at hb
  | cons x rest ih =>
    by_cases hx : x = 0
    · have hrest : ∃ b ∈ rest, b ≠ 0 := by
        obtain ⟨b, hb, hne⟩ := h
        rcases List.mem_cons.1 hb with hbx | hbr
        · exact absurd (hbx.trans hx) hne
        · exact ⟨b, hbr, hne⟩
      obtain ⟨h1, h2, h3⟩ := ih hrest
      simp only [leadingZeroBytes, leadingZeroBits, hx, if_true, List.length_cons]
      refine ⟨by omega, ?_, ?_⟩
      · rw [Nat.add_comm 1, List.getD_cons_succ]
        exact h2
      · rw [Nat.add_comm 1, List.getD_cons_succ, h3]
        omega
    · simp [leadingZeroBytes, leadingZeroBits, hx]

/-- On a digest of twenty bytes that are not all zero, the two loops of
`hashcash_count` compute the number of leading zero bits. -/
theorem count_digest_bits_eq (E : Env) (d : List Nat) (hlen : d.length = 20)
    (hbyte : ∀ b ∈ d, b < 256) (hnz : ∃ b ∈ d, b ≠ 0) :
    count_digest_bits E d = leadingZeroBits d := by
  obtain ⟨h1, h2, h3⟩ := leadingZeroBytes_nonzero d hnz
  have hlast : hashcash_count_last d = leadingZeroBytes d :=
    hashcash_count_last_eq d _ (by simp only [SHA1_DIGEST_BYTES]; omega)
      (leadingZeroBytes_zero d) (fun _ => h2)
  unfold count_digest_bits
  simp only
  rw [count_bits_loop_add, hlast, h3]
  have ht : digest_at d E.past_token_digest (leadingZeroBytes d)
      = d.getD (leadingZeroBytes d) 0 := getD_of_lt d _ _ _ h1
  have hg : digest_at (List.replicate SHA1_DIGEST_BYTES 0) E.past_target_digest
      (leadingZeroBytes d) = 0 := by
    unfold digest_at
    rw [getD_of_lt _ _ _ 0 (by simp only [List.length_replicate, SHA1_DIGEST_BYTES]; omega)]
    exact zero_target_getD _
  rw [ht, hg, count_bits_loop_byte _ (getD_lt_256 d hbyte _)]

theorem oneDigest_contract : (toyEnv oneDigest).HashContract := by
  apply toyEnv_contract
  · intro m
    simp [oneDigest]
  · intro m b hb
    simp only [oneDigest, List.mem_cons, List.mem_replicate] at hb
    rcases hb with hb | hb <;> omega

/-! ## Claims on the codec and the verifier -/

/-- C2: for every version `v >= 0` that an `int` holds, with decimal text no
longer than `MAX_VER`, every time stamp `ts` without colon of length at most
`utct_max`, every resource `r` of length at most `res_max` (colons allowed) and
every counter `c` of accepted characters without colon, `hashcash_parse` on
`v:ts:r:c` succeeds and returns exactly `v`, `ts` and `r`. -/
theorem hashcash_parse_roundtrip (E : Env) (v : Nat) (ts r c : List Char)
    (utct_max res_max : Int) (_hint : v < 2 ^ 31)
    (hvl : (toDecimal v).length ≤ E.MAX_VER)
    (hts : ':' ∉ ts) (htl : (ts.length : Int) ≤ utct_max) (hrl : (r.length : Int) ≤ res_max)
    (hc : ∀ x ∈ c, x ∈ VALID_STR_CHARS) (hcc : ':' ∉ c) :
    hashcash_parse E (toDecimal v ++ ':' :: (ts ++ ':' :: (r ++ ':' :: c))) utct_max res_max =
      some ((v : Int), ts, r) := by
  obtain ⟨hval, hcolon⟩ := atoi_toDecimal v
  have h := hashcash_parse_fields E (toDecimal v) ts r c utct_max res_max hcolon hvl
    (by rw [hval]; exact Int.natCast_nonneg v) hts htl hrl hc hcc
  rw [hval] at h
  exact h

/-- Witness for C2: version 12, time stamp `040404`, resource `http://a:80/`,
counter `abc`. -/
theorem hashcash_parse_roundtrip_witness :
    hashcash_parse (toyEnv oneDigest)
        (toDecimal 12 ++ ':' :: ("040404".toList ++ ':' :: ("http://a:80/".toList ++
          ':' :: "abc".toList))) 13 256 =
      some ((12 : Int), "040404".toList, "http://a:80/".toList) :=
  hashcash_parse_roundtrip (toyEnv oneDigest) 12 "040404".toList "http://a:80/".toList
    "abc".toList 13 256 (by decide) (by decide) (by decide) (by decide) (by decide)
    (by decide) (by decide)

/-- C3: `hashcash_count` is 0 on a token without colon, and on a token whose
version field (the text before the first colon) is longer than `MAX_VER`, has
a value other than 0, or is not followed by a second colon; on every other
token whose digest has a byte that is not zero it is the number of leading
zero bits of the digest of the whole token, which is 7 when the first digest
byte is `0x01`. -/
theorem hashcash_count_spec (E : Env) (hE : E.HashContract) :
    (∀ token : List Char, ':' ∉ token → hashcash_count E token = 0) ∧
    (∀ ver rest : List Char, ':' ∉ ver →
      (ver.length > E.MAX_VER ∨ atoi ver ≠ 0 ∨ ':' ∉ rest) →
      hashcash_count E (ver ++ ':' :: rest) = 0) ∧
    (∀ ver rest : List Char, ':' ∉ ver → ver.length ≤ E.MAX_VER → atoi ver = 0 → ':' ∈ rest →
      (∃ b ∈ E.SHA1_Final (E.SHA1_Update E.SHA1_Init (ver ++ ':' :: rest)), b ≠ 0) →
      hashcash_count E (ver ++ ':' :: rest) =
          leadingZeroBits (E.SHA1_Final (E.SHA1_Update E.SHA1_Init (ver ++ ':' :: rest))) ∧
        ((E.SHA1_Final (E.SHA1_Update E.SHA1_Init (ver ++ ':' :: rest))).head? = some 1 →
          hashcash_count E (ver ++ ':' :: rest) = 7)) := by
  refine ⟨?_, ?_, ?_⟩
  · intro token h
    unfold hashcash_count
    rw [strchr_none.2 h]
  · intro ver rest hver h
    rw [hashcash_count_split E ver rest hver]
    rcases h with h | h | h
    · simp [h]
    · by_cases h1 : ver.length > E.MAX_VER
      · simp [h1]
      · by_cases h2 : atoi ver < 0
        · simp [h1, h2]
        · simp [h1, h2, h]
    · by_cases h1 : ver.length > E.MAX_VER
      · simp [h1]
      · by_cases h2 : atoi ver < 0
        · simp [h1, h2]
        · by_cases h3 : atoi ver ≠ 0
          · simp [h1, h2, h3]
          · rw [strchr_none.2 h]
            simp [h1, h2, h3]
  · intro ver rest hver hlen hat hcolon hnz
    have hcount : hashcash_count E (ver ++ ':' :: rest) =
        leadingZeroBits (E.SHA1_Final (E.SHA1_Update E.SHA1_Init (ver ++ ':' :: rest))) := by
      rw [hashcash_count_split E ver rest hver]
      obtain ⟨i, hi⟩ := strchr_isSome_of_mem rest ':' hcolon
      rw [hi, hat]
      simp only [gt_iff_lt, Nat.not_lt.2 hlen, if_false, lt_irrefl, ne_eq, not_true_eq_false]
      exact count_digest_bits_eq E _ (hE.final_length _) (hE.final_byte _) hnz
    refine ⟨hcount, ?_⟩
    intro hhead
    rw [hcount]
    cases hd : E.SHA1_Final (E.SHA1_Update E.SHA1_Init (ver ++ ':' :: rest)) with
    | nil => rw [hd] at hhead; simp at hhead
    | cons b t =>
      rw [hd] at hhead
      simp only [List.head?_cons, Option.some.injEq] at hhead
      rw [hhead]
      have h7 : leadingZeroBitsOfByte 1 = 7 := by decide
      simp [leadingZeroBits, h7]

/-- Witness for C3 in the small environment with `oneDigest`. -/
theorem hashcash_count_spec_witness :
    hashcash_count (toyEnv oneDigest) "nocolon".toList = 0 ∧
    hashcash_count (toyEnv oneDigest) ("1".toList ++ ':' :: "040404:foo:abc".toList) = 0 ∧
    (hashcash_count (toyEnv oneDigest) ("0".toList ++ ':' :: "040404:foo:abc".toList) =
        leadingZeroBits (oneDigest ("0".toList ++ ':' :: "040404:foo:abc".toList)) ∧
      hashcash_count (toyEnv oneDigest) ("0".toList ++ ':' :: "040404:foo:abc".toList) = 7) :=
  ⟨(hashcash_count_spec (toyEnv oneDigest) oneDigest_contract).1 "nocolon".toList (by decide),
    (hashcash_count_spec (toyEnv oneDigest) oneDigest_contract).2.1 "1".toList
      "040404:foo:abc".toList (by decide) (Or.inr (Or.inl (by decide))),
    ((hashcash_count_spec (toyEnv oneDigest) oneDigest_contract).2.2 "0".toList
      "040404:foo:abc".toList (by decide) (by decide) (by decide) (by decide)
      ⟨1, by decide, by decide⟩).1,
    ((hashcash_count_spec (toyEnv oneDigest) oneDigest_contract).2.2 "0".toList
      "040404:foo:abc".toList (by decide) (by decide) (by decide) (by decide)
      ⟨1, by decide, by decide⟩).2 (by decide)⟩

/-- C4, the code at the failing input: on the version-0 token `0:040404:foo:abc`
with a digest of twenty zero bytes, the byte loop of `hashcash_count` leaves
`last = SHA1_DIGEST_BYTES`, so the bit loop reads `token_digest[ 20 ]` and
`target_digest[ 20 ]`, past both arrays; with equal bytes there the function
returns 168, with bytes that differ in the top bit it returns 160. -/
theorem hashcash_count_zero_digest :
    hashcash_count_last (zeroDigest "0:040404:foo:abc".toList) = SHA1_DIGEST_BYTES ∧
    hashcash_count (toyEnv zeroDigest) "0:040404:foo:abc".toList = 168 ∧
    hashcash_count { toyEnv zeroDigest with past_token_digest := 128 }
      "0:040404:foo:abc".toList = 160 := by
  decide

/-- C5: `hashcash_valid_for` equals the validity rule of the specification on
exact integers; a period of 0 gives `HASHCASH_VALID_FOREVER` whatever the
other arguments; and for `P > 0`, `G >= 0`, `now = t+P+G-1` gives 1 and
`now = t+P+G+1` gives `HASHCASH_EXPIRED`. -/
theorem hashcash_valid_for_spec (E : Env) :
    (∀ t P G now : Int, hashcash_valid_for E t P G now = valid_for_reference E t P G now) ∧
    (∀ t G now : Int, hashcash_valid_for E t 0 G now = E.HASHCASH_VALID_FOREVER) ∧
    (∀ t P G : Int, 0 < P → 0 ≤ G →
      hashcash_valid_for E t P G (t + P + G - 1) = 1 ∧
      hashcash_valid_for E t P G (t + P + G + 1) = E.HASHCASH_EXPIRED) := by
  refine ⟨?_, ?_, ?_⟩
  · intro t P G now
    unfold hashcash_valid_for valid_for_reference
    by_cases hP : P = 0
    · simp [hP]
    · by_cases hf : t > now + G
      · simp [hP, hf]
      · simp only [hP, hf, if_false]
        by_cases hr : t + P + G > now
        · have : 0 < t + P + G - now := by omega
          simp [hr, this]
        · have : ¬ 0 < t + P + G - now := by omega
          simp [hr, this]
  · intro t G now
    simp [hashcash_valid_for]
  · intro t P G hP hG
    have hP0 : P ≠ 0 := by omega
    constructor
    · unfold hashcash_valid_for
      have h1 : ¬ t > t + P + G - 1 + G := by omega
      have h2 : t + P + G > t + P + G - 1 := by omega
      simp only [hP0, h1, h2, if_false, if_true]
      omega
    · unfold hashcash_valid_for
      have h1 : ¬ t > t + P + G + 1 + G := by omega
      have h2 : ¬ t + P + G > t + P + G + 1 := by omega
      simp only [hP0, h1, h2, if_false]

/-- Witness for C5 at `t = 1000`, `P = 86400`, `G = 60`. -/
theorem hashcash_valid_for_spec_witness :
    hashcash_valid_for (toyEnv oneDigest) 1000 86400 60 (1000 + 86400 + 60 - 1) = 1 ∧
    hashcash_valid_for (toyEnv oneDigest) 1000 86400 60 (1000 + 86400 + 60 + 1) =
      (toyEnv oneDigest).HASHCASH_EXPIRED :=
  (hashcash_valid_for_spec (toyEnv oneDigest)).2.2 1000 86400 60 (by decide) (by decide)

theorem hex_valid : ∀ c ∈ hex, c ∈ VALID_STR_CHARS ∧ c ≠ ':' := by
  decide

/-- The stages of `hashcash_check`: it returns the outcome of the first failing
stage, in the order parse (`HASHCASH_INVALID`), version
(`HASHCASH_UNSUPPORTED_VERSION`), time stamp (`HASHCASH_INVALID`), resource
(`HASHCASH_WRONG_RESOURCE` or `HASHCASH_REGEXP_ERROR`), bit count
(`HASHCASH_INSUFFICIENT_BITS`), and otherwise the result of
`hashcash_valid_for` converted to `int`; a token whose recomputed bit count is
below `required_bits` always gets one of the failure codes. -/
theorem hashcash_check_stages (E : Env) (token : List Char) (resource : Option (List Char))
    (re_err : Option String) (type : ResType)
    (now_time validity_period grace_period required_bits : Int) :
    (hashcash_parse E token E.MAX_UTC E.MAX_RES = none →
      hashcash_check E token resource re_err type now_time validity_period grace_period
        required_bits = E.HASHCASH_INVALID) ∧
    (∀ (vers : Int) (token_utime token_res : List Char),
      hashcash_parse E token E.MAX_UTC E.MAX_RES = some (vers, token_utime, token_res) →
      (vers ≠ 0 →
        hashcash_check E token resource re_err type now_time validity_period grace_period
          required_bits = E.HASHCASH_UNSUPPORTED_VERSION) ∧
      (vers = 0 → E.from_utctimestr token_utime = -1 →
        hashcash_check E token resource re_err type now_time validity_period grace_period
          required_bits = E.HASHCASH_INVALID) ∧
      (vers = 0 → E.from_utctimestr token_utime ≠ -1 →
        ∀ res, resource = some res → (resource_match E type token_res res re_err).1 = 0 →
        hashcash_check E token resource re_err type now_time validity_period grace_period
            required_bits = E.HASHCASH_WRONG_RESOURCE ∨
          hashcash_check E token resource re_err type now_time validity_period grace_period
            required_bits = E.HASHCASH_REGEXP_ERROR) ∧
      (vers = 0 → E.from_utctimestr token_utime ≠ -1 →
        (resource = none ∨
          ∃ res, resource = some res ∧ (resource_match E type token_res res re_err).1 ≠ 0) →
        ((hashcash_count E token : Int) < required_bits →
          hashcash_check E token resource re_err type now_time validity_period grace_period
            required_bits = E.HASHCASH_INSUFFICIENT_BITS) ∧
        (¬ (hashcash_count E token : Int) < required_bits →
          hashcash_check E token resource re_err type now_time validity_period grace_period
            required_bits =
            long_to_int (hashcash_valid_for E (E.from_utctimestr token_utime) validity_period
              grace_period now_time)))) ∧
    ((hashcash_count E token : Int) < required_bits →
      hashcash_check E token resource re_err type now_time validity_period grace_period
          required_bits = E.HASHCASH_INVALID ∨
        hashcash_check E token resource re_err type now_time validity_period grace_period
          required_bits = E.HASHCASH_UNSUPPORTED_VERSION ∨
        hashcash_check E token resource re_err type now_time validity_period grace_period
          required_bits = E.HASHCASH_WRONG_RESOURCE ∨
        hashcash_check E token resource re_err type now_time validity_period grace_period
          required_bits = E.HASHCASH_REGEXP_ERROR ∨
        hashcash_check E token resource re_err type now_time validity_period grace_period
          required_bits = E.HASHCASH_INSUFFICIENT_BITS) := by
  refine ⟨?_, ?_, ?_⟩
  · intro hp
    unfold hashcash_check
    rw [hp]
  · intro vers ut tres hp
    unfold hashcash_check
    rw [hp]
    refine ⟨?_, ?_, ?_, ?_⟩
    · intro hv
      simp [hv]
    · intro hv ht
      simp [hv, ht]
    · intro hv ht res hres hm
      subst hres
      simp only [hv, ne_eq, not_true_eq_false, if_false, ht, hm, if_true]
      by_cases he : (resource_match E type tres res re_err).2 = none
      · simp [he]
      · simp [he]
    · intro hv ht hres
      have hfailed : (match resource with
          | none => (none : Option (Option String))
          | some res =>
            if (resource_match E type tres res re_err).1 = 0 then
              some (resource_match E type tres res re_err).2
            else none) = none := by
        rcases hres with hres | ⟨res, hres, hm⟩
        · rw [hres]
        · rw [hres]
          simp [hm]
      simp only [hv, ne_eq, not_true_eq_false, if_false, ht]
      rw [hfailed]
      constructor
      · intro hb
        simp [hb]
      · intro hb
        simp [hb]
  · intro hb
    unfold hashcash_check
    cases hp : hashcash_parse E token E.MAX_UTC E.MAX_RES with
    | none => left; rfl
    | some r =>
      obtain ⟨vers, ut, tres⟩ := r
      simp only
      by_cases hv : vers ≠ 0
      · right; left
        simp [hv]
      · by_cases ht : E.from_utctimestr ut = -1
        · left
          simp [hv, ht]
        · simp only [hv, if_false, ht]
          cases resource with
          | none =>
            right; right; right; right
            simp [hb]
          | some res =>
            by_cases hm : (resource_match E type tres res re_err).1 = 0
            · by_cases he : (resource_match E type tres res re_err).2 = none
              · right; right; left
                simp [hm, he]
              · right; right; right; left
                simp [hm, he]
            · right; right; right; right
              simp [hm, hb]

/-- The stages at an unparsable token, and at the minted token
`0:040404:foo:000000010000000200000000` checked for 16 bits. -/
theorem hashcash_check_stages_witness :
    hashcash_check (toyEnv lastDigest) "garbage".toList (some "foo".toList) none
        ResType.TYPE_STR 1000 86400 60 16 = (toyEnv lastDigest).HASHCASH_INVALID ∧
    hashcash_check (toyEnv lastDigest) "0:040404:foo:000000010000000200000000".toList
        (some "foo".toList) none ResType.TYPE_STR 1000 86400 60 16 =
      long_to_int (hashcash_valid_for (toyEnv lastDigest)
        ((toyEnv lastDigest).from_utctimestr "040404".toList) 86400 60 1000) ∧
    (hashcash_check (toyEnv lastDigest) "0:040404:foo:000000010000000200000000".toList
        (some "bar".toList) none ResType.TYPE_STR 1000 86400 60 16 =
        (toyEnv lastDigest).HASHCASH_WRONG_RESOURCE ∨
      hashcash_check (toyEnv lastDigest) "0:040404:foo:000000010000000200000000".toList
        (some "bar".toList) none ResType.TYPE_STR 1000 86400 60 16 =
        (toyEnv lastDigest).HASHCASH_REGEXP_ERROR) :=
  ⟨(hashcash_check_stages (toyEnv lastDigest) "garbage".toList (some "foo".toList) none
      ResType.TYPE_STR 1000 86400 60 16).1 (by decide),
    (((hashcash_check_stages (toyEnv lastDigest)
      "0:040404:foo:000000010000000200000000".toList (some "foo".toList) none
      ResType.TYPE_STR 1000 86400 60 16).2.1 0 "040404".toList "foo".toList
      (by decide)).2.2.2 rfl (by decide)
      (Or.inr ⟨"foo".toList, rfl, by decide⟩)).2 (by decide),
    ((hashcash_check_stages (toyEnv lastDigest)
      "0:040404:foo:000000010000000200000000".toList (some "bar".toList) none
      ResType.TYPE_STR 1000 86400 60 16).2.1 0 "040404".toList "foo".toList
      (by decide)).2.2.1 rfl (by decide) "bar".toList rfl (by decide)⟩

/-- C6, the code at the failing input: `hashcash_check` is declared `int` and
returns the `long` of `hashcash_valid_for`.  For the minted token
`0:040404:foo:000000010000000200000000`, checked for 16 bits at the token's
own time with a validity period of `2^32` seconds, `hashcash_valid_for` gives
`2^32` and `hashcash_check` returns 0, the value of `HASHCASH_VALID_FOREVER`;
with a validity period of `2^32 - 6` seconds `hashcash_valid_for` gives
`2^32 - 6` and `hashcash_check` returns -6, the value of
`HASHCASH_WRONG_RESOURCE`. -/
theorem hashcash_check_truncates :
    hashcash_valid_for (toyEnv lastDigest) 1000 (2 ^ 32) 0 1000 = 2 ^ 32 ∧
    hashcash_check (toyEnv lastDigest) "0:040404:foo:000000010000000200000000".toList
        (some "foo".toList) none ResType.TYPE_STR 1000 (2 ^ 32) 0 16 = 0 ∧
    hashcash_valid_for (toyEnv lastDigest) 1000 (2 ^ 32 - 6) 0 1000 = 2 ^ 32 - 6 ∧
    hashcash_check (toyEnv lastDigest) "0:040404:foo:000000010000000200000000".toList
        (some "foo".toList) none ResType.TYPE_STR 1000 (2 ^ 32 - 6) 0 16 = -6 ∧
    (toyEnv lastDigest).HASHCASH_WRONG_RESOURCE = -6 := by
  decide

/-- A result of `hashcash_valid_for` that an `int` holds is returned by
`hashcash_check` as it is. -/
theorem long_to_int_of_range (x : Int) (h1 : -(2 ^ 31) ≤ x) (h2 : x < 2 ^ 31) :
    long_to_int x = x := by
  unfold long_to_int
  omega

/-- C7: if `hashcash_mint` returns `HASHCASH_OK` with token `T` for a resource
`R` of at most `MAX_RES` characters and a bit target `B`, then `T` parses with
version 0 and resource `R`, and `hashcash_check` on `T` with resource `R` under
exact matching, `required_bits = B`, validity period 86400, grace period 60 and
`now` the token's own time, when the time stamp field decodes to a valid time,
returns 86460 remaining seconds, a strictly positive number.  The printed time
stamp is assumed to have no colon and at most `MAX_UTC` characters, and
`MAX_TOK` to hold the whole token. -/
theorem mint_then_check (E : Env) (hE : E.HashContract) (hver : 1 ≤ E.MAX_VER)
    (rng : Rng) (now_time time_width : Int) (R : List Char) (B : Nat) (anon_period : Int)
    (token0 : Option (List Char)) (T : List Char) (re_err : Option String)
    (hR : R.length ≤ E.MAX_RES)
    (hts : ∀ w t, ':' ∉ E.to_utctimestr w t ∧ (E.to_utctimestr w t).length ≤ E.MAX_UTC)
    (hfit : 28 + E.MAX_UTC + E.MAX_RES ≤ E.MAX_TOK)
    (hmint : hashcash_mint E rng now_time time_width (some R) B anon_period token0 =
      some (MintCode.HASHCASH_OK, some T)) :
    ∃ ts : List Char, hashcash_parse E T E.MAX_UTC E.MAX_RES = some (0, ts, R) ∧
      (E.from_utctimestr ts ≠ -1 →
        hashcash_check E T (some R) re_err ResType.TYPE_STR (E.from_utctimestr ts) 86400 60 B
          = 86460 ∧
        0 < hashcash_check E T (some R) re_err ResType.TYPE_STR (E.from_utctimestr ts)
          86400 60 B) := by
  obtain ⟨res, tok, w, t, counter, tokin, found, hr, ht, hlen, hhex, hfound, hfc⟩ :=
    hashcash_mint_ok E rng now_time time_width _ B anon_period token0 _ hmint
  simp only [Option.some.injEq] at hr ht
  subst hr
  subst ht
  obtain ⟨hcolon, hutl⟩ := hts w t
  obtain ⟨⟨tail, hshape, htail⟩, hcount⟩ :=
    find_collision_sound E hE hver _ R B tokin _ counter found T (by omega) hR (by omega)
      hfc hfound
  have hT : T = ['0'] ++ ':' :: (E.to_utctimestr w t ++ ':' ::
      (R ++ ':' :: (counter.take (counter.length - 8) ++ tail))) := by
    rw [hshape]
    simp
  have hctr : ∀ x ∈ counter.take (counter.length - 8) ++ tail, x ∈ hex := by
    intro x hx
    rcases List.mem_append.1 hx with hx | hx
    · exact hhex x (List.mem_of_mem_take hx)
    · exact htail x hx
  have hat : atoi ['0'] = 0 := by decide
  have hparse : hashcash_parse E T E.MAX_UTC E.MAX_RES =
      some (0, E.to_utctimestr w t, R) := by
    have := hashcash_parse_fields E ['0'] (E.to_utctimestr w t) R
      (counter.take (counter.length - 8) ++ tail) E.MAX_UTC E.MAX_RES (by decide)
      (by simpa using hver) (by rw [hat]) hcolon (by exact_mod_cast hutl)
      (by exact_mod_cast hR) (fun x hx => (hex_valid x (hctr x hx)).1)
      (fun hmem => (hex_valid ':' (hctr ':' hmem)).2 rfl)
    rw [hat, ← hT] at this
    exact this
  refine ⟨E.to_utctimestr w t, hparse, ?_⟩
  intro hvalid
  have hcheck : hashcash_check E T (some R) re_err ResType.TYPE_STR
      (E.from_utctimestr (E.to_utctimestr w t)) 86400 60 B = 86460 := by
    unfold hashcash_check
    rw [hparse]
    have hb : ¬ ((hashcash_count E T : Int) < (B : Int)) := by
      simp only [not_lt]
      exact_mod_cast hcount
    simp only [ne_eq, not_true_eq_false, if_false, hvalid, resource_match,
      (strcmp_eq_zero R R).2 rfl, hb]
    simp only [one_ne_zero, if_false]
    unfold hashcash_valid_for
    have h1 : ¬ ((86400 : Int) = 0) := by decide
    have h2 : ¬ (E.from_utctimestr (E.to_utctimestr w t) >
        E.from_utctimestr (E.to_utctimestr w t) + 60) := by omega
    have h3 : E.from_utctimestr (E.to_utctimestr w t) + 86400 + 60 >
        E.from_utctimestr (E.to_utctimestr w t) := by omega
    simp only [h1, h2, h3, if_false, if_true]
    have h4 : E.from_utctimestr (E.to_utctimestr w t) + 86400 + 60 -
        E.from_utctimestr (E.to_utctimestr w t) = 86460 := by omega
    rw [h4]
    decide
  exact ⟨hcheck, by rw [hcheck]; decide⟩

/-- Witness for C7 in the small environment with `lastDigest`: resource `foo`,
16 bits. -/
theorem mint_then_check_witness :
    ∃ ts : List Char,
      hashcash_parse (toyEnv lastDigest) "0:040404:foo:000000010000000200000000".toList
          (toyEnv lastDigest).MAX_UTC (toyEnv lastDigest).MAX_RES =
        some (0, ts, "foo".toList) ∧
      ((toyEnv lastDigest).from_utctimestr ts ≠ -1 →
        hashcash_check (toyEnv lastDigest) "0:040404:foo:000000010000000200000000".toList
            (some "foo".toList) none ResType.TYPE_STR
            ((toyEnv lastDigest).from_utctimestr ts) 86400 60 (16 : Nat) = 86460 ∧
          0 < hashcash_check (toyEnv lastDigest)
            "0:040404:foo:000000010000000200000000".toList (some "foo".toList) none
            ResType.TYPE_STR ((toyEnv lastDigest).from_utctimestr ts) 86400 60 (16 : Nat)) :=
  mint_then_check (toyEnv lastDigest) lastDigest_contract (by decide)
    ⟨some 1, some 2, some 3, fun _ => some 0⟩ 1000 6 "foo".toList 16 0 (some [])
    "0:040404:foo:000000010000000200000000".toList none (by decide)
    (fun _ _ => ⟨(by decide : ':' ∉ "040404".toList),
      (by decide : "040404".toList.length ≤ 13)⟩)
    (by decide) (by decide)

/-! ## Claims on the character set and the version field -/

/-- C11, the code at the failing input: `VALID_STR_CHARS` is the characters
with codes 33 to 126, so the space (code 32) is not accepted; the token
`0:040404:foo:a b` is rejected by `hashcash_parse`, although the text after its
last colon is made of characters with codes from 32 to 126 and the same token
without the space is accepted. -/
theorem hashcash_parse_space_rejected :
    VALID_STR_CHARS = (List.range 94).map (fun i => Char.ofNat (33 + i)) ∧
    (∀ c ∈ "a b".toList, 32 ≤ c.toNat ∧ c.toNat ≤ 126) ∧
    hashcash_parse (toyEnv oneDigest) "0:040404:foo:a b".toList 13 256 = none ∧
    hashcash_parse (toyEnv oneDigest) "0:040404:foo:ab".toList 13 256 =
      some (0, "040404".toList, "foo".toList) := by
  decide

theorem toDecimal_isdigit (v : Nat) : ∀ c ∈ toDecimal v, isdigit c = true := by
  have hlt : v < 10 ^ (v + 1) :=
    lt_trans (Nat.lt_pow_self (by decide : 1 < 10) v)
      (Nat.pow_lt_pow_right (by decide) (Nat.lt_succ_self v))
  obtain ⟨ds, hds, _, hdig, _⟩ := toDecimalAux_spec v v [] hlt
  intro c hc
  unfold toDecimal at hc
  rw [hds, List.append_nil] at hc
  exact (hdig c hc).1

/-- What `hashcash_parse` does with the version field `ver` of a token
`ver:rest`. -/
theorem hashcash_parse_split (E : Env) (ver rest : List Char) (utct_max res_max : Int)
    (hver : ':' ∉ ver) :
    ((ver.length > E.MAX_VER ∨ atoi ver < 0) →
      hashcash_parse E (ver ++ ':' :: rest) utct_max res_max = none) ∧
    (∀ (v : Int) (ts r : List Char),
      hashcash_parse E (ver ++ ':' :: rest) utct_max res_max = some (v, ts, r) →
      ver.length ≤ E.MAX_VER ∧ v = atoi ver ∧ 0 ≤ v) := by
  have h1 : List.take ver.length (ver ++ ':' :: rest) = ver := by simp
  constructor
  · intro h
    unfold hashcash_parse
    rw [strchr_append ver rest ':' hver]
    simp only [sstrncpy, h1]
    rcases h with h | h
    · simp [h]
    · by_cases hl : ver.length > E.MAX_VER
      · simp [hl]
      · simp [hl, h]
  · intro v ts r h
    unfold hashcash_parse at h
    rw [strchr_append ver rest ':' hver] at h
    simp only [sstrncpy, h1] at h
    split at h
    · exact absurd h (by simp)
    · rename_i hl
      split at h
      · exact absurd h (by simp)
      · rename_i hn
        split at h
        · exact absurd h (by simp)
        · split at h
          · exact absurd h (by simp)
          · split at h
            · exact absurd h (by simp)
            · split at h
              · exact absurd h (by simp)
              · split at h
                · exact absurd h (by simp)
                · simp only [Option.some.injEq, Prod.mk.injEq] at h
                  exact ⟨Nat.le_of_not_gt hl, h.1.symm, by rw [← h.1]; exact le_of_not_lt hn⟩

/-- C12, as stated, fails on the token `x:040404:foo:abc`: its version field
`x` is the decimal text of no natural number, and `hashcash_parse` accepts the
token, with version 0. -/
theorem hashcash_parse_version_counterexample :
    (¬ ∃ v : Nat, toDecimal v = "x".toList) ∧
    hashcash_parse (toyEnv oneDigest) "x:040404:foo:abc".toList 13 256 =
      some (0, "040404".toList, "foo".toList) := by
  refine ⟨?_, by decide⟩
  rintro ⟨v, hv⟩
  have := toDecimal_isdigit v 'x' (by rw [hv]; decide)
  revert this
  decide

/-- C12 (amended): `hashcash_parse` rejects every token whose version field
is longer than `MAX_VER` or reads, by `atoi`, as a negative number; when it
accepts a token the version it returns is the `atoi` value of the version
field, which is not negative; and a version field of at most `MAX_VER`
characters whose `atoi` value is not negative (a field that is empty or does
not start with a number reads as 0) is accepted when the rest of the token is
well formed. -/
theorem hashcash_parse_version (E : Env) (ver : List Char) (utct_max res_max : Int)
    (hver : ':' ∉ ver) :
    (∀ rest : List Char, (ver.length > E.MAX_VER ∨ atoi ver < 0) →
      hashcash_parse E (ver ++ ':' :: rest) utct_max res_max = none) ∧
    (∀ (rest : List Char) (v : Int) (ts r : List Char),
      hashcash_parse E (ver ++ ':' :: rest) utct_max res_max = some (v, ts, r) →
      ver.length ≤ E.MAX_VER ∧ v = atoi ver ∧ 0 ≤ v) ∧
    (∀ ts r c : List Char, ver.length ≤ E.MAX_VER → 0 ≤ atoi ver →
      ':' ∉ ts → (ts.length : Int) ≤ utct_max → (r.length : Int) ≤ res_max →
      (∀ x ∈ c, x ∈ VALID_STR_CHARS) → ':' ∉ c →
      hashcash_parse E (ver ++ ':' :: (ts ++ ':' :: (r ++ ':' :: c))) utct_max res_max =
        some (atoi ver, ts, r)) :=
  ⟨fun rest => (hashcash_parse_split E ver rest utct_max res_max hver).1,
    fun rest => (hashcash_parse_split E ver rest utct_max res_max hver).2,
    fun ts r c hl hn hts htl hrl hc hcc =>
      hashcash_parse_fields E ver ts r c utct_max res_max hver hl hn hts htl hrl hc hcc⟩

/-- Witness for C12 (amended): the version fields `-1`, `7` and `x`. -/
theorem hashcash_parse_version_witness :
    hashcash_parse (toyEnv oneDigest) ("-1".toList ++ ':' :: "040404:foo:abc".toList) 13 256
      = none ∧
    ("7".toList.length ≤ (toyEnv oneDigest).MAX_VER ∧ (7 : Int) = atoi "7".toList ∧
      (0 : Int) ≤ 7) ∧
    hashcash_parse (toyEnv oneDigest)
        ("x".toList ++ ':' :: ("040404".toList ++ ':' :: ("foo".toList ++ ':' :: "abc".toList)))
        13 256 = some (atoi "x".toList, "040404".toList, "foo".toList) :=
  ⟨(hashcash_parse_version (toyEnv oneDigest) "-1".toList 13 256 (by decide)).1
      "040404:foo:abc".toList (Or.inr (by decide)),
    (hashcash_parse_version (toyEnv oneDigest) "7".toList 13 256 (by decide)).2.1
      "040404:foo:abc".toList 7 "040404".toList "foo".toList (by decide),
    (hashcash_parse_version (toyEnv oneDigest) "x".toList 13 256 (by decide)).2.2
      "040404".toList "foo".toList "abc".toList (by decide) (by decide) (by decide)
      (by decide) (by decide) (by decide) (by decide)⟩

/-- C13: with a non-null resource and token buffer, `hashcash_mint` returns
`HASHCASH_INVALID_TOK_LEN` when `bits > 160`; otherwise, when the three random
words are delivered, `HASHCASH_INVALID_TIME` when `now_time < 0`, and
otherwise, with `anon_period = 0`, `HASHCASH_INVALID_TIME_WIDTH` when
`time_width` is none of 0, 2, 4, 6, 8, 10, 12.  In each case the result does
not depend on any search (it is the same in every environment, also one where
`find_collision` has no defined result) and the token buffer is unchanged. -/
theorem hashcash_mint_input_errors (E : Env) (rng : Rng) (now_time time_width : Int)
    (resource : List Char) (bits : Nat) (anon_period : Int) (token : List Char) :
    (bits > 160 →
      hashcash_mint E rng now_time time_width (some resource) bits anon_period (some token) =
        some (MintCode.HASHCASH_INVALID_TOK_LEN, some token)) ∧
    (bits ≤ 160 → rng.ran0.isSome → rng.ran1.isSome → rng.ran2.isSome → now_time < 0 →
      hashcash_mint E rng now_time time_width (some resource) bits anon_period (some token) =
        some (MintCode.HASHCASH_INVALID_TIME, some token)) ∧
    (bits ≤ 160 → rng.ran0.isSome → rng.ran1.isSome → rng.ran2.isSome → 0 ≤ now_time →
      anon_period = 0 →
      time_width ≠ 0 → time_width ≠ 2 → time_width ≠ 4 → time_width ≠ 6 →
      time_width ≠ 8 → time_width ≠ 10 → time_width ≠ 12 →
      hashcash_mint E rng now_time time_width (some resource) bits anon_period (some token) =
        some (MintCode.HASHCASH_INVALID_TIME_WIDTH, some token)) := by
  refine ⟨?_, ?_, ?_⟩
  · intro hb
    have hb2 : bits > SHA1_DIGEST_BYTES * 8 := hb
    simp [hashcash_mint, hb2]
  · intro hb h0 h1 h2 hn
    have hb2 : ¬ bits > SHA1_DIGEST_BYTES * 8 := Nat.not_lt.2 hb
    obtain ⟨r0, hr0⟩ := Option.isSome_iff_exists.1 h0
    obtain ⟨r1, hr1⟩ := Option.isSome_iff_exists.1 h1
    obtain ⟨r2, hr2⟩ := Option.isSome_iff_exists.1 h2
    simp [hashcash_mint, hb2, hr0, hr1, hr2, hn]
  · intro hb h0 h1 h2 hn ha w0 w2 w4 w6 w8 w10 w12
    have hb2 : ¬ bits > SHA1_DIGEST_BYTES * 8 := Nat.not_lt.2 hb
    have hn2 : ¬ now_time < 0 := not_lt.2 hn
    obtain ⟨r0, hr0⟩ := Option.isSome_iff_exists.1 h0
    obtain ⟨r1, hr1⟩ := Option.isSome_iff_exists.1 h1
    obtain ⟨r2, hr2⟩ := Option.isSome_iff_exists.1 h2
    simp [hashcash_mint, hb2, hr0, hr1, hr2, hn2, ha, w0, w2, w4, w6, w8, w10, w12]

/-- Witness for C13: 161 bits; a negative time; a time width of 7. -/
theorem hashcash_mint_input_errors_witness :
    hashcash_mint (toyEnv oneDigest) ⟨some 1, some 2, some 3, fun _ => some 0⟩ 1000 6
        (some "foo".toList) 161 0 (some "old".toList) =
      some (MintCode.HASHCASH_INVALID_TOK_LEN, some "old".toList) ∧
    hashcash_mint (toyEnv oneDigest) ⟨some 1, some 2, some 3, fun _ => some 0⟩ (-5) 6
        (some "foo".toList) 20 0 (some "old".toList) =
      some (MintCode.HASHCASH_INVALID_TIME, some "old".toList) ∧
    hashcash_mint (toyEnv oneDigest) ⟨some 1, some 2, some 3, fun _ => some 0⟩ 1000 7
        (some "foo".toList) 20 0 (some "old".toList) =
      some (MintCode.HASHCASH_INVALID_TIME_WIDTH, some "old".toList) :=
  ⟨(hashcash_mint_input_errors (toyEnv oneDigest) ⟨some 1, some 2, some 3, fun _ => some 0⟩
      1000 6 "foo".toList 161 0 "old".toList).1 (by decide),
    (hashcash_mint_input_errors (toyEnv oneDigest) ⟨some 1, some 2, some 3, fun _ => some 0⟩
      (-5) 6 "foo".toList 20 0 "old".toList).2.1 (by decide) rfl rfl rfl (by decide),
    (hashcash_mint_input_errors (toyEnv oneDigest) ⟨some 1, some 2, some 3, fun _ => some 0⟩
      1000 7 "foo".toList 20 0 "old".toList).2.2 (by decide) rfl rfl rfl (by decide) rfl
      (by decide) (by decide) (by decide) (by decide) (by decide) (by decide) (by decide)⟩

/-! ## The reverification bit count -/

/-- What the byte loop of the reverification computes, for any start `a` and
any number `n` of iterations left. -/
theorem verify_bytes_loop_spec (d : List Nat) (n : Nat) :
    ∀ a, a ≤ verify_bytes_loop d n a ∧
      (∀ k, a ≤ k → k < verify_bytes_loop d n a → d.getD k 0 = 0) ∧
      (a ≤ SHA1_DIGEST_BYTES - 1 → verify_bytes_loop d n a ≤ SHA1_DIGEST_BYTES - 1) ∧
      (SHA1_DIGEST_BYTES - 1 < n + a →
        verify_bytes_loop d n a < SHA1_DIGEST_BYTES - 1 →
        d.getD (verify_bytes_loop d n a) 0 ≠ 0) := by
  induction n with
  | zero =>
    intro a
    simp only [verify_bytes_loop]
    refine ⟨le_refl _, ?_, fun h => h, ?_⟩
    · intro k h1 h2; omega
    · intro h1 h2; omega
  | succ n ih =>
    intro a
    unfold verify_bytes_loop
    by_cases hc : a < SHA1_DIGEST_BYTES - 1 ∧ d.getD a 0 = 0
    · simp only [hc, and_self, if_true]
      obtain ⟨h1, h2, h3, h4⟩ := ih (a + 1)
      refine ⟨by omega, ?_, fun _ => h3 (by omega), fun hn => h4 (by omega)⟩
      intro k hk1 hk2
      rcases Nat.eq_or_lt_of_le hk1 with heq | hlt
      · rw [← heq]; exact hc.2
      · exact h2 k hlt hk2
    · simp only [hc, if_false]
      refine ⟨le_refl _, ?_, fun h => h, ?_⟩
      · intro k h1 h2; omega
      · intro _ hlt hz
        exact hc ⟨hlt, hz⟩

set_option maxRecDepth 100000 in
theorem verify_bits_loop_byte :
    ∀ t, t < 256 → verify_bits_loop 9 t 0 = leadingZeroBitsOfByte t := by
  decide

theorem leadingZeroBits_all_zero (d : List Nat) (h : ∀ b ∈ d, b = 0) :
    leadingZeroBits d = 8 * d.length := by
  induction d with
  | nil => rfl
  | cons x rest ih =>
    have hx : x = 0 := h x (by simp)
    have hrest : ∀ b ∈ rest, b = 0 := fun b hb => h b (List.mem_cons_of_mem _ hb)
    simp only [leadingZeroBits, hx, if_true, ih hrest, List.length_cons]
    omega

/-- The reverification bit count is the number of leading zero bits of the
digest, for every digest of twenty bytes. -/
theorem verify_bits_eq (d : List Nat) (hlen : d.length = 20) (hbyte : ∀ b ∈ d, b < 256) :
    verify_bits d = leadingZeroBits d := by
  obtain ⟨_, hzero, hle, hnz⟩ := verify_bytes_loop_spec d SHA1_DIGEST_BYTES 0
  have e19 : SHA1_DIGEST_BYTES - 1 = 19 := rfl
  have hle2 := hle (Nat.zero_le _)
  have hnz2 := hnz (by simp [SHA1_DIGEST_BYTES])
  rw [e19] at hle2 hnz2
  unfold verify_bits
  simp only
  rw [verify_bits_loop_byte _ (getD_lt_256 d hbyte _)]
  generalize verify_bytes_loop d SHA1_DIGEST_BYTES 0 = a at *
  by_cases hall : ∀ b ∈ d, b = 0
  · have hlz := leadingZeroBits_all_zero d hall
    have hget : ∀ k, d.getD k 0 = 0 := by
      intro k
      rw [List.getD_eq_getElem?_getD]
      cases hg : d[k]? with
      | none => rfl
      | some x => simpa using hall x (List.getElem?_mem hg)
    have ha : a = 19 := by
      by_contra hne
      exact hnz2 (by omega) (hget a)
    rw [ha, hget 19, hlz, hlen]
    decide
  · have hex : ∃ b ∈ d, b ≠ 0 := by
      by_contra hno
      apply hall
      intro b hb
      by_contra hb0
      exact hno ⟨b, hb, hb0⟩
    obtain ⟨h1, h2, h3⟩ := leadingZeroBytes_nonzero d hex
    have ha : a = leadingZeroBytes d := by
      rcases Nat.lt_trichotomy a (leadingZeroBytes d) with h | h | h
      · exact absurd (leadingZeroBytes_zero d _ h) (hnz2 (by omega))
      · exact h
      · exact absurd (hzero _ (Nat.zero_le _) h) h2
    rw [ha, h3]
    omega

/-! ## Claim on the agreement of the two bit counts -/

/-- C18, the code at the failing input: on the digest of twenty zero bytes the
reverification code of `hashcash_fastmint` and `hashcash_benchtest` counts 160
bits, and the two loops of `hashcash_count` count 168 when the bytes that
follow its two arrays are equal (the read past the arrays of C4). -/
theorem verify_bits_zero_digest :
    verify_bits (List.replicate 20 0) = 160 ∧
    count_digest_bits (toyEnv zeroDigest) (List.replicate 20 0) = 168 ∧
    hashcash_count (toyEnv zeroDigest) "0:040404:foo:abc".toList ≠
      verify_bits (zeroDigest "0:040404:foo:abc".toList) := by
  decide

/-- On every digest of twenty bytes with a byte that is not zero, the
reverification code and `hashcash_count` compute the same bit count. -/
theorem verify_bits_eq_count (E : Env) (d : List Nat) (hlen : d.length = 20)
    (hbyte : ∀ b ∈ d, b < 256) (hnz : ∃ b ∈ d, b ≠ 0) :
    verify_bits d = count_digest_bits E d := by
  rw [verify_bits_eq d hlen hbyte, count_digest_bits_eq E d hlen hbyte hnz]

/-! ## hashcash_select_minter -/

/-- The probing loop returns the highest index from `i` on whose probe
succeeds, and the value it started with when there is none. -/
theorem select_loop_spec (minters : List HC_Minter) (N : Nat) (n : Nat) :
    ∀ (i : Nat) (f : Int), N - i ≤ n →
      ((∃ j, i ≤ j ∧ j < N ∧ minter_test minters j = true) →
        ∃ j : Nat, select_loop minters N n i f = (j : Int) ∧ i ≤ j ∧ j < N ∧
          minter_test minters j = true ∧
          ∀ k, j < k → k < N → minter_test minters k = false) ∧
      ((¬ ∃ j, i ≤ j ∧ j < N ∧ minter_test minters j = true) →
        select_loop minters N n i f = f) := by
  induction n with
  | zero =>
    intro i f hn
    constructor
    · rintro ⟨j, h1, h2, _⟩
      omega
    · intro _
      rfl
  | succ n ih =>
    intro i f hn
    unfold select_loop
    by_cases hi : i < N
    · simp only [hi, if_true]
      by_cases hup : ∃ j, i + 1 ≤ j ∧ j < N ∧ minter_test minters j = true
      · obtain ⟨j, hj, h1, h2, h3, h4⟩ := (ih (i + 1) _ (by omega)).1 hup
        constructor
        · intro _
          exact ⟨j, hj, by omega, h2, h3, h4⟩
        · intro hno
          obtain ⟨j', a, b, c⟩ := hup
          exact absurd ⟨j', by omega, b, c⟩ hno
      · have hr := (ih (i + 1) (if minter_test minters i then (i : Int) else f)
          (by omega)).2 hup
        rw [hr]
        constructor
        · rintro ⟨j, h1, h2, h3⟩
          have hji : j = i := by
            by_contra hne
            exact hup ⟨j, by omega, h2, h3⟩
          subst hji
          refine ⟨j, by simp [h3], le_refl _, h2, h3, ?_⟩
          intro k hk1 hk2
          by_contra hk
          exact hup ⟨k, by omega, hk2, by simpa using hk⟩
        · intro hno
          have : minter_test minters i = false := by
            by_contra ht
            exact hno ⟨i, le_refl _, hi, by simpa using ht⟩
          simp [this]
    · simp only [hi, if_false]
      constructor
      · rintro ⟨j, h1, h2, _⟩
        omega
      · intro _
        trivial

theorem minter_test_registered
    (funcs : Nat → Int → List Char → List Nat → Nat → Nat → Nat × List Char)
    (tests : Nat → Bool) (j : Nat) (hj : j < 10) :
    minter_test (registered_minters funcs tests) j = tests j := by
  simp [minter_test, registered_minters, List.get?_eq_getElem?, List.getElem?_map,
    List.getElem?_range hj]

/-- C16, as stated, fails when the only probe that succeeds is that of backend
4: the highest index whose probe succeeds is 4, and `hashcash_select_minter`
selects the default, 1. -/
theorem hashcash_select_minter_counterexample :
    (hashcash_select_minter Arch.other (fun _ => idle_minter) (fun i => i == 4)
        MintState.initial).fastest_minter = 1 ∧
    (hashcash_select_minter Arch.other (fun _ => idle_minter) (fun i => i == 4)
        MintState.initial).num_minters = 10 ∧
    minter_test ((hashcash_select_minter Arch.other (fun _ => idle_minter) (fun i => i == 4)
        MintState.initial).minters.getD []) 4 = true ∧
    ∀ k, k < 10 → minter_test ((hashcash_select_minter Arch.other (fun _ => idle_minter)
        (fun i => i == 4) MintState.initial).minters.getD []) k = true → k ≤ 4 := by
  decide

/-- C16 (amended): after `hashcash_select_minter` the selected index is the
highest index from 5 on whose probe succeeds, when there is one, and otherwise
the default of the architecture (0, 2 or 1), whatever the probes of backends 0
to 4 return; when the table has to be filled it has the ten registered rows
with their probes. -/
theorem hashcash_select_minter_vector (arch : Arch)
    (funcs : Nat → Int → List Char → List Nat → Nat → Nat → Nat × List Char)
    (tests : Nat → Bool) (s : MintState) :
    ((∃ j, 5 ≤ j ∧ j < (hashcash_select_minter arch funcs tests s).num_minters ∧
        minter_test ((hashcash_select_minter arch funcs tests s).minters.getD []) j = true) →
      ∃ j : Nat, (hashcash_select_minter arch funcs tests s).fastest_minter = (j : Int) ∧
        5 ≤ j ∧ j < (hashcash_select_minter arch funcs tests s).num_minters ∧
        minter_test ((hashcash_select_minter arch funcs tests s).minters.getD []) j = true ∧
        ∀ k, j < k → k < (hashcash_select_minter arch funcs tests s).num_minters →
          minter_test ((hashcash_select_minter arch funcs tests s).minters.getD []) k = false) ∧
    ((¬ ∃ j, 5 ≤ j ∧ j < (hashcash_select_minter arch funcs tests s).num_minters ∧
        minter_test ((hashcash_select_minter arch funcs tests s).minters.getD []) j = true) →
      (hashcash_select_minter arch funcs tests s).fastest_minter = default_minter arch) ∧
    ((s.num_minters = 0 ∨ s.minters.isNone = true) →
      (hashcash_select_minter arch funcs tests s).num_minters = 10 ∧
      ∀ j, j < 10 →
        minter_test ((hashcash_select_minter arch funcs tests s).minters.getD []) j = tests j) := by
  refine ⟨?_, ?_, ?_⟩
  · intro h
    exact (select_loop_spec _ _ _ 5 (default_minter arch) (by omega)).1 h
  · intro h
    exact (select_loop_spec _ _ _ 5 (default_minter arch) (by omega)).2 h
  · intro h
    simp only [hashcash_select_minter, h, if_true, Option.getD_some]
    exact ⟨trivial, fun j hj => minter_test_registered funcs tests j hj⟩

/-- Witness for C16 (amended): probes of backends 4 and 6 succeed, backend 6
is selected; only the probe of backend 4 succeeds, the default is selected. -/
theorem hashcash_select_minter_vector_witness :
    (∃ j : Nat, (hashcash_select_minter Arch.other (fun _ => idle_minter)
          (fun i => i == 4 || i == 6) MintState.initial).fastest_minter = (j : Int) ∧
        5 ≤ j ∧ j < (hashcash_select_minter Arch.other (fun _ => idle_minter)
          (fun i => i == 4 || i == 6) MintState.initial).num_minters ∧
        minter_test ((hashcash_select_minter Arch.other (fun _ => idle_minter)
          (fun i => i == 4 || i == 6) MintState.initial).minters.getD []) j = true ∧
        ∀ k, j < k → k < (hashcash_select_minter Arch.other (fun _ => idle_minter)
            (fun i => i == 4 || i == 6) MintState.initial).num_minters →
          minter_test ((hashcash_select_minter Arch.other (fun _ => idle_minter)
            (fun i => i == 4 || i == 6) MintState.initial).minters.getD []) k = false) ∧
    (hashcash_select_minter Arch.other (fun _ => idle_minter) (fun i => i == 4)
        MintState.initial).fastest_minter = default_minter Arch.other :=
  ⟨(hashcash_select_minter_vector Arch.other (fun _ => idle_minter)
      (fun i => i == 4 || i == 6) MintState.initial).1 ⟨6, by decide, by decide, by decide⟩,
    (hashcash_select_minter_vector Arch.other (fun _ => idle_minter) (fun i => i == 4)
      MintState.initial).2.1
      (by
        rintro ⟨j, h5, h10, ht⟩
        revert ht
        revert h5
        revert h10
        revert j
        decide)⟩

/-! ## hashcash_benchtest -/

/-- C17, the code at the failing input: with `verbose = 1`, when every probe
fails, and also when every backend passes its probe and fails reverification,
no best backend exists, `best_minter` keeps its initial value `(unsigned
long) -1` and the final report reads `minters[best_minter]`, an index outside
the table of 10 rows; `fastest_minter` is left at -1.  With `verbose = 0` all
reads stay inside the table. -/
theorem hashcash_benchtest_no_best :
    (hashcash_benchtest (toyEnv oneDigest) Arch.other (fun _ => idle_minter) (fun _ => false)
        (2 ^ 64 - 1) (fun _ _ => 0) MintState.initial 1).reads =
      [0, 1, 2, 3, 4, 5, 6, 7, 8, 9, 2 ^ 64 - 1] ∧
    (hashcash_benchtest (toyEnv oneDigest) Arch.other (fun _ => idle_minter) (fun _ => false)
        (2 ^ 64 - 1) (fun _ _ => 0) MintState.initial 1).state.num_minters = 10 ∧
    (hashcash_benchtest (toyEnv oneDigest) Arch.other (fun _ => idle_minter) (fun _ => false)
        (2 ^ 64 - 1) (fun _ _ => 0) MintState.initial 1).state.fastest_minter = -1 ∧
    (2 ^ 64 - 1) ∈ (hashcash_benchtest (toyEnv oneDigest) Arch.other (fun _ => idle_minter)
        (fun _ => true) (2 ^ 64 - 1) (fun _ _ => 0) MintState.initial 1).reads ∧
    (∀ i ∈ (hashcash_benchtest (toyEnv oneDigest) Arch.other (fun _ => idle_minter)
        (fun _ => false) (2 ^ 64 - 1) (fun _ _ => 0) MintState.initial 0).reads, i < 10) := by
  decide

/-! ## hashcash_fastmint -/

theorem fastmint_fill_spec (f : Nat → Char) (t : Nat) (h32 : t < 2 ^ 32) (n : Nat) :
    ∀ (buffer : Nat → Char) (tail : Nat), tail ≤ t → t - tail ≤ n →
      fastmint_fill f t n buffer tail =
        (fun k => if tail ≤ k ∧ k < t then f k else buffer k, t) := by
  induction n with
  | zero =>
    intro buffer tail h1 h2
    have : tail = t := by omega
    subst this
    simp only [fastmint_fill, Prod.mk.injEq, and_true]
    funext k
    have : ¬ (tail ≤ k ∧ k < tail) := by omega
    simp [this]
  | succ n ih =>
    intro buffer tail h1 h2
    unfold fastmint_fill
    by_cases ht : tail < t
    · simp only [ht, if_true]
      have hm : (tail + 1) % 2 ^ 32 = tail + 1 := Nat.mod_eq_of_lt (by omega)
      rw [hm, ih _ _ (by omega) (by omega)]
      simp only [Prod.mk.injEq, and_true]
      funext k
      unfold poke
      by_cases hk : k = tail
      · subst hk
        have h3 : ¬ (k + 1 ≤ k ∧ k < t) := by omega
        have h4 : (k ≤ k ∧ k < t) := by omega
        simp [h3, h4]
      · by_cases h5 : tail + 1 ≤ k ∧ k < t
        · have h6 : tail ≤ k ∧ k < t := by omega
          simp [h5, h6]
        · have h6 : ¬ (tail ≤ k ∧ k < t) := by omega
          simp [h5, h6, hk]
    · have : tail = t := by omega
      subst this
      simp only [lt_irrefl, if_false, Prod.mk.injEq, and_true]
      funext k
      have : ¬ (tail ≤ k ∧ k < tail) := by omega
      simp [this]

theorem fastmint_pad_end_bounds (L : Nat) (h32 : L + 41 < 2 ^ 32) :
    L + 16 ≤ fastmint_pad_end L ∧ fastmint_pad_end L ≤ L + 32 ∧
      (fastmint_pad_end L + 9) - (fastmint_pad_end L + 9) % 64 ≤ fastmint_pad_end L + 1 ∧
      fastmint_pad_end L + 9 ≤ (fastmint_pad_end L + 9) - (fastmint_pad_end L + 9) % 64 + 55 ∧
      (fastmint_pad_end L + 9) - (fastmint_pad_end L + 9) % 64 ≤ (L - L % 64) + 64 := by
  unfold fastmint_pad_end
  simp only [SHA1_INPUT_BYTES]
  split <;> omega

/-- The buffer and the index that `fastmint_layout` computes, for a token
length at which no sum of `unsigned int` wraps. -/
theorem fastmint_layout_spec (rand : Nat → Nat) (L : Nat) (buffer : Nat → Char)
    (h32 : L + 41 < 2 ^ 32) :
    fastmint_layout rand L buffer =
      (fun k =>
        if fastmint_pad_end L < k ∧ k < fastmint_pad_end L + 9 then '0'
        else if k = fastmint_pad_end L then ':'
        else if L ≤ k ∧ k < fastmint_pad_end L then base64_alphabet.getD (rand k % 64) NUL
        else buffer k,
       fastmint_pad_end L + 9) := by
  have hb := fastmint_pad_end_bounds L h32
  have hm0 : L % 2 ^ 32 = L := Nat.mod_eq_of_lt (by omega)
  have hm1 : (fastmint_pad_end L + 1) % 2 ^ 32 = fastmint_pad_end L + 1 :=
    Nat.mod_eq_of_lt (by omega)
  have hm2 : (fastmint_pad_end L + 1 + 8) % 2 ^ 32 = fastmint_pad_end L + 1 + 8 :=
    Nat.mod_eq_of_lt (by omega)
  unfold fastmint_layout
  simp only [hm0]
  rw [fastmint_fill_spec _ _ (by omega) SHA1_INPUT_BYTES buffer L (by omega)
    (by simp only [SHA1_INPUT_BYTES]; omega)]
  simp only [hm1, hm2]
  rw [fastmint_fill_spec _ _ (by omega) 8 _ _ (by omega) (by omega)]
  simp only [Prod.mk.injEq]
  refine ⟨?_, trivial⟩
  funext k
  unfold poke
  by_cases h1 : fastmint_pad_end L < k ∧ k < fastmint_pad_end L + 9
  · have h2 : fastmint_pad_end L + 1 ≤ k ∧ k < fastmint_pad_end L + 1 + 8 := by omega
    simp [h1, h2]
  · have h2 : ¬ (fastmint_pad_end L + 1 ≤ k ∧ k < fastmint_pad_end L + 1 + 8) := by omega
    simp only [h1, h2, if_false]


theorem base64_getD : ∀ j, j < 64 →
    base64_alphabet.getD j NUL ∈ base64_alphabet ∧ base64_alphabet.getD j NUL ≠ NUL := by
  decide

theorem peek_length (b : Nat → Char) (s n : Nat) : (peek b s n).length = n := by
  simp [peek]

theorem peek_append (b : Nat → Char) (s m n : Nat) :
    peek b s (m + n) = peek b s m ++ peek b (s + m) n := by
  unfold peek
  rw [List.range_add, List.map_append]
  simp [List.map_map, Function.comp, Nat.add_assoc]

theorem peek_congr (b b' : Nat → Char) (s n : Nat)
    (h : ∀ k, s ≤ k → k < s + n → b k = b' k) : peek b s n = peek b' s n := by
  unfold peek
  apply List.map_congr_left
  intro k hk
  rw [List.mem_range] at hk
  exact h (s + k) (by omega) (by omega)

theorem mem_peek (b : Nat → Char) (s n : Nat) (c : Char) (h : c ∈ peek b s n) :
    ∃ k, s ≤ k ∧ k < s + n ∧ b k = c := by
  unfold peek at h
  rw [List.mem_map] at h
  obtain ⟨k, hk, rfl⟩ := h
  rw [List.mem_range] at hk
  exact ⟨s + k, by omega, by omega, rfl⟩

theorem peek_getD (b : Nat → Char) (s n j : Nat) (hj : j < n) :
    (peek b s n).getD j NUL = b (s + j) := by
  simp [peek, List.getD_eq_getElem?_getD, List.getElem?_map, List.getElem?_range hj]

theorem peek_token (b : Nat → Char) (token : List Char)
    (h : ∀ k, k < token.length → b k = token.getD k NUL) : peek b 0 token.length = token := by
  apply List.ext_getElem?
  intro k
  by_cases hk : k < token.length
  · simp only [peek, List.getElem?_map, List.getElem?_range hk, Option.map_some', Nat.zero_add]
    rw [h k hk, List.getD_eq_getElem?_getD, List.getElem?_eq_getElem hk]
    rfl
  · have h1 : (peek b 0 token.length)[k]? = none := by
      rw [List.getElem?_eq_none]
      rw [peek_length]
      omega
    rw [h1, List.getElem?_eq_none (by omega)]

theorem cstr_peek (b : Nat → Char) (m n : Nat) (hmn : m < n)
    (hnz : ∀ k, k < m → b k ≠ NUL) (hz : b m = NUL) :
    cstr (peek b 0 n) = peek b 0 m := by
  have hn : n = m + ((n - m - 1) + 1) := by omega
  rw [hn, peek_append]
  unfold cstr
  rw [List.takeWhile_append_of_pos]
  · have : peek b (0 + m) (n - m - 1 + 1) = b m :: peek b (m + 1) (n - m - 1) := by
      rw [Nat.add_comm (n - m - 1) 1, peek_append]
      simp [peek, List.range_succ]
    rw [this, List.takeWhile_cons]
    simp [hz]
  · intro c hc
    obtain ⟨k, _, hk, rfl⟩ := mem_peek _ _ _ _ hc
    simpa using hnz k (by omega)

theorem getD_char_of_lt (l : List Char) (i : Nat) (a c : Char) (h : i < l.length) :
    l.getD i a = l.getD i c := by
  simp [List.getD_eq_getElem?_getD, List.getElem?_eq_getElem h]

theorem fastmint_trailer_below (buffer : Nat → Char) (tail : Nat)
    (h : tail ≤ tail - tail % 64 + 55) :
    ∀ k, k < tail → fastmint_trailer buffer tail k = buffer k := by
  intro k hk
  simp only [fastmint_trailer, PUT_WORD, poke, SHA1_INPUT_BYTES]
  have h1 : k ≠ tail - tail % 64 + 60 + 3 := by omega
  have h2 : k ≠ tail - tail % 64 + 60 + 2 := by omega
  have h3 : k ≠ tail - tail % 64 + 60 + 1 := by omega
  have h4 : k ≠ tail - tail % 64 + 60 := by omega
  have h5 : k ≠ tail := by omega
  simp [h1, h2, h3, h4, h5]

/-- What a confined backend leaves in the buffer. -/
theorem fastmint_run_spec (minter : HC_Minter) (hconf : backend_confined minter.func)
    (bits : Int) (IV : List Nat) (buffer : Nat → Char) (tail : Nat)
    (h8 : tail - tail % 64 + 8 ≤ tail) :
    (∀ k, k < tail - 8 → (fastmint_run minter bits IV buffer tail).2 k = buffer k) ∧
    (∀ k, tail - 8 ≤ k → k < tail → buffer k ≠ NUL →
      (fastmint_run minter bits IV buffer tail).2 k ≠ NUL) ∧
    (fastmint_run minter bits IV buffer tail).2 tail = NUL := by
  have hrel8 : 8 ≤ tail - (tail - tail % 64) := by omega
  have hrel64 : tail - (tail - tail % 64) ≤ SHA1_INPUT_BYTES := by
    simp only [SHA1_INPUT_BYTES]; omega
  obtain ⟨hlen, hout, hin⟩ := hconf bits (peek buffer (tail - tail % 64) SHA1_INPUT_BYTES) IV
    (tail - (tail - tail % 64)) 0xFFFFFFFF (peek_length _ _ _) hrel8 hrel64
  simp only [SHA1_INPUT_BYTES] at hlen hout hin
  refine ⟨?_, ?_, ?_⟩
  · intro k hk
    simp only [fastmint_run, poke, SHA1_INPUT_BYTES]
    have h1 : k ≠ tail - tail % 64 + (tail - (tail - tail % 64)) := by omega
    simp only [h1, if_false]
    by_cases hr : tail - tail % 64 ≤ k ∧ k < tail - tail % 64 + 64
    · simp only [hr, and_self, if_true]
      rw [getD_char_of_lt _ _ _ NUL (by rw [hlen]; omega),
        hout (k - (tail - tail % 64)) (by omega) (Or.inl (by omega)),
        peek_getD _ _ _ _ (by omega)]
      congr 1
      omega
    · simp only [hr, if_false]
  · intro k hk1 hk2 hnz
    simp only [fastmint_run, poke, SHA1_INPUT_BYTES]
    have h1 : k ≠ tail - tail % 64 + (tail - (tail - tail % 64)) := by omega
    have hr : tail - tail % 64 ≤ k ∧ k < tail - tail % 64 + 64 := by omega
    simp only [h1, if_false, hr, and_self, if_true]
    rw [getD_char_of_lt _ _ _ NUL (by rw [hlen]; omega)]
    intro hz
    have := hin (k - (tail - tail % 64)) (by omega) (by omega) hz
    rw [peek_getD _ _ _ _ (by omega)] at this
    apply hnz
    rw [← this]
    congr 1
    omega
  · simp only [fastmint_run, poke, SHA1_INPUT_BYTES]
    have h1 : tail = tail - tail % 64 + (tail - (tail - tail % 64)) := by omega
    simp [← h1]

/-- One pass of `hashcash_fastmint` with a confined backend: the token stays
in place, the buffer holds the token, the padding, the separator and the
count field, and `b` is the number of leading zero bits of the digest of that
string. -/
theorem fastmint_attempt_spec (E : Env) (hE : E.HashContract) (ctxH : E.SHA1_ctx → List Nat)
    (minter : HC_Minter) (hconf : backend_confined minter.func) (rand : Nat → Nat)
    (bits : Int) (token : List Char) (buffer : Nat → Char) (buflen : Nat)
    (htok : ∀ c ∈ token, c ≠ NUL)
    (hinv : ∀ k, k < token.length → buffer k = token.getD k NUL)
    (hbuflen : buflen = (token.length - token.length % 64) + 128)
    (h32 : token.length + 41 < 2 ^ 32) :
    (∀ k, k < token.length →
      (fastmint_attempt E ctxH minter rand bits token.length buffer).2.2 k = token.getD k NUL) ∧
    ∃ pad counter : List Char,
      cstr (peek (fastmint_attempt E ctxH minter rand bits token.length buffer).2.2 0 buflen) =
        token ++ pad ++ ':' :: counter ∧
      16 ≤ pad.length ∧ pad.length ≤ 32 ∧ (∀ c ∈ pad, c ∈ base64_alphabet) ∧
      counter.length = 8 ∧
      (fastmint_attempt E ctxH minter rand bits token.length buffer).2.1 =
        leadingZeroBits (E.SHA1_Final (E.SHA1_Update E.SHA1_Init
          (cstr (peek (fastmint_attempt E ctxH minter rand bits token.length buffer).2.2
            0 buflen)))) := by
  obtain ⟨hb1, hb2, hb3, hb4, hb5⟩ := fastmint_pad_end_bounds token.length h32
  unfold fastmint_attempt
  rw [fastmint_layout_spec _ _ _ h32]
  simp only [SHA1_INPUT_BYTES]
  generalize hpe : fastmint_pad_end token.length = pe at *
  generalize hbuf1 : (fun k =>
      if pe < k ∧ k < pe + 9 then '0'
      else if k = pe then ':'
      else if token.length ≤ k ∧ k < pe then base64_alphabet.getD (rand k % 64) NUL
      else buffer k) = buf1
  have h1tok : ∀ k, k < token.length → buf1 k = token.getD k NUL := by
    intro k hk
    rw [← hbuf1]
    have a1 : ¬ (pe < k ∧ k < pe + 9) := by omega
    have a2 : ¬ k = pe := by omega
    have a3 : ¬ (token.length ≤ k ∧ k < pe) := by omega
    simp only [a1, a2, a3, if_false]
    exact hinv k hk
  have h1pad : ∀ k, token.length ≤ k → k < pe →
      buf1 k = base64_alphabet.getD (rand k % 64) NUL := by
    intro k hk1 hk2
    rw [← hbuf1]
    have a1 : ¬ (pe < k ∧ k < pe + 9) := by omega
    have a2 : ¬ k = pe := by omega
    have a3 : token.length ≤ k ∧ k < pe := by omega
    simp only [a1, a2, a3, and_self, if_false, if_true]
  have h1colon : buf1 pe = ':' := by
    rw [← hbuf1]
    have a1 : ¬ (pe < pe ∧ pe < pe + 9) := by omega
    simp only [a1, if_false, if_true]
  have h1zero : ∀ k, pe < k → k < pe + 9 → buf1 k = '0' := by
    intro k hk1 hk2
    rw [← hbuf1]
    have a1 : pe < k ∧ k < pe + 9 := by omega
    simp only [a1, and_self, if_true]
  have h1nz : ∀ k, k < pe + 9 → buf1 k ≠ NUL := by
    intro k hk
    by_cases c1 : k < token.length
    · rw [h1tok k c1]
      apply htok
      rw [List.getD_eq_getElem?_getD, List.getElem?_eq_getElem c1]
      exact List.getElem_mem c1
    · by_cases c2 : k < pe
      · rw [h1pad k (by omega) c2]
        exact (base64_getD _ (Nat.mod_lt _ (by decide))).2
      · by_cases c3 : k = pe
        · rw [c3, h1colon]
          decide
        · rw [h1zero k (by omega) hk]
          decide
  have h2 := fastmint_trailer_below buf1 (pe + 9) hb4
  generalize fastmint_trailer buf1 (pe + 9) = buf2 at *
  obtain ⟨h4low, h4ctr, h4nul⟩ := fastmint_run_spec minter hconf bits
    (List.take 5 (ctxH (E.SHA1_Update E.SHA1_Init (peek buf1 0 (pe + 9 - (pe + 9) % 64)))))
    buf2 (pe + 9) (by omega)
  generalize (fastmint_run minter bits
    (List.take 5 (ctxH (E.SHA1_Update E.SHA1_Init (peek buf1 0 (pe + 9 - (pe + 9) % 64)))))
    buf2 (pe + 9)).2 = buf4 at *
  have h4eq : ∀ k, k < pe + 1 → buf4 k = buf1 k := by
    intro k hk
    rw [h4low k (by omega), h2 k (by omega)]
  have h4nz : ∀ k, k < pe + 9 → buf4 k ≠ NUL := by
    intro k hk
    by_cases c : k < pe + 1
    · rw [h4eq k c]
      exact h1nz k hk
    · apply h4ctr k (by omega) hk
      rw [h2 k hk]
      exact h1nz k hk
  have hcstr : cstr (peek buf4 0 buflen) = peek buf4 0 (pe + 9) :=
    cstr_peek buf4 (pe + 9) buflen (by omega) h4nz h4nul
  refine ⟨?_, ?_⟩
  · intro k hk
    rw [h4eq k (by omega), h1tok k hk]
  · rw [hcstr]
    refine ⟨peek buf4 token.length (pe - token.length), peek buf4 (pe + 1) 8, ?_, ?_, ?_, ?_,
      ?_, ?_⟩
    · have e1 : pe + 9 = token.length + ((pe - token.length) + (1 + 8)) := by omega
      rw [e1, peek_append, peek_append, peek_append]
      have e2 : peek buf4 0 token.length = token :=
        peek_token buf4 token (fun k hk => by rw [h4eq k (by omega), h1tok k hk])
      have e3 : peek buf4 (0 + token.length + (pe - token.length)) 1 = [':'] := by
        have : 0 + token.length + (pe - token.length) = pe := by omega
        rw [this]
        simp [peek, List.range_succ, h4eq pe (by omega), h1colon]
      have e4 : 0 + token.length + (pe - token.length) + 1 = pe + 1 := by omega
      rw [e2, e3, e4, Nat.zero_add]
      simp
    · rw [peek_length]; omega
    · rw [peek_length]; omega
    · intro c hc
      obtain ⟨k, hk1, hk2, rfl⟩ := mem_peek _ _ _ _ hc
      rw [h4eq k (by omega), h1pad k hk1 (by omega)]
      exact (base64_getD _ (Nat.mod_lt _ (by decide))).1
    · rw [peek_length]
    · rw [hE.update_update]
      have e5 : peek buf1 0 (pe + 9 - (pe + 9) % 64) = peek buf4 0 (pe + 9 - (pe + 9) % 64) := by
        apply peek_congr
        intro k _ hk
        rw [h4eq k (by omega)]
      have e6 : pe + 9 = (pe + 9 - (pe + 9) % 64) + (pe + 9 - (pe + 9 - (pe + 9) % 64)) := by
        omega
      rw [e5]
      have e7 : peek buf4 0 (pe + 9 - (pe + 9) % 64) ++
          peek buf4 (pe + 9 - (pe + 9) % 64) (pe + 9 - (pe + 9 - (pe + 9) % 64)) =
          peek buf4 0 (pe + 9) := by
        conv_rhs => rw [e6]
        rw [peek_append, Nat.zero_add]
      rw [e7]
      exact verify_bits_eq _ (hE.final_length _) (hE.final_byte _)

theorem fastmint_again_returned (E : Env) (hE : E.HashContract) (ctxH : E.SHA1_ctx → List Nat)
    (minter : HC_Minter) (hconf : backend_confined minter.func) (rand : Nat → Nat → Nat)
    (bits : Int) (token : List Char) (buflen : Nat)
    (htok : ∀ c ∈ token, c ≠ NUL)
    (hbuflen : buflen = (token.length - token.length % 64) + 128)
    (h32 : token.length + 41 < 2 ^ 32) (fuel : Nat) :
    ∀ (attempt : Nat) (buffer : Nat → Char) (b : Nat) (result : List Char),
      (∀ k, k < token.length → buffer k = token.getD k NUL) →
      hashcash_fastmint_again E ctxH minter rand bits token buflen fuel attempt buffer =
        some (FastmintResult.returned b result) →
      ∃ pad counter : List Char,
        cstr result = token ++ pad ++ ':' :: counter ∧
        16 ≤ pad.length ∧ pad.length ≤ 32 ∧ (∀ c ∈ pad, c ∈ base64_alphabet) ∧
        counter.length = 8 ∧
        b = leadingZeroBits (E.SHA1_Final (E.SHA1_Update E.SHA1_Init (cstr result))) ∧
        bits % 2 ^ 32 ≤ (b : Int) := by
  induction fuel with
  | zero =>
    intro attempt buffer b result _ h
    simp [hashcash_fastmint_again] at h
  | succ fuel ih =>
    intro attempt buffer b result hinv h
    obtain ⟨hinv2, pad, counter, h1, h2, h3, h4, h5, h6⟩ :=
      fastmint_attempt_spec E hE ctxH minter hconf (rand attempt) bits token buffer buflen
        htok hinv hbuflen h32
    unfold hashcash_fastmint_again at h
    simp only at h
    split at h
    · simp at h
    · split at h
      · exact ih _ _ _ _ hinv2 h
      · rename_i hge
        simp only [Option.some.injEq, FastmintResult.returned.injEq] at h
        obtain ⟨hb, hr⟩ := h
        subst hb
        subst hr
        exact ⟨pad, counter, h1, h2, h3, h4, h5, h6, le_of_not_lt hge⟩

theorem idle_minter_confined : backend_confined idle_minter := by
  intro bits block IV tail iters hlen h8 h64
  exact ⟨hlen, fun _ _ _ => rfl, fun _ _ _ h => h⟩

theorem fastmint_state_confined (arch : Arch)
    (funcs : Nat → Int → List Char → List Nat → Nat → Nat → Nat × List Char)
    (tests : Nat → Bool) (s : MintState)
    (hfuncs : ∀ i, backend_confined (funcs i))
    (hs : ∀ tbl, s.minters = some tbl → ∀ m ∈ tbl, backend_confined m.func) :
    ∀ m ∈ (fastmint_state arch funcs tests s).minters.getD [], backend_confined m.func := by
  have hreg : ∀ m ∈ registered_minters funcs tests, backend_confined m.func := by
    intro m hm
    simp only [registered_minters, List.mem_map, List.mem_range] at hm
    obtain ⟨i, _, rfl⟩ := hm
    exact hfuncs i
  have hold : ∀ m ∈ s.minters.getD [], backend_confined m.func := by
    intro m hm
    cases hmin : s.minters with
    | none => rw [hmin] at hm; simp at hm
    | some tbl =>
      rw [hmin] at hm
      exact hs tbl hmin m (by simpa using hm)
  intro m hm
  unfold fastmint_state at hm
  split at hm
  · unfold hashcash_select_minter at hm
    simp only at hm
    split at hm
    · exact hreg m (by simpa using hm)
    · exact hold m hm
  · exact hold m hm

theorem fastmint_layout_mod (rand : Nat → Nat) (L : Nat) (buffer : Nat → Char) :
    fastmint_layout rand (L % 2 ^ 32) buffer = fastmint_layout rand L buffer := by
  unfold fastmint_layout
  simp only [Nat.mod_mod]

theorem fastmint_attempt_mod (E : Env) (ctxH : E.SHA1_ctx → List Nat) (minter : HC_Minter)
    (rand : Nat → Nat) (bits : Int) (L : Nat) (buffer : Nat → Char) :
    fastmint_attempt E ctxH minter rand bits (L % 2 ^ 32) buffer =
      fastmint_attempt E ctxH minter rand bits L buffer := by
  unfold fastmint_attempt
  rw [fastmint_layout_mod]

/-- The attempts of `hashcash_fastmint` see the token only through its length
as an `unsigned int`. -/
theorem hashcash_fastmint_again_length (E : Env) (ctxH : E.SHA1_ctx → List Nat)
    (minter : HC_Minter) (rand : Nat → Nat → Nat) (bits : Int) (token token1 : List Char)
    (buflen : Nat) (h : token.length % 2 ^ 32 = token1.length % 2 ^ 32) (fuel : Nat) :
    ∀ (attempt : Nat) (buffer : Nat → Char),
      hashcash_fastmint_again E ctxH minter rand bits token buflen fuel attempt buffer =
        hashcash_fastmint_again E ctxH minter rand bits token1 buflen fuel attempt buffer := by
  induction fuel with
  | zero =>
    intro attempt buffer
    rfl
  | succ fuel ih =>
    intro attempt buffer
    have e : fastmint_attempt E ctxH minter (rand attempt) bits token.length buffer =
        fastmint_attempt E ctxH minter (rand attempt) bits token1.length buffer := by
      rw [← fastmint_attempt_mod, h, fastmint_attempt_mod]
    rw [hashcash_fastmint_again, hashcash_fastmint_again]
    simp only [e, ih]

/-- The attempt on a buffer of 128 bytes `a` with `tail = 0`, the state in
which `hashcash_fastmint` starts on a token of `2^32` characters `a`. -/
theorem hashcash_fastmint_again_wrapped :
    (match ((fastmint_state Arch.other (fun _ => idle_minter) (fun _ => false)
        MintState.initial).minters.getD []).get?
          (fastmint_state Arch.other (fun _ => idle_minter) (fun _ => false)
            MintState.initial).fastest_minter.toNat with
      | none => none
      | some minter =>
        hashcash_fastmint_again (toyEnv lastDigest) (fun _ => SHA1_IV) minter (fun _ pos => pos) 0
          [] 128 1 0 (fun k => if k < 128 then 'a' else NUL)) =
      some (FastmintResult.returned 159
        ("0123456789ABCDEF:00000000".toList ++ NUL :: List.replicate 34 'a' ++
          [NUL, NUL, NUL, Char.ofNat 200] ++ List.replicate 64 'a')) := by
  decide

/-! ## Claims on hashcash_fastmint -/

/-- C20 (counterexample): for a token of `2^32` characters `a` and 0 requested
bits, with a backend that leaves the block as it is, `strlen(token)` is 0 as an
`unsigned int`, the buffer has 128 bytes, and `hashcash_fastmint` returns 159
with a buffer whose string is 16 random characters, `:` and the count field:
the token is not in it. -/
theorem hashcash_fastmint_returned_counterexample :
    hashcash_fastmint (toyEnv lastDigest) (fun _ => SHA1_IV) Arch.other (fun _ => idle_minter)
        (fun _ => false) MintState.initial (fun _ pos => pos) 0 (List.replicate (2 ^ 32) 'a') 1 =
      some (FastmintResult.returned 159
        ("0123456789ABCDEF:00000000".toList ++ NUL :: List.replicate 34 'a' ++
          [NUL, NUL, NUL, Char.ofNat 200] ++ List.replicate 64 'a')) ∧
    cstr ("0123456789ABCDEF:00000000".toList ++ NUL :: List.replicate 34 'a' ++
          [NUL, NUL, NUL, Char.ofNat 200] ++ List.replicate 64 'a') =
      "0123456789ABCDEF:00000000".toList := by
  refine ⟨?_, by decide⟩
  have hbuf : (fun k => if k < 128 then (List.replicate (2 ^ 32) 'a').getD k NUL else NUL) =
      (fun k => if k < 128 then 'a' else NUL) := by
    funext k
    by_cases hk : k < 128
    · have hk2 : k < 2 ^ 32 := by omega
      simp only [hk, if_true, List.getD_eq_getElem?_getD, List.getElem?_replicate, hk2,
        Option.getD_some]
    · simp only [hk, if_false]
  have hlen : (List.replicate (2 ^ 32) 'a').length % 2 ^ 32 =
      ([] : List Char).length % 2 ^ 32 := by
    rw [List.length_replicate]
    decide
  have h128 : ((2 ^ 32 % 2 ^ 32 - (2 ^ 32 % 2 ^ 32) % 64) + 2 * 64) % 2 ^ 32 = 128 := by decide
  unfold hashcash_fastmint
  simp only [List.length_replicate]
  simp only [SHA1_INPUT_BYTES]
  simp only [h128]
  simp only [hbuf]
  simp only [hashcash_fastmint_again_length _ _ _ _ _ (List.replicate (2 ^ 32) 'a') [] _ hlen]
  exact hashcash_fastmint_again_wrapped

/-- C20 (amended): whenever `hashcash_fastmint` returns `b`, for a token
without NUL of fewer than `2^32 - 128` characters, so that its length and the
size of the buffer fit an `unsigned int`, a requested bit count that an `int`
holds and backends that write only inside the 8-character count field and
write no NUL there, the returned string is the caller's token followed by 16
to 32 characters of the base-64 alphabet, `:` and an 8-character counter, and
`b` is the number of leading zero bits of the reference digest of that whole
string and is at least `bits`. -/
theorem hashcash_fastmint_returned (E : Env) (hE : E.HashContract)
    (ctxH : E.SHA1_ctx → List Nat) (arch : Arch)
    (funcs : Nat → Int → List Char → List Nat → Nat → Nat → Nat × List Char)
    (tests : Nat → Bool) (s : MintState) (rand : Nat → Nat → Nat) (bits : Int)
    (token : List Char) (fuel : Nat) (b : Nat) (result : List Char)
    (hfuncs : ∀ i, backend_confined (funcs i))
    (hs : ∀ tbl, s.minters = some tbl → ∀ m ∈ tbl, backend_confined m.func)
    (htok : ∀ c ∈ token, c ≠ NUL) (hlen : token.length + 128 < 2 ^ 32) (hbits : bits < 2 ^ 31)
    (h : hashcash_fastmint E ctxH arch funcs tests s rand bits token fuel =
      some (FastmintResult.returned b result)) :
    ∃ pad counter : List Char,
      cstr result = token ++ pad ++ ':' :: counter ∧
      16 ≤ pad.length ∧ pad.length ≤ 32 ∧ (∀ c ∈ pad, c ∈ base64_alphabet) ∧
      counter.length = 8 ∧
      b = leadingZeroBits (E.SHA1_Final (E.SHA1_Update E.SHA1_Init (cstr result))) ∧
      bits ≤ (b : Int) := by
  have hm1 : token.length % 2 ^ 32 = token.length := Nat.mod_eq_of_lt (by omega)
  have hm2 : (token.length - token.length % SHA1_INPUT_BYTES + 2 * SHA1_INPUT_BYTES) % 2 ^ 32 =
      token.length - token.length % 64 + 128 := by
    simp only [SHA1_INPUT_BYTES]
    exact Nat.mod_eq_of_lt (by omega)
  unfold hashcash_fastmint at h
  simp only [hm1, hm2] at h
  split at h
  · simp at h
  · rename_i minter hget
    have hmem : minter ∈ (fastmint_state arch funcs tests s).minters.getD [] := by
      rw [List.get?_eq_getElem?] at hget
      exact List.getElem?_mem hget
    have hconf := fastmint_state_confined arch funcs tests s hfuncs hs minter hmem
    obtain ⟨pad, counter, h1, h2, h3, h4, h5, h6, h7⟩ :=
      fastmint_again_returned E hE ctxH minter hconf rand bits token _ htok
        rfl (by omega) fuel 0 _ b result
        (by
          intro k hk
          have : k < token.length - token.length % 64 + 128 := by omega
          simp [this])
        h
    refine ⟨pad, counter, h1, h2, h3, h4, h5, h6, ?_⟩
    by_cases hneg : bits < 0
    · have : (0 : Int) ≤ (b : Int) := Int.natCast_nonneg b
      omega
    · have hmod : bits % 2 ^ 32 = bits := Int.emod_eq_of_lt (by omega) (by omega)
      rw [hmod] at h7
      exact h7

/-- Witness for C20 (amended): the token `tok`, 20 bits, the small environment
with `lastDigest`, a backend that leaves the count field as it is. -/
theorem hashcash_fastmint_returned_witness :
    ∃ pad counter : List Char,
      cstr ("tok3456789ABCDEFGHI:00000000".toList ++ List.replicate 32 NUL ++
          [NUL, NUL, NUL, Char.ofNat 0xE0] ++ List.replicate 64 NUL) =
        "tok".toList ++ pad ++ ':' :: counter ∧
      16 ≤ pad.length ∧ pad.length ≤ 32 ∧ (∀ c ∈ pad, c ∈ base64_alphabet) ∧
      counter.length = 8 ∧
      159 = leadingZeroBits ((toyEnv lastDigest).SHA1_Final
        ((toyEnv lastDigest).SHA1_Update (toyEnv lastDigest).SHA1_Init
          (cstr ("tok3456789ABCDEFGHI:00000000".toList ++ List.replicate 32 NUL ++
            [NUL, NUL, NUL, Char.ofNat 0xE0] ++ List.replicate 64 NUL)))) ∧
      (20 : Int) ≤ ((159 : Nat) : Int) :=
  hashcash_fastmint_returned (toyEnv lastDigest) lastDigest_contract (fun _ => SHA1_IV)
    Arch.other (fun _ => idle_minter) (fun _ => false) MintState.initial (fun _ pos => pos)
    20 "tok".toList 1 159
    ("tok3456789ABCDEFGHI:00000000".toList ++ List.replicate 32 NUL ++
      [NUL, NUL, NUL, Char.ofNat 0xE0] ++ List.replicate 64 NUL)
    (fun _ => idle_minter_confined)
    (fun tbl htbl => by simp [MintState.initial] at htbl)
    (by decide) (by decide) (by decide) (by decide)

/-! ## The exhaustion of hashcash_mint -/

/-- The loop with its flag computes the result of `group_loop`: started with
`k` values of `i` left to visit, it ends within `k + 1` iterations. -/
theorem mint_for_group_loop {α : Type}
    (body : Nat → List Char → Option (List α × Option (Nat × List Char)))
    (B : Nat → List Char → Option (Nat × List Char))
    (hbody : ∀ i t, ∃ log, body i t = some (log, B i t)) (k : Nat) :
    ∀ (fuel : Nat) (token : List Char), k ≤ GROUP_SIZE + 1 → k < fuel →
      ∃ logs, mint_for body fuel ((GROUP_SIZE + 1 - k) % (GROUP_SIZE + 1))
          (decide (k = GROUP_SIZE + 1)) token =
        some (logs, group_loop B k ((GROUP_SIZE + 1 - k) % (GROUP_SIZE + 1)) token) := by
  induction k with
  | zero =>
    intro fuel token _ hf
    obtain ⟨fuel, rfl⟩ : ∃ f, fuel = f + 1 := ⟨fuel - 1, by omega⟩
    refine ⟨[], ?_⟩
    simp [mint_for, group_loop, GROUP_SIZE]
  | succ k ih =>
    intro fuel token hk hf
    obtain ⟨fuel, rfl⟩ : ∃ f, fuel = f + 1 := ⟨fuel - 1, by omega⟩
    have hcond : (decide (k + 1 = GROUP_SIZE + 1) ||
        ((GROUP_SIZE + 1 - (k + 1)) % (GROUP_SIZE + 1) != 0)) = true := by
      simp only [GROUP_SIZE] at hk ⊢
      rw [Bool.or_eq_true]
      by_cases h : k + 1 = 4294967295 + 1
      · exact Or.inl (decide_eq_true h)
      · have : (4294967295 + 1 - (k + 1)) % (4294967295 + 1) ≠ 0 := by omega
        exact Or.inr (by simp only [bne_iff_ne]; exact this)
    have hnext : ((GROUP_SIZE + 1 - (k + 1)) % (GROUP_SIZE + 1) + 1) % (GROUP_SIZE + 1) =
        (GROUP_SIZE + 1 - k) % (GROUP_SIZE + 1) := by
      simp only [GROUP_SIZE] at hk ⊢
      omega
    have hflag : decide (k = GROUP_SIZE + 1) = false := by
      simp only [decide_eq_false_iff_not]
      omega
    obtain ⟨log, hlog⟩ := hbody ((GROUP_SIZE + 1 - (k + 1)) % (GROUP_SIZE + 1)) token
    unfold mint_for group_loop
    rw [if_pos hcond, hlog]
    cases hB : B ((GROUP_SIZE + 1 - (k + 1)) % (GROUP_SIZE + 1)) token with
    | none => exact ⟨log, rfl⟩
    | some r =>
      obtain ⟨found, tok⟩ := r
      by_cases hfound : found ≠ 0
      · simp only [hfound, ne_eq, not_false_eq_true, if_true]
        exact ⟨log, rfl⟩
      · obtain ⟨logs, hlogs⟩ := ih fuel tok (by omega) (by omega)
        rw [hflag] at hlogs
        simp only [hfound, if_false, hnext, hlogs]
        exact ⟨log ++ logs, rfl⟩

/-- When the body never finds, the loop with its flag runs the body once for
each of the `k` values of `i` left, in increasing order. -/
theorem mint_for_never {α : Type}
    (body : Nat → List Char → Option (List α × Option (Nat × List Char)))
    (L : Nat → List α)
    (hbody : ∀ i t, ∃ t', body i t = some (L i, some (0, t'))) (k : Nat) :
    ∀ (fuel : Nat) (token : List Char), k ≤ GROUP_SIZE + 1 → k < fuel →
      ∃ t', mint_for body fuel ((GROUP_SIZE + 1 - k) % (GROUP_SIZE + 1))
          (decide (k = GROUP_SIZE + 1)) token =
        some ((List.range' (GROUP_SIZE + 1 - k) k).flatMap L, some (0, t')) := by
  induction k with
  | zero =>
    intro fuel token _ hf
    obtain ⟨fuel, rfl⟩ : ∃ f, fuel = f + 1 := ⟨fuel - 1, by omega⟩
    refine ⟨token, ?_⟩
    simp [mint_for, GROUP_SIZE]
  | succ k ih =>
    intro fuel token hk hf
    obtain ⟨fuel, rfl⟩ : ∃ f, fuel = f + 1 := ⟨fuel - 1, by omega⟩
    have hcond : (decide (k + 1 = GROUP_SIZE + 1) ||
        ((GROUP_SIZE + 1 - (k + 1)) % (GROUP_SIZE + 1) != 0)) = true := by
      simp only [GROUP_SIZE] at hk ⊢
      rw [Bool.or_eq_true]
      by_cases h : k + 1 = 4294967295 + 1
      · exact Or.inl (decide_eq_true h)
      · have : (4294967295 + 1 - (k + 1)) % (4294967295 + 1) ≠ 0 := by omega
        exact Or.inr (by simp only [bne_iff_ne]; exact this)
    have hnext : ((GROUP_SIZE + 1 - (k + 1)) % (GROUP_SIZE + 1) + 1) % (GROUP_SIZE + 1) =
        (GROUP_SIZE + 1 - k) % (GROUP_SIZE + 1) := by
      simp only [GROUP_SIZE] at hk ⊢
      omega
    have hcur : (GROUP_SIZE + 1 - (k + 1)) % (GROUP_SIZE + 1) = GROUP_SIZE + 1 - (k + 1) := by
      simp only [GROUP_SIZE] at hk ⊢
      omega
    have hsucc : GROUP_SIZE + 1 - (k + 1) + 1 = GROUP_SIZE + 1 - k := by omega
    have hflag : decide (k = GROUP_SIZE + 1) = false := by
      simp only [decide_eq_false_iff_not]
      omega
    obtain ⟨tok, htok⟩ := hbody ((GROUP_SIZE + 1 - (k + 1)) % (GROUP_SIZE + 1)) token
    obtain ⟨t', ht'⟩ := ih fuel tok (by omega) (by omega)
    rw [hflag] at ht'
    refine ⟨t', ?_⟩
    unfold mint_for
    rw [if_pos hcond, htok]
    simp only [ne_eq, not_true_eq_false, if_false, hnext, ht']
    rw [hcur, List.range', hsucc]
    simp

/-- Started at `i = 0` with the flag set, the loop computes the result of
`group_loop` over all `GROUP_SIZE + 1` values. -/
theorem mint_for_full {α : Type}
    (body : Nat → List Char → Option (List α × Option (Nat × List Char)))
    (B : Nat → List Char → Option (Nat × List Char))
    (hbody : ∀ i t, ∃ log, body i t = some (log, B i t)) (fuel : Nat)
    (hfuel : GROUP_SIZE + 1 < fuel) (token : List Char) :
    ∃ logs, mint_for body fuel 0 true token =
      some (logs, group_loop B (GROUP_SIZE + 1) 0 token) := by
  have h := mint_for_group_loop body B hbody (GROUP_SIZE + 1) fuel token
    (Nat.le_refl _) hfuel
  rw [Nat.sub_self, Nat.zero_mod, decide_eq_true rfl] at h
  exact h

theorem mint_for_full_never {α : Type}
    (body : Nat → List Char → Option (List α × Option (Nat × List Char)))
    (L : Nat → List α)
    (hbody : ∀ i t, ∃ t', body i t = some (L i, some (0, t'))) (fuel : Nat)
    (hfuel : GROUP_SIZE + 1 < fuel) (token : List Char) :
    ∃ t', mint_for body fuel 0 true token =
      some ((List.range (GROUP_SIZE + 1)).flatMap L, some (0, t')) := by
  have h := mint_for_never body L hbody (GROUP_SIZE + 1) fuel token
    (Nat.le_refl _) hfuel
  rw [Nat.sub_self, Nat.zero_mod, decide_eq_true rfl] at h
  rw [List.range_eq_range']
  exact h

theorem flatMap_singleton_map {α β : Type} (f : α → β) (l : List α) :
    l.flatMap (fun x => [f x]) = l.map f := by
  induction l with
  | nil => rfl
  | cons a l ih => simp [List.flatMap_cons, ih]

/-- The pairs `(i0, i1)` with both components below `n`, in lexicographic
order: there are `n * n`, none occurs twice. -/
theorem pairs_spec (n : Nat) :
    ((List.range n).flatMap (fun i0 => (List.range n).map (fun i1 => (i0, i1)))).length = n * n ∧
    ((List.range n).flatMap (fun i0 => (List.range n).map (fun i1 => (i0, i1)))).Nodup ∧
    ∀ i0 i1, (i0, i1) ∈ (List.range n).flatMap (fun i0 => (List.range n).map (fun i1 => (i0, i1))) ↔
      i0 < n ∧ i1 < n := by
  have e : (List.range n).flatMap (fun i0 => (List.range n).map (fun i1 => (i0, i1))) =
      List.range n ×ˢ List.range n := rfl
  rw [e]
  refine ⟨?_, List.Nodup.product (List.nodup_range _) (List.nodup_range _), ?_⟩
  · rw [List.length_product, List.length_range]
  · intro i0 i1
    rw [List.mem_product, List.mem_range, List.mem_range]

theorem mint_search_eq (E : Env) (now_utime resource : List Char) (bits : Nat)
    (ran0 ran1 ran2 : Nat) (token : List Char) :
    mint_search E now_utime resource bits ran0 ran1 ran2 token =
      group_loop (fun i0 token => group_loop (fun i1 token =>
            find_collision E now_utime resource bits token GROUP_SIZE
              (mint_counter ran0 ran1 ran2 i0 i1)) (GROUP_SIZE + 1) 0 token)
        (GROUP_SIZE + 1) 0 token := by
  simp only [mint_search, mint_counter]

/-- The loops with their flags end and compute the result that
`hashcash_mint` uses. -/
theorem mint_loops_search (E : Env) (now_utime resource : List Char) (bits : Nat)
    (ran0 ran1 ran2 : Nat) (fuel : Nat) (hfuel : GROUP_SIZE + 1 < fuel) (token : List Char) :
    ∃ log, mint_loops E now_utime resource bits ran0 ran1 ran2 fuel token =
      some (log, mint_search E now_utime resource bits ran0 ran1 ran2 token) := by
  rw [mint_search_eq]
  have hinner : ∀ i0 t, ∃ log,
      mint_for
        (fun i1 token =>
          some ([(i0, i1)],
            find_collision E now_utime resource bits token GROUP_SIZE
              (mint_counter ran0 ran1 ran2 i0 i1)))
        fuel 0 true t =
      some (log, group_loop (fun i1 token =>
            find_collision E now_utime resource bits token GROUP_SIZE
              (mint_counter ran0 ran1 ran2 i0 i1)) (GROUP_SIZE + 1) 0 t) :=
    fun i0 t => mint_for_full _ _ (fun i1 t => ⟨[(i0, i1)], rfl⟩) fuel hfuel t
  have houter := mint_for_full _ _ hinner fuel hfuel token
  rw [mint_loops]
  exact houter

/-- When no call of `find_collision` finds, the loops with their flags call it
for every pair, in lexicographic order. -/
theorem mint_loops_never (E : Env) (now_utime resource : List Char) (bits : Nat)
    (ran0 ran1 ran2 : Nat) (fuel : Nat) (hfuel : GROUP_SIZE + 1 < fuel) (token : List Char)
    (hnone : ∀ i0 i1 t, ∃ t', find_collision E now_utime resource bits t GROUP_SIZE
      (mint_counter ran0 ran1 ran2 i0 i1) = some (0, t')) :
    ∃ t', mint_loops E now_utime resource bits ran0 ran1 ran2 fuel token =
      some ((List.range (GROUP_SIZE + 1)).flatMap
          (fun i0 => (List.range (GROUP_SIZE + 1)).map (fun i1 => (i0, i1))),
        some (0, t')) := by
  unfold mint_loops
  have hinner : ∀ i0 t, ∃ t',
      mint_for
        (fun i1 token =>
          some ([(i0, i1)],
            find_collision E now_utime resource bits token GROUP_SIZE
              (mint_counter ran0 ran1 ran2 i0 i1)))
        fuel 0 true t =
      some ((List.range (GROUP_SIZE + 1)).map (fun i1 => (i0, i1)), some (0, t')) := by
    intro i0 t
    obtain ⟨t', h⟩ := mint_for_full_never
      (fun i1 token =>
          some ([(i0, i1)],
            find_collision E now_utime resource bits token GROUP_SIZE
              (mint_counter ran0 ran1 ran2 i0 i1)))
      (fun i1 => [(i0, i1)])
      (fun i1 t => by
        obtain ⟨t', h⟩ := hnone i0 i1 t
        exact ⟨t', by simp only [h]⟩) fuel hfuel t
    rw [flatMap_singleton_map] at h
    exact ⟨t', h⟩
  exact mint_for_full_never _ _ hinner fuel hfuel token

/-- With the checks before the search passed, `hashcash_mint` returns
`HASHCASH_TOO_MANY_TRIES` when the search ends with `found = 0`. -/
theorem hashcash_mint_exhausted (E : Env) (rng : Rng) (now_time time_width : Int)
    (resource : List Char) (bits : Nat) (anon_period : Int) (token : List Char)
    (ran0 ran1 ran2 : Nat) (anon : Int) (t' : List Char)
    (hbits : bits ≤ 160)
    (h0 : rng.ran0 = some ran0) (h1 : rng.ran1 = some ran1) (h2 : rng.ran2 = some ran2)
    (hnow : 0 ≤ now_time)
    (hanon : (if anon_period ≠ 0 then rng.rectangular anon_period else some 0) = some anon)
    (hw : time_width = 0 ∨ time_width = 2 ∨ time_width = 4 ∨ time_width = 6 ∨
      time_width = 8 ∨ time_width = 10 ∨ time_width = 12)
    (hsearch : mint_search E
        (E.to_utctimestr (if time_width = 0 then 6 else time_width)
          (round_off E (now_time + anon) (12 - (if time_width = 0 then 6 else time_width))))
        resource bits ran0 ran1 ran2 token = some (0, t')) :
    hashcash_mint E rng now_time time_width (some resource) bits anon_period (some token) =
      some (MintCode.HASHCASH_TOO_MANY_TRIES, some t') := by
  have hw' : ¬ ((if time_width = 0 then (6 : Int) else time_width) ≠ 12 ∧
      (if time_width = 0 then (6 : Int) else time_width) ≠ 10 ∧
      (if time_width = 0 then (6 : Int) else time_width) ≠ 8 ∧
      (if time_width = 0 then (6 : Int) else time_width) ≠ 6 ∧
      (if time_width = 0 then (6 : Int) else time_width) ≠ 4 ∧
      (if time_width = 0 then (6 : Int) else time_width) ≠ 2) := by
    rcases hw with h | h | h | h | h | h | h <;> rw [h] <;> decide
  have hb : ¬ (bits > SHA1_DIGEST_BYTES * 8) := by
    simp only [SHA1_DIGEST_BYTES]
    omega
  have hn : ¬ (now_time < 0) := by omega
  unfold hashcash_mint
  simp only [h0, h1, h2, hb, hn, hanon, hw', hsearch, if_false, ne_eq, not_true_eq_false]

theorem find_collision_group_never (E : Env) (bits : Nat) (ctry : List Char) (try_len : Nat)
    (pre : E.SHA1_ctx) (h : ∀ c, collision_test bits (E.SHA1_Final c) = false) (n : Nat) :
    ∀ j0, find_collision_group E bits ctry try_len pre n j0 = none := by
  induction n with
  | zero => intro j0; rfl
  | succ n ih =>
    intro j0
    unfold find_collision_group
    simp only [h, ih, Bool.false_eq_true, if_false]

theorem find_collision_loop_never (E : Env) (bits : Nat) (fixed : List Char)
    (h : ∀ c, collision_test bits (E.SHA1_Final c) = false) (n : Nat) :
    ∀ i trial token, find_collision_loop E bits fixed n i trial token = (0, token) := by
  induction n with
  | zero => intro i trial token; rfl
  | succ n ih =>
    intro i trial token
    unfold find_collision_loop
    simp only [find_collision_group_never E bits _ _ _ h, ih]

/-- When no digest passes the acceptance test, `find_collision` returns 0 and
leaves `token` as it was. -/
theorem find_collision_never (E : Env) (utct resource : List Char) (bits : Nat)
    (token : List Char) (tries : Nat) (counter : List Char)
    (h : ∀ c, collision_test bits (E.SHA1_Final c) = false)
    (hbits : bits ≤ 160) (hlen : 8 ≤ counter.length) (trial : Nat)
    (hscan : E.sscanf_08x (counter.drop (counter.length - 8)) = some trial) :
    find_collision E utct resource bits token tries counter = some (0, token) := by
  have hb : ¬ (bits > 8 * SHA1_DIGEST_BYTES) := by
    simp only [SHA1_DIGEST_BYTES]
    omega
  have hl : ¬ (counter.length < 8) := by omega
  unfold find_collision
  simp only [hb, hl, if_false, GROUP_DIGITS, hscan, find_collision_loop_never E bits _ h]

/-- In the small environment with `ffDigest` no candidate reaches 8 bits:
every call that `hashcash_mint` makes with third random word 0 returns 0. -/
theorem ffDigest_find_collision (utct resource token : List Char) (ran0 ran1 i0 i1 : Nat) :
    find_collision (toyEnv ffDigest) utct resource 8 token GROUP_SIZE
      (mint_counter ran0 ran1 0 i0 i1) = some (0, token) := by
  have hdrop : (mint_counter ran0 ran1 0 i0 i1).drop
      ((mint_counter ran0 ran1 0 i0 i1).length - 8) = sprintf_08x (0 % (GROUP_SIZE + 1)) := by
    simp [mint_counter, sprintf_08x]
  refine find_collision_never (toyEnv ffDigest) utct resource 8 token GROUP_SIZE _
    (fun _ => (by decide : collision_test 8 (List.replicate 20 255) = false))
    (by decide) (by simp [mint_counter, sprintf_08x]) 0 ?_
  rw [hdrop]
  decide

/-! ## Claim on the exhaustion of hashcash_mint -/

/-- C14: with the checks before the search passed (`bits` at most 160, the
three random words drawn, `now_time` not negative, the anonymity offset drawn,
a valid `time_width`): the nested loops of `hashcash_mint`, run with their
flags `i0f` and `i1f`, end within `2^32 + 1` tests of each loop condition and
compute the search result that `hashcash_mint` uses; if every call of
`find_collision` returns 0, they call it for the pairs `(i0, i1)` in
lexicographic order, a list of length `2^64` without repetition that holds
exactly the pairs of values below `2^32`, and `hashcash_mint` returns
`HASHCASH_TOO_MANY_TRIES`; and whenever `hashcash_mint` returns `HASHCASH_OK`,
some call of `find_collision` returned a non-zero value. -/
theorem hashcash_mint_exhaustion (E : Env) (rng : Rng) (now_time time_width : Int)
    (resource : List Char) (bits : Nat) (anon_period : Int) (token : List Char)
    (ran0 ran1 ran2 : Nat) (anon : Int)
    (hbits : bits ≤ 160)
    (h0 : rng.ran0 = some ran0) (h1 : rng.ran1 = some ran1) (h2 : rng.ran2 = some ran2)
    (hnow : 0 ≤ now_time)
    (hanon : (if anon_period ≠ 0 then rng.rectangular anon_period else some 0) = some anon)
    (hw : time_width = 0 ∨ time_width = 2 ∨ time_width = 4 ∨ time_width = 6 ∨
      time_width = 8 ∨ time_width = 10 ∨ time_width = 12) :
    (∀ utct tok, ∃ log,
      mint_loops E utct resource bits ran0 ran1 ran2 (GROUP_SIZE + 2) tok =
        some (log, mint_search E utct resource bits ran0 ran1 ran2 tok)) ∧
    ((∀ i0 i1 t, ∃ t', find_collision E
          (E.to_utctimestr (if time_width = 0 then 6 else time_width)
            (round_off E (now_time + anon) (12 - (if time_width = 0 then 6 else time_width))))
          resource bits t GROUP_SIZE (mint_counter ran0 ran1 ran2 i0 i1) = some (0, t')) →
      ∃ t',
        mint_loops E
            (E.to_utctimestr (if time_width = 0 then 6 else time_width)
              (round_off E (now_time + anon) (12 - (if time_width = 0 then 6 else time_width))))
            resource bits ran0 ran1 ran2 (GROUP_SIZE + 2) token =
          some ((List.range (GROUP_SIZE + 1)).flatMap
              (fun i0 => (List.range (GROUP_SIZE + 1)).map (fun i1 => (i0, i1))),
            some (0, t')) ∧
        ((List.range (GROUP_SIZE + 1)).flatMap
          (fun i0 => (List.range (GROUP_SIZE + 1)).map (fun i1 => (i0, i1)))).length = 2 ^ 64 ∧
        ((List.range (GROUP_SIZE + 1)).flatMap
          (fun i0 => (List.range (GROUP_SIZE + 1)).map (fun i1 => (i0, i1)))).Nodup ∧
        (∀ i0 i1, (i0, i1) ∈ (List.range (GROUP_SIZE + 1)).flatMap
            (fun i0 => (List.range (GROUP_SIZE + 1)).map (fun i1 => (i0, i1))) ↔
          i0 < 2 ^ 32 ∧ i1 < 2 ^ 32) ∧
        hashcash_mint E rng now_time time_width (some resource) bits anon_period (some token) =
          some (MintCode.HASHCASH_TOO_MANY_TRIES, some t')) ∧
    (∀ (rng1 : Rng) (now1 width1 : Int) (res1 : Option (List Char)) (bits1 : Nat) (anon1 : Int)
        (tok0 tok1 : Option (List Char)),
      hashcash_mint E rng1 now1 width1 res1 bits1 anon1 tok0 =
        some (MintCode.HASHCASH_OK, tok1) →
      ∃ (utct res counter tokin tok : List Char) (found : Nat),
        found ≠ 0 ∧
          find_collision E utct res bits1 tokin GROUP_SIZE counter = some (found, tok)) := by
  refine ⟨fun utct tok => mint_loops_search E utct resource bits ran0 ran1 ran2 _
    (Nat.lt_succ_self _) tok, ?_, ?_⟩
  · intro hnone
    obtain ⟨t', ht'⟩ := mint_loops_never E _ resource bits ran0 ran1 ran2 _
      (Nat.lt_succ_self _) token hnone
    obtain ⟨log, hlog⟩ := mint_loops_search E
      (E.to_utctimestr (if time_width = 0 then 6 else time_width)
        (round_off E (now_time + anon) (12 - (if time_width = 0 then 6 else time_width))))
      resource bits ran0 ran1 ran2 _ (Nat.lt_succ_self _) token
    have hsearch : mint_search E
        (E.to_utctimestr (if time_width = 0 then 6 else time_width)
          (round_off E (now_time + anon) (12 - (if time_width = 0 then 6 else time_width))))
        resource bits ran0 ran1 ran2 token = some (0, t') := by
      rw [ht'] at hlog
      simp only [Option.some.injEq, Prod.mk.injEq] at hlog
      exact hlog.2.symm
    obtain ⟨hlen, hnd, hmem⟩ := pairs_spec (GROUP_SIZE + 1)
    refine ⟨t', ht', ?_, hnd, ?_, ?_⟩
    · rw [hlen]
      decide
    · intro i0 i1
      rw [hmem i0 i1]
      exact Iff.rfl
    · exact hashcash_mint_exhausted E rng now_time time_width resource bits anon_period token
        ran0 ran1 ran2 anon t' hbits h0 h1 h2 hnow hanon hw hsearch
  · intro rng1 now1 width1 res1 bits1 anon1 tok0 tok1 h
    obtain ⟨res, tok, w, t, counter, tokin, found, _, _, _, _, hfound, hfc⟩ :=
      hashcash_mint_ok E rng1 now1 width1 res1 bits1 anon1 tok0 tok1 h
    exact ⟨_, res, counter, tokin, tok, found, hfound, hfc⟩

/-- Witness for C14: the small environment with `ffDigest`, 8 bits, the
resource `foo`, the random words 0, 0, 0, no anonymity period, the default time
width. -/
theorem hashcash_mint_exhaustion_witness :
    ∃ t',
      mint_loops (toyEnv ffDigest)
          ((toyEnv ffDigest).to_utctimestr (if (0 : Int) = 0 then 6 else 0)
            (round_off (toyEnv ffDigest) (0 + 0) (12 - (if (0 : Int) = 0 then 6 else 0))))
          "foo".toList 8 0 0 0 (GROUP_SIZE + 2) [] =
        some ((List.range (GROUP_SIZE + 1)).flatMap
            (fun i0 => (List.range (GROUP_SIZE + 1)).map (fun i1 => (i0, i1))),
          some (0, t')) ∧
      ((List.range (GROUP_SIZE + 1)).flatMap
        (fun i0 => (List.range (GROUP_SIZE + 1)).map (fun i1 => (i0, i1)))).length = 2 ^ 64 ∧
      ((List.range (GROUP_SIZE + 1)).flatMap
        (fun i0 => (List.range (GROUP_SIZE + 1)).map (fun i1 => (i0, i1)))).Nodup ∧
      (∀ i0 i1, (i0, i1) ∈ (List.range (GROUP_SIZE + 1)).flatMap
          (fun i0 => (List.range (GROUP_SIZE + 1)).map (fun i1 => (i0, i1))) ↔
        i0 < 2 ^ 32 ∧ i1 < 2 ^ 32) ∧
      hashcash_mint (toyEnv ffDigest) ⟨some 0, some 0, some 0, fun _ => none⟩ 0 0
          (some "foo".toList) 8 0 (some []) =
        some (MintCode.HASHCASH_TOO_MANY_TRIES, some t') :=
  (hashcash_mint_exhaustion (toyEnv ffDigest) ⟨some 0, some 0, some 0, fun _ => none⟩ 0 0
    "foo".toList 8 0 [] 0 0 0 0 (by decide) rfl rfl rfl (by decide) (by decide)
    (Or.inl rfl)).2.1
    (fun i0 i1 t => ⟨t, ffDigest_find_collision _ "foo".toList t 0 0 i0 i1⟩)

/-! ## The count returned by find_collision -/

theorem find_collision_group_none (E : Env) (bits : Nat) (ctry : List Char) (try_len : Nat)
    (pre : E.SHA1_ctx) (n : Nat) :
    ∀ j0, (∀ j, j0 ≤ j → j < j0 + n →
        collision_test bits (E.SHA1_Final (E.SHA1_Update pre [hexdigit j])) = false) →
      find_collision_group E bits ctry try_len pre n j0 = none := by
  induction n with
  | zero => intro j0 _; rfl
  | succ n ih =>
    intro j0 h
    unfold find_collision_group
    simp only [h j0 (Nat.le_refl _) (by omega), Bool.false_eq_true, if_false]
    exact ih (j0 + 1) (fun j h1 h2 => h j (by omega) (by omega))

/-- The loop over `j` returns the first candidate of the group that is
accepted. -/
theorem find_collision_group_first (E : Env) (bits : Nat) (ctry : List Char) (try_len : Nat)
    (pre : E.SHA1_ctx) (J : Nat) (n : Nat) :
    ∀ j0, j0 ≤ J → J < j0 + n →
      (∀ j, j0 ≤ j → j < J →
        collision_test bits (E.SHA1_Final (E.SHA1_Update pre [hexdigit j])) = false) →
      collision_test bits (E.SHA1_Final (E.SHA1_Update pre [hexdigit J])) = true →
      find_collision_group E bits ctry try_len pre n j0 =
        some (J, sstrncpy (ctry.set (try_len + (GROUP_DIGITS - 1)) (hexdigit J)) E.MAX_TOK) := by
  induction n with
  | zero => intro j0 h1 h2; omega
  | succ n ih =>
    intro j0 h1 h2 hlow hJ
    unfold find_collision_group
    by_cases e : j0 = J
    · subst e
      simp only [hJ, if_true]
    · simp only [hlow j0 (Nat.le_refl _) (by omega), Bool.false_eq_true, if_false]
      exact ih (j0 + 1) (by omega) (by omega) (fun j h3 h4 => hlow j (by omega) h4) hJ

/-- The value returned by the loop over the groups when candidate `J` of the
group `M` steps after the first one is the first to be accepted: the count
`(i + M) * 16 + J + 1` reduced modulo `2^32`, with the token of that
candidate. -/
theorem find_collision_loop_first (E : Env) (bits : Nat) (fixed : List Char) (J : Nat)
    (hJ : J < 16) (M : Nat) :
    ∀ (n i trial : Nat) (token : List Char), M < n → trial < GROUP_SIZE + 1 →
      (∀ m, m < M → ∀ j, j < 16 →
        candidate_accepted E bits fixed ((trial + 16 * m) % (GROUP_SIZE + 1)) j = false) →
      (∀ j, j < J →
        candidate_accepted E bits fixed ((trial + 16 * M) % (GROUP_SIZE + 1)) j = false) →
      candidate_accepted E bits fixed ((trial + 16 * M) % (GROUP_SIZE + 1)) J = true →
      find_collision_loop E bits fixed n i trial token =
        (((i + M) * 16 + J + 1) % (GROUP_SIZE + 1),
          candidate_token E fixed ((trial + 16 * M) % (GROUP_SIZE + 1)) J) := by
  induction M with
  | zero =>
    intro n i trial token hn htrial _ hlow hacc
    obtain ⟨n, rfl⟩ : ∃ k, n = k + 1 := ⟨n - 1, by omega⟩
    have e : (trial + 16 * 0) % (GROUP_SIZE + 1) = trial := by
      rw [Nat.mul_zero, Nat.add_zero, Nat.mod_eq_of_lt htrial]
    rw [e] at hlow hacc ⊢
    unfold find_collision_loop
    simp only
    rw [find_collision_group_first E bits _ _ _ J 16 0 (Nat.zero_le _) (by omega)
      (fun j _ h => hlow j h) hacc]
    rfl
  | succ M ih =>
    intro n i trial token hn htrial hnone hlow hacc
    obtain ⟨n, rfl⟩ : ∃ k, n = k + 1 := ⟨n - 1, by omega⟩
    have e : (trial + 16 * 0) % (GROUP_SIZE + 1) = trial := by
      rw [Nat.mul_zero, Nat.add_zero, Nat.mod_eq_of_lt htrial]
    have hstep : ∀ m, ((trial + 16) % (GROUP_SIZE + 1) + 16 * m) % (GROUP_SIZE + 1) =
        (trial + 16 * (m + 1)) % (GROUP_SIZE + 1) := by
      intro m
      simp only [GROUP_SIZE]
      omega
    have h0 := hnone 0 (Nat.succ_pos _)
    rw [e] at h0
    unfold find_collision_loop
    simp only
    rw [find_collision_group_none E bits _ _ _ 16 0 (fun j _ h => h0 j (by omega))]
    simp only
    rw [ih n (i + 1) ((trial + 16) % (GROUP_SIZE + 1)) token (by omega)
      (Nat.mod_lt _ (Nat.succ_pos _))
      (fun m hm j hj => by rw [hstep]; exact hnone (m + 1) (by omega) j hj)
      (fun j hj => by rw [hstep]; exact hlow j hj)
      (by rw [hstep]; exact hacc)]
    rw [hstep]
    have e2 : i + 1 + M = i + (M + 1) := by omega
    rw [e2]

/-- The loop over the groups returns 0 and leaves `token` when no candidate of
its `n` groups is accepted. -/
theorem find_collision_loop_none (E : Env) (bits : Nat) (fixed : List Char) (n : Nat) :
    ∀ (i trial : Nat) (token : List Char), trial < GROUP_SIZE + 1 →
      (∀ m, m < n → ∀ j, j < 16 →
        candidate_accepted E bits fixed ((trial + 16 * m) % (GROUP_SIZE + 1)) j = false) →
      find_collision_loop E bits fixed n i trial token = (0, token) := by
  induction n with
  | zero => intro i trial token _ _; rfl
  | succ n ih =>
    intro i trial token htrial hnone
    have e : (trial + 16 * 0) % (GROUP_SIZE + 1) = trial := by
      rw [Nat.mul_zero, Nat.add_zero, Nat.mod_eq_of_lt htrial]
    have hstep : ∀ m, ((trial + 16) % (GROUP_SIZE + 1) + 16 * m) % (GROUP_SIZE + 1) =
        (trial + 16 * (m + 1)) % (GROUP_SIZE + 1) := by
      intro m
      simp only [GROUP_SIZE]
      omega
    have h0 := hnone 0 (Nat.succ_pos _)
    rw [e] at h0
    unfold find_collision_loop
    simp only
    rw [find_collision_group_none E bits _ _ _ 16 0 (fun j _ h => h0 j (by omega))]
    simp only
    exact ih (i + 1) _ token (Nat.mod_lt _ (Nat.succ_pos _))
      (fun m hm j hj => by rw [hstep]; exact hnone (m + 1) (by omega) j hj)

/-- With its arguments in range, `find_collision` is its loop over the groups. -/
theorem find_collision_eq (E : Env) (utct resource : List Char) (bits : Nat)
    (token : List Char) (tries : Nat) (counter : List Char) (trial : Nat)
    (hbits : bits ≤ 160) (hlen : 8 ≤ counter.length)
    (hscan : E.sscanf_08x (counter.drop (counter.length - 8)) = some trial) :
    find_collision E utct resource bits token tries counter =
      some (find_collision_loop E bits
        (['0'] ++ [':'] ++ utct.take E.MAX_TOK ++ [':'] ++ resource.take E.MAX_RES ++ [':'] ++
          counter.take (counter.length - 8))
        ((tries + 8) / 16) 0 (trial - trial % 16) token) := by
  have hb : ¬ (bits > 8 * SHA1_DIGEST_BYTES) := by
    simp only [SHA1_DIGEST_BYTES]
    omega
  have hl : ¬ (counter.length < 8) := by omega
  unfold find_collision
  simp only [hb, hl, if_false, GROUP_DIGITS, hscan]

/-- With the checks before the search passed, `hashcash_mint` returns
`HASHCASH_TOO_MANY_TRIES` when every call of `find_collision` returns 0. -/
theorem hashcash_mint_never (E : Env) (rng : Rng) (now_time time_width : Int)
    (resource : List Char) (bits : Nat) (anon_period : Int) (token : List Char)
    (ran0 ran1 ran2 : Nat) (anon : Int)
    (hbits : bits ≤ 160)
    (h0 : rng.ran0 = some ran0) (h1 : rng.ran1 = some ran1) (h2 : rng.ran2 = some ran2)
    (hnow : 0 ≤ now_time)
    (hanon : (if anon_period ≠ 0 then rng.rectangular anon_period else some 0) = some anon)
    (hw : time_width = 0 ∨ time_width = 2 ∨ time_width = 4 ∨ time_width = 6 ∨
      time_width = 8 ∨ time_width = 10 ∨ time_width = 12)
    (hnone : ∀ utct i0 i1 t, ∃ t', find_collision E utct resource bits t GROUP_SIZE
      (mint_counter ran0 ran1 ran2 i0 i1) = some (0, t')) :
    ∃ t', hashcash_mint E rng now_time time_width (some resource) bits anon_period
      (some token) = some (MintCode.HASHCASH_TOO_MANY_TRIES, some t') := by
  obtain ⟨t', ht'⟩ := mint_loops_never E
    (E.to_utctimestr (if time_width = 0 then 6 else time_width)
      (round_off E (now_time + anon) (12 - (if time_width = 0 then 6 else time_width))))
    resource bits ran0 ran1 ran2 _ (Nat.lt_succ_self _) token (hnone _)
  obtain ⟨log, hlog⟩ := mint_loops_search E
    (E.to_utctimestr (if time_width = 0 then 6 else time_width)
      (round_off E (now_time + anon) (12 - (if time_width = 0 then 6 else time_width))))
    resource bits ran0 ran1 ran2 _ (Nat.lt_succ_self _) token
  rw [ht'] at hlog
  simp only [Option.some.injEq, Prod.mk.injEq] at hlog
  exact ⟨t', hashcash_mint_exhausted E rng now_time time_width resource bits anon_period token
    ran0 ran1 ran2 anon t' hbits h0 h1 h2 hnow hanon hw hlog.2.symm⟩

theorem lastCandidateDigest_contract : (toyEnv lastCandidateDigest).HashContract := by
  apply toyEnv_contract
  · intro m
    unfold lastCandidateDigest
    split <;> simp
  · intro m b hb
    unfold lastCandidateDigest at hb
    split at hb
    · simp only [List.mem_append, List.mem_replicate, List.mem_singleton] at hb
      omega
    · simp only [List.mem_replicate] at hb
      omega

theorem hexdigit_eq_f : ∀ k, k < 16 → (hexdigit k = 'f' ↔ k = 15) := by
  decide

/-- In the small environment with `lastCandidateDigest` a candidate is
accepted for 8 bits exactly when its eight digits are `ffffffff`. -/
theorem lastCandidate_accepted (fixed : List Char) (trial j : Nat) :
    candidate_accepted (toyEnv lastCandidateDigest) 8 fixed trial j =
      decide ((sprintf_08x trial).take 7 ++ [hexdigit j] = "ffffffff".toList) := by
  have h1 : fixed.length + GROUP_DIGITS - 1 = fixed.length + 7 := by simp [GROUP_DIGITS]
  have hmsg : (toyEnv lastCandidateDigest).SHA1_Update
      ((toyEnv lastCandidateDigest).SHA1_Update (toyEnv lastCandidateDigest).SHA1_Init
        ((fixed ++ sprintf_08x trial).take (fixed.length + GROUP_DIGITS - 1))) [hexdigit j] =
      fixed ++ ((sprintf_08x trial).take 7 ++ [hexdigit j]) := by
    show ([] ++ (fixed ++ sprintf_08x trial).take (fixed.length + GROUP_DIGITS - 1)) ++
      [hexdigit j] = _
    rw [h1, List.take_append, List.nil_append, List.append_assoc]
  have hlen : ((sprintf_08x trial).take 7 ++ [hexdigit j]).length = 8 := by
    simp [sprintf_08x]
  unfold candidate_accepted
  rw [hmsg]
  show collision_test 8 (lastCandidateDigest _) = _
  unfold lastCandidateDigest
  rw [List.length_append, hlen, Nat.add_sub_cancel, List.drop_left]
  by_cases h : (sprintf_08x trial).take 7 ++ [hexdigit j] = "ffffffff".toList
  · rw [if_pos h, decide_eq_true h]
    decide
  · rw [if_neg h, decide_eq_false h]
    decide

/-- The eight digits of a candidate are `ffffffff` only for the last candidate
of the group that starts at `0xfffffff0`. -/
theorem candidate_digits_ff (trial j : Nat) (ht : trial < GROUP_SIZE + 1) (hj : j < 16) :
    ((sprintf_08x trial).take 7 ++ [hexdigit j] = "ffffffff".toList) ↔
      (4294967280 ≤ trial ∧ j = 15) := by
  have d7 := hexdigit_eq_f (trial / 16 ^ 7 % 16) (Nat.mod_lt _ (by decide))
  have d6 := hexdigit_eq_f (trial / 16 ^ 6 % 16) (Nat.mod_lt _ (by decide))
  have d5 := hexdigit_eq_f (trial / 16 ^ 5 % 16) (Nat.mod_lt _ (by decide))
  have d4 := hexdigit_eq_f (trial / 16 ^ 4 % 16) (Nat.mod_lt _ (by decide))
  have d3 := hexdigit_eq_f (trial / 16 ^ 3 % 16) (Nat.mod_lt _ (by decide))
  have d2 := hexdigit_eq_f (trial / 16 ^ 2 % 16) (Nat.mod_lt _ (by decide))
  have d1 := hexdigit_eq_f (trial / 16 % 16) (Nat.mod_lt _ (by decide))
  have d0 := hexdigit_eq_f j hj
  have e : "ffffffff".toList = ['f', 'f', 'f', 'f', 'f', 'f', 'f', 'f'] := by decide
  simp only [GROUP_SIZE] at ht
  rw [e]
  simp only [sprintf_08x, List.take_succ_cons, List.take_zero, List.cons_append,
    List.nil_append, List.cons.injEq, and_true, d7, d6, d5, d4, d3, d2, d1, d0]
  norm_num only at *
  omega

/-- In the small environment with `lastCandidateDigest`, the candidate with
counter value `trial` and index `j` is accepted for 8 bits exactly when it is
the last candidate of the last group. -/
theorem lastCandidate_accepted_iff (fixed : List Char) (trial j : Nat)
    (ht : trial < GROUP_SIZE + 1) (hj : j < 16) :
    candidate_accepted (toyEnv lastCandidateDigest) 8 fixed trial j = true ↔
      (4294967280 ≤ trial ∧ j = 15) := by
  rw [lastCandidate_accepted, decide_eq_true_iff, candidate_digits_ff trial j ht hj]

/-- In the small environment with `lastCandidateDigest`, a call with
`tries = GROUP_SIZE` whose counter ends in a number that reads as 0 returns 0
with the token of the last candidate of the last group, the only one that is
accepted. -/
theorem lastCandidate_find_collision (utct resource token counter : List Char)
    (hlen : 8 ≤ counter.length)
    (hscan : (toyEnv lastCandidateDigest).sscanf_08x
      (counter.drop (counter.length - 8)) = some 0) :
    find_collision (toyEnv lastCandidateDigest) utct resource 8 token GROUP_SIZE counter =
      some (0, candidate_token (toyEnv lastCandidateDigest)
        (['0'] ++ [':'] ++ utct.take (toyEnv lastCandidateDigest).MAX_TOK ++ [':'] ++
          resource.take (toyEnv lastCandidateDigest).MAX_RES ++ [':'] ++
          counter.take (counter.length - 8)) 4294967280 15) := by
  have hfalse : ∀ (fixed : List Char) (t j : Nat), t < GROUP_SIZE + 1 → j < 16 →
      ¬ (4294967280 ≤ t ∧ j = 15) →
      candidate_accepted (toyEnv lastCandidateDigest) 8 fixed t j = false := by
    intro fixed t j ht hj hn
    rw [← Bool.not_eq_true, lastCandidate_accepted_iff fixed t j ht hj]
    exact hn
  have hlast : (0 - 0 % 16 + 16 * 268435455) % (GROUP_SIZE + 1) = 4294967280 := by decide
  have hret : ((0 + 268435455) * 16 + 15 + 1) % (GROUP_SIZE + 1) = 0 := by decide
  rw [find_collision_eq (toyEnv lastCandidateDigest) utct resource 8 token GROUP_SIZE counter 0
    (by decide) hlen hscan]
  rw [find_collision_loop_first (toyEnv lastCandidateDigest) 8 _ 15 (by decide) 268435455
    ((GROUP_SIZE + 8) / 16) 0 (0 - 0 % 16) token (by decide) (by decide)
    (fun m hm j hj => hfalse _ _ j (Nat.mod_lt _ (Nat.succ_pos _)) hj (by
      simp only [GROUP_SIZE]
      omega))
    (fun j hj => hfalse _ _ j (Nat.mod_lt _ (Nat.succ_pos _)) (by omega) (by omega))
    (by
      rw [hlast, lastCandidate_accepted_iff _ _ _ (by decide) (by decide)]
      exact ⟨Nat.le_refl _, rfl⟩)]
  rw [hlast, hret]

/-- In the small environment with `lastCandidateDigest`, every call that
`hashcash_mint` makes with third random word 0 returns 0. -/
theorem lastCandidate_mint_call (utct resource token : List Char) (ran0 ran1 i0 i1 : Nat) :
    ∃ t', find_collision (toyEnv lastCandidateDigest) utct resource 8 token GROUP_SIZE
      (mint_counter ran0 ran1 0 i0 i1) = some (0, t') := by
  have hdrop : (mint_counter ran0 ran1 0 i0 i1).drop
      ((mint_counter ran0 ran1 0 i0 i1).length - 8) = sprintf_08x (0 % (GROUP_SIZE + 1)) := by
    simp [mint_counter, sprintf_08x]
  exact ⟨_, lastCandidate_find_collision utct resource token _
    (by simp [mint_counter, sprintf_08x]) (by rw [hdrop]; decide)⟩

/-! ## Claim on the count returned by find_collision -/

/-- C15, the code at the failing input: in the small environment with
`lastCandidateDigest`, for the time stamp `040404`, the resource `foo`, 8 bits,
a counter of 24 zeros and `tries = GROUP_SIZE = 0xFFFFFFFF`, as `hashcash_mint`
passes them, `find_collision` tries the `2^28` groups `16 * m`; candidate 15 of
group `2^28 - 1` is the only one that satisfies the matching rule, so it is
the one that matches first; `find_collision` writes its token, which scores at
least 8 bits in `hashcash_count`, and returns `i * 16 + j + 1 = 2^32` reduced
to 32 bits, that is 0: it returns 0 although a candidate it tried matches.
`hashcash_mint` reads the 0 as not found: in this environment, with the random
words 0, 0, 0, it returns `HASHCASH_TOO_MANY_TRIES`. -/
theorem find_collision_count_wraps :
    (∀ m j, m < 268435456 → j < 16 →
      (candidate_accepted (toyEnv lastCandidateDigest) 8
          "0:040404:foo:0000000000000000".toList (16 * m) j = true ↔
        m = 268435455 ∧ j = 15)) ∧
    (GROUP_SIZE + 8) / 16 = 268435456 ∧
    find_collision (toyEnv lastCandidateDigest) "040404".toList "foo".toList 8 "old".toList
        GROUP_SIZE "000000000000000000000000".toList =
      some (0, "0:040404:foo:0000000000000000ffffffff".toList) ∧
    (268435455 * 16 + 15 + 1) % (GROUP_SIZE + 1) = 0 ∧
    8 ≤ hashcash_count (toyEnv lastCandidateDigest)
      "0:040404:foo:0000000000000000ffffffff".toList ∧
    ∃ t', hashcash_mint (toyEnv lastCandidateDigest) ⟨some 0, some 0, some 0, fun _ => none⟩
        0 0 (some "foo".toList) 8 0 (some "old".toList) =
      some (MintCode.HASHCASH_TOO_MANY_TRIES, some t') := by
  refine ⟨?_, by decide, ?_, by decide, by decide, ?_⟩
  · intro m j hm hj
    rw [lastCandidate_accepted_iff _ _ _ (by simp only [GROUP_SIZE]; omega) hj]
    omega
  · rw [lastCandidate_find_collision _ _ _ _ (by decide) (by decide)]
    decide
  · exact hashcash_mint_never (toyEnv lastCandidateDigest) _ 0 0 "foo".toList 8 0
      "old".toList 0 0 0 0 (by decide) rfl rfl rfl (by decide) (by decide) (Or.inl rfl)
      (fun utct i0 i1 t => lastCandidate_mint_call utct _ t 0 0 i0 i1)

/-! ## Claim on the abort of hashcash_fastmint -/

/-- A call that ends in exit 3 had an attempt in which the backend claimed more
bits than the reference hash gives; a call that returns had a last attempt in
which the claimed count does not exceed the verified one, which is returned,
with its buffer. -/
theorem fastmint_again_cases (E : Env) (ctxH : E.SHA1_ctx → List Nat) (minter : HC_Minter)
    (rand : Nat → Nat → Nat) (bits : Int) (token : List Char) (buflen : Nat) (fuel : Nat) :
    ∀ (attempt : Nat) (buffer : Nat → Char),
      (hashcash_fastmint_again E ctxH minter rand bits token buflen fuel attempt buffer =
          some FastmintResult.exit3 →
        ∃ (k : Nat) (buf : Nat → Char),
          (fastmint_attempt E ctxH minter (rand k) bits token.length buf).2.1 <
            (fastmint_attempt E ctxH minter (rand k) bits token.length buf).1) ∧
      (∀ b result,
        hashcash_fastmint_again E ctxH minter rand bits token buflen fuel attempt buffer =
          some (FastmintResult.returned b result) →
        ∃ (k : Nat) (buf : Nat → Char),
          (fastmint_attempt E ctxH minter (rand k) bits token.length buf).1 ≤
              (fastmint_attempt E ctxH minter (rand k) bits token.length buf).2.1 ∧
            b = (fastmint_attempt E ctxH minter (rand k) bits token.length buf).2.1 ∧
            bits % 2 ^ 32 ≤ (b : Int) ∧
            result =
              peek (fastmint_attempt E ctxH minter (rand k) bits token.length buf).2.2 0
                buflen) := by
  induction fuel with
  | zero =>
    intro attempt buffer
    constructor
    · intro h
      simp [hashcash_fastmint_again] at h
    · intro b result h
      simp [hashcash_fastmint_again] at h
  | succ fuel ih =>
    intro attempt buffer
    unfold hashcash_fastmint_again
    simp only
    by_cases h1 : (fastmint_attempt E ctxH minter (rand attempt) bits token.length buffer).2.1 <
        (fastmint_attempt E ctxH minter (rand attempt) bits token.length buffer).1
    · rw [if_pos h1]
      exact ⟨fun _ => ⟨attempt, buffer, h1⟩, fun b result h => by simp at h⟩
    · rw [if_neg h1]
      by_cases h2 : (((fastmint_attempt E ctxH minter (rand attempt) bits token.length
          buffer).2.1 : Nat) : Int) < bits % 2 ^ 32
      · rw [if_pos h2]
        exact ih _ _
      · rw [if_neg h2]
        constructor
        · intro h
          simp at h
        · intro b result h
          simp only [Option.some.injEq, FastmintResult.returned.injEq] at h
          refine ⟨attempt, buffer, by omega, h.1.symm, ?_, h.2.symm⟩
          rw [← h.1]
          omega

/-- C21 (counterexample): with -1 requested bits, the token `tok` and a backend
that leaves the block as it is and claims 0 bits, the first attempt has the
claimed count 0 and the verified count 159, which is not below the request,
and it is retried: the comparison `b < bits` is a comparison of `unsigned`, in
which -1 is `2^32 - 1`.  So is every later attempt; within three attempts the
call does not return.  With 0 requested bits the same attempt returns. -/
theorem hashcash_fastmint_abort_counterexample :
    (fastmint_attempt (toyEnv lastDigest) (fun _ => SHA1_IV) ⟨"idle", idle_minter, true, 0⟩
      (fun pos => pos) (-1) "tok".toList.length
      (fun k => if k < 128 then "tok".toList.getD k NUL else NUL)).1 = 0 ∧
    (fastmint_attempt (toyEnv lastDigest) (fun _ => SHA1_IV) ⟨"idle", idle_minter, true, 0⟩
      (fun pos => pos) (-1) "tok".toList.length
      (fun k => if k < 128 then "tok".toList.getD k NUL else NUL)).2.1 = 159 ∧
    hashcash_fastmint_again (toyEnv lastDigest) (fun _ => SHA1_IV)
        ⟨"idle", idle_minter, true, 0⟩ (fun _ pos => pos) (-1) "tok".toList 128 3 0
        (fun k => if k < 128 then "tok".toList.getD k NUL else NUL) = none ∧
    hashcash_fastmint_again (toyEnv lastDigest) (fun _ => SHA1_IV)
        ⟨"idle", idle_minter, true, 0⟩ (fun _ pos => pos) 0 "tok".toList 128 3 0
        (fun k => if k < 128 then "tok".toList.getD k NUL else NUL) =
      some (FastmintResult.returned 159
        ("tok3456789ABCDEFGHI:00000000".toList ++ List.replicate 32 NUL ++
          [NUL, NUL, NUL, Char.ofNat 0xE0] ++ List.replicate 64 NUL)) := by
  decide

/-- C21 (amended): for a requested bit count within the non-negative range of
`int`, an attempt of `hashcash_fastmint` with claimed count `gotbits` and verified count
`b` ends in exit 3 when `b < gotbits`; when `gotbits <= b` it is followed by
the next attempt, with the random bytes of that attempt, if `b < bits`, and
returns `b` with the buffer if `bits <= b`.  Over a whole call: exit 3 is
reached only from an attempt with `b < gotbits`, and a return only from an
attempt with `gotbits <= b` and `bits <= b`. -/
theorem hashcash_fastmint_abort (E : Env) (ctxH : E.SHA1_ctx → List Nat) (minter : HC_Minter)
    (rand : Nat → Nat → Nat) (bits : Int) (token : List Char) (buflen : Nat)
    (h0 : 0 ≤ bits) (h31 : bits < 2 ^ 31) :
    (∀ (fuel attempt : Nat) (buffer : Nat → Char),
      ((fastmint_attempt E ctxH minter (rand attempt) bits token.length buffer).2.1 <
          (fastmint_attempt E ctxH minter (rand attempt) bits token.length buffer).1 →
        hashcash_fastmint_again E ctxH minter rand bits token buflen (fuel + 1) attempt buffer =
          some FastmintResult.exit3) ∧
      ((fastmint_attempt E ctxH minter (rand attempt) bits token.length buffer).1 ≤
          (fastmint_attempt E ctxH minter (rand attempt) bits token.length buffer).2.1 →
        (((fastmint_attempt E ctxH minter (rand attempt) bits token.length buffer).2.1 : Nat)
          : Int) < bits →
        hashcash_fastmint_again E ctxH minter rand bits token buflen (fuel + 1) attempt buffer =
          hashcash_fastmint_again E ctxH minter rand bits token buflen fuel (attempt + 1)
            (fastmint_attempt E ctxH minter (rand attempt) bits token.length buffer).2.2) ∧
      ((fastmint_attempt E ctxH minter (rand attempt) bits token.length buffer).1 ≤
          (fastmint_attempt E ctxH minter (rand attempt) bits token.length buffer).2.1 →
        bits ≤ (((fastmint_attempt E ctxH minter (rand attempt) bits token.length
          buffer).2.1 : Nat) : Int) →
        hashcash_fastmint_again E ctxH minter rand bits token buflen (fuel + 1) attempt buffer =
          some (FastmintResult.returned
            (fastmint_attempt E ctxH minter (rand attempt) bits token.length buffer).2.1
            (peek (fastmint_attempt E ctxH minter (rand attempt) bits token.length buffer).2.2
              0 buflen)))) ∧
    (∀ (fuel attempt : Nat) (buffer : Nat → Char),
      hashcash_fastmint_again E ctxH minter rand bits token buflen fuel attempt buffer =
          some FastmintResult.exit3 →
        ∃ (k : Nat) (buf : Nat → Char),
          (fastmint_attempt E ctxH minter (rand k) bits token.length buf).2.1 <
            (fastmint_attempt E ctxH minter (rand k) bits token.length buf).1) ∧
    (∀ (fuel attempt : Nat) (buffer : Nat → Char) (b : Nat) (result : List Char),
      hashcash_fastmint_again E ctxH minter rand bits token buflen fuel attempt buffer =
          some (FastmintResult.returned b result) →
        ∃ (k : Nat) (buf : Nat → Char),
          (fastmint_attempt E ctxH minter (rand k) bits token.length buf).1 ≤
              (fastmint_attempt E ctxH minter (rand k) bits token.length buf).2.1 ∧
            b = (fastmint_attempt E ctxH minter (rand k) bits token.length buf).2.1 ∧
            bits ≤ (b : Int) ∧
            result =
              peek (fastmint_attempt E ctxH minter (rand k) bits token.length buf).2.2 0
                buflen) := by
  have hmod : bits % 2 ^ 32 = bits := Int.emod_eq_of_lt h0 (by omega)
  refine ⟨fun fuel attempt buffer => ⟨?_, ?_, ?_⟩, ?_, ?_⟩
  · intro h
    unfold hashcash_fastmint_again
    simp only [h, if_true]
  · intro h1 h2
    rw [hashcash_fastmint_again]
    simp only [hmod, Nat.not_lt.mpr h1, h2, if_true, if_false]
  · intro h1 h2
    rw [hashcash_fastmint_again]
    simp only [hmod, Nat.not_lt.mpr h1, Int.not_lt.mpr h2, if_false]
  · intro fuel attempt buffer h
    exact (fastmint_again_cases E ctxH minter rand bits token buflen fuel attempt buffer).1 h
  · intro fuel attempt buffer b result h
    obtain ⟨k, buf, h1, h2, h3, h4⟩ :=
      (fastmint_again_cases E ctxH minter rand bits token buflen fuel attempt buffer).2 b
        result h
    rw [hmod] at h3
    exact ⟨k, buf, h1, h2, h3, h4⟩

/-- Witness for C21 (amended): the token `tok`, 20 bits, the small environment with
`lastDigest` and a backend that leaves the block as it is and claims 200 bits:
the verified count is 159, so the first attempt ends in exit 3. -/
theorem hashcash_fastmint_abort_witness :
    hashcash_fastmint_again (toyEnv lastDigest) (fun _ => SHA1_IV)
        ⟨"boast", fun _ block _ _ _ => (200, block), true, 0⟩ (fun _ pos => pos) 20
        "tok".toList 128 (0 + 1) 0 (fun k => if k < 128 then "tok".toList.getD k NUL else NUL) =
      some FastmintResult.exit3 :=
  ((hashcash_fastmint_abort (toyEnv lastDigest) (fun _ => SHA1_IV)
    ⟨"boast", fun _ block _ _ _ => (200, block), true, 0⟩ (fun _ pos => pos) 20
    "tok".toList 128 (by decide) (by decide)).1 0 0
    (fun k => if k < 128 then "tok".toList.getD k NUL else NUL)).1 (by decide)

/-! ## Claim on the error slot of hashcash_check -/

/-- When the caller's error slot holds `NULL` at the call, a resource that does
not match under the exact or the wildcard matcher gives
`HASHCASH_WRONG_RESOURCE`. -/
theorem hashcash_check_wrong_resource (E : Env) (token res token_utime token_res : List Char)
    (type : ResType) (now_time validity_period grace_period required_bits : Int)
    (htype : type = ResType.TYPE_STR ∨ type = ResType.TYPE_WILD)
    (hparse : hashcash_parse E token E.MAX_UTC E.MAX_RES = some (0, token_utime, token_res))
    (htime : E.from_utctimestr token_utime ≠ -1)
    (hmatch : (resource_match E type token_res res none).1 = 0) :
    hashcash_check E token (some res) none type now_time validity_period grace_period
      required_bits = E.HASHCASH_WRONG_RESOURCE := by
  have herr : (resource_match E type token_res res none).2 = none := by
    rcases htype with h | h <;> subst h <;> simp only [resource_match] <;> split <;> rfl
  unfold hashcash_check
  simp only [hparse, htime, hmatch, herr, ne_eq, not_true_eq_false, if_false, if_true]

/-- C22, the code at the failing input: `resource_match` leaves `*err` as it is
for the exact and the wildcard matcher, and `hashcash_check` tests
`*re_err != NULL` after the failed match; on the well-formed token
`0:040404:foo:abc` with the resource `bar`, which does not match, and an error
slot that holds a message from before the call, the result is
`HASHCASH_REGEXP_ERROR` for both matcher kinds, where it is
`HASHCASH_WRONG_RESOURCE` when the slot holds `NULL`. -/
theorem hashcash_check_stale_error :
    hashcash_check (toyEnv lastDigest) "0:040404:foo:abc".toList (some "bar".toList)
        (some "stale") ResType.TYPE_STR 1000 0 0 0 =
      (toyEnv lastDigest).HASHCASH_REGEXP_ERROR ∧
    hashcash_check (toyEnv lastDigest) "0:040404:foo:abc".toList (some "bar".toList)
        (some "stale") ResType.TYPE_WILD 1000 0 0 0 =
      (toyEnv lastDigest).HASHCASH_REGEXP_ERROR ∧
    hashcash_check (toyEnv lastDigest) "0:040404:foo:abc".toList (some "bar".toList)
        none ResType.TYPE_STR 1000 0 0 0 =
      (toyEnv lastDigest).HASHCASH_WRONG_RESOURCE ∧
    hashcash_check (toyEnv lastDigest) "0:040404:foo:abc".toList (some "bar".toList)
        none ResType.TYPE_WILD 1000 0 0 0 =
      (toyEnv lastDigest).HASHCASH_WRONG_RESOURCE ∧
    (toyEnv lastDigest).HASHCASH_REGEXP_ERROR ≠ (toyEnv lastDigest).HASHCASH_WRONG_RESOURCE ∧
    hashcash_parse (toyEnv lastDigest) "0:040404:foo:abc".toList 13 256 =
      some (0, "040404".toList, "foo".toList) := by
  decide

/-! ## Claim on the acceptance test of find_collision -/

set_option maxRecDepth 100000 in
/-- The mask of `find_collision` clears a byte exactly when its top `r` bits
are zero. -/
theorem mask_zero_iff :
    ∀ r, r < 8 → ∀ t, t < 256 → (t &&& (256 - 2 ^ (8 - r)) = 0 ↔ t < 2 ^ (8 - r)) := by
  decide

set_option maxRecDepth 100000 in
theorem leadingZeroBitsOfByte_ge :
    ∀ r, r < 8 → ∀ t, t < 256 → t ≠ 0 →
      (r ≤ leadingZeroBitsOfByte t ↔ (0 < r → t < 2 ^ (8 - r))) := by
  decide

set_option maxRecDepth 100000 in
theorem leadingZeroBitsOfByte_lt : ∀ t, t < 256 → t ≠ 0 → leadingZeroBitsOfByte t < 8 := by
  decide

theorem take_eq_of_getD (a b : List Nat) (n : Nat) (hlen : a.length = b.length)
    (h : ∀ k, k < n → a.getD k 0 = b.getD k 0) : a.take n = b.take n := by
  apply List.ext_getElem?
  intro k
  by_cases hk : k < n
  · rw [List.getElem?_take_of_lt hk, List.getElem?_take_of_lt hk]
    have := h k hk
    simp only [List.getD_eq_getElem?_getD] at this
    by_cases hka : k < a.length
    · rw [List.getElem?_eq_getElem hka, List.getElem?_eq_getElem (hlen ▸ hka)] at this ⊢
      simpa using this
    · rw [List.getElem?_eq_none (by omega), List.getElem?_eq_none (by omega)]
  · rw [List.getElem?_eq_none (by simp; omega), List.getElem?_eq_none (by simp; omega)]

/-- A digest whose first `bits / 8` bytes are zero and whose next byte, when
`bits % 8` is not 0, is cleared by the mask, is accepted. -/
theorem collision_test_of_zero (bits : Nat) (d : List Nat) (hlen : d.length = 20)
    (hbits : bits ≤ 160) (hz : ∀ k, k < bits / 8 → d.getD k 0 = 0)
    (hm : bits % 8 ≠ 0 → d.getD (bits / 8) 0 &&& (256 - 2 ^ (8 - bits % 8)) = 0) :
    collision_test bits d = true := by
  unfold collision_test
  simp only
  by_cases hp : bits % 8 = 0
  · simp only [hp, ne_eq, not_true_eq_false, if_false]
    have h0 : ¬ (bits > 7 ∧ ¬ d.getD 0 0 = (List.replicate SHA1_DIGEST_BYTES 0).getD 0 0) := by
      rintro ⟨h7, hne⟩
      rw [zero_target_getD] at hne
      exact hne (hz 0 (by omega))
    rw [if_neg h0]
    rw [beq_iff_eq]
    apply take_eq_of_getD _ _ _ (by simp [SHA1_DIGEST_BYTES, hlen])
    intro k hk
    rw [zero_target_getD, hz k hk]
  · have hidx : bits / 8 < 20 := by omega
    simp only [hp, ne_eq, not_false_eq_true, if_true]
    have ht0 : ((List.replicate SHA1_DIGEST_BYTES 0).set (bits / 8)
        ((List.replicate SHA1_DIGEST_BYTES 0).getD (bits / 8) 0 &&&
          (256 - 2 ^ (8 - bits % 8)))).getD 0 0 = 0 := by
      rw [zero_target_getD, Nat.zero_and, List.getD_eq_getElem?_getD, List.getElem?_set]
      split
      · simp [SHA1_DIGEST_BYTES, hidx]
      · simp [SHA1_DIGEST_BYTES]
    have h0 : ¬ (bits > 7 ∧ ¬ d.getD 0 0 = ((List.replicate SHA1_DIGEST_BYTES 0).set (bits / 8)
        ((List.replicate SHA1_DIGEST_BYTES 0).getD (bits / 8) 0 &&&
          (256 - 2 ^ (8 - bits % 8)))).getD 0 0) := by
      rintro ⟨h7, hne⟩
      rw [ht0] at hne
      exact hne (hz 0 (by omega))
    rw [if_neg h0]
    rw [beq_iff_eq]
    apply take_eq_of_getD _ _ _ (by simp [SHA1_DIGEST_BYTES, hlen])
    intro k hk
    rw [zero_target_getD, Nat.zero_and]
    simp only [List.getD_eq_getElem?_getD]
    by_cases hkp : k = bits / 8
    · subst hkp
      rw [List.getElem?_set_self (by simp [SHA1_DIGEST_BYTES]; exact hidx),
        List.getElem?_set_self (by rw [hlen]; exact hidx)]
      have := hm hp
      simp only [List.getD_eq_getElem?_getD] at this
      simp only [Option.getD_some]
      exact this.symm
    · have hlt : k < bits / 8 := by omega
      rw [List.getElem?_set_ne (Ne.symm hkp), List.getElem?_set_ne (Ne.symm hkp)]
      have h1 := zero_target_getD k
      have h2 := hz k hlt
      simp only [List.getD_eq_getElem?_getD] at h1 h2
      rw [h1, h2]

/-- A list of bytes has at least `bits` leading zero bits exactly when its
first `bits / 8` bytes are zero and the top `bits % 8` bits of the next byte
are zero. -/
theorem leadingZeroBits_ge_iff (d : List Nat) (hbyte : ∀ b ∈ d, b < 256) :
    ∀ bits, bits ≤ 8 * d.length →
      (bits ≤ leadingZeroBits d ↔
        (∀ k, k < bits / 8 → d.getD k 0 = 0) ∧
          (0 < bits % 8 → d.getD (bits / 8) 0 < 2 ^ (8 - bits % 8))) := by
  induction d with
  | nil =>
    intro bits hb
    have : bits = 0 := by simpa using hb
    subst this
    simp [leadingZeroBits]
  | cons b rest ih =>
    intro bits hb
    have hb256 : b < 256 := hbyte b (List.mem_cons_self _ _)
    have hrest : ∀ x ∈ rest, x < 256 := fun x hx => hbyte x (List.mem_cons_of_mem _ hx)
    simp only [List.length_cons] at hb
    unfold leadingZeroBits
    by_cases h8 : bits < 8
    · have e1 : bits / 8 = 0 := by omega
      have e2 : bits % 8 = bits := by omega
      rw [e1, e2]
      simp only [Nat.not_lt_zero, false_implies, implies_true, true_and, List.getD_cons_zero]
      by_cases hz : b = 0
      · subst hz
        simp only [if_true]
        constructor
        · intro _ _
          exact Nat.pow_pos (by decide)
        · intro _
          omega
      · rw [if_neg hz]
        exact leadingZeroBitsOfByte_ge bits h8 b hb256 hz
    · obtain ⟨m, rfl⟩ : ∃ m, bits = m + 8 := ⟨bits - 8, by omega⟩
      have e1 : (m + 8) / 8 = m / 8 + 1 := by omega
      have e2 : (m + 8) % 8 = m % 8 := by omega
      rw [e1, e2]
      by_cases hz : b = 0
      · subst hz
        simp only [if_true]
        rw [show (m + 8 ≤ 8 + leadingZeroBits rest) ↔ (m ≤ leadingZeroBits rest) by omega,
          ih hrest m (by omega)]
        constructor
        · rintro ⟨h1, h2⟩
          refine ⟨?_, ?_⟩
          · intro k hk
            cases k with
            | zero => rfl
            | succ k => exact h1 k (by omega)
          · intro hpos
            exact h2 hpos
        · rintro ⟨h1, h2⟩
          refine ⟨?_, ?_⟩
          · intro k hk
            exact h1 (k + 1) (by omega)
          · intro hpos
            exact h2 hpos
      · rw [if_neg hz]
        have hlt := leadingZeroBitsOfByte_lt b hb256 hz
        constructor
        · intro h
          omega
        · rintro ⟨h1, _⟩
          exact absurd (h1 0 (by omega)) hz

/-- C25: for every digest of 20 bytes and every `bits` from 0 to 160, the
acceptance test of the inner loop of `find_collision` (the first-byte shortcut
for `bits > 7`, the mask on the partial byte, the comparison of `check_bytes`
bytes with the zero target) accepts the digest exactly when its first
`bits / 8` bytes are zero and, for `bits % 8 > 0`, the top `bits % 8` bits of
the next byte are zero, that is exactly when the digest has at least `bits`
leading zero bits. -/
theorem collision_test_leading_zero_bits (bits : Nat) (d : List Nat) (hlen : d.length = 20)
    (hbyte : ∀ b ∈ d, b < 256) (hbits : bits ≤ 160) :
    (collision_test bits d = true ↔
      (∀ k, k < bits / 8 → d.getD k 0 = 0) ∧
        (0 < bits % 8 → d.getD (bits / 8) 0 < 2 ^ (8 - bits % 8))) ∧
    (collision_test bits d = true ↔ bits ≤ leadingZeroBits d) := by
  have hmask : bits % 8 ≠ 0 →
      (d.getD (bits / 8) 0 &&& (256 - 2 ^ (8 - bits % 8)) = 0 ↔
        d.getD (bits / 8) 0 < 2 ^ (8 - bits % 8)) := fun _ =>
    mask_zero_iff (bits % 8) (Nat.mod_lt _ (by decide)) _ (getD_lt_256 d hbyte _)
  have h1 : collision_test bits d = true ↔
      (∀ k, k < bits / 8 → d.getD k 0 = 0) ∧
        (0 < bits % 8 → d.getD (bits / 8) 0 < 2 ^ (8 - bits % 8)) := by
    constructor
    · intro h
      obtain ⟨hz, hm⟩ := collision_test_true bits d hlen hbits h
      exact ⟨hz, fun hpos => (hmask (by omega)).mp (hm (by omega))⟩
    · rintro ⟨hz, hm⟩
      exact collision_test_of_zero bits d hlen hbits hz
        (fun hne => (hmask hne).mpr (hm (by omega)))
  refine ⟨h1, ?_⟩
  rw [h1, leadingZeroBits_ge_iff d hbyte bits (by omega)]

/-- Witness for C25: 12 bits and the digest `00 0f ff ... ff`, which has
exactly 12 leading zero bits. -/
theorem collision_test_leading_zero_bits_witness :
    (collision_test 12 (0 :: 15 :: List.replicate 18 255) = true ↔
      (∀ k, k < 12 / 8 → (0 :: 15 :: List.replicate 18 255).getD k 0 = 0) ∧
        (0 < 12 % 8 → (0 :: 15 :: List.replicate 18 255).getD (12 / 8) 0 < 2 ^ (8 - 12 % 8))) ∧
    (collision_test 12 (0 :: 15 :: List.replicate 18 255) = true ↔
      12 ≤ leadingZeroBits (0 :: 15 :: List.replicate 18 255)) :=
  collision_test_leading_zero_bits 12 (0 :: 15 :: List.replicate 18 255) (by decide)
    (by decide) (by decide)

/-! ## Claim on the precomputed context of find_collision -/

theorem find_collision_group_index (E : Env) (bits : Nat) (ctry : List Char) (try_len : Nat)
    (pre : E.SHA1_ctx) (n : Nat) :
    ∀ (j0 j : Nat) (tok : List Char),
      find_collision_group E bits ctry try_len pre n j0 = some (j, tok) →
      j0 ≤ j ∧ j < j0 + n := by
  induction n with
  | zero => intro j0 j tok h; simp [find_collision_group] at h
  | succ n ih =>
    intro j0 j tok h
    unfold find_collision_group at h
    simp only at h
    split at h
    · simp only [Option.some.injEq, Prod.mk.injEq] at h
      omega
    · have := ih _ _ _ h
      omega

/-- A non-zero result of the loop over the groups comes from a candidate that
is accepted, with the token of that candidate. -/
theorem find_collision_loop_candidate (E : Env) (bits : Nat) (fixed : List Char) (n : Nat) :
    ∀ (i trial : Nat) (token0 token : List Char) (found : Nat),
      find_collision_loop E bits fixed n i trial token0 = (found, token) → found ≠ 0 →
      ∃ trial1 j, j < 16 ∧ candidate_accepted E bits fixed trial1 j = true ∧
        token = candidate_token E fixed trial1 j := by
  induction n with
  | zero =>
    intro i trial token0 token found h hf
    simp only [find_collision_loop, Prod.mk.injEq] at h
    exact absurd h.1.symm hf
  | succ n ih =>
    intro i trial token0 token found h hf
    unfold find_collision_loop at h
    simp only at h
    split at h
    · rename_i j tok hg
      obtain ⟨hc, htok⟩ := find_collision_group_some E bits _ _ _ _ _ _ _ hg
      have hj : j < 16 := by
        have := find_collision_group_index E bits _ _ _ _ _ _ _ hg
        omega
      simp only [Prod.mk.injEq] at h
      obtain ⟨_, rfl⟩ := h
      exact ⟨trial, j, hj, hc, htok⟩
    · exact ih _ _ _ _ _ h hf

/-- C26: for every fixed part `fixed` of the try string (prefix and the first
digits of the counter), every group value `trial` and every index `j`, under
the one law that updating with `a` then `b` is updating with `a` followed by
`b`: the digest that `find_collision` tests for candidate `j`, computed from
the context over all but the last character updated with the character
`hex[ j ]`, is the digest of the complete candidate string, the try string
with its last digit set to `hex[ j ]`; and when the loop over the groups
returns a non-zero value, the token written is a candidate string whose
one-shot digest passes the acceptance test, copied in full as it fits the
`MAX_TOK` characters of the array `ctry`. -/
theorem find_collision_precomputed (E : Env)
    (hupd : ∀ (c : E.SHA1_ctx) (a b : List Char),
      E.SHA1_Update (E.SHA1_Update c a) b = E.SHA1_Update c (a ++ b))
    (bits : Nat) (fixed : List Char) (hfit : fixed.length + GROUP_DIGITS ≤ E.MAX_TOK) :
    (∀ trial j,
      E.SHA1_Final (E.SHA1_Update
          (E.SHA1_Update E.SHA1_Init
            ((fixed ++ sprintf_08x trial).take (fixed.length + GROUP_DIGITS - 1)))
          [hexdigit j]) =
        E.SHA1_Final (E.SHA1_Update E.SHA1_Init
          ((fixed ++ sprintf_08x trial).set (fixed.length + (GROUP_DIGITS - 1)) (hexdigit j))) ∧
      candidate_accepted E bits fixed trial j =
        collision_test bits (E.SHA1_Final (E.SHA1_Update E.SHA1_Init
          ((fixed ++ sprintf_08x trial).set (fixed.length + (GROUP_DIGITS - 1))
            (hexdigit j)))) ∧
      (fixed ++ sprintf_08x trial).set (fixed.length + (GROUP_DIGITS - 1)) (hexdigit j) =
        fixed ++ (sprintf_08x trial).take 7 ++ [hexdigit j] ∧
      candidate_token E fixed trial j =
        (fixed ++ sprintf_08x trial).set (fixed.length + (GROUP_DIGITS - 1)) (hexdigit j)) ∧
    (∀ (n i trial : Nat) (token0 token : List Char) (found : Nat),
      find_collision_loop E bits fixed n i trial token0 = (found, token) → found ≠ 0 →
      ∃ trial1 j, j < 16 ∧
        token =
          (fixed ++ sprintf_08x trial1).set (fixed.length + (GROUP_DIGITS - 1)) (hexdigit j) ∧
        collision_test bits (E.SHA1_Final (E.SHA1_Update E.SHA1_Init token)) = true) := by
  have hdig : ∀ trial j,
      E.SHA1_Final (E.SHA1_Update
          (E.SHA1_Update E.SHA1_Init
            ((fixed ++ sprintf_08x trial).take (fixed.length + GROUP_DIGITS - 1)))
          [hexdigit j]) =
        E.SHA1_Final (E.SHA1_Update E.SHA1_Init
          ((fixed ++ sprintf_08x trial).set (fixed.length + (GROUP_DIGITS - 1))
            (hexdigit j))) := by
    intro trial j
    rw [hupd, try_set_last]
  have hshape : ∀ trial j,
      (fixed ++ sprintf_08x trial).set (fixed.length + (GROUP_DIGITS - 1)) (hexdigit j) =
        fixed ++ (sprintf_08x trial).take 7 ++ [hexdigit j] := by
    intro trial j
    have h1 : fixed.length + GROUP_DIGITS - 1 = fixed.length + 7 := by simp [GROUP_DIGITS]
    rw [try_set_last, h1, List.take_append]
  have htok : ∀ trial j, candidate_token E fixed trial j =
      (fixed ++ sprintf_08x trial).set (fixed.length + (GROUP_DIGITS - 1)) (hexdigit j) := by
    intro trial j
    unfold candidate_token sstrncpy
    apply List.take_of_length_le
    simp only [List.length_set, List.length_append]
    simp only [sprintf_08x, List.length_cons, List.length_nil, GROUP_DIGITS] at hfit ⊢
    omega
  have hacc : ∀ trial j, candidate_accepted E bits fixed trial j =
      collision_test bits (E.SHA1_Final (E.SHA1_Update E.SHA1_Init
        ((fixed ++ sprintf_08x trial).set (fixed.length + (GROUP_DIGITS - 1))
          (hexdigit j)))) := by
    intro trial j
    unfold candidate_accepted
    rw [hdig]
  refine ⟨fun trial j => ⟨hdig trial j, hacc trial j, hshape trial j, htok trial j⟩, ?_⟩
  intro n i trial token0 token found h hf
  obtain ⟨trial1, j, hj, ha, ht⟩ :=
    find_collision_loop_candidate E bits fixed n i trial token0 token found h hf
  rw [htok] at ht
  rw [hacc] at ha
  exact ⟨trial1, j, hj, ht, by rw [ht]; exact ha⟩

/-- Witness for C26: the small environment with `lastDigest`, 8 bits and the
fixed part `0:040404:foo:0000000000000000`. -/
theorem find_collision_precomputed_witness :
    candidate_token (toyEnv lastDigest) "0:040404:foo:0000000000000000".toList 16 3 =
        "0:040404:foo:000000000000000000000013".toList ∧
      candidate_accepted (toyEnv lastDigest) 8 "0:040404:foo:0000000000000000".toList 16 3 =
        collision_test 8 ((toyEnv lastDigest).SHA1_Final
          ((toyEnv lastDigest).SHA1_Update (toyEnv lastDigest).SHA1_Init
            "0:040404:foo:000000000000000000000013".toList)) :=
  ⟨((find_collision_precomputed (toyEnv lastDigest) (fun c a b => List.append_assoc c a b) 8
      "0:040404:foo:0000000000000000".toList (by decide)).1 16 3).2.2.2.trans (by decide),
    ((find_collision_precomputed (toyEnv lastDigest) (fun c a b => List.append_assoc c a b) 8
      "0:040404:foo:0000000000000000".toList (by decide)).1 16 3).2.1.trans (by decide)⟩

/-! ## Claim on regexp_match as libhc.c compiles it -/

/-- C29: with the macros that `libhc.c` itself defines, `regexp_match` returns
0 and stores an error message for every string and every pattern; so, in an
environment whose matcher is this `regexp_match`, `resource_match` with the
kind `TYPE_REGEXP` returns 0 for every resource, and `hashcash_check` with that
kind and a resource that is not `NULL` returns `HASHCASH_REGEXP_ERROR` for
every token that parses with version 0 and a time stamp that
`from_utctimestr` accepts, whatever the error slot held before. -/
theorem regexp_match_unsupported (E : Env)
    (platform : List Char → List Char → Option String → Int × Option String)
    (hE : ∀ str regexp err,
      E.regexp_match str regexp err = regexp_match libhc_regexp_macros platform str regexp err) :
    (∀ str regexp err,
      (regexp_match libhc_regexp_macros platform str regexp err).1 = 0 ∧
        (regexp_match libhc_regexp_macros platform str regexp err).2 ≠ none) ∧
    (∀ token_res res err,
      (resource_match E ResType.TYPE_REGEXP token_res res err).1 = 0) ∧
    (∀ (token res token_utime token_res : List Char) (re_err : Option String)
        (now_time validity_period grace_period required_bits : Int),
      hashcash_parse E token E.MAX_UTC E.MAX_RES = some (0, token_utime, token_res) →
      E.from_utctimestr token_utime ≠ -1 →
      hashcash_check E token (some res) re_err ResType.TYPE_REGEXP now_time validity_period
        grace_period required_bits = E.HASHCASH_REGEXP_ERROR) := by
  have h1 : ∀ str regexp err,
      (regexp_match libhc_regexp_macros platform str regexp err).1 = 0 ∧
        (regexp_match libhc_regexp_macros platform str regexp err).2 ≠ none := by
    intro str regexp err
    simp [regexp_match, libhc_regexp_macros]
  have h2 : ∀ token_res res err,
      resource_match E ResType.TYPE_REGEXP token_res res err =
        (0, (regexp_match libhc_regexp_macros platform token_res res err).2) := by
    intro token_res res err
    simp only [resource_match, hE, (h1 token_res res err).1, if_true]
  refine ⟨h1, fun token_res res err => by rw [h2], ?_⟩
  intro token res token_utime token_res re_err now_time validity_period grace_period
    required_bits hparse htime
  unfold hashcash_check
  simp only [hparse, htime, h2, (h1 token_res res re_err).2, ne_eq, not_true_eq_false,
    not_false_eq_true, if_false, if_true]

/-- Witness for C29: the small environment with the `regexp_match` that
`libhc.c` compiles, the token `0:040404:foo:abc` and the pattern `foo`. -/
theorem regexp_match_unsupported_witness :
    hashcash_check
        { toyEnv lastDigest with
          regexp_match := regexp_match libhc_regexp_macros (fun _ _ err => (0, err)) }
        "0:040404:foo:abc".toList (some "foo".toList) none ResType.TYPE_REGEXP 1000 0 0 0 =
      -7 :=
  (regexp_match_unsupported
    { toyEnv lastDigest with
      regexp_match := regexp_match libhc_regexp_macros (fun _ _ err => (0, err)) }
    (fun _ _ err => (0, err)) (fun _ _ _ => rfl)).2.2
    "0:040404:foo:abc".toList "foo".toList "040404".toList "foo".toList none 1000 0 0 0
    (by decide) (by decide)

/-! ## The candidates that the search hashes -/

theorem hexdigit_inj : ∀ a, a < 16 → ∀ b, b < 16 → hexdigit a = hexdigit b → a = b := by
  decide

/-- Distinct 32-bit values print as distinct strings. -/
theorem sprintf_08x_inj (a b : Nat) (ha : a < 2 ^ 32) (hb : b < 2 ^ 32)
    (h : sprintf_08x a = sprintf_08x b) : a = b := by
  simp only [sprintf_08x, List.cons.injEq, and_true] at h
  obtain ⟨h7, h6, h5, h4, h3, h2, h1, h0⟩ := h
  have e7 := hexdigit_inj _ (Nat.mod_lt _ (by decide)) _ (Nat.mod_lt _ (by decide)) h7
  have e6 := hexdigit_inj _ (Nat.mod_lt _ (by decide)) _ (Nat.mod_lt _ (by decide)) h6
  have e5 := hexdigit_inj _ (Nat.mod_lt _ (by decide)) _ (Nat.mod_lt _ (by decide)) h5
  have e4 := hexdigit_inj _ (Nat.mod_lt _ (by decide)) _ (Nat.mod_lt _ (by decide)) h4
  have e3 := hexdigit_inj _ (Nat.mod_lt _ (by decide)) _ (Nat.mod_lt _ (by decide)) h3
  have e2 := hexdigit_inj _ (Nat.mod_lt _ (by decide)) _ (Nat.mod_lt _ (by decide)) h2
  have e1 := hexdigit_inj _ (Nat.mod_lt _ (by decide)) _ (Nat.mod_lt _ (by decide)) h1
  have e0 := hexdigit_inj _ (Nat.mod_lt _ (by decide)) _ (Nat.mod_lt _ (by decide)) h0
  norm_num only at *
  omega

/-- Candidate `j` of the group with value `trial`, a multiple of 16, is the
fixed part followed by the digits of `trial + j`. -/
theorem candidate_set_eq (fixed : List Char) (trial j : Nat) (ht : trial % 16 = 0)
    (hj : j < 16) :
    (fixed ++ sprintf_08x trial).set (fixed.length + (GROUP_DIGITS - 1)) (hexdigit j) =
      fixed ++ sprintf_08x (trial + j) := by
  have h1 : fixed.length + GROUP_DIGITS - 1 = fixed.length + 7 := by simp [GROUP_DIGITS]
  rw [try_set_last, h1, List.take_append, List.append_assoc]
  congr 1
  have e7 : (trial + j) / 16 ^ 7 = trial / 16 ^ 7 := by norm_num only; omega
  have e6 : (trial + j) / 16 ^ 6 = trial / 16 ^ 6 := by norm_num only; omega
  have e5 : (trial + j) / 16 ^ 5 = trial / 16 ^ 5 := by norm_num only; omega
  have e4 : (trial + j) / 16 ^ 4 = trial / 16 ^ 4 := by norm_num only; omega
  have e3 : (trial + j) / 16 ^ 3 = trial / 16 ^ 3 := by norm_num only; omega
  have e2 : (trial + j) / 16 ^ 2 = trial / 16 ^ 2 := by norm_num only; omega
  have e1 : (trial + j) / 16 = trial / 16 := by omega
  have e0 : (trial + j) % 16 = j := by omega
  simp only [sprintf_08x, e7, e6, e5, e4, e3, e2, e1, e0, List.take_succ_cons, List.take_zero,
    List.cons_append, List.nil_append]

/-- The candidates that the loop over `j` hashes are the first ones of the
group, all of them when none is accepted. -/
theorem find_collision_group_tried_spec (E : Env) (bits : Nat) (ctry : List Char)
    (try_len : Nat) (pre : E.SHA1_ctx) (n : Nat) :
    ∀ j0,
      find_collision_group_tried E bits ctry try_len pre n j0 <+:
          (List.range' j0 n).map
            (fun j => ctry.set (try_len + (GROUP_DIGITS - 1)) (hexdigit j)) ∧
        (find_collision_group E bits ctry try_len pre n j0 = none →
          find_collision_group_tried E bits ctry try_len pre n j0 =
            (List.range' j0 n).map
              (fun j => ctry.set (try_len + (GROUP_DIGITS - 1)) (hexdigit j))) := by
  induction n with
  | zero =>
    intro j0
    exact ⟨List.prefix_refl _, fun _ => rfl⟩
  | succ n ih =>
    intro j0
    unfold find_collision_group_tried find_collision_group
    simp only [List.range', List.map_cons]
    by_cases hc : collision_test bits (E.SHA1_Final (E.SHA1_Update pre [hexdigit j0])) = true
    · simp only [hc, if_true]
      refine ⟨?_, fun h => by simp at h⟩
      exact ⟨_, rfl⟩
    · simp only [hc, Bool.false_eq_true, if_false]
      obtain ⟨h1, h2⟩ := ih (j0 + 1)
      refine ⟨?_, fun h => by rw [h2 h]⟩
      obtain ⟨t, ht⟩ := h1
      exact ⟨t, by rw [List.cons_append, ht]⟩

theorem search_candidates_succ (fixed : List Char) (trial n : Nat)
    (ht : trial % 16 = 0) (hlt : trial < GROUP_SIZE + 1) :
    search_candidates fixed trial (n + 1) =
      (List.range' 0 16).map
          (fun j => (fixed ++ sprintf_08x trial).set (fixed.length + (GROUP_DIGITS - 1))
            (hexdigit j)) ++
        search_candidates fixed ((trial + 16) % (GROUP_SIZE + 1)) n := by
  unfold search_candidates
  have e : 16 * (n + 1) = 16 + 16 * n := by omega
  rw [e, List.range_add, List.map_append, List.map_map, ← List.range_eq_range']
  congr 1
  · apply List.map_congr_left
    intro j hj
    rw [List.mem_range] at hj
    rw [candidate_set_eq fixed trial j ht hj]
    have : (trial + j) % (GROUP_SIZE + 1) = trial + j := by
      apply Nat.mod_eq_of_lt
      simp only [GROUP_SIZE] at hlt ⊢
      omega
    rw [this]
  · apply List.map_congr_left
    intro k _
    simp only [Function.comp]
    have : ((trial + 16) % (GROUP_SIZE + 1) + k) % (GROUP_SIZE + 1) =
        (trial + (16 + k)) % (GROUP_SIZE + 1) := by
      simp only [GROUP_SIZE]
      omega
    rw [this]

/-- The candidates that the loop over the groups hashes are the first ones in
the order of `search_candidates`, all of them when none is accepted. -/
theorem find_collision_loop_tried_spec (E : Env) (bits : Nat) (fixed : List Char) (n : Nat) :
    ∀ trial, trial % 16 = 0 → trial < GROUP_SIZE + 1 →
      find_collision_loop_tried E bits fixed n trial <+: search_candidates fixed trial n ∧
        ((∀ m, m < n → ∀ j, j < 16 →
            candidate_accepted E bits fixed ((trial + 16 * m) % (GROUP_SIZE + 1)) j = false) →
          find_collision_loop_tried E bits fixed n trial = search_candidates fixed trial n) := by
  induction n with
  | zero =>
    intro trial _ _
    exact ⟨List.prefix_refl _, fun _ => rfl⟩
  | succ n ih =>
    intro trial ht hlt
    have hnext16 : (trial + 16) % (GROUP_SIZE + 1) % 16 = 0 := by
      simp only [GROUP_SIZE]
      omega
    obtain ⟨ih1, ih2⟩ := ih ((trial + 16) % (GROUP_SIZE + 1)) hnext16
      (Nat.mod_lt _ (Nat.succ_pos _))
    obtain ⟨g1, g2⟩ := find_collision_group_tried_spec E bits (fixed ++ sprintf_08x trial)
      fixed.length
      (E.SHA1_Update E.SHA1_Init
        ((fixed ++ sprintf_08x trial).take (fixed.length + GROUP_DIGITS - 1))) 16 0
    rw [search_candidates_succ fixed trial n ht hlt]
    unfold find_collision_loop_tried
    simp only
    constructor
    · cases hg : find_collision_group E bits (fixed ++ sprintf_08x trial) fixed.length
          (E.SHA1_Update E.SHA1_Init
            ((fixed ++ sprintf_08x trial).take (fixed.length + GROUP_DIGITS - 1))) 16 0 with
      | some r =>
        simp only
        exact List.IsPrefix.trans g1 (List.prefix_append _ _)
      | none =>
        simp only
        rw [g2 hg]
        exact (List.prefix_append_right_inj _).mpr ih1
    · intro hnone
      have e : (trial + 16 * 0) % (GROUP_SIZE + 1) = trial := by
        rw [Nat.mul_zero, Nat.add_zero, Nat.mod_eq_of_lt hlt]
      have h0 := hnone 0 (Nat.succ_pos _)
      rw [e] at h0
      have hg := find_collision_group_none E bits (fixed ++ sprintf_08x trial) fixed.length
        (E.SHA1_Update E.SHA1_Init
          ((fixed ++ sprintf_08x trial).take (fixed.length + GROUP_DIGITS - 1))) 16 0
        (fun j _ h => h0 j (by omega))
      rw [hg]
      simp only
      rw [g2 hg, ih2 (fun m hm j hj => by
        have hstep : ((trial + 16) % (GROUP_SIZE + 1) + 16 * m) % (GROUP_SIZE + 1) =
            (trial + 16 * (m + 1)) % (GROUP_SIZE + 1) := by
          simp only [GROUP_SIZE]
          omega
        rw [hstep]
        exact hnone (m + 1) (by omega) j hj)]

/-- No string occurs twice among the candidates of up to `2^28` groups. -/
theorem search_candidates_nodup (fixed : List Char) (trial n : Nat) (hn : n ≤ 268435456) :
    (search_candidates fixed trial n).Nodup := by
  unfold search_candidates
  apply List.Nodup.map_on _ (List.nodup_range _)
  intro x hx y hy h
  rw [List.mem_range] at hx hy
  have h1 := List.append_cancel_left h
  have h2 := sprintf_08x_inj _ _ (Nat.mod_lt _ (by decide)) (Nat.mod_lt _ (by decide)) h1
  simp only [GROUP_SIZE] at h2
  omega

theorem search_candidates_length (fixed : List Char) (trial n : Nat) :
    (search_candidates fixed trial n).length = 16 * n := by
  simp [search_candidates]

/-- Every 32-bit counter value is among the candidates of `2^28` groups. -/
theorem search_candidates_mem (fixed : List Char) (trial n v : Nat) (hn : n = 268435456)
    (hv : v < 2 ^ 32) : fixed ++ sprintf_08x v ∈ search_candidates fixed trial n := by
  unfold search_candidates
  rw [List.mem_map]
  refine ⟨(v + 4294967296 - trial % 4294967296) % 4294967296, ?_, ?_⟩
  · rw [List.mem_range]
    omega
  · have : (trial + (v + 4294967296 - trial % 4294967296) % 4294967296) % (GROUP_SIZE + 1) = v := by
      simp only [GROUP_SIZE]
      norm_num only at hv
      omega
    rw [this]

/-- The candidates hashed by a group in which candidate `j` is accepted are
the candidates up to `j`. -/
theorem find_collision_group_tried_some (E : Env) (bits : Nat) (ctry : List Char)
    (try_len : Nat) (pre : E.SHA1_ctx) (n : Nat) :
    ∀ j0 j tok, find_collision_group E bits ctry try_len pre n j0 = some (j, tok) →
      find_collision_group_tried E bits ctry try_len pre n j0 =
        (List.range' j0 (j + 1 - j0)).map
          (fun j => ctry.set (try_len + (GROUP_DIGITS - 1)) (hexdigit j)) := by
  induction n with
  | zero => intro j0 j tok h; simp [find_collision_group] at h
  | succ n ih =>
    intro j0 j tok h
    unfold find_collision_group at h
    unfold find_collision_group_tried
    simp only at h ⊢
    by_cases hc : collision_test bits (E.SHA1_Final (E.SHA1_Update pre [hexdigit j0])) = true
    · simp only [hc, if_true, Option.some.injEq, Prod.mk.injEq] at h ⊢
      obtain ⟨rfl, _⟩ := h
      have : j0 + 1 - j0 = 1 := by omega
      rw [this]
      rfl
    · simp only [hc, Bool.false_eq_true, if_false] at h ⊢
      have hidx := find_collision_group_index E bits ctry try_len pre n _ _ _ h
      rw [ih _ _ _ h]
      have : j + 1 - j0 = (j + 1 - (j0 + 1)) + 1 := by omega
      rw [this, List.range'_succ, List.map_cons]

/-- When the loop over the groups returns 0, and the count cannot exceed
`2^32`, every candidate of its groups has been hashed. -/
theorem find_collision_loop_tried_zero (E : Env) (bits : Nat) (fixed : List Char) (n : Nat) :
    ∀ (i trial : Nat) (token : List Char), trial % 16 = 0 → trial < GROUP_SIZE + 1 →
      (i + n) * 16 ≤ GROUP_SIZE + 1 →
      (find_collision_loop E bits fixed n i trial token).1 = 0 →
      find_collision_loop_tried E bits fixed n trial = search_candidates fixed trial n := by
  induction n with
  | zero => intro i trial token _ _ _ _; rfl
  | succ n ih =>
    intro i trial token ht hlt hin h
    have hnext16 : (trial + 16) % (GROUP_SIZE + 1) % 16 = 0 := by
      simp only [GROUP_SIZE]
      omega
    rw [search_candidates_succ fixed trial n ht hlt]
    unfold find_collision_loop at h
    unfold find_collision_loop_tried
    simp only at h ⊢
    cases hg : find_collision_group E bits (fixed ++ sprintf_08x trial) fixed.length
        (E.SHA1_Update E.SHA1_Init
          ((fixed ++ sprintf_08x trial).take (fixed.length + GROUP_DIGITS - 1))) 16 0 with
    | some r =>
      obtain ⟨j, tok⟩ := r
      rw [hg] at h
      simp only at h ⊢
      have hidx := find_collision_group_index E bits _ _ _ _ _ _ _ hg
      have hj : j = 15 ∧ n = 0 := by
        simp only [GROUP_SIZE] at hin h
        omega
      obtain ⟨rfl, rfl⟩ := hj
      rw [find_collision_group_tried_some E bits _ _ _ _ _ _ _ hg]
      simp [search_candidates]
    | none =>
      rw [hg] at h
      simp only at h ⊢
      rw [(find_collision_group_tried_spec E bits _ _ _ 16 0).2 hg,
        ih (i + 1) _ token hnext16 (Nat.mod_lt _ (Nat.succ_pos _)) (by omega) h]

/-- The log of a loop with its flag is a prefix of the logs that its bodies
can produce, joined in order, and all of it when the loop runs to its end. -/
theorem mint_for_tried {α : Type}
    (body : Nat → List Char → Option (List α × Option (Nat × List Char)))
    (L : Nat → List α)
    (hbody : ∀ i t, ∃ log r, body i t = some (log, r) ∧ log <+: L i ∧
      ((∃ t', r = some (0, t')) → log = L i)) (k : Nat) :
    ∀ (fuel : Nat) (token : List Char), k ≤ GROUP_SIZE + 1 → k < fuel →
      ∃ logs r, mint_for body fuel ((GROUP_SIZE + 1 - k) % (GROUP_SIZE + 1))
            (decide (k = GROUP_SIZE + 1)) token = some (logs, r) ∧
        logs <+: (List.range' (GROUP_SIZE + 1 - k) k).flatMap L ∧
        ((∃ t', r = some (0, t')) → logs = (List.range' (GROUP_SIZE + 1 - k) k).flatMap L) := by
  induction k with
  | zero =>
    intro fuel token _ hf
    obtain ⟨fuel, rfl⟩ : ∃ f, fuel = f + 1 := ⟨fuel - 1, by omega⟩
    refine ⟨[], some (0, token), ?_, List.prefix_refl _, fun _ => rfl⟩
    simp [mint_for, GROUP_SIZE]
  | succ k ih =>
    intro fuel token hk hf
    obtain ⟨fuel, rfl⟩ : ∃ f, fuel = f + 1 := ⟨fuel - 1, by omega⟩
    have hcond : (decide (k + 1 = GROUP_SIZE + 1) ||
        ((GROUP_SIZE + 1 - (k + 1)) % (GROUP_SIZE + 1) != 0)) = true := by
      simp only [GROUP_SIZE] at hk ⊢
      rw [Bool.or_eq_true]
      by_cases h : k + 1 = 4294967295 + 1
      · exact Or.inl (decide_eq_true h)
      · have : (4294967295 + 1 - (k + 1)) % (4294967295 + 1) ≠ 0 := by omega
        exact Or.inr (by simp only [bne_iff_ne]; exact this)
    have hnext : ((GROUP_SIZE + 1 - (k + 1)) % (GROUP_SIZE + 1) + 1) % (GROUP_SIZE + 1) =
        (GROUP_SIZE + 1 - k) % (GROUP_SIZE + 1) := by
      simp only [GROUP_SIZE] at hk ⊢
      omega
    have hcur : (GROUP_SIZE + 1 - (k + 1)) % (GROUP_SIZE + 1) = GROUP_SIZE + 1 - (k + 1) := by
      simp only [GROUP_SIZE] at hk ⊢
      omega
    have hsucc : GROUP_SIZE + 1 - (k + 1) + 1 = GROUP_SIZE + 1 - k := by omega
    have hflag : decide (k = GROUP_SIZE + 1) = false := by
      simp only [decide_eq_false_iff_not]
      omega
    obtain ⟨log, r, hb, hpre, heq⟩ := hbody ((GROUP_SIZE + 1 - (k + 1)) % (GROUP_SIZE + 1)) token
    have hsplit : (List.range' (GROUP_SIZE + 1 - (k + 1)) (k + 1)).flatMap L =
        L (GROUP_SIZE + 1 - (k + 1)) ++ (List.range' (GROUP_SIZE + 1 - k) k).flatMap L := by
      rw [List.range'_succ, List.flatMap_cons, hsucc]
    rw [hcur] at hpre heq
    rw [hsplit]
    unfold mint_for
    rw [if_pos hcond, hb]
    cases r with
    | none =>
      exact ⟨log, none, rfl, List.IsPrefix.trans hpre (List.prefix_append _ _),
        fun ⟨t', h⟩ => by simp at h⟩
    | some p =>
      obtain ⟨found, tok⟩ := p
      by_cases hfound : found ≠ 0
      · simp only [hfound, ne_eq, not_false_eq_true, if_true]
        refine ⟨log, some (found, tok), rfl, List.IsPrefix.trans hpre (List.prefix_append _ _),
          ?_⟩
        rintro ⟨t', h⟩
        simp only [Option.some.injEq, Prod.mk.injEq] at h
        exact absurd h.1 hfound
      · have hz : found = 0 := by omega
        subst hz
        have hL := heq ⟨tok, rfl⟩
        obtain ⟨logs, r', hrun, hp, he⟩ := ih fuel tok (by omega) (by omega)
        rw [hflag] at hrun
        simp only [ne_eq, not_true_eq_false, if_false, hnext, hrun]
        refine ⟨log ++ logs, r', rfl, ?_, ?_⟩
        · rw [hL]
          exact (List.prefix_append_right_inj _).mpr hp
        · intro h
          rw [hL, he h]

theorem mint_for_tried_full {α : Type}
    (body : Nat → List Char → Option (List α × Option (Nat × List Char)))
    (L : Nat → List α)
    (hbody : ∀ i t, ∃ log r, body i t = some (log, r) ∧ log <+: L i ∧
      ((∃ t', r = some (0, t')) → log = L i)) (fuel : Nat)
    (hfuel : GROUP_SIZE + 1 < fuel) (token : List Char) :
    ∃ logs r, mint_for body fuel 0 true token = some (logs, r) ∧
      logs <+: (List.range (GROUP_SIZE + 1)).flatMap L ∧
      ((∃ t', r = some (0, t')) → logs = (List.range (GROUP_SIZE + 1)).flatMap L) := by
  have h := mint_for_tried body L hbody (GROUP_SIZE + 1) fuel token (Nat.le_refl _) hfuel
  rw [Nat.sub_self, Nat.zero_mod, decide_eq_true rfl] at h
  rw [List.range_eq_range']
  exact h

theorem nodup_flatMap_range {β : Type} (f : Nat → List β) (n : Nat)
    (h1 : ∀ i, i < n → (f i).Nodup)
    (h2 : ∀ i j, i < n → j < n → i ≠ j → ∀ x, x ∈ f i → x ∈ f j → False) :
    ((List.range n).flatMap f).Nodup := by
  rw [List.nodup_flatMap]
  refine ⟨fun i hi => h1 i (List.mem_range.mp hi), ?_⟩
  apply List.Pairwise.imp_of_mem _ (List.pairwise_lt_range n)
  intro a b ha hb hab
  rw [List.mem_range] at ha hb
  intro x hxa hxb
  exact h2 a b ha hb (by omega) x hxa hxb

theorem length_flatMap_const {α β : Type} (f : α → List β) (c : Nat) (l : List α)
    (h : ∀ x, (f x).length = c) : (l.flatMap f).length = l.length * c := by
  induction l with
  | nil => simp
  | cons a l ih =>
    rw [List.flatMap_cons, List.length_append, ih, h a, List.length_cons]
    rw [Nat.add_mul, Nat.one_mul, Nat.add_comm]

theorem mint_counter_parts (ran0 ran1 ran2 i0 i1 : Nat) :
    (mint_counter ran0 ran1 ran2 i0 i1).length = 24 ∧
    (mint_counter ran0 ran1 ran2 i0 i1).drop ((mint_counter ran0 ran1 ran2 i0 i1).length - 8) =
      sprintf_08x (ran2 % (GROUP_SIZE + 1)) ∧
    (mint_counter ran0 ran1 ran2 i0 i1).take ((mint_counter ran0 ran1 ran2 i0 i1).length - 8) =
      (mint_counter ran0 ran1 ran2 i0 i1).take 16 ∧
    (mint_counter ran0 ran1 ran2 i0 i1).take 16 =
      sprintf_08x ((i0 + ran0) % (GROUP_SIZE + 1)) ++
        sprintf_08x ((i1 + ran1) % (GROUP_SIZE + 1)) := by
  refine ⟨?_, ?_, ?_, ?_⟩ <;> simp [mint_counter, sprintf_08x]

/-- Distinct pairs of loop variables give distinct first sixteen digits of the
counter. -/
theorem mint_counter_prefix_inj (ran0 ran1 ran2 i0 i1 j0 j1 : Nat)
    (hi0 : i0 < 2 ^ 32) (hi1 : i1 < 2 ^ 32) (hj0 : j0 < 2 ^ 32) (hj1 : j1 < 2 ^ 32)
    (h : (mint_counter ran0 ran1 ran2 i0 i1).take 16 =
      (mint_counter ran0 ran1 ran2 j0 j1).take 16) : i0 = j0 ∧ i1 = j1 := by
  rw [(mint_counter_parts ran0 ran1 ran2 i0 i1).2.2.2,
    (mint_counter_parts ran0 ran1 ran2 j0 j1).2.2.2] at h
  obtain ⟨h1, h2⟩ := List.append_inj' h (by simp [sprintf_08x])
  have e1 := sprintf_08x_inj _ _ (Nat.mod_lt _ (by decide)) (Nat.mod_lt _ (by decide)) h1
  have e2 := sprintf_08x_inj _ _ (Nat.mod_lt _ (by decide)) (Nat.mod_lt _ (by decide)) h2
  simp only [GROUP_SIZE] at e1 e2
  norm_num only at hi0 hi1 hj0 hj1
  omega

theorem mint_fixed_inj (E : Env) (utct resource : List Char) (ran0 ran1 ran2 i0 i1 j0 j1 : Nat)
    (hi0 : i0 < 2 ^ 32) (hi1 : i1 < 2 ^ 32) (hj0 : j0 < 2 ^ 32) (hj1 : j1 < 2 ^ 32)
    (h : mint_fixed E utct resource ran0 ran1 ran2 i0 i1 =
      mint_fixed E utct resource ran0 ran1 ran2 j0 j1) : i0 = j0 ∧ i1 = j1 := by
  unfold mint_fixed at h
  exact mint_counter_prefix_inj ran0 ran1 ran2 i0 i1 j0 j1 hi0 hi1 hj0 hj1
    (List.append_cancel_left h)

/-- A candidate of one pair of loop variables is no candidate of another. -/
theorem search_candidates_disjoint (E : Env) (utct resource : List Char)
    (ran0 ran1 ran2 i0 i1 j0 j1 : Nat) (trial n : Nat)
    (hi0 : i0 < 2 ^ 32) (hi1 : i1 < 2 ^ 32) (hj0 : j0 < 2 ^ 32) (hj1 : j1 < 2 ^ 32)
    (x : List Char)
    (hx : x ∈ search_candidates (mint_fixed E utct resource ran0 ran1 ran2 i0 i1) trial n)
    (hy : x ∈ search_candidates (mint_fixed E utct resource ran0 ran1 ran2 j0 j1) trial n) :
    i0 = j0 ∧ i1 = j1 := by
  unfold search_candidates at hx hy
  rw [List.mem_map] at hx hy
  obtain ⟨k, _, rfl⟩ := hx
  obtain ⟨m, _, hm⟩ := hy
  obtain ⟨h1, _⟩ := List.append_inj' hm (by simp [sprintf_08x])
  exact (mint_fixed_inj E utct resource ran0 ran1 ran2 i0 i1 j0 j1 hi0 hi1 hj0 hj1 h1.symm)

/-- The call that `hashcash_mint` makes for the pair `(i0, i1)` is the loop
over `(GROUP_SIZE + 8) / 16` groups on the fixed part of that pair, from the
third random word rounded down to a multiple of 16. -/
theorem find_collision_mint_call (E : Env) (utct resource : List Char) (bits : Nat)
    (token : List Char) (ran0 ran1 ran2 i0 i1 : Nat) (hbits : bits ≤ 160)
    (hscan : ∀ v, v < 2 ^ 32 → E.sscanf_08x (sprintf_08x v) = some v) :
    find_collision E utct resource bits token GROUP_SIZE (mint_counter ran0 ran1 ran2 i0 i1) =
      some (find_collision_loop E bits (mint_fixed E utct resource ran0 ran1 ran2 i0 i1)
        ((GROUP_SIZE + 8) / 16) 0
        (ran2 % (GROUP_SIZE + 1) - ran2 % (GROUP_SIZE + 1) % 16) token) ∧
    find_collision_tried E utct resource bits GROUP_SIZE (mint_counter ran0 ran1 ran2 i0 i1) =
      find_collision_loop_tried E bits (mint_fixed E utct resource ran0 ran1 ran2 i0 i1)
        ((GROUP_SIZE + 8) / 16) (ran2 % (GROUP_SIZE + 1) - ran2 % (GROUP_SIZE + 1) % 16) := by
  obtain ⟨hlen, hdrop, htake, _⟩ := mint_counter_parts ran0 ran1 ran2 i0 i1
  have hs : E.sscanf_08x ((mint_counter ran0 ran1 ran2 i0 i1).drop
      ((mint_counter ran0 ran1 ran2 i0 i1).length - 8)) = some (ran2 % (GROUP_SIZE + 1)) := by
    rw [hdrop]
    exact hscan _ (Nat.mod_lt _ (by decide))
  constructor
  · rw [find_collision_eq E utct resource bits token GROUP_SIZE _ _ hbits (by omega) hs, htake]
    rfl
  · have hb : ¬ (bits > 8 * SHA1_DIGEST_BYTES) := by
      simp only [SHA1_DIGEST_BYTES]
      omega
    have hl : ¬ ((mint_counter ran0 ran1 ran2 i0 i1).length < 8) := by omega
    unfold find_collision_tried
    simp only [hb, hl, if_false, GROUP_DIGITS, hs, htake]
    rfl

/-- The candidates hashed by the call for the pair `(i0, i1)` are the first
ones of `search_candidates` on the fixed part of that pair, all of them when
the call returns 0. -/
theorem mint_call_tried (E : Env) (utct resource : List Char) (bits : Nat)
    (ran0 ran1 ran2 i0 i1 : Nat) (hbits : bits ≤ 160)
    (hscan : ∀ v, v < 2 ^ 32 → E.sscanf_08x (sprintf_08x v) = some v) :
    find_collision_tried E utct resource bits GROUP_SIZE (mint_counter ran0 ran1 ran2 i0 i1) <+:
        search_candidates (mint_fixed E utct resource ran0 ran1 ran2 i0 i1)
          (ran2 % (GROUP_SIZE + 1) - ran2 % (GROUP_SIZE + 1) % 16) ((GROUP_SIZE + 8) / 16) ∧
      (∀ token t',
        find_collision E utct resource bits token GROUP_SIZE
            (mint_counter ran0 ran1 ran2 i0 i1) = some (0, t') →
        find_collision_tried E utct resource bits GROUP_SIZE
            (mint_counter ran0 ran1 ran2 i0 i1) =
          search_candidates (mint_fixed E utct resource ran0 ran1 ran2 i0 i1)
            (ran2 % (GROUP_SIZE + 1) - ran2 % (GROUP_SIZE + 1) % 16)
            ((GROUP_SIZE + 8) / 16)) := by
  have h16 : (ran2 % (GROUP_SIZE + 1) - ran2 % (GROUP_SIZE + 1) % 16) % 16 = 0 := by omega
  have hlt : ran2 % (GROUP_SIZE + 1) - ran2 % (GROUP_SIZE + 1) % 16 < GROUP_SIZE + 1 :=
    Nat.lt_of_le_of_lt (Nat.sub_le _ _) (Nat.mod_lt _ (Nat.succ_pos _))
  constructor
  · rw [(find_collision_mint_call E utct resource bits [] ran0 ran1 ran2 i0 i1 hbits hscan).2]
    exact (find_collision_loop_tried_spec E bits _ _ _ h16 hlt).1
  · intro token t' h
    rw [(find_collision_mint_call E utct resource bits token ran0 ran1 ran2 i0 i1 hbits
      hscan).1] at h
    rw [(find_collision_mint_call E utct resource bits token ran0 ran1 ran2 i0 i1 hbits
      hscan).2]
    simp only [Option.some.injEq] at h
    exact find_collision_loop_tried_zero E bits _ _ 0 _ token h16 hlt (by decide)
      (by rw [h])

/-- The candidates of all pairs of loop variables, in the order of the search:
no string occurs twice, and there are `2^96`. -/
theorem mint_candidates_spec (E : Env) (utct resource : List Char) (ran0 ran1 ran2 : Nat)
    (trial : Nat) :
    ((List.range (GROUP_SIZE + 1)).flatMap (fun i0 =>
      (List.range (GROUP_SIZE + 1)).flatMap (fun i1 =>
        search_candidates (mint_fixed E utct resource ran0 ran1 ran2 i0 i1) trial
          ((GROUP_SIZE + 8) / 16)))).Nodup ∧
    ((List.range (GROUP_SIZE + 1)).flatMap (fun i0 =>
      (List.range (GROUP_SIZE + 1)).flatMap (fun i1 =>
        search_candidates (mint_fixed E utct resource ran0 ran1 ran2 i0 i1) trial
          ((GROUP_SIZE + 8) / 16)))).length = 2 ^ 96 := by
  have hN : GROUP_SIZE + 1 = 2 ^ 32 := by decide
  constructor
  · apply nodup_flatMap_range
    · intro i0 hi0
      apply nodup_flatMap_range
      · intro i1 _
        exact search_candidates_nodup _ _ _ (by decide)
      · intro i1 j1 hi1 hj1 hne x hx hy
        rw [hN] at hi0 hi1 hj1
        exact hne (search_candidates_disjoint E utct resource ran0 ran1 ran2 i0 i1 i0 j1 _ _
          hi0 hi1 hi0 hj1 x hx hy).2
    · intro i0 j0 hi0 hj0 hne x hx hy
      rw [List.mem_flatMap] at hx hy
      obtain ⟨i1, hi1, hx⟩ := hx
      obtain ⟨j1, hj1, hy⟩ := hy
      rw [List.mem_range] at hi1 hj1
      rw [hN] at hi0 hj0 hi1 hj1
      exact hne (search_candidates_disjoint E utct resource ran0 ran1 ran2 i0 i1 j0 j1 _ _
        hi0 hi1 hj0 hj1 x hx hy).1
  · rw [length_flatMap_const _ ((GROUP_SIZE + 1) * (16 * ((GROUP_SIZE + 8) / 16))),
      List.length_range]
    · decide
    · intro i0
      rw [length_flatMap_const _ (16 * ((GROUP_SIZE + 8) / 16)), List.length_range]
      intro i1
      exact search_candidates_length _ _ _

/-- The loops of `hashcash_mint` with the log of the candidates end and
compute the result that `hashcash_mint` uses; the log is a prefix of the
candidates of all pairs, and all of them when the search ends with 0. -/
theorem mint_tried_spec (E : Env) (utct resource : List Char) (bits : Nat)
    (ran0 ran1 ran2 : Nat) (hbits : bits ≤ 160)
    (hscan : ∀ v, v < 2 ^ 32 → E.sscanf_08x (sprintf_08x v) = some v)
    (fuel : Nat) (hfuel : GROUP_SIZE + 1 < fuel) (token : List Char) :
    ∃ log r, mint_tried E utct resource bits ran0 ran1 ran2 fuel token = some (log, r) ∧
      log <+: (List.range (GROUP_SIZE + 1)).flatMap (fun i0 =>
        (List.range (GROUP_SIZE + 1)).flatMap (fun i1 =>
          search_candidates (mint_fixed E utct resource ran0 ran1 ran2 i0 i1)
            (ran2 % (GROUP_SIZE + 1) - ran2 % (GROUP_SIZE + 1) % 16)
            ((GROUP_SIZE + 8) / 16))) ∧
      ((∃ t', r = some (0, t')) →
        log = (List.range (GROUP_SIZE + 1)).flatMap (fun i0 =>
          (List.range (GROUP_SIZE + 1)).flatMap (fun i1 =>
            search_candidates (mint_fixed E utct resource ran0 ran1 ran2 i0 i1)
              (ran2 % (GROUP_SIZE + 1) - ran2 % (GROUP_SIZE + 1) % 16)
              ((GROUP_SIZE + 8) / 16)))) := by
  unfold mint_tried
  apply mint_for_tried_full _ _ _ fuel hfuel token
  intro i0 t
  apply mint_for_tried_full _ _ _ fuel hfuel t
  intro i1 t1
  obtain ⟨hp, he⟩ := mint_call_tried E utct resource bits ran0 ran1 ran2 i0 i1 hbits hscan
  refine ⟨_, _, rfl, hp, ?_⟩
  rintro ⟨t', ht'⟩
  exact he t1 t' ht'

theorem mint_tried_search (E : Env) (now_utime resource : List Char) (bits : Nat)
    (ran0 ran1 ran2 : Nat) (fuel : Nat) (hfuel : GROUP_SIZE + 1 < fuel) (token : List Char) :
    ∃ log, mint_tried E now_utime resource bits ran0 ran1 ran2 fuel token =
      some (log, mint_search E now_utime resource bits ran0 ran1 ran2 token) := by
  rw [mint_search_eq]
  have hinner : ∀ i0 t, ∃ log,
      mint_for
        (fun i1 token =>
          some (find_collision_tried E now_utime resource bits GROUP_SIZE
              (mint_counter ran0 ran1 ran2 i0 i1),
            find_collision E now_utime resource bits token GROUP_SIZE
              (mint_counter ran0 ran1 ran2 i0 i1)))
        fuel 0 true t =
      some (log, group_loop (fun i1 token =>
            find_collision E now_utime resource bits token GROUP_SIZE
              (mint_counter ran0 ran1 ran2 i0 i1)) (GROUP_SIZE + 1) 0 t) :=
    fun i0 t => mint_for_full _ _ (fun i1 t => ⟨_, rfl⟩) fuel hfuel t
  have houter := mint_for_full _ _ hinner fuel hfuel token
  rw [mint_tried]
  exact houter

theorem hexval_hexdigit : ∀ k, k < 16 → hexval (hexdigit k) = some k := by
  decide

/-- In the small environment `sscanf` with `%08x` reads back what `sprintf`
with `%08x` prints. -/
theorem toyEnv_sscanf (digest : List Char → List Nat) (v : Nat) (hv : v < 2 ^ 32) :
    (toyEnv digest).sscanf_08x (sprintf_08x v) = some v := by
  show (if sprintf_08x v = [] then none else hexvalue (sprintf_08x v) 0) = some v
  rw [if_neg (by simp [sprintf_08x])]
  simp only [sprintf_08x, hexvalue, hexval_hexdigit _ (Nat.mod_lt _ (by decide : 0 < 16))]
  norm_num only at hv ⊢
  congr 1
  omega

/-! ## Claim on the candidates of the search -/

/-- C28: for every time stamp, resource, bit target up to 160 and random words
`ran0`, `ran1`, `ran2`, where `sscanf` reads back the eight digits that
`sprintf` prints: distinct pairs `(i0, i1)` of 32-bit values give distinct
first sixteen digits of the counter; the candidates that one call of
`find_collision` with `tries = GROUP_SIZE` hashes are the first ones, and all
of them when it returns 0, of the list of the fixed part followed by the eight
digits of each of the `2^32` counter values, from `ran2` rounded down to a
multiple of 16 on with wrap-around, in which no string occurs twice; and the
candidates hashed during the nested loops of `hashcash_mint`, which compute
the result that `hashcash_mint` uses, are a list in which no string occurs
twice, of `2^96` strings when the search ends with 0. -/
theorem hashcash_mint_candidates_distinct (E : Env) (utct resource : List Char) (bits : Nat)
    (ran0 ran1 ran2 : Nat) (hbits : bits ≤ 160)
    (hscan : ∀ v, v < 2 ^ 32 → E.sscanf_08x (sprintf_08x v) = some v) :
    (∀ i0 i1 j0 j1, i0 < 2 ^ 32 → i1 < 2 ^ 32 → j0 < 2 ^ 32 → j1 < 2 ^ 32 →
      (mint_counter ran0 ran1 ran2 i0 i1).take 16 =
        (mint_counter ran0 ran1 ran2 j0 j1).take 16 → i0 = j0 ∧ i1 = j1) ∧
    (GROUP_SIZE + 8) / 16 = 2 ^ 28 ∧
    (∀ i0 i1,
      find_collision_tried E utct resource bits GROUP_SIZE
          (mint_counter ran0 ran1 ran2 i0 i1) <+:
        search_candidates (mint_fixed E utct resource ran0 ran1 ran2 i0 i1)
          (ran2 % (GROUP_SIZE + 1) - ran2 % (GROUP_SIZE + 1) % 16) ((GROUP_SIZE + 8) / 16) ∧
      (∀ token t',
        find_collision E utct resource bits token GROUP_SIZE
            (mint_counter ran0 ran1 ran2 i0 i1) = some (0, t') →
        find_collision_tried E utct resource bits GROUP_SIZE
            (mint_counter ran0 ran1 ran2 i0 i1) =
          search_candidates (mint_fixed E utct resource ran0 ran1 ran2 i0 i1)
            (ran2 % (GROUP_SIZE + 1) - ran2 % (GROUP_SIZE + 1) % 16)
            ((GROUP_SIZE + 8) / 16)) ∧
      (search_candidates (mint_fixed E utct resource ran0 ran1 ran2 i0 i1)
        (ran2 % (GROUP_SIZE + 1) - ran2 % (GROUP_SIZE + 1) % 16)
        ((GROUP_SIZE + 8) / 16)).Nodup ∧
      (search_candidates (mint_fixed E utct resource ran0 ran1 ran2 i0 i1)
        (ran2 % (GROUP_SIZE + 1) - ran2 % (GROUP_SIZE + 1) % 16)
        ((GROUP_SIZE + 8) / 16)).length = 2 ^ 32 ∧
      (∀ v, v < 2 ^ 32 →
        mint_fixed E utct resource ran0 ran1 ran2 i0 i1 ++ sprintf_08x v ∈
          search_candidates (mint_fixed E utct resource ran0 ran1 ran2 i0 i1)
            (ran2 % (GROUP_SIZE + 1) - ran2 % (GROUP_SIZE + 1) % 16)
            ((GROUP_SIZE + 8) / 16)) ∧
      (find_collision_tried E utct resource bits GROUP_SIZE
        (mint_counter ran0 ran1 ran2 i0 i1)).Nodup) ∧
    (∀ token, ∃ log,
      mint_tried E utct resource bits ran0 ran1 ran2 (GROUP_SIZE + 2) token =
        some (log, mint_search E utct resource bits ran0 ran1 ran2 token) ∧
      log.Nodup ∧ log.length ≤ 2 ^ 96 ∧
      ((∃ t', mint_search E utct resource bits ran0 ran1 ran2 token = some (0, t')) →
        log.length = 2 ^ 96)) := by
  refine ⟨fun i0 i1 j0 j1 h1 h2 h3 h4 h =>
    mint_counter_prefix_inj ran0 ran1 ran2 i0 i1 j0 j1 h1 h2 h3 h4 h, by decide, ?_, ?_⟩
  · intro i0 i1
    obtain ⟨hp, he⟩ := mint_call_tried E utct resource bits ran0 ran1 ran2 i0 i1 hbits hscan
    have hnd := search_candidates_nodup (mint_fixed E utct resource ran0 ran1 ran2 i0 i1)
      (ran2 % (GROUP_SIZE + 1) - ran2 % (GROUP_SIZE + 1) % 16) ((GROUP_SIZE + 8) / 16)
      (by decide)
    refine ⟨hp, he, hnd, ?_, ?_, hp.sublist.nodup hnd⟩
    · rw [search_candidates_length]
      decide
    · intro v hv
      exact search_candidates_mem _ _ _ v (by decide) hv
  · intro token
    obtain ⟨log, r, hrun, hp, he⟩ := mint_tried_spec E utct resource bits ran0 ran1 ran2 hbits
      hscan (GROUP_SIZE + 2) (Nat.lt_succ_self _) token
    obtain ⟨log2, hrun2⟩ := mint_tried_search E utct resource bits ran0 ran1 ran2
      (GROUP_SIZE + 2) (Nat.lt_succ_self _) token
    rw [hrun] at hrun2
    simp only [Option.some.injEq, Prod.mk.injEq] at hrun2
    obtain ⟨_, hr⟩ := hrun2
    obtain ⟨hnd, hlen⟩ := mint_candidates_spec E utct resource ran0 ran1 ran2
      (ran2 % (GROUP_SIZE + 1) - ran2 % (GROUP_SIZE + 1) % 16)
    refine ⟨log, by rw [hrun, hr], hp.sublist.nodup hnd, ?_, ?_⟩
    · rw [← hlen]
      exact hp.length_le
    · intro h
      rw [← hr] at h
      rw [he h, hlen]

/-- Witness for C28: the small environment with `lastDigest`, the time stamp
`040404`, the resource `foo`, 8 bits and the random words 1, 2, 3: the
candidates of the pair `(0, 0)`. -/
theorem hashcash_mint_candidates_distinct_witness :
    (search_candidates
        (mint_fixed (toyEnv lastDigest) "040404".toList "foo".toList 1 2 3 0 0)
        (3 % (GROUP_SIZE + 1) - 3 % (GROUP_SIZE + 1) % 16) ((GROUP_SIZE + 8) / 16)).Nodup ∧
      (search_candidates
        (mint_fixed (toyEnv lastDigest) "040404".toList "foo".toList 1 2 3 0 0)
        (3 % (GROUP_SIZE + 1) - 3 % (GROUP_SIZE + 1) % 16) ((GROUP_SIZE + 8) / 16)).length =
        2 ^ 32 :=
  ⟨((hashcash_mint_candidates_distinct (toyEnv lastDigest) "040404".toList "foo".toList 8
      1 2 3 (by decide) (toyEnv_sscanf lastDigest)).2.2.1 0 0).2.2.1,
    ((hashcash_mint_candidates_distinct (toyEnv lastDigest) "040404".toList "foo".toList 8
      1 2 3 (by decide) (toyEnv_sscanf lastDigest)).2.2.1 0 0).2.2.2.1⟩

/-! ## The block handed to the backend -/

theorem peek_replicate (b : Nat → Char) (s n : Nat) (c : Char)
    (h : ∀ k, s ≤ k → k < s + n → b k = c) : peek b s n = List.replicate n c := by
  apply List.ext_getElem?
  intro k
  by_cases hk : k < n
  · simp only [peek, List.getElem?_map, List.getElem?_range hk, Option.map_some',
      List.getElem?_replicate, hk, if_true]
    rw [h (s + k) (by omega) (by omega)]
  · rw [List.getElem?_eq_none (by simp [peek]; omega),
      List.getElem?_eq_none (by simp; omega)]

/-- The bytes of the buffer after the padding byte and the trailer are
filled in. -/
theorem fastmint_trailer_spec (buffer : Nat → Char) (tail k : Nat) :
    fastmint_trailer buffer tail k =
      if k = tail - tail % 64 + 63 then Char.ofNat (tail * 8 % 256)
      else if k = tail - tail % 64 + 62 then Char.ofNat (tail * 8 / 2 ^ 8 % 256)
      else if k = tail - tail % 64 + 61 then Char.ofNat (tail * 8 / 2 ^ 16 % 256)
      else if k = tail - tail % 64 + 60 then Char.ofNat (tail * 8 / 2 ^ 24 % 256)
      else if k = tail then Char.ofNat 0x80
      else buffer k := by
  simp only [fastmint_trailer, PUT_WORD, poke, SHA1_INPUT_BYTES, Nat.shiftLeft_eq]

/-- The block handed to the backend, for a token short enough that the length
in bits fits 32 bits and a buffer that is zero between the count field and the
trailer: the bytes of the string from `t` on, the byte `0x80`, zero bytes, and
the length in bits as a 64-bit number, most significant byte first. -/
theorem fastmint_block_spec (rand : Nat → Nat) (L : Nat) (buffer : Nat → Char)
    (hL : L + 41 < 2 ^ 29)
    (hzero : ∀ k, fastmint_pad_end L + 9 < k →
      k < fastmint_pad_end L + 9 - (fastmint_pad_end L + 9) % 64 + 60 → buffer k = NUL) :
    fastmint_block rand L buffer =
      peek (fastmint_layout rand L buffer).1
          (fastmint_pad_end L + 9 - (fastmint_pad_end L + 9) % 64)
          ((fastmint_pad_end L + 9) % 64) ++
        Char.ofNat 0x80 :: List.replicate (55 - (fastmint_pad_end L + 9) % 64) NUL ++
        (List.range 8).map
          (fun i => Char.ofNat (8 * (fastmint_pad_end L + 9) / 2 ^ (8 * (7 - i)) % 256)) := by
  have h32 : L + 41 < 2 ^ 32 := by omega
  obtain ⟨hb1, hb2, hb3, hb4, hb5⟩ := fastmint_pad_end_bounds L h32
  have hlay := fastmint_layout_spec rand L buffer h32
  have hl2 : (fastmint_layout rand L buffer).2 = fastmint_pad_end L + 9 := by rw [hlay]
  have hl1 : ∀ k, fastmint_pad_end L + 9 ≤ k → (fastmint_layout rand L buffer).1 k = buffer k := by
    intro k hk
    rw [hlay]
    have a1 : ¬ (fastmint_pad_end L < k ∧ k < fastmint_pad_end L + 9) := by omega
    have a2 : ¬ k = fastmint_pad_end L := by omega
    have a3 : ¬ (L ≤ k ∧ k < fastmint_pad_end L) := by omega
    simp only [a1, a2, a3, if_false]
  generalize fastmint_pad_end L = pe at *
  generalize hbuf : (fastmint_layout rand L buffer).1 = laid at *
  unfold fastmint_block
  simp only [hl2, hbuf, SHA1_INPUT_BYTES]
  have etail : pe + 9 - (pe + 9) % 64 + (pe + 9) % 64 = pe + 9 := by omega
  have hs : ∀ b : Nat → Char, peek b (pe + 9 - (pe + 9) % 64) 64 =
      peek b (pe + 9 - (pe + 9) % 64) ((pe + 9) % 64) ++
        (peek b (pe + 9 - (pe + 9) % 64 + (pe + 9) % 64) 1 ++
          (peek b (pe + 9 - (pe + 9) % 64 + (pe + 9) % 64 + 1) (55 - (pe + 9) % 64) ++
            peek b (pe + 9 - (pe + 9) % 64 + (pe + 9) % 64 + 1 + (55 - (pe + 9) % 64)) 8)) := by
    intro b
    have e64 : (pe + 9) % 64 + (1 + (55 - (pe + 9) % 64 + 8)) = 64 := by omega
    rw [← peek_append, ← peek_append, ← peek_append, e64]
  rw [hs, etail]
  have p1 : peek (fastmint_trailer laid (pe + 9)) (pe + 9 - (pe + 9) % 64) ((pe + 9) % 64) =
      peek laid (pe + 9 - (pe + 9) % 64) ((pe + 9) % 64) := by
    apply peek_congr
    intro k h1 h2
    rw [fastmint_trailer_spec]
    have a1 : ¬ k = pe + 9 - (pe + 9) % 64 + 63 := by omega
    have a2 : ¬ k = pe + 9 - (pe + 9) % 64 + 62 := by omega
    have a3 : ¬ k = pe + 9 - (pe + 9) % 64 + 61 := by omega
    have a4 : ¬ k = pe + 9 - (pe + 9) % 64 + 60 := by omega
    have a5 : ¬ k = pe + 9 := by omega
    simp only [a1, a2, a3, a4, a5, if_false]
  have p2 : peek (fastmint_trailer laid (pe + 9)) (pe + 9) 1 = [Char.ofNat 0x80] := by
    have a1 : ¬ pe + 9 = pe + 9 - (pe + 9) % 64 + 63 := by omega
    have a2 : ¬ pe + 9 = pe + 9 - (pe + 9) % 64 + 62 := by omega
    have a3 : ¬ pe + 9 = pe + 9 - (pe + 9) % 64 + 61 := by omega
    have a4 : ¬ pe + 9 = pe + 9 - (pe + 9) % 64 + 60 := by omega
    simp only [peek, List.range_succ, List.range_zero, List.nil_append, List.map_cons,
      List.map_nil, Nat.add_zero, fastmint_trailer_spec, a1, a2, a3, a4, if_false, if_true]
  have p3 : peek (fastmint_trailer laid (pe + 9)) (pe + 9 + 1) (55 - (pe + 9) % 64) =
      List.replicate (55 - (pe + 9) % 64) NUL := by
    apply peek_replicate
    intro k h1 h2
    rw [fastmint_trailer_spec]
    have a1 : ¬ k = pe + 9 - (pe + 9) % 64 + 63 := by omega
    have a2 : ¬ k = pe + 9 - (pe + 9) % 64 + 62 := by omega
    have a3 : ¬ k = pe + 9 - (pe + 9) % 64 + 61 := by omega
    have a4 : ¬ k = pe + 9 - (pe + 9) % 64 + 60 := by omega
    have a5 : ¬ k = pe + 9 := by omega
    simp only [a1, a2, a3, a4, a5, if_false]
    rw [hl1 k (by omega)]
    exact hzero k (by omega) (by omega)
  have e56 : pe + 9 + 1 + (55 - (pe + 9) % 64) = pe + 9 - (pe + 9) % 64 + 56 := by omega
  have hbits : 8 * (pe + 9) < 2 ^ 32 := by
    norm_num only at hL ⊢
    omega
  have p4 : peek (fastmint_trailer laid (pe + 9)) (pe + 9 - (pe + 9) % 64 + 56) 8 =
      (List.range 8).map (fun i => Char.ofNat (8 * (pe + 9) / 2 ^ (8 * (7 - i)) % 256)) := by
    unfold peek
    apply List.map_congr_left
    intro i hi
    rw [List.mem_range] at hi
    rw [fastmint_trailer_spec]
    have hz : ∀ k, pe + 9 - (pe + 9) % 64 + 56 ≤ k → k < pe + 9 - (pe + 9) % 64 + 60 →
        laid k = NUL := by
      intro k h1 h2
      rw [hl1 k (by omega)]
      exact hzero k (by omega) h2
    have hmul : (pe + 9) * 8 = 8 * (pe + 9) := Nat.mul_comm _ _
    rw [hmul]
    interval_cases i
    · have a1 : ¬ pe + 9 - (pe + 9) % 64 + 56 + 0 = pe + 9 - (pe + 9) % 64 + 63 := by omega
      have a2 : ¬ pe + 9 - (pe + 9) % 64 + 56 + 0 = pe + 9 - (pe + 9) % 64 + 62 := by omega
      have a3 : ¬ pe + 9 - (pe + 9) % 64 + 56 + 0 = pe + 9 - (pe + 9) % 64 + 61 := by omega
      have a4 : ¬ pe + 9 - (pe + 9) % 64 + 56 + 0 = pe + 9 - (pe + 9) % 64 + 60 := by omega
      have a5 : ¬ pe + 9 - (pe + 9) % 64 + 56 + 0 = pe + 9 := by omega
      simp only [a1, a2, a3, a4, a5, if_false]
      rw [hz _ (by omega) (by omega), Nat.div_eq_of_lt (by norm_num only at hbits ⊢; omega)]
      rfl
    · have a1 : ¬ pe + 9 - (pe + 9) % 64 + 56 + 1 = pe + 9 - (pe + 9) % 64 + 63 := by omega
      have a2 : ¬ pe + 9 - (pe + 9) % 64 + 56 + 1 = pe + 9 - (pe + 9) % 64 + 62 := by omega
      have a3 : ¬ pe + 9 - (pe + 9) % 64 + 56 + 1 = pe + 9 - (pe + 9) % 64 + 61 := by omega
      have a4 : ¬ pe + 9 - (pe + 9) % 64 + 56 + 1 = pe + 9 - (pe + 9) % 64 + 60 := by omega
      have a5 : ¬ pe + 9 - (pe + 9) % 64 + 56 + 1 = pe + 9 := by omega
      simp only [a1, a2, a3, a4, a5, if_false]
      rw [hz _ (by omega) (by omega), Nat.div_eq_of_lt (by norm_num only at hbits ⊢; omega)]
      rfl
    · have a1 : ¬ pe + 9 - (pe + 9) % 64 + 56 + 2 = pe + 9 - (pe + 9) % 64 + 63 := by omega
      have a2 : ¬ pe + 9 - (pe + 9) % 64 + 56 + 2 = pe + 9 - (pe + 9) % 64 + 62 := by omega
      have a3 : ¬ pe + 9 - (pe + 9) % 64 + 56 + 2 = pe + 9 - (pe + 9) % 64 + 61 := by omega
      have a4 : ¬ pe + 9 - (pe + 9) % 64 + 56 + 2 = pe + 9 - (pe + 9) % 64 + 60 := by omega
      have a5 : ¬ pe + 9 - (pe + 9) % 64 + 56 + 2 = pe + 9 := by omega
      simp only [a1, a2, a3, a4, a5, if_false]
      rw [hz _ (by omega) (by omega), Nat.div_eq_of_lt (by norm_num only at hbits ⊢; omega)]
      rfl
    · have a1 : ¬ pe + 9 - (pe + 9) % 64 + 56 + 3 = pe + 9 - (pe + 9) % 64 + 63 := by omega
      have a2 : ¬ pe + 9 - (pe + 9) % 64 + 56 + 3 = pe + 9 - (pe + 9) % 64 + 62 := by omega
      have a3 : ¬ pe + 9 - (pe + 9) % 64 + 56 + 3 = pe + 9 - (pe + 9) % 64 + 61 := by omega
      have a4 : ¬ pe + 9 - (pe + 9) % 64 + 56 + 3 = pe + 9 - (pe + 9) % 64 + 60 := by omega
      have a5 : ¬ pe + 9 - (pe + 9) % 64 + 56 + 3 = pe + 9 := by omega
      simp only [a1, a2, a3, a4, a5, if_false]
      rw [hz _ (by omega) (by omega), Nat.div_eq_of_lt (by norm_num only at hbits ⊢; omega)]
      rfl
    · have a1 : ¬ pe + 9 - (pe + 9) % 64 + 56 + 4 = pe + 9 - (pe + 9) % 64 + 63 := by omega
      have a2 : ¬ pe + 9 - (pe + 9) % 64 + 56 + 4 = pe + 9 - (pe + 9) % 64 + 62 := by omega
      have a3 : ¬ pe + 9 - (pe + 9) % 64 + 56 + 4 = pe + 9 - (pe + 9) % 64 + 61 := by omega
      have a4 : pe + 9 - (pe + 9) % 64 + 56 + 4 = pe + 9 - (pe + 9) % 64 + 60 := by omega
      simp only [a1, a2, a3, a4, if_false, if_true]
    · have a1 : ¬ pe + 9 - (pe + 9) % 64 + 56 + 5 = pe + 9 - (pe + 9) % 64 + 63 := by omega
      have a2 : ¬ pe + 9 - (pe + 9) % 64 + 56 + 5 = pe + 9 - (pe + 9) % 64 + 62 := by omega
      have a3 : pe + 9 - (pe + 9) % 64 + 56 + 5 = pe + 9 - (pe + 9) % 64 + 61 := by omega
      simp only [a1, a2, a3, if_false, if_true]
    · have a1 : ¬ pe + 9 - (pe + 9) % 64 + 56 + 6 = pe + 9 - (pe + 9) % 64 + 63 := by omega
      have a2 : pe + 9 - (pe + 9) % 64 + 56 + 6 = pe + 9 - (pe + 9) % 64 + 62 := by omega
      simp only [a1, a2, if_false, if_true]
    · have a1 : pe + 9 - (pe + 9) % 64 + 56 + 7 = pe + 9 - (pe + 9) % 64 + 63 := by omega
      simp only [a1, if_true]
      norm_num
  rw [p1, p2, p3, e56, p4]
  simp

theorem fastmint_block_wraps (rand : Nat → Nat) (buffer : Nat → Char) :
    (fastmint_layout rand (2 ^ 29) buffer).2 = 2 ^ 29 + 25 ∧
      (fastmint_block rand (2 ^ 29) buffer).drop 60 = [NUL, NUL, NUL, Char.ofNat 200] := by
  have hpe : fastmint_pad_end (2 ^ 29) = 2 ^ 29 + 16 := by decide
  have hl2 : (fastmint_layout rand (2 ^ 29) buffer).2 = 2 ^ 29 + 25 := by
    rw [fastmint_layout_spec _ _ _ (by decide), hpe]
  refine ⟨hl2, ?_⟩
  unfold fastmint_block
  simp only [hl2, SHA1_INPUT_BYTES]
  have e : 64 = 60 + 4 := rfl
  have ht : 2 ^ 29 + 25 - (2 ^ 29 + 25) % 64 = 2 ^ 29 := by decide
  rw [ht, e, peek_append, List.drop_left' (peek_length _ _ _)]
  simp only [peek, List.range_succ, List.range_zero, List.nil_append, List.map_append,
    List.map_cons, List.map_nil, List.cons_append, fastmint_trailer_spec, ht]
  have n03 : ¬ (2 ^ 29 + 60 + 0 = 2 ^ 29 + 63) := by decide
  have n02 : ¬ (2 ^ 29 + 60 + 0 = 2 ^ 29 + 62) := by decide
  have n01 : ¬ (2 ^ 29 + 60 + 0 = 2 ^ 29 + 61) := by decide
  have n13 : ¬ (2 ^ 29 + 60 + 1 = 2 ^ 29 + 63) := by decide
  have n12 : ¬ (2 ^ 29 + 60 + 1 = 2 ^ 29 + 62) := by decide
  have n23 : ¬ (2 ^ 29 + 60 + 2 = 2 ^ 29 + 63) := by decide
  have c3 : Char.ofNat ((2 ^ 29 + 25) * 8 / 2 ^ 24 % 256) = NUL := by decide
  have c2 : Char.ofNat ((2 ^ 29 + 25) * 8 / 2 ^ 16 % 256) = NUL := by decide
  have c1 : Char.ofNat ((2 ^ 29 + 25) * 8 / 2 ^ 8 % 256) = NUL := by decide
  have c0 : Char.ofNat ((2 ^ 29 + 25) * 8 % 256) = Char.ofNat 200 := by decide
  simp only [n03, n02, n01, n13, n12, n23, if_true, if_false, c3, c2, c1, c0]

/-- The bytes of the buffer after one attempt. -/
theorem fastmint_attempt_buffer (E : Env) (ctxH : E.SHA1_ctx → List Nat) (minter : HC_Minter)
    (rand : Nat → Nat) (bits : Int) (L : Nat) (buffer : Nat → Char) (h32 : L + 41 < 2 ^ 32)
    (k : Nat) :
    (fastmint_attempt E ctxH minter rand bits L buffer).2.2 k =
      if k = fastmint_pad_end L + 9 then NUL
      else if fastmint_pad_end L + 9 - (fastmint_pad_end L + 9) % 64 ≤ k ∧
          k < fastmint_pad_end L + 9 - (fastmint_pad_end L + 9) % 64 + 64 then
        (minter.func bits (fastmint_block rand L buffer)
          ((ctxH (E.SHA1_Update E.SHA1_Init (peek (fastmint_layout rand L buffer).1 0
            (fastmint_pad_end L + 9 - (fastmint_pad_end L + 9) % 64)))).take 5)
          ((fastmint_pad_end L + 9) % 64) 0xFFFFFFFF).2.getD
            (k - (fastmint_pad_end L + 9 - (fastmint_pad_end L + 9) % 64))
            (fastmint_trailer (fastmint_layout rand L buffer).1 (fastmint_pad_end L + 9) k)
      else fastmint_trailer (fastmint_layout rand L buffer).1 (fastmint_pad_end L + 9) k := by
  have hl2 : (fastmint_layout rand L buffer).2 = fastmint_pad_end L + 9 := by
    rw [fastmint_layout_spec _ _ _ h32]
  have e1 : fastmint_pad_end L + 9 - (fastmint_pad_end L + 9 - (fastmint_pad_end L + 9) % 64) =
      (fastmint_pad_end L + 9) % 64 := by omega
  have e2 : fastmint_pad_end L + 9 - (fastmint_pad_end L + 9) % 64 +
      (fastmint_pad_end L + 9) % 64 = fastmint_pad_end L + 9 := by omega
  simp only [fastmint_attempt, fastmint_run, fastmint_block, poke, hl2, SHA1_INPUT_BYTES, e1, e2]

/-- The count that the backend claims is what its routine returns on the block
`fastmint_block`, the chaining value of the whole blocks before it and the
length of the string inside the block. -/
theorem fastmint_attempt_gotbits (E : Env) (ctxH : E.SHA1_ctx → List Nat) (minter : HC_Minter)
    (rand : Nat → Nat) (bits : Int) (L : Nat) (buffer : Nat → Char) (h32 : L + 41 < 2 ^ 32) :
    (fastmint_attempt E ctxH minter rand bits L buffer).1 =
      (minter.func bits (fastmint_block rand L buffer)
        ((ctxH (E.SHA1_Update E.SHA1_Init (peek (fastmint_layout rand L buffer).1 0
          (fastmint_pad_end L + 9 - (fastmint_pad_end L + 9) % 64)))).take 5)
        ((fastmint_pad_end L + 9) % 64) 0xFFFFFFFF).1 % 2 ^ 32 := by
  have hl2 : (fastmint_layout rand L buffer).2 = fastmint_pad_end L + 9 := by
    rw [fastmint_layout_spec _ _ _ h32]
  have e1 : fastmint_pad_end L + 9 - (fastmint_pad_end L + 9 - (fastmint_pad_end L + 9) % 64) =
      (fastmint_pad_end L + 9) % 64 := by omega
  simp only [fastmint_attempt, fastmint_run, fastmint_block, hl2, SHA1_INPUT_BYTES, e1]

/-- An attempt writes inside the `(L - L % 64) + 128` bytes of the buffer. -/
theorem fastmint_attempt_frame (E : Env) (ctxH : E.SHA1_ctx → List Nat) (minter : HC_Minter)
    (rand : Nat → Nat) (bits : Int) (L : Nat) (buffer : Nat → Char) (h32 : L + 41 < 2 ^ 32)
    (k : Nat) (hk : (L - L % 64) + 128 ≤ k) :
    (fastmint_attempt E ctxH minter rand bits L buffer).2.2 k = buffer k := by
  obtain ⟨hb1, hb2, hb3, hb4, hb5⟩ := fastmint_pad_end_bounds L h32
  rw [fastmint_attempt_buffer _ _ _ _ _ _ _ h32, fastmint_trailer_spec,
    fastmint_layout_spec _ _ _ h32]
  have a0 : ¬ k = fastmint_pad_end L + 9 := by omega
  have a1 : ¬ (fastmint_pad_end L + 9 - (fastmint_pad_end L + 9) % 64 ≤ k ∧
      k < fastmint_pad_end L + 9 - (fastmint_pad_end L + 9) % 64 + 64) := by omega
  have a2 : ¬ k = fastmint_pad_end L + 9 - (fastmint_pad_end L + 9) % 64 + 63 := by omega
  have a3 : ¬ k = fastmint_pad_end L + 9 - (fastmint_pad_end L + 9) % 64 + 62 := by omega
  have a4 : ¬ k = fastmint_pad_end L + 9 - (fastmint_pad_end L + 9) % 64 + 61 := by omega
  have a5 : ¬ k = fastmint_pad_end L + 9 - (fastmint_pad_end L + 9) % 64 + 60 := by omega
  have a6 : ¬ (fastmint_pad_end L < k ∧ k < fastmint_pad_end L + 9) := by omega
  have a7 : ¬ k = fastmint_pad_end L := by omega
  have a8 : ¬ (L ≤ k ∧ k < fastmint_pad_end L) := by omega
  simp only [a0, a1, a2, a3, a4, a5, a6, a7, a8, if_false]

/-- With a backend confined to the count field, the bytes between the count
field and the trailer are zero after an attempt when they were before. -/
theorem fastmint_attempt_zero (E : Env) (ctxH : E.SHA1_ctx → List Nat) (minter : HC_Minter)
    (hconf : backend_confined minter.func)
    (rand : Nat → Nat) (bits : Int) (L : Nat) (buffer : Nat → Char) (h32 : L + 41 < 2 ^ 32)
    (hzero : ∀ k, fastmint_pad_end L + 9 < k →
      k < fastmint_pad_end L + 9 - (fastmint_pad_end L + 9) % 64 + 60 → buffer k = NUL)
    (k : Nat) (h1 : fastmint_pad_end L + 9 < k)
    (h2 : k < fastmint_pad_end L + 9 - (fastmint_pad_end L + 9) % 64 + 60) :
    (fastmint_attempt E ctxH minter rand bits L buffer).2.2 k = NUL := by
  obtain ⟨hb1, hb2, hb3, hb4, hb5⟩ := fastmint_pad_end_bounds L h32
  have hblock : (fastmint_block rand L buffer).length = SHA1_INPUT_BYTES := by
    simp [fastmint_block, peek_length]
  obtain ⟨c1, c2, _⟩ := hconf bits (fastmint_block rand L buffer)
    ((ctxH (E.SHA1_Update E.SHA1_Init (peek (fastmint_layout rand L buffer).1 0
      (fastmint_pad_end L + 9 - (fastmint_pad_end L + 9) % 64)))).take 5)
    ((fastmint_pad_end L + 9) % 64) 0xFFFFFFFF hblock (by omega)
    (by simp only [SHA1_INPUT_BYTES]; omega)
  simp only [SHA1_INPUT_BYTES] at c1 c2
  have htr : fastmint_trailer (fastmint_layout rand L buffer).1 (fastmint_pad_end L + 9) k =
      NUL := by
    rw [fastmint_trailer_spec, fastmint_layout_spec _ _ _ h32]
    have a2 : ¬ k = fastmint_pad_end L + 9 - (fastmint_pad_end L + 9) % 64 + 63 := by omega
    have a3 : ¬ k = fastmint_pad_end L + 9 - (fastmint_pad_end L + 9) % 64 + 62 := by omega
    have a4 : ¬ k = fastmint_pad_end L + 9 - (fastmint_pad_end L + 9) % 64 + 61 := by omega
    have a5 : ¬ k = fastmint_pad_end L + 9 - (fastmint_pad_end L + 9) % 64 + 60 := by omega
    have a0 : ¬ k = fastmint_pad_end L + 9 := by omega
    have a6 : ¬ (fastmint_pad_end L < k ∧ k < fastmint_pad_end L + 9) := by omega
    have a7 : ¬ k = fastmint_pad_end L := by omega
    have a8 : ¬ (L ≤ k ∧ k < fastmint_pad_end L) := by omega
    simp only [a0, a2, a3, a4, a5, a6, a7, a8, if_false]
    exact hzero k h1 h2
  rw [fastmint_attempt_buffer _ _ _ _ _ _ _ h32]
  have a0 : ¬ k = fastmint_pad_end L + 9 := by omega
  have a1 : fastmint_pad_end L + 9 - (fastmint_pad_end L + 9) % 64 ≤ k ∧
      k < fastmint_pad_end L + 9 - (fastmint_pad_end L + 9) % 64 + 64 := by omega
  simp only [a0, a1, and_self, if_false, if_true]
  rw [getD_char_of_lt _ _ _ NUL (by rw [c1]; omega),
    c2 (k - (fastmint_pad_end L + 9 - (fastmint_pad_end L + 9) % 64)) (by omega)
      (Or.inr (by omega))]
  have hget : (fastmint_block rand L buffer).getD
      (k - (fastmint_pad_end L + 9 - (fastmint_pad_end L + 9) % 64)) NUL =
      fastmint_trailer (fastmint_layout rand L buffer).1 (fastmint_pad_end L + 9) k := by
    have hl2 : (fastmint_layout rand L buffer).2 = fastmint_pad_end L + 9 := by
      rw [fastmint_layout_spec _ _ _ h32]
    simp only [fastmint_block, hl2, SHA1_INPUT_BYTES]
    rw [peek_getD _ _ _ _ (by omega)]
    have ek : fastmint_pad_end L + 9 - (fastmint_pad_end L + 9) % 64 +
        (k - (fastmint_pad_end L + 9 - (fastmint_pad_end L + 9) % 64)) = k := by omega
    rw [ek]
  rw [hget, htr]

/-- The buffer that `hashcash_fastmint` allocates is zero after the token. -/
theorem fastmint_initial_zero (token : List Char) (buflen : Nat) (k : Nat)
    (hk : token.length ≤ k) :
    (fun k => if k < buflen then token.getD k NUL else NUL) k = NUL := by
  simp only
  split
  · rw [List.getD_eq_getElem?_getD, List.getElem?_eq_none hk]
    rfl
  · rfl

/-! ## Claim on the block handed to the backend -/

/-- C27, counterexample: for a token of `2^29` characters the string in the
buffer is `2^29 + 25` characters long, that is `2^32 + 200` bits, and the
bytes 60 to 63 of the block handed to the backend hold the number 200: the
shift `tail << 3` is taken in 32 bits. -/
theorem fastmint_block_length_counterexample :
    (fastmint_layout (fun _ => 0) (2 ^ 29) (fun _ => NUL)).2 = 2 ^ 29 + 25 ∧
      8 * (2 ^ 29 + 25) = 2 ^ 32 + 200 ∧
      (fastmint_block (fun _ => 0) (2 ^ 29) (fun _ => NUL)).drop 60 =
        [NUL, NUL, NUL, Char.ofNat 200] :=
  ⟨(fastmint_block_wraps (fun _ => 0) (fun _ => NUL)).1, by decide,
    (fastmint_block_wraps (fun _ => 0) (fun _ => NUL)).2⟩

/-- C27, amended: for every token of length `L` with `L + 41 < 2^29`, so that
the length in bits fits 32 bits, every random source, every backend confined
to the count field and every buffer that is zero between the count field and
the trailer, with `tail` the index after the count field and
`t = tail - tail % 64`: the block handed to the backend starts at a multiple
of 64 and consists of the `tail % 64` bytes of the string from `t` on, with
`8 <= tail % 64 <= 55`, then the byte `0x80`, then zero bytes, then the length
`8 * tail` of the string in bits as a 64-bit number, most significant byte
first, whose last four bytes are the bytes 60 to 63; the backend is called
with this block, the chaining value of the `t` bytes before it and the
length `tail % 64`; the block ends inside the `(L - L % 64) + 128` bytes of the
buffer and no byte outside them is changed; the bytes between the count field
and the trailer are zero again after the attempt, so that the same holds in
the next attempt; and the buffer that `hashcash_fastmint` allocates is zero
there. -/
theorem fastmint_block_padded (E : Env) (ctxH : E.SHA1_ctx → List Nat) (minter : HC_Minter)
    (hconf : backend_confined minter.func) (rand : Nat → Nat) (bits : Int)
    (token : List Char) (buffer : Nat → Char)
    (hL : token.length + 41 < 2 ^ 29)
    (hzero : ∀ k, fastmint_pad_end token.length + 9 < k →
      k < fastmint_pad_end token.length + 9 - (fastmint_pad_end token.length + 9) % 64 + 60 →
      buffer k = NUL) :
    (fastmint_layout rand token.length buffer).2 = fastmint_pad_end token.length + 9 ∧
    (fastmint_pad_end token.length + 9 - (fastmint_pad_end token.length + 9) % 64) % 64 = 0 ∧
    8 ≤ (fastmint_pad_end token.length + 9) % 64 ∧
    (fastmint_pad_end token.length + 9) % 64 ≤ 55 ∧
    fastmint_block rand token.length buffer =
      peek (fastmint_layout rand token.length buffer).1
          (fastmint_pad_end token.length + 9 - (fastmint_pad_end token.length + 9) % 64)
          ((fastmint_pad_end token.length + 9) % 64) ++
        Char.ofNat 0x80 ::
          List.replicate (55 - (fastmint_pad_end token.length + 9) % 64) NUL ++
        (List.range 8).map (fun i =>
          Char.ofNat (8 * (fastmint_pad_end token.length + 9) / 2 ^ (8 * (7 - i)) % 256)) ∧
    (fastmint_attempt E ctxH minter rand bits token.length buffer).1 =
      (minter.func bits (fastmint_block rand token.length buffer)
        ((ctxH (E.SHA1_Update E.SHA1_Init (peek (fastmint_layout rand token.length buffer).1 0
          (fastmint_pad_end token.length + 9 -
            (fastmint_pad_end token.length + 9) % 64)))).take 5)
        ((fastmint_pad_end token.length + 9) % 64) 0xFFFFFFFF).1 % 2 ^ 32 ∧
    fastmint_pad_end token.length + 9 - (fastmint_pad_end token.length + 9) % 64 + 64 ≤
      (token.length - token.length % 64) + 128 ∧
    (∀ k, (token.length - token.length % 64) + 128 ≤ k →
      (fastmint_attempt E ctxH minter rand bits token.length buffer).2.2 k = buffer k) ∧
    (∀ k, fastmint_pad_end token.length + 9 < k →
      k < fastmint_pad_end token.length + 9 - (fastmint_pad_end token.length + 9) % 64 + 60 →
      (fastmint_attempt E ctxH minter rand bits token.length buffer).2.2 k = NUL) ∧
    (∀ k, fastmint_pad_end token.length + 9 < k →
      (fun k =>
        if k < (token.length - (token.length % SHA1_INPUT_BYTES)) + 2 * SHA1_INPUT_BYTES then
          token.getD k NUL
        else NUL) k = NUL) := by
  have h32 : token.length + 41 < 2 ^ 32 := by omega
  obtain ⟨hb1, hb2, hb3, hb4, hb5⟩ := fastmint_pad_end_bounds token.length h32
  refine ⟨by rw [fastmint_layout_spec _ _ _ h32], by omega, by omega, by omega,
    fastmint_block_spec rand token.length buffer hL hzero,
    fastmint_attempt_gotbits E ctxH minter rand bits token.length buffer h32, by omega,
    fun k hk => fastmint_attempt_frame E ctxH minter rand bits token.length buffer h32 k hk,
    fun k h1 h2 =>
      fastmint_attempt_zero E ctxH minter hconf rand bits token.length buffer h32 hzero k h1
        h2,
    fun k hk => fastmint_initial_zero token _ k (by omega)⟩

/-- Witness for C27: the token `tok`, the buffer that `hashcash_fastmint`
allocates for it, random bytes equal to their position and a backend that
leaves the block as it is. -/
theorem fastmint_block_padded_witness :
    fastmint_block (fun pos => pos) "tok".toList.length
        (fun k => if k < 128 then "tok".toList.getD k NUL else NUL) =
      "tok3456789ABCDEFGHI:00000000".toList ++ Char.ofNat 0x80 :: List.replicate 27 NUL ++
        [NUL, NUL, NUL, NUL, NUL, NUL, NUL, Char.ofNat 224] :=
  (fastmint_block_padded (toyEnv lastDigest) (fun _ => SHA1_IV)
    ⟨"idle", idle_minter, true, 0⟩ idle_minter_confined (fun pos => pos) 20 "tok".toList
    (fun k => if k < 128 then "tok".toList.getD k NUL else NUL) (by decide)
    (fun k h1 _ => fastmint_initial_zero "tok".toList 128 k (by
      have := (fastmint_pad_end_bounds "tok".toList.length (by decide)).1
      omega))).2.2.2.2.1.trans (by decide)

/-! ## sdb.c: records, lookup and deletion -/

theorem fgets_line_record (l S : List Char) (hl : ∀ c ∈ l, c ≠ '\n') :
    ∀ m, l.length < m → fgets_line m (l ++ '\n' :: S) = l ++ ['\n'] := by
  induction l with
  | nil =>
    intro m hm
    obtain ⟨m, rfl⟩ : ∃ k, m = k + 1 := ⟨m - 1, by simp at hm; omega⟩
    simp [fgets_line]
  | cons a l ih =>
    intro m hm
    obtain ⟨m, rfl⟩ : ∃ k, m = k + 1 := ⟨m - 1, by simp at hm; omega⟩
    have ha : a ≠ '\n' := hl a (List.mem_cons_self _ _)
    have e := ih (fun c hc => hl c (List.mem_cons_of_mem _ hc)) m (by simp at hm; omega)
    simp only [List.cons_append, fgets_line, ha, if_false]
    exact congrArg (List.cons a) e

theorem cstr_of_no_nul (l : List Char) (h : ∀ c ∈ l, c ≠ NUL) : cstr l = l := by
  unfold cstr
  rw [List.takeWhile_eq_self_iff]
  intro c hc
  simpa using h c hc

theorem record_text_length (k v : List Char) : (record_text k v).length = k.length + v.length + 2 := by
  simp [record_text]
  omega

/-- The three strip statements of `sdb_findnext` on a line that ends with one
newline, not preceded by a carriage return. -/
theorem sdb_strip_line (l : List Char) (hne : l ≠ []) (h1 : l.getLast? ≠ some '\r')
    (h2 : l.getLast? ≠ some '\n') :
    (sdb_strip (l ++ ['\n']) '\n').bind
      (fun line => (sdb_strip line '\r').bind (fun line => sdb_strip line '\n')) = some l := by
  have e1 : sdb_strip (l ++ ['\n']) '\n' = some l := by
    simp [sdb_strip]
  have e2 : sdb_strip l '\r' = some l := by
    simp [sdb_strip, hne, h1]
  have e3 : sdb_strip l '\n' = some l := by
    simp [sdb_strip, hne, h2]
  rw [e1, Option.some_bind, e2, Option.some_bind, e3]

/-- On a file positioned at the start of a line of at most `n - 2` characters
before its newline, `fgets` reads the line with its newline. -/
theorem fgets_record (n : Nat) (P l S : List Char) (hl : ∀ c ∈ l, c ≠ '\n')
    (hn : l.length + 1 < n) :
    fgets n ⟨P ++ (l ++ ['\n']) ++ S, P.length, false⟩ =
      (some (l ++ ['\n']), ⟨P ++ (l ++ ['\n']) ++ S, P.length + (l ++ ['\n']).length, false⟩) := by
  have hfg : fgets_line (n - 1) ((P ++ (l ++ ['\n']) ++ S).drop P.length) = l ++ ['\n'] := by
    rw [List.append_assoc, List.drop_left]
    have : (l ++ ['\n']) ++ S = l ++ '\n' :: S := by simp
    rw [this, fgets_line_record _ _ hl _ (by omega)]
  have hc1 : ¬ ((l ++ ['\n'] = []) ∧ 0 < n - 1) := by simp
  unfold fgets
  simp only [hfg]
  rw [if_neg hc1, List.getLast?_concat]
  simp

/-- On a file positioned at the start of a well-formed record, `sdb_findnext`
returns 1 with the key and the value of the record and leaves the position
after the record. -/
theorem sdb_findnext_record (K V : Nat) (P S : List Char) (r : List Char × List Char)
    (hwf : sdb_wellformed K V r) (w rp : Nat) (key0 val0 : List Char) :
    sdb_findnext K V ⟨some ⟨P ++ record_text r.1 r.2 ++ S, P.length, false⟩, w, rp⟩ key0 K
        val0 V =
      some (1, r.1, r.2,
        ⟨some ⟨P ++ record_text r.1 r.2 ++ S, P.length + (record_text r.1 r.2).length, false⟩,
          w, rp⟩) := by
  obtain ⟨hk, hv, hline, hkc, hvc, hcr⟩ := hwf
  obtain ⟨k, v⟩ := r
  simp only at hk hv hline hkc hvc hcr ⊢
  have hnl : ∀ c ∈ k ++ ' ' :: v, c ≠ '\n' := by
    intro c hc
    simp only [List.mem_append, List.mem_cons] at hc
    rcases hc with h | h | h
    · exact (hkc c h).2.1
    · rw [h]; decide
    · exact (hvc c h).1
  have hrt : record_text k v = (k ++ ' ' :: v) ++ ['\n'] := by simp [record_text]
  have hnul : ∀ c ∈ (k ++ ' ' :: v) ++ ['\n'], c ≠ NUL := by
    intro c hc
    simp only [List.mem_append, List.mem_cons, List.mem_singleton, List.not_mem_nil,
      or_false] at hc
    rcases hc with (h | h | h) | h
    · exact (hkc c h).2.2
    · rw [h]; decide
    · exact (hvc c h).2
    · rw [h]; decide
  have hne : k ++ ' ' :: v ≠ [] := by simp
  have hl1 : (k ++ ' ' :: v).getLast? ≠ some '\r' := by
    cases v with
    | nil =>
      rw [List.getLast?_concat]
      decide
    | cons a v =>
      rw [List.getLast?_append_of_ne_nil _ (by simp), List.getLast?_cons_cons]
      exact hcr
  have hl2 : (k ++ ' ' :: v).getLast? ≠ some '\n' := by
    intro h
    have hm := List.mem_of_getLast?_eq_some h
    exact hnl _ hm rfl
  have hsp : strchr (k ++ ' ' :: v) ' ' = some k.length :=
    strchr_append k v ' ' (fun h => (hkc _ h).1 rfl)
  have hd : (k ++ ' ' :: v).drop (k.length + 1) = v := by
    rw [show k ++ ' ' :: v = (k ++ [' ']) ++ v by simp]
    exact List.drop_left' (by simp)
  have hlen0 : ¬ (((k ++ ' ' :: v) ++ ['\n']).length = 0) := by simp
  have hfgets := fgets_record (MAX_LINE K V) P (k ++ ' ' :: v) S hnl (by
    simp only [List.length_append, List.length_cons]
    omega)
  rw [hrt]
  unfold sdb_findnext
  simp only [Bool.false_eq_true, if_false, hfgets, cstr_of_no_nul _ hnul, hlen0,
    sdb_strip_line _ hne hl1 hl2, hsp, List.take_left, hd, List.take_of_length_le hk,
    List.take_of_length_le hv]

theorem fgets_line_nil (m : Nat) : fgets_line m [] = [] := by
  cases m <;> rfl

/-- At the end of the file `sdb_findnext` returns 0 and leaves `key`, `val`,
the file and the position as they are. -/
theorem sdb_findnext_end (K V : Nat) (C : List Char) (w rp : Nat) (key0 val0 : List Char) :
    ∃ e, sdb_findnext K V ⟨some ⟨C, C.length, false⟩, w, rp⟩ key0 K val0 V =
      some (0, key0, val0, ⟨some ⟨C, C.length, e⟩, w, rp⟩) := by
  unfold sdb_findnext fgets
  simp only [Bool.false_eq_true, if_false, List.drop_length, fgets_line_nil, true_and]
  by_cases h : 0 < MAX_LINE K V - 1
  · exact ⟨true, by simp [h]⟩
  · exact ⟨false, by simp [h, cstr]⟩

theorem strncmp_eq_zero_iff (n : Nat) :
    ∀ a b : List Char, strncmp a b n = 0 ↔ a.take n = b.take n := by
  induction n with
  | zero => intro a b; simp [strncmp]
  | succ n ih =>
    intro a b
    cases a with
    | nil =>
      cases b with
      | nil => simp [strncmp]
      | cons y b => simp [strncmp]
    | cons x a =>
      cases b with
      | nil => simp [strncmp]
      | cons y b =>
        by_cases hxy : x = y
        · subst hxy
          simp [strncmp, ih]
        · simp only [strncmp, hxy, if_false, List.take_succ_cons, List.cons.injEq, false_and,
            iff_false]
          split <;> decide

/-- For keys within `MAX_KEY` characters the callback of `sdb_del` keeps the
records whose key differs from its argument. -/
theorem sdb_cb_notkeymatch_spec (K : Nat) (arg key val : List Char) (hk : key.length ≤ K)
    (ha : arg.length ≤ K) :
    sdb_cb_notkeymatch K arg key val = (if key ≠ arg then 1 else 0, 0, val) := by
  unfold sdb_cb_notkeymatch
  have : strncmp key arg K = 0 ↔ key = arg := by
    rw [strncmp_eq_zero_iff, List.take_of_length_le hk, List.take_of_length_le ha]
  by_cases h : key = arg
  · have h0 : strncmp key arg K = 0 := this.mpr h
    subst h
    simp [h0]
  · have h0 : ¬ strncmp key arg K = 0 := fun e => h (this.mp e)
    simp [h, h0]

theorem sdb_store_cons (r : List Char × List Char) (rs : List (List Char × List Char)) :
    sdb_store (r :: rs) = record_text r.1 r.2 ++ sdb_store rs := by
  simp [sdb_store, List.flatMap_cons]

theorem sdb_store_length_ge (rs : List (List Char × List Char)) :
    rs.length ≤ (sdb_store rs).length := by
  induction rs with
  | nil => simp
  | cons r rs ih =>
    rw [sdb_store_cons, List.length_append, record_text_length, List.length_cons]
    omega

/-- A write of `data` inside the part of the file that has been read: the
bytes after the read position stay. -/
theorem fwrite_at_inside (A G R data : List Char) (hd : data.length ≤ G.length) (e : Bool) :
    fwrite_at ⟨A ++ G ++ R, A.length, e⟩ data =
      ⟨A ++ data ++ G.drop data.length ++ R, A.length + data.length, e⟩ := by
  unfold fwrite_at
  simp only [SdbFile.mk.injEq, and_true]
  have h1 : (A ++ G ++ R).take A.length = A := by
    rw [List.append_assoc, List.take_left]
  have h2 : A.length - (A ++ G ++ R).length = 0 := by
    simp only [List.length_append]
    omega
  have h3 : (A ++ G ++ R).drop (A.length + data.length) = G.drop data.length ++ R := by
    rw [List.append_assoc, ← List.drop_drop, List.drop_left, List.drop_append_of_le_length hd]
  rw [h1, h2, h3]
  simp

/-- The in-place rewrite of `sdb_del`: started on a file that holds the records
kept so far (`A`), then bytes already read (`G`), then the well-formed records
`rs` still to read, with the read position before `rs` and `write_pos` after
`A`, the next call of `sdb_findnext` and the loop of `sdb_updateiterate` after
it end with 1; the file then holds `A`, the records of `rs` whose key differs
from `key`, and bytes that were read; `write_pos` is after the kept records;
and each call of `sdb_insert` leaves `write_pos` at most `read_pos`. -/
theorem sdb_updateiterate_loop_spec (K V : Nat) (key : List Char) (hkey : key.length ≤ K)
    (rs : List (List Char × List Char)) :
    (∀ r ∈ rs, sdb_wellformed K V r) →
    ∀ (A G : List Char) (rp : Nat) (key0 val0 : List Char) (fuel : Nat),
      rs.length + 1 ≤ fuel →
      ∃ found fkey fval h1,
        sdb_findnext K V
            ⟨some ⟨A ++ G ++ sdb_store rs, A.length + G.length, false⟩, A.length, rp⟩ key0 K
            val0 V = some (found, fkey, fval, h1) ∧
          ∃ (G1 : List Char) (rp1 : Nat) (e : Bool) (log : List (Nat × Nat)),
            sdb_updateiterate_loop K V (sdb_cb_notkeymatch K key) fuel found fkey fval h1 =
              some (1,
                ⟨some ⟨A ++ sdb_store (rs.filter (fun r => decide (r.1 ≠ key))) ++ G1,
                    A.length + G.length + (sdb_store rs).length, e⟩,
                  A.length + (sdb_store (rs.filter (fun r => decide (r.1 ≠ key)))).length,
                  rp1⟩, log) ∧
            (∀ p ∈ log, p.1 ≤ p.2) ∧
            log.length = (rs.filter (fun r => decide (r.1 ≠ key))).length := by
  induction rs with
  | nil =>
    intro _ A G rp key0 val0 fuel hfuel
    obtain ⟨fuel, rfl⟩ : ∃ f, fuel = f + 1 := ⟨fuel - 1, by omega⟩
    have hC : A ++ G ++ sdb_store [] = A ++ G := by simp [sdb_store]
    have hp : A.length + G.length = (A ++ G).length := by simp
    obtain ⟨e, he⟩ := sdb_findnext_end K V (A ++ G) A.length rp key0 val0
    rw [hC, hp]
    refine ⟨0, key0, val0, _, he, G, rp, e, [], ?_, by simp, by simp⟩
    simp [sdb_updateiterate_loop, sdb_store]
  | cons r rs ih =>
    intro hwf A G rp key0 val0 fuel hfuel
    obtain ⟨fuel, rfl⟩ : ∃ f, fuel = f + 1 := ⟨fuel - 1, by omega⟩
    have hr : sdb_wellformed K V r := hwf r (List.mem_cons_self _ _)
    have hrs : ∀ x ∈ rs, sdb_wellformed K V x := fun x hx => hwf x (List.mem_cons_of_mem _ hx)
    have hC : A ++ G ++ sdb_store (r :: rs) = (A ++ G) ++ record_text r.1 r.2 ++ sdb_store rs := by
      rw [sdb_store_cons]
      simp
    have hp : A.length + G.length = (A ++ G).length := by simp
    have hfind := sdb_findnext_record K V (A ++ G) (sdb_store rs) r hr A.length rp key0 val0
    rw [hC, hp]
    refine ⟨1, r.1, r.2, _, hfind, ?_⟩
    rw [sdb_updateiterate_loop]
    rw [sdb_cb_notkeymatch_spec K key r.1 r.2 hr.1 hkey]
    by_cases hkeep : r.1 ≠ key
    · -- the record is kept: it is written at `write_pos`
      have hfilter : (r :: rs).filter (fun r => decide (r.1 ≠ key)) =
          r :: rs.filter (fun r => decide (r.1 ≠ key)) := by
        simp [List.filter_cons, hkeep]
      have hins : sdb_insert
          ⟨some ⟨(A ++ G) ++ record_text r.1 r.2 ++ sdb_store rs,
            (A ++ G).length + (record_text r.1 r.2).length, false⟩, A.length, rp⟩
          ⟨(A ++ G) ++ record_text r.1 r.2 ++ sdb_store rs,
            (A ++ G).length + (record_text r.1 r.2).length, false⟩ r.1 r.2 =
          ⟨some ⟨(A ++ record_text r.1 r.2) ++
              (G ++ record_text r.1 r.2).drop (record_text r.1 r.2).length ++ sdb_store rs,
            (A ++ record_text r.1 r.2).length +
              ((G ++ record_text r.1 r.2).drop (record_text r.1 r.2).length).length, false⟩,
            (A ++ record_text r.1 r.2).length,
            (A ++ G).length + (record_text r.1 r.2).length⟩ := by
        have hw := fwrite_at_inside A (G ++ record_text r.1 r.2) (sdb_store rs)
          (record_text r.1 r.2) (by simp) false
        have hc2 : (A ++ G) ++ record_text r.1 r.2 ++ sdb_store rs =
            A ++ (G ++ record_text r.1 r.2) ++ sdb_store rs := by simp
        simp only [sdb_insert, fseek_set, hc2, hw]
        simp only [DB.mk.injEq, Option.some.injEq, SdbFile.mk.injEq, List.length_append,
          List.length_drop, and_true, true_and]
        omega
      obtain ⟨found, fkey, fval, h1, hnext, G1, rp1, e, log, hloop, hlog, hlen⟩ :=
        ih hrs (A ++ record_text r.1 r.2)
          ((G ++ record_text r.1 r.2).drop (record_text r.1 r.2).length)
          ((A ++ G).length + (record_text r.1 r.2).length) r.1 r.2 fuel (by simp at hfuel; omega)
      simp only [hkeep, ne_eq, not_false_eq_true, if_true, one_ne_zero, not_true_eq_false,
        if_false, hins, hnext, hloop]
      simp only [ne_eq] at hfilter hlen ⊢
      refine ⟨G1, rp1, e, ((A ++ record_text r.1 r.2).length,
        (A ++ G).length + (record_text r.1 r.2).length) :: log, ?_, ?_, ?_⟩
      · simp only [Option.some.injEq, Prod.mk.injEq, DB.mk.injEq, SdbFile.mk.injEq, true_and,
          and_true]
        rw [hfilter, sdb_store_cons, sdb_store_cons]
        simp only [List.length_append, List.length_drop, List.append_assoc]
        refine ⟨⟨?_, ?_⟩, ?_⟩ <;> first | trivial | rfl | omega
      · intro p hp
        rcases List.mem_cons.mp hp with h | h
        · rw [h]
          simp only [List.length_append]
          omega
        · exact hlog p h
      · rw [hfilter, List.length_cons, List.length_cons, hlen]
    · -- the record is dropped
      have hk : r.1 = key := by
        by_contra h
        exact hkeep h
      have hfilter : (r :: rs).filter (fun r => decide (r.1 ≠ key)) =
          rs.filter (fun r => decide (r.1 ≠ key)) := by
        simp [List.filter_cons, hk]
      have hstate : (⟨some ⟨(A ++ G) ++ record_text r.1 r.2 ++ sdb_store rs,
            (A ++ G).length + (record_text r.1 r.2).length, false⟩, A.length, rp⟩ : DB) =
          ⟨some ⟨A ++ (G ++ record_text r.1 r.2) ++ sdb_store rs,
            A.length + (G ++ record_text r.1 r.2).length, false⟩, A.length, rp⟩ := by
        simp only [DB.mk.injEq, Option.some.injEq, SdbFile.mk.injEq, List.length_append,
          and_true, true_and]
        refine ⟨by simp, by omega⟩
      obtain ⟨found, fkey, fval, h1, hnext, G1, rp1, e, log, hloop, hlog, hlen⟩ :=
        ih hrs A (G ++ record_text r.1 r.2) rp r.1 r.2 fuel (by simp at hfuel; omega)
      rw [← hstate] at hnext
      simp only [hkeep, if_false, ne_eq, not_true_eq_false, one_ne_zero, not_false_eq_true,
        if_true, hnext, hloop]
      simp only [ne_eq] at hfilter hlen ⊢
      refine ⟨G1, rp1, e, log, ?_, hlog, ?_⟩
      · simp only [Option.some.injEq, Prod.mk.injEq, DB.mk.injEq, SdbFile.mk.injEq, true_and,
          and_true]
        rw [hfilter, sdb_store_cons]
        simp only [List.length_append]
        refine ⟨⟨?_, ?_⟩, ?_⟩ <;> first | trivial | rfl | omega
      · rw [hfilter, hlen]

/-- The whole of `sdb_updateiterate` with the callback of `sdb_del`, on a file
of well-formed records: the result is 1, the file is cut to the records whose
key differs from `key`, and the calls of `sdb_insert` left `write_pos` at most
`read_pos`. -/
theorem sdb_updateiterate_notkeymatch (K V : Nat) (recs : List (List Char × List Char))
    (key : List Char) (h : DB) (f : SdbFile) (hf : h.file = some f)
    (hc : f.content = sdb_store recs) (hwf : ∀ r ∈ recs, sdb_wellformed K V r)
    (hkey : key.length ≤ K) :
    ∃ (e : Bool) (rp : Nat) (log : List (Nat × Nat)),
      sdb_updateiterate K V h (sdb_cb_notkeymatch K key) =
          some (1,
            ⟨some ⟨sdb_store (recs.filter (fun r => decide (r.1 ≠ key))),
                (sdb_store recs).length, e⟩,
              (sdb_store (recs.filter (fun r => decide (r.1 ≠ key)))).length, rp⟩,
            log) ∧
        (∀ p ∈ log, p.1 ≤ p.2) ∧
        log.length = (recs.filter (fun r => decide (r.1 ≠ key))).length := by
  obtain ⟨found, fkey, fval, h1, hnext, G1, rp1, e, log, hloop, hlog, hlen⟩ :=
    sdb_updateiterate_loop_spec K V key hkey recs hwf [] [] h.read_pos [] []
      (sdb_file_length h + 2) (by
        have := sdb_store_length_ge recs
        simp only [sdb_file_length, hf, hc]
        omega)
  have hfirst : sdb_findfirst K V h [] K [] V = some (found, fkey, fval, h1) := by
    rw [← hnext]
    simp only [sdb_findfirst, hf, rewind, hc, List.nil_append, List.length_nil, Nat.add_zero]
  refine ⟨e, rp1, log, ?_, hlog, hlen⟩
  simp only [sdb_updateiterate, hfirst, hloop, one_ne_zero, if_false, ftruncate,
    List.nil_append, List.length_nil, Nat.zero_add, List.take_left, List.length_append,
    Option.some.injEq, Prod.mk.injEq, DB.mk.injEq, SdbFile.mk.injEq, true_and, and_true]
  rw [Nat.sub_eq_zero_of_le (Nat.le_add_right _ _)]
  simp

/-- C24 (counterexample): with `MAX_KEY = 2`, `sdb_del` with the key `abc` on
a file with the records `ab c` and `xy z` returns 1 and leaves the record
`xy z` alone, although both keys differ from `abc`: the callback compares the
first `MAX_KEY` characters. -/
theorem sdb_del_counterexample :
    sdb_del 2 8 ⟨some ⟨sdb_store [("ab".toList, "c".toList), ("xy".toList, "z".toList)],
        0, false⟩, 0, 0⟩ "abc".toList =
      some (1, ⟨some ⟨"xy z\n".toList, 10, true⟩, 5, 10⟩, [(5, 10)]) ∧
    sdb_store ([("ab".toList, "c".toList), ("xy".toList, "z".toList)].filter
        (fun r => decide (r.1 ≠ "abc".toList))) = "ab c\nxy z\n".toList := by
  decide

/-- A value that ends in a carriage return is not kept as it was: with
`MAX_KEY = 2`, `sdb_del` with the key `xy` on a file whose other record is the
key `ab` with the value `c` and a carriage return rewrites that record with
the value `c`. -/
theorem sdb_del_carriage_return :
    sdb_del 2 8 ⟨some ⟨sdb_store [("ab".toList, "c\r".toList), ("xy".toList, "z".toList)],
        0, false⟩, 0, 0⟩ "xy".toList =
      some (1, ⟨some ⟨"ab c\n".toList, 11, true⟩, 5, 6⟩, [(5, 6)]) := by
  decide

/-- C24 (amended): for a file that holds well-formed records (key and value
within `MAX_KEY` and `MAX_VAL`, the line within the characters that `fgets`
reads, no space in the key, no newline, and no carriage return at the end of the
value) and a key of at most `MAX_KEY` characters, `sdb_del` returns 1 and
leaves a file that holds exactly the records whose key differs from `key`,
unchanged, in their order, with nothing after them; each call of `sdb_insert`
during the rewrite leaves `write_pos` at most `read_pos`, and there is one such
call for each record kept. -/
theorem sdb_del_rewrite (MAX_KEY MAX_VAL : Nat) (recs : List (List Char × List Char))
    (key : List Char) (h : DB) (f : SdbFile) (hf : h.file = some f)
    (hc : f.content = sdb_store recs) (hwf : ∀ r ∈ recs, sdb_wellformed MAX_KEY MAX_VAL r)
    (hkey : key.length ≤ MAX_KEY) :
    ∃ (h1 : DB) (f1 : SdbFile) (log : List (Nat × Nat)),
      sdb_del MAX_KEY MAX_VAL h key = some (1, h1, log) ∧
        h1.file = some f1 ∧
        f1.content = sdb_store (recs.filter (fun r => decide (r.1 ≠ key))) ∧
        (∀ p ∈ log, p.1 ≤ p.2) ∧
        log.length = (recs.filter (fun r => decide (r.1 ≠ key))).length := by
  obtain ⟨e, rp, log, hdel, hlog, hlen⟩ :=
    sdb_updateiterate_notkeymatch MAX_KEY MAX_VAL recs key h f hf hc hwf hkey
  exact ⟨_, _, log, hdel, rfl, rfl, hlog, hlen⟩

set_option maxRecDepth 100000 in
/-- C24 (amended), at a concrete store: with `MAX_KEY = 2` and `MAX_VAL = 8`,
deleting the key `ab` from the records `ab c`, `xy z`, `ab d` leaves the record
`xy z`. -/
theorem sdb_del_rewrite_witness :
    ∃ (h1 : DB) (f1 : SdbFile) (log : List (Nat × Nat)),
      sdb_del 2 8
          ⟨some ⟨sdb_store [("ab".toList, "c".toList), ("xy".toList, "z".toList),
            ("ab".toList, "d".toList)], 0, false⟩, 0, 0⟩ "ab".toList = some (1, h1, log) ∧
        h1.file = some f1 ∧
        f1.content = sdb_store ([("ab".toList, "c".toList), ("xy".toList, "z".toList),
            ("ab".toList, "d".toList)].filter (fun r => decide (r.1 ≠ "ab".toList))) ∧
        (∀ p ∈ log, p.1 ≤ p.2) ∧
        log.length = ([("ab".toList, "c".toList), ("xy".toList, "z".toList),
            ("ab".toList, "d".toList)].filter (fun r => decide (r.1 ≠ "ab".toList))).length :=
  sdb_del_rewrite 2 8 [("ab".toList, "c".toList), ("xy".toList, "z".toList),
      ("ab".toList, "d".toList)] "ab".toList _ _ rfl rfl (by decide) (by decide)

/-- For keys within `MAX_KEY` characters the callback of `sdb_lookup` accepts
the records whose key is its argument. -/
theorem sdb_cb_keymatch_spec (K : Nat) (arg key val : List Char) (hk : key.length ≤ K)
    (ha : arg.length ≤ K) :
    sdb_cb_keymatch K arg key val = if key = arg then 1 else 0 := by
  unfold sdb_cb_keymatch
  have : strncmp key arg K = 0 ↔ key = arg := by
    rw [strncmp_eq_zero_iff, List.take_of_length_le hk, List.take_of_length_le ha]
  by_cases h : key = arg
  · rw [if_pos (this.mpr h), if_pos h]
  · rw [if_neg (fun e => h (this.mp e)), if_neg h]

/-- The loop of `sdb_callbacklookupnext` with the callback of `sdb_lookup`: on
a file with the position before well-formed records `rs` of other keys and
then a well-formed record of the key, it returns 1 with the value of that
record. -/
theorem sdb_callbacklookupnext_loop_spec (K V : Nat) (key val : List Char)
    (hr : sdb_wellformed K V (key, val)) (S : List Char) (rs : List (List Char × List Char)) :
    (∀ r ∈ rs, sdb_wellformed K V r) → (∀ r ∈ rs, r.1 ≠ key) →
    ∀ (P : List Char) (w rp : Nat) (key0 fkey0 val0 : List Char) (fuel : Nat),
      rs.length + 1 ≤ fuel →
      ∃ h1,
        sdb_callbacklookupnext_loop K V (sdb_cb_keymatch K key) K V fuel
            ⟨some ⟨P ++ sdb_store rs ++ record_text key val ++ S, P.length, false⟩, w, rp⟩
            key0 fkey0 val0 = some (1, key, val, h1) := by
  induction rs with
  | nil =>
    intro _ _ P w rp key0 fkey0 val0 fuel hfuel
    obtain ⟨fuel, rfl⟩ : ∃ f, fuel = f + 1 := ⟨fuel - 1, by omega⟩
    have hC : P ++ sdb_store [] ++ record_text key val ++ S = P ++ record_text key val ++ S := by
      simp [sdb_store]
    have hfind := sdb_findnext_record K V P S (key, val) hr w rp fkey0 val0
    simp only at hfind
    rw [hC, sdb_callbacklookupnext_loop, hfind]
    refine ⟨⟨some ⟨P ++ record_text key val ++ S, P.length + (record_text key val).length,
      false⟩, w, rp⟩, ?_⟩
    simp only [one_ne_zero, if_false, sdb_cb_keymatch_spec K key key val hr.1 hr.1, if_true,
      ne_eq, not_false_eq_true, List.take_of_length_le hr.1]
  | cons r rs ih =>
    intro hwf hne P w rp key0 fkey0 val0 fuel hfuel
    obtain ⟨fuel, rfl⟩ : ∃ f, fuel = f + 1 := ⟨fuel - 1, by omega⟩
    have hrw : sdb_wellformed K V r := hwf r (List.mem_cons_self _ _)
    have hrs : ∀ x ∈ rs, sdb_wellformed K V x := fun x hx => hwf x (List.mem_cons_of_mem _ hx)
    have hrk : r.1 ≠ key := hne r (List.mem_cons_self _ _)
    have hns : ∀ x ∈ rs, x.1 ≠ key := fun x hx => hne x (List.mem_cons_of_mem _ hx)
    have hC : P ++ sdb_store (r :: rs) ++ record_text key val ++ S =
        P ++ record_text r.1 r.2 ++ (sdb_store rs ++ record_text key val ++ S) := by
      rw [sdb_store_cons]
      simp
    have hfind := sdb_findnext_record K V P (sdb_store rs ++ record_text key val ++ S) r hrw w
      rp fkey0 val0
    have hC2 : P ++ record_text r.1 r.2 ++ (sdb_store rs ++ record_text key val ++ S) =
        (P ++ record_text r.1 r.2) ++ sdb_store rs ++ record_text key val ++ S := by
      simp
    have hP : P.length + (record_text r.1 r.2).length = (P ++ record_text r.1 r.2).length := by
      simp
    obtain ⟨h1, hloop⟩ := ih hrs hns (P ++ record_text r.1 r.2) w rp key0 r.1 r.2 fuel
      (by simp at hfuel; omega)
    rw [hC, sdb_callbacklookupnext_loop, hfind]
    refine ⟨h1, ?_⟩
    simp only [one_ne_zero, if_false, sdb_cb_keymatch_spec K key r.1 r.2 hrw.1 hr.1, hrk,
      ne_eq, not_true_eq_false, hC2, hP, hloop]

/-- The call `sdb_add` with a key and a value within the limits returns 1 and
appends the text of the record to the file. -/
theorem sdb_add_appends (K V : Nat) (h : DB) (f : SdbFile) (hf : h.file = some f)
    (key val : List Char) (hk : key.length ≤ K) (hv : val.length ≤ V) :
    sdb_add K V h key val =
      (1, ⟨some ⟨f.content ++ record_text key val,
        f.content.length + (record_text key val).length, false⟩, h.write_pos, h.read_pos⟩) := by
  simp [sdb_add, hf, Nat.not_lt.mpr hk, Nat.not_lt.mpr hv, fseek_end, fwrite_at]

/-- The call `sdb_add` with a key longer than `MAX_KEY`, or a value longer than
`MAX_VAL`, returns 0 and leaves the handle, and the file with it, as it was. -/
theorem sdb_add_rejects (K V : Nat) (h : DB) (key val : List Char)
    (hlong : K < key.length ∨ V < val.length) : sdb_add K V h key val = (0, h) := by
  unfold sdb_add
  cases hfile : h.file with
  | none => rfl
  | some f =>
    rcases hlong with hl | hl
    · simp [hl]
    · by_cases hk : key.length > K
      · simp [hk]
      · simp [hk, hl]

/-- Where the line of the new record fits the characters that `fgets` reads:
after `sdb_add` of a well-formed record with a key that no record has, on a
file of well-formed records, `sdb_lookup` with a buffer of `MAX_VAL`
characters returns 1 with the value. -/
theorem sdb_lookup_after_add (K V : Nat) (recs : List (List Char × List Char))
    (key val : List Char) (h : DB) (f : SdbFile) (hf : h.file = some f)
    (hc : f.content = sdb_store recs) (hwf : ∀ r ∈ recs, sdb_wellformed K V r)
    (hnew : ∀ r ∈ recs, r.1 ≠ key) (hr : sdb_wellformed K V (key, val)) (val0 : List Char) :
    (sdb_add K V h key val).1 = 1 ∧
      ∃ h1, sdb_lookup K V (sdb_add K V h key val).2 key val0 V = some (1, val, h1) := by
  rw [sdb_add_appends K V h f hf key val hr.1 hr.2.1]
  refine ⟨rfl, ?_⟩
  obtain ⟨h1, hloop⟩ := sdb_callbacklookupnext_loop_spec K V key val hr [] recs hwf hnew []
    h.write_pos h.read_pos [] [] val0
    ((sdb_store recs ++ record_text key val).length + 1) (by
      have := sdb_store_length_ge recs
      simp only [List.length_append]
      omega)
  refine ⟨h1, ?_⟩
  simp only [List.nil_append, List.append_nil, List.length_nil] at hloop
  simp only [sdb_lookup, sdb_callbacklookup, sdb_callbacklookupnext, sdb_file_length, rewind, hc,
    hloop]

/-- C23: with `MAX_KEY = MAX_VAL = 4`, `sdb_add` accepts the key `abcd` with
the value `wxyz` on an empty file and writes the line `abcd wxyz`, and
`sdb_lookup` of `abcd` with a buffer of `MAX_VAL` characters then returns 1
with the value `wx`: `fgets` reads `MAX_KEY + MAX_VAL - 1` characters of the
line. -/
theorem sdb_lookup_truncated :
    sdb_add 4 4 ⟨some ⟨[], 0, false⟩, 0, 0⟩ "abcd".toList "wxyz".toList =
      (1, ⟨some ⟨"abcd wxyz\n".toList, 10, false⟩, 0, 0⟩) ∧
    sdb_lookup 4 4 (sdb_add 4 4 ⟨some ⟨[], 0, false⟩, 0, 0⟩ "abcd".toList "wxyz".toList).2
        "abcd".toList [] 4 =
      some (1, "wx".toList, ⟨some ⟨"abcd wxyz\n".toList, 7, false⟩, 0, 0⟩) := by
  decide

theorem fgets_line_take (l S : List Char) (hl : ∀ c ∈ l, c ≠ '\n') :
    ∀ m, m ≤ l.length → fgets_line m (l ++ S) = l.take m := by
  induction l with
  | nil =>
    intro m hm
    have : m = 0 := by simpa using hm
    subst this
    simp [fgets_line]
  | cons a l ih =>
    intro m hm
    cases m with
    | zero => simp [fgets_line]
    | succ m =>
      have ha : a ≠ '\n' := hl a (List.mem_cons_self _ _)
      have e := ih (fun c hc => hl c (List.mem_cons_of_mem _ hc)) m (by simp at hm; omega)
      simp only [List.cons_append, fgets_line, ha, if_false, List.take_succ_cons]
      exact congrArg (List.cons a) e

theorem sdb_strip_absent (l : List Char) (c : Char) (hne : l ≠ []) (hc : c ∉ l) :
    sdb_strip l c = some l := by
  have : l.getLast? ≠ some c := fun h => hc (List.mem_of_getLast?_eq_some h)
  simp [sdb_strip, hne, this]

/-- A record at the limits of `sdb_add` is not read back: for a key of
`MAX_KEY` characters and a value of `MAX_VAL` characters, at least 2, without
space in the key, line-break characters or NUL, `sdb_add` on an empty file
returns 1, and `sdb_lookup` with a buffer of `MAX_VAL` characters then returns
1 with the value less its last two characters. -/
theorem sdb_lookup_limit (K V : Nat) (key val : List Char) (hk : key.length = K)
    (hv : val.length = V) (hV : 2 ≤ V)
    (hkc : ∀ c ∈ key, c ≠ ' ' ∧ c ≠ '\n' ∧ c ≠ '\r' ∧ c ≠ NUL)
    (hvc : ∀ c ∈ val, c ≠ '\n' ∧ c ≠ '\r' ∧ c ≠ NUL) (val0 : List Char) :
    (sdb_add K V ⟨some ⟨[], 0, false⟩, 0, 0⟩ key val).1 = 1 ∧
      ∃ h1, sdb_lookup K V (sdb_add K V ⟨some ⟨[], 0, false⟩, 0, 0⟩ key val).2 key val0 V =
        some (1, val.take (V - 2), h1) := by
  rw [sdb_add_appends K V _ _ rfl key val (Nat.le_of_eq hk) (Nat.le_of_eq hv)]
  refine ⟨rfl, ?_⟩
  have hline : ∀ c ∈ key ++ ' ' :: val, c ≠ '\n' ∧ c ≠ '\r' ∧ c ≠ NUL := by
    intro c hc
    simp only [List.mem_append, List.mem_cons] at hc
    rcases hc with h | h | h
    · exact (hkc c h).2
    · rw [h]; decide
    · exact hvc c h
  have hrt : record_text key val = (key ++ ' ' :: val) ++ ['\n'] := by simp [record_text]
  have htake : (key ++ ' ' :: val).take (MAX_LINE K V - 1) = key ++ ' ' :: val.take (V - 2) := by
    have e : MAX_LINE K V - 1 = key.length + ((V - 2) + 1) := by
      simp only [MAX_LINE]
      omega
    rw [e, List.take_append, List.take_succ_cons]
  have hfg : fgets_line (MAX_LINE K V - 1) (record_text key val) =
      key ++ ' ' :: val.take (V - 2) := by
    rw [hrt, fgets_line_take _ _ (fun c hc => (hline c hc).1) _ (by
      simp only [List.length_append, List.length_cons, MAX_LINE]
      omega), htake]
  have hsub : ∀ c ∈ key ++ ' ' :: val.take (V - 2), c ∈ key ++ ' ' :: val := by
    intro c hc
    simp only [List.mem_append, List.mem_cons] at hc ⊢
    rcases hc with h | h | h
    · exact Or.inl h
    · exact Or.inr (Or.inl h)
    · exact Or.inr (Or.inr (List.mem_of_mem_take h))
  have hne : key ++ ' ' :: val.take (V - 2) ≠ [] := by simp
  have hcstr : cstr (key ++ ' ' :: val.take (V - 2)) = key ++ ' ' :: val.take (V - 2) :=
    cstr_of_no_nul _ (fun c hc => (hline c (hsub c hc)).2.2)
  have hs1 : sdb_strip (key ++ ' ' :: val.take (V - 2)) '\n' =
      some (key ++ ' ' :: val.take (V - 2)) :=
    sdb_strip_absent _ _ hne (fun h => (hline _ (hsub _ h)).1 rfl)
  have hs2 : sdb_strip (key ++ ' ' :: val.take (V - 2)) '\r' =
      some (key ++ ' ' :: val.take (V - 2)) :=
    sdb_strip_absent _ _ hne (fun h => (hline _ (hsub _ h)).2.1 rfl)
  have hsp : strchr (key ++ ' ' :: val.take (V - 2)) ' ' = some key.length :=
    strchr_append key _ ' ' (fun h => (hkc _ h).1 rfl)
  have hd : (key ++ ' ' :: val.take (V - 2)).drop (key.length + 1) = val.take (V - 2) := by
    rw [show key ++ ' ' :: val.take (V - 2) = (key ++ [' ']) ++ val.take (V - 2) by simp]
    exact List.drop_left' (by simp)
  have hlen0 : ¬ ((key ++ ' ' :: val.take (V - 2)).length = 0) := by simp
  have hnil : ¬ (key ++ ' ' :: val.take (V - 2) = [] ∧ 0 < MAX_LINE K V - 1) := by simp
  have hfind : ∀ fkey0 : List Char,
      sdb_findnext K V ⟨some ⟨record_text key val, 0, false⟩, 0, 0⟩ fkey0 K val0 V =
        some (1, key, val.take (V - 2),
          ⟨some ⟨record_text key val, (key ++ ' ' :: val.take (V - 2)).length,
            false || (decide ((key ++ ' ' :: val.take (V - 2)).length < MAX_LINE K V - 1) &&
              decide ((key ++ ' ' :: val.take (V - 2)).getLast? ≠ some '\n'))⟩, 0, 0⟩) := by
    intro fkey0
    simp only [sdb_findnext, fgets, List.drop_zero, hfg, hnil, if_false, hcstr, hlen0, hs1, hs2,
      Option.some_bind, hsp, hd, List.take_left, Nat.zero_add, Bool.false_eq_true]
    rw [List.take_of_length_le (Nat.le_of_eq hk),
      List.take_of_length_le (by rw [List.length_take]; omega)]
  obtain ⟨hh, hfind⟩ : ∃ hh, ∀ fkey0 : List Char,
      sdb_findnext K V ⟨some ⟨record_text key val, 0, false⟩, 0, 0⟩ fkey0 K val0 V =
        some (1, key, val.take (V - 2), hh) := ⟨_, hfind⟩
  refine ⟨hh, ?_⟩
  simp only [sdb_lookup, sdb_callbacklookup, sdb_callbacklookupnext, rewind, List.nil_append,
    sdb_callbacklookupnext_loop, hfind, one_ne_zero, if_false,
    sdb_cb_keymatch_spec K key key _ (Nat.le_of_eq hk) (Nat.le_of_eq hk), if_true, ne_eq,
    not_false_eq_true, List.take_of_length_le (Nat.le_of_eq hk)]

end Hashcash
